import Mathlib

/-! # The p6 interpreter: tokenizer, parser and evaluator

A shallow embedding of `src/intro_to_C/p6` (`value.c`, `syntax.c`, `parse.c`,
`interpret.c`) and theorems about it.

Modelling conventions.

* `int` is a 32-bit two's complement integer: a Lean `Int`, and the result
  of every arithmetic operator of the language goes through `wrapInt`.
  Element counts, capacities and reference counts are kept unbounded: they
  are limited by the memory of the machine, not by the width of `int`.
* Every way the C program stops with a message is a constructor of `Err`.
  Two more constructors are not messages of the program:
  `Err.undefinedBehavior` marks a step whose outcome the C source does not
  determine (a read through a pointer that was never set, a write past an
  allocation, a freed cell), and `Err.outOfFuel` marks the end of the
  recursion budget of the parser and of the statement executor.
* The heap is a list of cells addressed by position; `malloc` appends a cell
  and `free` empties it, so a handle is never reused.
* `value.h` is not among the sources. Its constants `INIT_CAP`, `DOUBLE` and
  `MAX_VAR_NAME` are the fields of `Config`, a parameter of every definition
  that uses them.
* The input file is a list of characters; `fgetc` takes the head and `ungetc`
  puts a character back in front (any number of characters can be put back,
  as the C library the program runs on allows).
* A token is the list of its characters. The tokenizer never stores a NUL in
  a token that the parser compares with `strcmp`, so equality of lists is
  the comparison of the C strings.
* Three reads have no value the source determines and are
  `Err.undefinedBehavior`: the `ival` member of a value that holds a sequence,
  the `sval` member of a value that holds an integer, and the number
  `sscanf` stores for a literal outside the range of `int`. The C program
  does not stop at the first of them: `evalElemsUnchecked` is the loop of a
  sequence initializer with the value of that read as a parameter.
* The division of `INT_MIN` by -1, whose quotient is not an `int`, is
  `Err.undefinedBehavior` too: `evalDiv` tests the divisor for 0 only and the
  division that follows has no result the source determines.
-/

namespace P6

/-! ## Errors -/

/-- The ways a run stops early. -/
inductive Err where
  /-- The message `line n: syntax error` of `syntaxError` in parse.c. -/
  | syntaxError (line : Nat)
  /-- The message `line n: token too long` of `addToToken`. -/
  | tokenTooLong (line : Nat)
  /-- The message `line n: invalid string literal.` of `parseToken`. -/
  | invalidString (line : Nat)
  /-- The message `line n: Invalid escape sequence` of `parseToken`. -/
  | invalidEscape (line : Nat) (ch : Char)
  /-- The message `line n: Invalid single-quoted string` of `parseToken`. -/
  | invalidSingleQuote (line : Nat)
  /-- The message `Type mismatch` of `reportTypeMismatch` in syntax.c. -/
  | typeMismatch
  /-- The message `Divide by zero` of `evalDiv`. -/
  | divideByZero
  /-- The message `Index out of bounds` of `evalIndex` and `executeAssignment`. -/
  | indexOutOfBounds
  /-- The `assert(seq->ref == 0)` of `releaseSequence` failed. -/
  | assertFailed
  /-- A step whose outcome the C source does not determine. -/
  | undefinedBehavior
  /-- The recursion budget of the model ran out (not an outcome of the program). -/
  | outOfFuel
  deriving DecidableEq, Repr

/-! ## Machine integers -/

/-- The value of a mathematical integer stored in a 32-bit `int`. -/
def wrapInt (x : Int) : Int := (x + 2147483648) % 4294967296 - 2147483648

/-- The smallest `int`. -/
def INT_MIN : Int := -2147483648

/-- The largest `int`. -/
def INT_MAX : Int := 2147483647

/-- The integers an `int` can hold. -/
def inIntRange (x : Int) : Prop := INT_MIN ≤ x ∧ x ≤ INT_MAX

instance (x : Int) : Decidable (inIntRange x) := by
  unfold inIntRange; exact inferInstance

/-! ## Values, sequences and the heap (value.c) -/

/-- The constants of value.h, which is not among the sources. -/
structure Config where
  /-- Initial capacity of a sequence and of the environment. -/
  INIT_CAP : Nat
  /-- Factor by which a full array grows. -/
  DOUBLE : Nat
  /-- Longest variable name. -/
  MAX_VAR_NAME : Nat
  deriving DecidableEq, Repr

/-- A `Sequence`: the allocated `capacity`, the stored elements (`count` is
their number) and the reference count. -/
structure Sequence where
  capacity : Nat
  list : List Int
  ref : Int
  deriving DecidableEq, Repr

/-- The field `count` of a sequence. -/
def Sequence.count (s : Sequence) : Nat := s.list.length

/-- The heap of sequences: cell `h` is `some s` while allocated and `none`
once freed (or never allocated). -/
abbrev Heap := List (Option Sequence)

/-- A `Value`: the tag and the member of the union that goes with it. -/
inductive Value where
  | IntType (ival : Int)
  | SeqType (sval : Nat)
  deriving DecidableEq, Repr

/-- The sequence a handle points to; none for a freed or unallocated cell. -/
def Heap.deref (heap : Heap) (h : Nat) : Option Sequence := heap[h]?.join

/-- Function `makeSequence`: a new cell with capacity `INIT_CAP`, no elements
and reference count 1. -/
def makeSequence (cfg : Config) (heap : Heap) : Nat × Heap :=
  (heap.length, heap ++ [some { capacity := cfg.INIT_CAP, list := [], ref := 1 }])

/-- Function `freeSequence`. -/
def freeSequence (heap : Heap) (h : Nat) : Heap := heap.set h none

/-- Function `grabSequence`: `seq->ref += 1`. -/
def grabSequence (heap : Heap) (h : Nat) : Except Err Heap :=
  match heap.deref h with
  | some s => .ok (heap.set h (some { s with ref := s.ref + 1 }))
  | none => .error .undefinedBehavior

/-- Function `releaseSequence`: `seq->ref -= 1`, and the cell is freed when the
count is no longer positive (after the assertion that it is exactly 0). -/
def releaseSequence (heap : Heap) (h : Nat) : Except Err Heap :=
  match heap.deref h with
  | some s =>
    let r := s.ref - 1
    if r ≤ 0 then
      if r = 0 then .ok (freeSequence heap h) else .error .assertFailed
    else .ok (heap.set h (some { s with ref := r }))
  | none => .error .undefinedBehavior

/-- One `VarRec` of the environment. -/
structure VarRec where
  name : List Char
  val : Value
  deriving DecidableEq, Repr

/-- The `Environment`: the records in use (`len` is their number) and the
allocated capacity. -/
structure Environment where
  vlist : List VarRec
  capacity : Nat
  deriving DecidableEq, Repr

/-- The field `len` of an environment. -/
def Environment.len (env : Environment) : Nat := env.vlist.length

/-- Function `makeEnvironment`. -/
def makeEnvironment (cfg : Config) : Environment :=
  { vlist := [], capacity := cfg.INIT_CAP }

/-- The linear search of `lookupVariable` over the records. -/
def lookupList : List VarRec → List Char → Value
  | [], _ => .IntType 0
  | r :: rs, name => if r.name = name then r.val else lookupList rs name

/-- Function `lookupVariable`: the value of the first record with that name,
`Int 0` when there is none. -/
def lookupVariable (env : Environment) (name : List Char) : Value :=
  lookupList env.vlist name

/-- The `while` loop of `setVariable`: the position of the first record with
that name, counted from `pos`, or the position past the last record. -/
def findPos : List VarRec → List Char → Nat → Nat
  | [], _, pos => pos
  | r :: rs, name, pos => if r.name = name then pos else findPos rs name (pos + 1)

/-- Function `setVariable`. The record array grows by the factor `DOUBLE` when
it is full; a new name is copied into a buffer of `MAX_VAR_NAME + 1`
characters; a sequence held before is released twice and a sequence stored is
grabbed once. -/
def setVariable (cfg : Config) (env : Environment) (heap : Heap)
    (name : List Char) (value : Value) : Except Err (Environment × Heap) := do
  let pos := findPos env.vlist name 0
  let capacity :=
    if pos ≥ env.len then
      if env.len ≥ env.capacity then env.capacity * cfg.DOUBLE else env.capacity
    else env.capacity
  if pos = env.len then
    -- a new record: `vlist[len]` must lie inside the allocation, and the
    -- name inside its buffer
    if ¬ (pos < capacity) then throw .undefinedBehavior
    if name.length > cfg.MAX_VAR_NAME then throw .undefinedBehavior
    let heap1 ← match value with
      | .SeqType h => grabSequence heap h
      | .IntType _ => pure heap
    pure ({ vlist := env.vlist ++ [{ name := name, val := value }],
            capacity := capacity }, heap1)
  else
    let old := env.vlist[pos]?.map VarRec.val
    let heap1 ← match old with
      | some (.SeqType h) => do
        let hp ← releaseSequence heap h
        releaseSequence hp h
      | _ => pure heap
    let heap2 ← match value with
      | .SeqType h => grabSequence heap1 h
      | .IntType _ => pure heap1
    pure ({ vlist := env.vlist.modify (fun r => { r with val := value }) pos,
            capacity := capacity }, heap2)

/-- The loop of `freeEnvironment`: every sequence held by a record is released
twice. -/
def freeRecords : List VarRec → Heap → Except Err Heap
  | [], heap => .ok heap
  | r :: rs, heap =>
    match r.val with
    | .SeqType h => do
      let hp ← releaseSequence heap h
      let hp2 ← releaseSequence hp h
      freeRecords rs hp2
    | .IntType _ => freeRecords rs heap

/-- Function `freeEnvironment`. -/
def freeEnvironment (env : Environment) (heap : Heap) : Except Err Heap :=
  freeRecords env.vlist heap

/-! ## Expressions (syntax.c) -/

/-- The expression nodes built by the `make...` functions of syntax.c. -/
inductive Expr where
  | LiteralInt (val : Int)
  | SequenceInitializer (exprs : List Expr)
  | Add (left right : Expr)
  | Sub (left right : Expr)
  | Mul (left right : Expr)
  | Div (left right : Expr)
  | And (left right : Expr)
  | Or (left right : Expr)
  | Less (left right : Expr)
  | Equals (left right : Expr)
  | Len (expr : Expr)
  | SequenceIndex (aexpr iexpr : Expr)
  | Variable (name : List Char)
  deriving Repr

/-- Function `requireIntType`: the integer of an `IntType` value. -/
def requireIntType : Value → Except Err Int
  | .IntType i => .ok i
  | .SeqType _ => .error .typeMismatch

/-- Function `requireSeqType`: the handle of a `SeqType` value. -/
def requireSeqType : Value → Except Err Nat
  | .SeqType h => .ok h
  | .IntType _ => .error .typeMismatch

/-- The `for` loop of `evalLess` over the elements of the left sequence:
the result when a pair of elements differs, none when the loop runs to its
end. The guard before the loop makes the left sequence the shorter one. -/
def lessLoop : List Int → List Int → Option Int
  | [], _ => none
  | _ :: _, [] => none
  | first :: l1, second :: l2 =>
    if first < second then some 1
    else if first > second then some 0
    else lessLoop l1 l2

/-- The comparison of two sequences in `evalLess`. -/
def lessSeq (s1 s2 : Sequence) : Int :=
  if s1.count > s2.count then 0
  else match lessLoop s1.list s2.list with
    | some r => r
    | none => if s1.count < s2.count then 1 else 0

/-- The `for` loop of `evalEquals` over two sequences of the same count:
false as soon as a pair of elements differs. -/
def equalsLoop : List Int → List Int → Bool
  | [], _ => true
  | _ :: _, [] => true
  | first :: l1, second :: l2 => if first ≠ second then false else equalsLoop l1 l2

/-- The comparison of two sequences in `evalEquals`. -/
def equalsSeq (s1 s2 : Sequence) : Int :=
  if s1.count ≠ s2.count then 0
  else if equalsLoop s1.list s2.list then 1 else 0

/-- The step `seq->list[i] = v; seq->count++` of `evalSequenceInitializer`
and of `executePush`: the element is written at position `count`, which must
lie inside the allocation. -/
def storeNext (heap : Heap) (h : Nat) (v : Int) : Except Err Heap :=
  match heap.deref h with
  | some s =>
    if s.count < s.capacity then .ok (heap.set h (some { s with list := s.list ++ [v] }))
    else .error .undefinedBehavior
  | none => .error .undefinedBehavior

/-- The capacity adjustment of `evalSequenceInitializer`: a sequence that
cannot hold `count` elements is reallocated to hold exactly that many. -/
def reserve (heap : Heap) (h : Nat) (count : Nat) : Heap :=
  match heap.deref h with
  | some s => if count ≥ s.capacity then heap.set h (some { s with capacity := count }) else heap
  | none => heap

/-- The element read `seq->list[i]` for an `int` index below `count`; an
index below 0 reads outside the array. -/
def readElem (s : Sequence) (i : Int) : Except Err Int :=
  if i < 0 then .error .undefinedBehavior
  else match s.list[i.toNat]? with
    | some v => .ok v
    | none => .error .undefinedBehavior

mutual
/-- The `eval` functions of syntax.c, one case per kind of node. The result
is the value and the heap after the evaluation. -/
def eval (cfg : Config) : Expr → Environment → Heap → Except Err (Value × Heap)
  | .LiteralInt val, _, heap => .ok (.IntType val, heap)
  | .SequenceInitializer exprs, env, heap =>
    -- evalSequenceInitializer
    let (h, heap1) := makeSequence cfg heap
    let heap2 := reserve heap1 h exprs.length
    match evalElems cfg exprs env h heap2 with
    | .ok heap3 => .ok (.SeqType h, heap3)
    | .error e => .error e
  | .Add left right, env, heap =>
    match eval cfg left env heap with
    | .error e => .error e
    | .ok (v1, heap1) =>
      match eval cfg right env heap1 with
      | .error e => .error e
      | .ok (v2, heap2) =>
        match requireIntType v1, requireIntType v2 with
        | .ok a, .ok b => .ok (.IntType (wrapInt (a + b)), heap2)
        | .error e, _ => .error e
        | _, .error e => .error e
  | .Sub left right, env, heap =>
    match eval cfg left env heap with
    | .error e => .error e
    | .ok (v1, heap1) =>
      match eval cfg right env heap1 with
      | .error e => .error e
      | .ok (v2, heap2) =>
        match requireIntType v1, requireIntType v2 with
        | .ok a, .ok b => .ok (.IntType (wrapInt (a - b)), heap2)
        | .error e, _ => .error e
        | _, .error e => .error e
  | .Mul left right, env, heap =>
    match eval cfg left env heap with
    | .error e => .error e
    | .ok (v1, heap1) =>
      match eval cfg right env heap1 with
      | .error e => .error e
      | .ok (v2, heap2) =>
        match requireIntType v1, requireIntType v2 with
        | .ok a, .ok b => .ok (.IntType (wrapInt (a * b)), heap2)
        | .error e, _ => .error e
        | _, .error e => .error e
  | .Div left right, env, heap =>
    match eval cfg left env heap with
    | .error e => .error e
    | .ok (v1, heap1) =>
      match eval cfg right env heap1 with
      | .error e => .error e
      | .ok (v2, heap2) =>
        match requireIntType v1, requireIntType v2 with
        | .ok a, .ok b =>
          -- evalDiv tests the divisor for 0 only; the quotient of INT_MIN by -1
          -- is not an int and the division has no result the source determines
          if b = 0 then .error .divideByZero
          else if a = INT_MIN ∧ b = -1 then .error .undefinedBehavior
          else .ok (.IntType (wrapInt (Int.tdiv a b)), heap2)
        | .error e, _ => .error e
        | _, .error e => .error e
  | .And left right, env, heap =>
    match eval cfg left env heap with
    | .error e => .error e
    | .ok (v1, heap1) =>
      match requireIntType v1 with
      | .error e => .error e
      | .ok a =>
        if a = 0 then .ok (v1, heap1)
        else match eval cfg right env heap1 with
          | .error e => .error e
          | .ok (v2, heap2) =>
            match requireIntType v2 with
            | .error e => .error e
            | .ok _ => .ok (v2, heap2)
  | .Or left right, env, heap =>
    match eval cfg left env heap with
    | .error e => .error e
    | .ok (v1, heap1) =>
      match requireIntType v1 with
      | .error e => .error e
      | .ok a =>
        if a ≠ 0 then .ok (v1, heap1)
        else match eval cfg right env heap1 with
          | .error e => .error e
          | .ok (v2, heap2) =>
            match requireIntType v2 with
            | .error e => .error e
            | .ok _ => .ok (v2, heap2)
  | .Less left right, env, heap =>
    match eval cfg left env heap with
    | .error e => .error e
    | .ok (v1, heap1) =>
      match eval cfg right env heap1 with
      | .error e => .error e
      | .ok (v2, heap2) =>
        match v1, v2 with
        | .IntType a, .IntType b => .ok (.IntType (if a < b then 1 else 0), heap2)
        | .SeqType h1, .SeqType h2 =>
          match heap2.deref h1, heap2.deref h2 with
          | some s1, some s2 =>
            match releaseSequence heap2 h1 with
            | .error e => .error e
            | .ok heap3 =>
              match releaseSequence heap3 h2 with
              | .error e => .error e
              | .ok heap4 => .ok (.IntType (lessSeq s1 s2), heap4)
          | _, _ => .error .undefinedBehavior
        | _, _ => .error .typeMismatch
  | .Equals left right, env, heap =>
    match eval cfg left env heap with
    | .error e => .error e
    | .ok (v1, heap1) =>
      match eval cfg right env heap1 with
      | .error e => .error e
      | .ok (v2, heap2) =>
        match v1, v2 with
        | .IntType a, .IntType b => .ok (.IntType (if a = b then 1 else 0), heap2)
        | .IntType _, .SeqType h2 =>
          match releaseSequence heap2 h2 with
          | .error e => .error e
          | .ok heap3 => .ok (.IntType 0, heap3)
        | .SeqType h1, .IntType _ =>
          match releaseSequence heap2 h1 with
          | .error e => .error e
          | .ok heap3 => .ok (.IntType 0, heap3)
        | .SeqType h1, .SeqType h2 =>
          match heap2.deref h1, heap2.deref h2 with
          | some s1, some s2 =>
            match releaseSequence heap2 h1 with
            | .error e => .error e
            | .ok heap3 =>
              match releaseSequence heap3 h2 with
              | .error e => .error e
              | .ok heap4 => .ok (.IntType (equalsSeq s1 s2), heap4)
          | _, _ => .error .undefinedBehavior
  | .Len expr, env, heap =>
    match eval cfg expr env heap with
    | .error e => .error e
    | .ok (v1, heap1) =>
      match requireSeqType v1 with
      | .error e => .error e
      | .ok h =>
        match heap1.deref h with
        | none => .error .undefinedBehavior
        | some s =>
          match releaseSequence heap1 h with
          | .error e => .error e
          | .ok heap2 => .ok (.IntType s.count, heap2)
  | .SequenceIndex aexpr iexpr, env, heap =>
    match eval cfg aexpr env heap with
    | .error e => .error e
    | .ok (v1, heap1) =>
      match eval cfg iexpr env heap1 with
      | .error e => .error e
      | .ok (v2, heap2) =>
        match requireIntType v2 with
        | .error e => .error e
        | .ok i =>
          match v1 with
          | .IntType _ => .error .undefinedBehavior
          | .SeqType h =>
            match heap2.deref h with
            | none => .error .undefinedBehavior
            | some s =>
              if i > (s.count : Int) - 1 then .error .indexOutOfBounds
              else match readElem s i with
                | .error e => .error e
                | .ok value =>
                  match releaseSequence heap2 h with
                  | .error e => .error e
                  | .ok heap3 => .ok (.IntType value, heap3)
  | .Variable name, env, heap =>
    match lookupVariable env name with
    | .SeqType h =>
      match grabSequence heap h with
      | .error e => .error e
      | .ok heap1 => .ok (.SeqType h, heap1)
    | .IntType i => .ok (.IntType i, heap)
/-- The `for` loop of `evalSequenceInitializer`: each sub-expression is
evaluated in turn and its `ival` stored as the next element of the sequence
`h`. The `ival` of a sub-expression that evaluates to a sequence is not
determined by the source. -/
def evalElems (cfg : Config) : List Expr → Environment → Nat → Heap → Except Err Heap
  | [], _, _, heap => .ok heap
  | e :: es, env, h, heap =>
    match eval cfg e env heap with
    | .error err => .error err
    | .ok (.IntType i, heap1) =>
      match storeNext heap1 h i with
      | .error err => .error err
      | .ok heap2 => evalElems cfg es env h heap2
    | .ok (.SeqType _, _) => .error .undefinedBehavior
end

/-! ## Statements (syntax.c) -/

/-- The statement nodes built by the `make...` functions of syntax.c. In an
assignment `iexpr` is the index expression, none for a plain assignment. -/
inductive Stmt where
  | Print (expr : Expr)
  | Compound (stmtList : List Stmt)
  | If (cond : Expr) (body : Stmt)
  | While (cond : Expr) (body : Stmt)
  | Assignment (name : List Char) (iexpr : Option Expr) (expr : Expr)
  | Push (seqExpr valExpr : Expr)
  deriving Repr

/-- What a statement works on: the environment, the heap and the characters
written to standard output so far. -/
structure ExecState where
  env : Environment
  heap : Heap
  out : List Char
  deriving DecidableEq, Repr

/-- A fatal stop: the error and what had been written to standard output. -/
structure Fatal where
  err : Err
  out : List Char
  deriving DecidableEq, Repr

/-- The decimal digits of a natural number, as `printf("%d")` writes them. -/
def natDigits (n : Nat) : List Char := (Nat.toDigits 10 n)

/-- The characters `printf("%d", v)` writes. -/
def printInt (v : Int) : List Char :=
  if v < 0 then '-' :: natDigits (-v).toNat else natDigits v.toNat

/-- The character `printf("%c", (char) v)` writes: the byte `v mod 256`. -/
def printChar (v : Int) : Char := Char.ofNat (v % 256).toNat

/-- An evaluation step inside a statement: a fatal error keeps the output
written so far. -/
def liftEval {α : Type} (out : List Char) : Except Err α → Except Fatal α
  | .ok a => .ok a
  | .error e => .error { err := e, out := out }

/-- The element write `seq->list[i] = v` for an `int` index below `count`; an
index below 0 writes outside the array. -/
def writeElem (heap : Heap) (h : Nat) (i : Int) (v : Int) : Except Err Heap :=
  match heap.deref h with
  | none => .error .undefinedBehavior
  | some s =>
    if i < 0 then .error .undefinedBehavior
    else if i.toNat < s.count then
      .ok (heap.set h (some { s with list := s.list.set i.toNat v }))
    else .error .undefinedBehavior

/-- The growth step of `executePush`: a full sequence is reallocated with its
capacity multiplied by `DOUBLE`. -/
def growForPush (cfg : Config) (heap : Heap) (h : Nat) : Heap :=
  match heap.deref h with
  | some s =>
    if s.count ≥ s.capacity then heap.set h (some { s with capacity := s.capacity * cfg.DOUBLE })
    else heap
  | none => heap

/-- The `for` loop of `executeCompound`, given how one statement executes:
the statements in order, each on the state the one before left. -/
def executeList (exec : Stmt → ExecState → Except Fatal ExecState) :
    List Stmt → ExecState → Except Fatal ExecState
  | [], st => .ok st
  | s :: rest, st =>
    match exec s st with
    | .error f => .error f
    | .ok st1 => executeList exec rest st1

/-- The `execute` functions of syntax.c, one case per kind of statement.
`fuel` bounds the nesting of statements plus the number of loop iterations. -/
def execute (cfg : Config) : Nat → Stmt → ExecState → Except Fatal ExecState
  | 0, _, st => .error { err := .outOfFuel, out := st.out }
  | _ + 1, .Print expr, st =>
    -- executePrint
    match liftEval st.out (eval cfg expr st.env st.heap) with
    | .error f => .error f
    | .ok (.IntType i, heap1) => .ok { st with heap := heap1, out := st.out ++ printInt i }
    | .ok (.SeqType h, heap1) =>
      match heap1.deref h with
      | none => .error { err := .undefinedBehavior, out := st.out }
      | some s =>
        let out1 := st.out ++ s.list.map printChar
        match liftEval out1 (releaseSequence heap1 h) with
        | .error f => .error f
        | .ok heap2 => .ok { st with heap := heap2, out := out1 }
  | fuel + 1, .Compound stmtList, st => executeList (execute cfg fuel) stmtList st
  | fuel + 1, .If cond body, st =>
    -- executeIf
    match liftEval st.out (eval cfg cond st.env st.heap) with
    | .error f => .error f
    | .ok (result, heap1) =>
      match liftEval st.out (requireIntType result) with
      | .error f => .error f
      | .ok r =>
        if r ≠ 0 then execute cfg fuel body { st with heap := heap1 }
        else .ok { st with heap := heap1 }
  | fuel + 1, .While cond body, st =>
    -- executeWhile: one test of the condition, one run of the body, and the
    -- loop again
    match liftEval st.out (eval cfg cond st.env st.heap) with
    | .error f => .error f
    | .ok (result, heap1) =>
      match liftEval st.out (requireIntType result) with
      | .error f => .error f
      | .ok r =>
        if r ≠ 0 then
          match execute cfg fuel body { st with heap := heap1 } with
          | .error f => .error f
          | .ok st1 => execute cfg fuel (.While cond body) st1
        else .ok { st with heap := heap1 }
  | _ + 1, .Assignment name none expr, st =>
    -- executeAssignment, plain
    match liftEval st.out (eval cfg expr st.env st.heap) with
    | .error f => .error f
    | .ok (result, heap1) =>
      match liftEval st.out (setVariable cfg st.env heap1 name result) with
      | .error f => .error f
      | .ok (env2, heap2) => .ok { st with env := env2, heap := heap2 }
  | _ + 1, .Assignment name (some iexpr) expr, st =>
    -- executeAssignment, to an element: none of the three values is checked
    -- for its type before its member is used
    match liftEval st.out (eval cfg expr st.env st.heap) with
    | .error f => .error f
    | .ok (result, heap1) =>
      let seqval := lookupVariable st.env name
      match liftEval st.out (eval cfg iexpr st.env heap1) with
      | .error f => .error f
      | .ok (idx, heap2) =>
        match idx, seqval with
        | .IntType i, .SeqType h =>
          match heap2.deref h with
          | none => .error { err := .undefinedBehavior, out := st.out }
          | some s =>
            if i > (s.count : Int) - 1 then
              .error { err := .indexOutOfBounds, out := st.out }
            else
              match result with
              | .SeqType _ => .error { err := .undefinedBehavior, out := st.out }
              | .IntType v =>
                match liftEval st.out (writeElem heap2 h i v) with
                | .error f => .error f
                | .ok heap3 => .ok { st with heap := heap3 }
        | _, _ => .error { err := .undefinedBehavior, out := st.out }
  | _ + 1, .Push seqExpr valExpr, st =>
    -- executePush
    match liftEval st.out (eval cfg seqExpr st.env st.heap) with
    | .error f => .error f
    | .ok (seqResult, heap1) =>
      match liftEval st.out (eval cfg valExpr st.env heap1) with
      | .error f => .error f
      | .ok (valResult, heap2) =>
        match liftEval st.out (requireSeqType seqResult) with
        | .error f => .error f
        | .ok h =>
          match liftEval st.out (requireIntType valResult) with
          | .error f => .error f
          | .ok v =>
            match liftEval st.out (storeNext (growForPush cfg heap2 h) h v) with
            | .error f => .error f
            | .ok heap3 =>
              match liftEval st.out (releaseSequence heap3 h) with
              | .error f => .error f
              | .ok heap4 => .ok { st with heap := heap4 }

/-! ## The tokenizer (parse.c) -/

/-- The constant `MAX_TOKEN` of parse.h. -/
def MAX_TOKEN : Nat := 1023

/-- The constant `SINGLE_QUOTE_LENGTH` of parse.h. -/
def SINGLE_QUOTE_LENGTH : Nat := 1

/-- The double quote character. -/
def dquote : Char := Char.ofNat 34

/-- The single quote character. -/
def squote : Char := Char.ofNat 39

/-- The backslash character. -/
def backslash : Char := Char.ofNat 92

/-- The newline character. -/
def newline : Char := Char.ofNat 10

/-- The tab character. -/
def tab : Char := Char.ofNat 9

/-- The test `isdigit` of ctype.h in the C locale. -/
def isdigit (c : Char) : Bool := decide (48 ≤ c.toNat) && decide (c.toNat ≤ 57)

/-- The test `isalpha` of ctype.h in the C locale. -/
def isalpha (c : Char) : Bool :=
  (decide (65 ≤ c.toNat) && decide (c.toNat ≤ 90)) ||
  (decide (97 ≤ c.toNat) && decide (c.toNat ≤ 122))

/-- The test `isalnum` of ctype.h in the C locale. -/
def isalnum (c : Char) : Bool := isalpha c || isdigit c

/-- The test `isspace` of ctype.h in the C locale: space, tab, newline,
vertical tab, form feed, carriage return. -/
def isspace (c : Char) : Bool :=
  decide (c.toNat = 32) || (decide (9 ≤ c.toNat) && decide (c.toNat ≤ 13))

/-- The `int` a `char` of a token converts to (`char` is signed: a byte above
127 is negative). -/
def charToInt (c : Char) : Int :=
  if c.toNat < 128 then (c.toNat : Int) else (c.toNat : Int) - 256

/-- The state of the parser: what is left of the input file and the static
`lineCount`. -/
structure PState where
  input : List Char
  lineCount : Nat
  deriving DecidableEq, Repr

/-- Function `addToToken`: the character is appended unless the token already
has `MAX_TOKEN` characters. -/
def addToToken (ch : Char) (token : List Char) (line : Nat) : Except Err (List Char) :=
  if token.length ≥ MAX_TOKEN then .error (.tokenTooLong line) else .ok (token ++ [ch])

/-- The first loop of `parseToken`: whitespace and comments are skipped and
newlines counted. `inComment` is true inside the inner loop that skips a
comment. The result is the first character of the token with the input after
it (none at end of file) and the line count. -/
def skipBlanks : Bool → List Char → Nat → Option (Char × List Char) × Nat
  | _, [], line => (none, line)
  | true, c :: cs, line =>
    if c = newline then skipBlanks false cs (line + 1) else skipBlanks true cs line
  | false, c :: cs, line =>
    if c = '#' then skipBlanks true cs line
    else if isspace c then skipBlanks false cs (if c = newline then line + 1 else line)
    else (some (c, cs), line)

/-- The loops of `parseToken` that extend an identifier or a number: characters
are added while `p` holds; the first character that fails `p` is put back. -/
def readWhile (p : Char → Bool) : List Char → List Char → Nat → Except Err (List Char × List Char)
  | [], token, _ => .ok (token, [])
  | c :: cs, token, line =>
    if p c then
      match addToToken c token line with
      | .error e => .error e
      | .ok token1 => readWhile p cs token1 line
    else .ok (token, c :: cs)

/-- The loop of `parseToken` that reads a quoted literal up to its closing
quote, decoding the escapes. The result is the token without its closing quote
and the input after the closing quote. -/
def readQuoted (quote : Char) : List Char → Bool → List Char → Nat →
    Except Err (List Char × List Char)
  | [], _, _, line => .error (.invalidString line)
  | ch :: cs, escape, token, line =>
    if ch = quote ∧ escape = false then .ok (token, cs)
    else if ch = newline then .error (.invalidString line)
    else if escape = false ∧ ch = backslash then readQuoted quote cs true token line
    else if escape then
      if ch = 'n' then
        match addToToken newline token line with
        | .error e => .error e
        | .ok token1 => readQuoted quote cs false token1 line
      else if ch = 't' then
        match addToToken tab token line with
        | .error e => .error e
        | .ok token1 => readQuoted quote cs false token1 line
      else if ch = dquote then
        match addToToken dquote token line with
        | .error e => .error e
        | .ok token1 => readQuoted quote cs false token1 line
      else if ch = backslash then
        match addToToken backslash token line with
        | .error e => .error e
        | .ok token1 => readQuoted quote cs false token1 line
      else .error (.invalidEscape line ch)
    else
      match addToToken ch token line with
      | .error e => .error e
      | .ok token1 => readQuoted quote cs false token1 line

/-- Function `parseToken`: the next token (none at end of file) and the state
after it. -/
def parseToken (st : PState) : Except Err (Option (List Char) × PState) :=
  match skipBlanks false st.input st.lineCount with
  | (none, line) => .ok (none, { input := [], lineCount := line })
  | (some (ch, rest), line) =>
    if isalpha ch || ch = '_' then
      match readWhile (fun c => isalnum c || c = '_') rest [ch] line with
      | .error e => .error e
      | .ok (token, rest1) => .ok (some token, { input := rest1, lineCount := line })
    else if ch = '-' || isdigit ch then
      match readWhile isdigit rest [ch] line with
      | .error e => .error e
      | .ok (token, rest1) => .ok (some token, { input := rest1, lineCount := line })
    else if ch = dquote || ch = squote then
      match readQuoted ch rest false [ch] line with
      | .error e => .error e
      | .ok (token, rest1) =>
        match addToToken ch token line with
        | .error e => .error e
        | .ok token1 =>
          if ch = squote ∧ token1.length ≠ SINGLE_QUOTE_LENGTH + 1 + 1 then
            .error (.invalidSingleQuote line)
          else .ok (some token1, { input := rest1, lineCount := line })
    else
      match rest with
      | [] => .ok (some [ch], { input := [], lineCount := line })
      | ch2 :: rest1 =>
        if (ch = '=' ∧ ch2 = '=') ∨ (ch = '&' ∧ ch2 = '&') ∨ (ch = '|' ∧ ch2 = '|') then
          .ok (some [ch, ch2], { input := rest1, lineCount := line })
        else .ok (some [ch], { input := ch2 :: rest1, lineCount := line })

/-- Function `expectToken`: the next token, a syntax error at end of file. -/
def expectToken (st : PState) : Except Err (List Char × PState) :=
  match parseToken st with
  | .error e => .error e
  | .ok (none, st1) => .error (.syntaxError st1.lineCount)
  | .ok (some tok, st1) => .ok (tok, st1)

/-- Function `requireToken`: the next token must be `target`. -/
def requireToken (target : List Char) (st : PState) : Except Err PState :=
  match expectToken st with
  | .error e => .error e
  | .ok (tok, st1) => if tok = target then .ok st1 else .error (.syntaxError st1.lineCount)

/-- The reserved words tested by `isIdentifier`. -/
def reservedWords : List (List Char) :=
  ["if".toList, "while".toList, "print".toList, "push".toList, "len".toList]

/-- Function `isIdentifier`. -/
def isIdentifier (cfg : Config) (tok : List Char) : Bool :=
  match tok with
  | [] => false
  | c :: cs =>
    if ¬ (isalpha c || c = '_') then false
    else if ¬ cs.all (fun d => isalnum d || d = '_') then false
    else if tok.length > cfg.MAX_VAR_NAME then false
    else if tok ∈ reservedWords then false
    else true

/-- Function `isInfixOperator`. -/
def isInfixOperator (tok : List Char) : Bool :=
  tok = "+".toList || tok = "-".toList || tok = "*".toList || tok = "/".toList ||
  tok = "<".toList || tok = "==".toList || tok = "&&".toList || tok = "||".toList ||
  tok = "[".toList

/-- The number denoted by a run of decimal digits. -/
def digitsValue (ds : List Char) : Nat :=
  ds.foldl (fun acc c => acc * 10 + (c.toNat - 48)) 0

/-- The test `sscanf(tok, "%d%n", &val, &n) == 1 && n == strlen(tok)` of
`parseTerm` on a token that starts with `-` or a digit: it holds when the
token is an optional `-` followed by one or more digits and nothing else, and
then the number read is the result. -/
def scanInt (tok : List Char) : Option Int :=
  match tok with
  | '-' :: ds => if ds ≠ [] ∧ ds.all isdigit then some (-(digitsValue ds : Int)) else none
  | ds => if ds ≠ [] ∧ ds.all isdigit then some (digitsValue ds : Int) else none

/-- The expression `makeX(left, right)` that `parseExpr` builds for the infix
operator `op`. -/
def makeInfix (op : List Char) (left right : Expr) : Expr :=
  if op = "+".toList then .Add left right
  else if op = "-".toList then .Sub left right
  else if op = "*".toList then .Mul left right
  else if op = "/".toList then .Div left right
  else if op = "&&".toList then .And left right
  else if op = "||".toList then .Or left right
  else if op = "<".toList then .Less left right
  else if op = "==".toList then .Equals left right
  else if op = "[".toList then .SequenceIndex left right
  else left

/-- The tokens that may follow a complete expression. -/
def isTerminator (op : List Char) : Bool :=
  op = ";".toList || op = ")".toList || op = "]".toList || op = ",".toList

/-! ## The parser (parse.c) -/

/-- The string case of `parseTerm`: the characters of the token after the
opening quote up to the first double quote; none when the token has no
second double quote. -/
def stringBody : List Char → Option (List Char)
  | [] => none
  | c :: cs =>
    if c = dquote then some []
    else match stringBody cs with
      | some body => some (c :: body)
      | none => none

mutual
/-- Function `parseTerm`. `fuel` bounds the depth of the calls between the
parsing functions. -/
def parseTerm (cfg : Config) : Nat → List Char → PState → Except Err (Expr × PState)
  | 0, _, _ => .error .outOfFuel
  | fuel + 1, tok, st =>
    if tok = "(".toList then
      match expectToken st with
      | .error e => .error e
      | .ok (tok1, st1) =>
        match parseExpr cfg fuel tok1 st1 with
        | .error e => .error e
        | .ok (expr, st2) =>
          match requireToken ")".toList st2 with
          | .error e => .error e
          | .ok st3 => .ok (expr, st3)
    else if tok = "len".toList then parseExpr cfg fuel tok st
    else if tok.head? = some '-' ∨ (tok.head?.map isdigit) = some true then
      match scanInt tok with
      | none => .error (.syntaxError st.lineCount)
      | some val =>
        if inIntRange val then .ok (.LiteralInt val, st) else .error .undefinedBehavior
    else if tok.head? = some squote then
      .ok (.LiteralInt ((tok[1]?.map charToInt).getD 0), st)
    else if isIdentifier cfg tok then .ok (.Variable tok, st)
    else if tok = "[".toList then
      match expectToken st with
      | .error e => .error e
      | .ok (tok1, st1) =>
        if tok1 = "]".toList then .ok (.SequenceInitializer [], st1)
        else
          match parseElems cfg fuel tok1 [] st1 with
          | .error e => .error e
          | .ok (exprs, st2) => .ok (.SequenceInitializer exprs, st2)
    else if tok.head? = some dquote then
      match stringBody tok.tail with
      | none => .error .undefinedBehavior
      | some body => .ok (.SequenceInitializer (body.map (fun c => .LiteralInt (charToInt c))), st)
    else .error (.syntaxError st.lineCount)
/-- The `while` loop of the bracket case of `parseTerm`: `tok` is the current
token and `exprs` the expressions collected so far. A token that starts with a
comma is skipped, any other starts an expression. -/
def parseElems (cfg : Config) : Nat → List Char → List Expr → PState →
    Except Err (List Expr × PState)
  | 0, _, _, _ => .error .outOfFuel
  | fuel + 1, tok, exprs, st =>
    if tok = "]".toList then .ok (exprs, st)
    else if tok.head? ≠ some ',' then
      match parseExpr cfg fuel tok st with
      | .error e => .error e
      | .ok (expr, st1) =>
        match expectToken st1 with
        | .error e => .error e
        | .ok (tok1, st2) => parseElems cfg fuel tok1 (exprs ++ [expr]) st2
    else
      match expectToken st with
      | .error e => .error e
      | .ok (tok1, st1) => parseElems cfg fuel tok1 exprs st1
/-- Function `parseExpr`. -/
def parseExpr (cfg : Config) : Nat → List Char → PState → Except Err (Expr × PState)
  | 0, _, _ => .error .outOfFuel
  | fuel + 1, tok, st =>
    if tok = "len".toList then
      match expectToken st with
      | .error e => .error e
      | .ok (tok1, st1) =>
        match parseExpr cfg fuel tok1 st1 with
        | .error e => .error e
        | .ok (expr, st2) => .ok (.Len expr, st2)
    else
      match parseTerm cfg fuel tok st with
      | .error e => .error e
      | .ok (left, st1) => parseInfix cfg fuel left st1
/-- The `while` loop of `parseExpr` and what follows it: `left` is the
expression built so far. Each infix operator takes one more term; the token
that ends the loop must be a terminator, and its first character is put
back. -/
def parseInfix (cfg : Config) : Nat → Expr → PState → Except Err (Expr × PState)
  | 0, _, _ => .error .outOfFuel
  | fuel + 1, left, st =>
    match expectToken st with
    | .error e => .error e
    | .ok (op, st1) =>
      if isInfixOperator op then
        match expectToken st1 with
        | .error e => .error e
        | .ok (tok, st2) =>
          match parseTerm cfg fuel tok st2 with
          | .error e => .error e
          | .ok (right, st3) =>
            if op = "[".toList then
              match requireToken "]".toList st3 with
              | .error e => .error e
              | .ok st4 => parseInfix cfg fuel (makeInfix op left right) st4
            else parseInfix cfg fuel (makeInfix op left right) st3
      else if isTerminator op then
        .ok (left, { st1 with input := (op.head?.toList) ++ st1.input })
      else .error (.syntaxError st1.lineCount)
end

mutual
/-- Function `parseStmt`. `fuel` bounds the depth of the calls between the
parsing functions. -/
def parseStmt (cfg : Config) : Nat → List Char → PState → Except Err (Stmt × PState)
  | 0, _, _ => .error .outOfFuel
  | fuel + 1, tok, st =>
    if tok = [Char.ofNat 123] then
      match parseCompound cfg fuel [] st with
      | .error e => .error e
      | .ok (stmtList, st1) => .ok (.Compound stmtList, st1)
    else if tok = "print".toList then
      match expectToken st with
      | .error e => .error e
      | .ok (tok1, st1) =>
        match parseExpr cfg fuel tok1 st1 with
        | .error e => .error e
        | .ok (arg, st2) =>
          match requireToken ";".toList st2 with
          | .error e => .error e
          | .ok st3 => .ok (.Print arg, st3)
    else if tok = "if".toList then
      match requireToken "(".toList st with
      | .error e => .error e
      | .ok st0 =>
        match expectToken st0 with
        | .error e => .error e
        | .ok (tok1, st1) =>
          match parseExpr cfg fuel tok1 st1 with
          | .error e => .error e
          | .ok (cond, st2) =>
            match requireToken ")".toList st2 with
            | .error e => .error e
            | .ok st3 =>
              match expectToken st3 with
              | .error e => .error e
              | .ok (tok2, st4) =>
                match parseStmt cfg fuel tok2 st4 with
                | .error e => .error e
                | .ok (body, st5) => .ok (.If cond body, st5)
    else if tok = "while".toList then
      match requireToken "(".toList st with
      | .error e => .error e
      | .ok st0 =>
        match expectToken st0 with
        | .error e => .error e
        | .ok (tok1, st1) =>
          match parseExpr cfg fuel tok1 st1 with
          | .error e => .error e
          | .ok (cond, st2) =>
            match requireToken ")".toList st2 with
            | .error e => .error e
            | .ok st3 =>
              match expectToken st3 with
              | .error e => .error e
              | .ok (tok2, st4) =>
                match parseStmt cfg fuel tok2 st4 with
                | .error e => .error e
                | .ok (body, st5) => .ok (.While cond body, st5)
    else if tok = "push".toList then
      match expectToken st with
      | .error e => .error e
      | .ok (tok1, st1) =>
        match parseExpr cfg fuel tok1 st1 with
        | .error e => .error e
        | .ok (seqArg, st2) =>
          match requireToken ",".toList st2 with
          | .error e => .error e
          | .ok st3 =>
            match expectToken st3 with
            | .error e => .error e
            | .ok (tok2, st4) =>
              match parseExpr cfg fuel tok2 st4 with
              | .error e => .error e
              | .ok (valArg, st5) =>
                match requireToken ";".toList st5 with
                | .error e => .error e
                | .ok st6 => .ok (.Push seqArg valArg, st6)
    else if isIdentifier cfg tok then
      match expectToken st with
      | .error e => .error e
      | .ok (tok1, st1) =>
        if tok1 = "=".toList then
          match expectToken st1 with
          | .error e => .error e
          | .ok (tok2, st2) =>
            match parseExpr cfg fuel tok2 st2 with
            | .error e => .error e
            | .ok (expr, st3) =>
              match requireToken ";".toList st3 with
              | .error e => .error e
              | .ok st4 => .ok (.Assignment tok none expr, st4)
        else if tok1 = "[".toList then
          match expectToken st1 with
          | .error e => .error e
          | .ok (tok2, st2) =>
            match parseExpr cfg fuel tok2 st2 with
            | .error e => .error e
            | .ok (iexpr, st3) =>
              match requireToken "]".toList st3 with
              | .error e => .error e
              | .ok st4 =>
                match requireToken "=".toList st4 with
                | .error e => .error e
                | .ok st5 =>
                  match expectToken st5 with
                  | .error e => .error e
                  | .ok (tok3, st6) =>
                    match parseExpr cfg fuel tok3 st6 with
                    | .error e => .error e
                    | .ok (expr, st7) =>
                      match requireToken ";".toList st7 with
                      | .error e => .error e
                      | .ok st8 => .ok (.Assignment tok (some iexpr) expr, st8)
        else .error (.syntaxError st1.lineCount)
    else .error (.syntaxError st.lineCount)
/-- The `while` loop of the compound case of `parseStmt`: statements are
collected until the closing brace. -/
def parseCompound (cfg : Config) : Nat → List Stmt → PState → Except Err (List Stmt × PState)
  | 0, _, _ => .error .outOfFuel
  | fuel + 1, stmtList, st =>
    match expectToken st with
    | .error e => .error e
    | .ok (tok, st1) =>
      if tok = [Char.ofNat 125] then .ok (stmtList, st1)
      else
        match parseStmt cfg fuel tok st1 with
        | .error e => .error e
        | .ok (stmt, st2) => parseCompound cfg fuel (stmtList ++ [stmt]) st2
end

/-! ## The driver (interpret.c) -/

/-- The loop of `main`: while there is a token, one statement is parsed and
executed on the same environment. `n` bounds the number of statements and
`fuel` is the budget of each parse and each execution. -/
def interpretLoop (cfg : Config) (fuel : Nat) : Nat → PState → ExecState → Except Fatal ExecState
  | 0, _, es => .error { err := .outOfFuel, out := es.out }
  | n + 1, st, es =>
    match liftEval es.out (parseToken st) with
    | .error f => .error f
    | .ok (none, _) => .ok es
    | .ok (some tok, st1) =>
      match liftEval es.out (parseStmt cfg fuel tok st1) with
      | .error f => .error f
      | .ok (stmt, st2) =>
        match execute cfg fuel stmt es with
        | .error f => .error f
        | .ok es1 => interpretLoop cfg fuel n st2 es1

/-- Function `main` on the text of the program file: the characters written to
standard output by a run that ends with `EXIT_SUCCESS`, or the fatal stop. -/
def interpret (cfg : Config) (fuel : Nat) (program : List Char) : Except Fatal (List Char) :=
  match interpretLoop cfg fuel fuel { input := program, lineCount := 1 }
      { env := makeEnvironment cfg, heap := [], out := [] } with
  | .error f => .error f
  | .ok es =>
    match liftEval es.out (freeEnvironment es.env es.heap) with
    | .error f => .error f
    | .ok _ => .ok es.out

/-! ## State invariants -/

/-- Every allocated sequence has a positive reference count. -/
def HeapPos (heap : Heap) : Prop :=
  ∀ h s, heap.deref h = some s → 1 ≤ s.ref

/-- The handles a value holds. -/
def handles : Value → List Nat
  | .IntType _ => []
  | .SeqType h => [h]

/-- The heap `cur` extends `base` with the references `owned` outstanding:
every sequence of `base` is still allocated in `cur` with the same elements
and capacity and with a reference count raised by at least the number of
times it is owned, and every owned sequence is allocated with at least that
many references. -/
structure Surplus (base cur : Heap) (owned : List Nat) : Prop where
  pos0 : HeapPos base
  pos : HeapPos cur
  len : base.length ≤ cur.length
  keep : ∀ h s, base.deref h = some s →
    ∃ s', cur.deref h = some s' ∧ s'.list = s.list ∧ s'.capacity = s.capacity ∧
      s.ref + (owned.count h : Int) ≤ s'.ref
  own : ∀ h, h ∈ owned → ∃ s', cur.deref h = some s' ∧ (owned.count h : Int) ≤ s'.ref

/-! ## Vocabulary of the statements -/

/-- A configuration for the concrete runs: room for five elements, arrays that
double, names of up to twenty characters. -/
def refConfig : Config := { INIT_CAP := 5, DOUBLE := 2, MAX_VAR_NAME := 20 }

/-- The four arithmetic operators of the language. -/
inductive ArithOp where
  | add
  | sub
  | mul
  | div
  deriving DecidableEq, Repr

/-- The character that writes an arithmetic operator. -/
def ArithOp.char : ArithOp → Char
  | .add => '+'
  | .sub => '-'
  | .mul => '*'
  | .div => '/'

/-- The node `parseExpr` builds for an arithmetic operator. -/
def ArithOp.build : ArithOp → Expr → Expr → Expr
  | .add => Expr.Add
  | .sub => Expr.Sub
  | .mul => Expr.Mul
  | .div => Expr.Div

/-- The `int` an arithmetic operator computes from two `int`s (the divisor of
a division is not 0). -/
def ArithOp.apply : ArithOp → Int → Int → Int
  | .add, a, b => wrapInt (a + b)
  | .sub, a, b => wrapInt (a - b)
  | .mul, a, b => wrapInt (a * b)
  | .div, a, b => wrapInt (Int.tdiv a b)

/-- The token `t` is an integer literal with value `v`: it fits in a token,
`parseTerm` reads it as a number, and the number fits in an `int`. -/
def IsIntLiteral (t : List Char) (v : Int) : Prop :=
  t.length ≤ MAX_TOKEN ∧ scanInt t = some v ∧ inIntRange v

/-- The text ` op1 t1 op2 t2 ...` that continues an expression: each operator
and each literal preceded by one space. -/
def operandsText : List (ArithOp × List Char × Int) → List Char
  | [] => []
  | (op, t, _) :: rest => ' ' :: op.char :: ' ' :: (t ++ operandsText rest)

/-- The tree `((e op1 t1) op2 t2) ...` nested to the left. -/
def leftNested (e : Expr) : List (ArithOp × List Char × Int) → Expr
  | [] => e
  | (op, _, v) :: rest => leftNested (op.build e (.LiteralInt v)) rest

/-- The operators applied from left to right, with no precedence. -/
def foldLeftToRight (a : Int) : List (ArithOp × List Char × Int) → Int
  | [] => a
  | (op, _, v) :: rest => foldLeftToRight (op.apply a v) rest

/-- No step of the fold divides `INT_MIN` by -1: every division has a
quotient that is an `int`. -/
def quotientsFit (a : Int) : List (ArithOp × List Char × Int) → Prop
  | [] => True
  | (op, _, v) :: rest =>
    ¬ (op = .div ∧ a = INT_MIN ∧ v = -1) ∧ quotientsFit (op.apply a v) rest

/-- How the callers of `parseExpr` use it: `parseExpr(expectToken(tok, fp), fp)`
reads the first token of the expression and parses from there. -/
def parseExprAt (cfg : Config) (fuel : Nat) (st : PState) : Except Err (Expr × PState) :=
  match expectToken st with
  | .error e => .error e
  | .ok (tok, st1) => parseExpr cfg fuel tok st1

/-- The lexicographic order on sequences in the words of the specification:
the elements are compared pairwise up to the shorter length, the first pair
that differs decides, and when no pair differs the shorter sequence is the
smaller one. -/
def lexLessSpec : List Int → List Int → Bool
  | [], [] => false
  | [], _ :: _ => true
  | _ :: _, [] => false
  | a :: as, b :: bs => if a < b then true else if b < a then false else lexLessSpec as bs

/-- The sequence initializer whose elements are the given integer literals. -/
def seqLiteral (vals : List Int) : Expr := .SequenceInitializer (vals.map .LiteralInt)

/-- The state a run starts in: the fresh environment, an empty heap, nothing
written. -/
def initialState (cfg : Config) : ExecState :=
  { env := makeEnvironment cfg, heap := [], out := [] }

/-- The first character of a number: a minus sign or a digit. -/
def numberStart (d : Char) : Prop := d = '-' ∨ isdigit d = true

/-- The characters that may follow a complete expression. -/
def terminatorChars : List Char := [';', ')', ']', ',']

/-- The statements `main` parses from the program text, one after another,
when no statement is executed in between: the parsing half of
`interpretLoop`. -/
def parseProgram (cfg : Config) (fuel : Nat) : Nat → PState → Except Err (List Stmt)
  | 0, _ => .error .outOfFuel
  | n + 1, st =>
    match parseToken st with
    | .error e => .error e
    | .ok (none, _) => .ok []
    | .ok (some tok, st1) =>
      match parseStmt cfg fuel tok st1 with
      | .error e => .error e
      | .ok (stmt, st2) =>
        match parseProgram cfg fuel n st2 with
        | .error e => .error e
        | .ok stmts => .ok (stmt :: stmts)

/-- The statements of a list executed one after the other, each on the state
the one before left, in the words of the specification: a left fold of the
list that stops at the first fatal error. -/
def runInOrder (exec : Stmt → ExecState → Except Fatal ExecState)
    (stmts : List Stmt) (st : ExecState) : Except Fatal ExecState :=
  stmts.foldlM (fun s stmt => exec stmt s) st

/-- The history of a `while` loop that ends: `WhileTrace cfg cond body n st st'`
says that from `st` the condition evaluated to a nonzero integer `n` times,
that the body ran to its end after each of them, that the condition then
evaluated to 0, and that `st'` is the state this last evaluation left. -/
inductive WhileTrace (cfg : Config) (cond : Expr) (body : Stmt) :
    Nat → ExecState → ExecState → Prop where
  | done (st : ExecState) (heap1 : Heap) :
    eval cfg cond st.env st.heap = .ok (.IntType 0, heap1) →
    WhileTrace cfg cond body 0 st { st with heap := heap1 }
  | step (n : Nat) (st st1 st2 : ExecState) (heap1 : Heap) (r : Int) (fuel : Nat) :
    eval cfg cond st.env st.heap = .ok (.IntType r, heap1) → r ≠ 0 →
    execute cfg fuel body { st with heap := heap1 } = .ok st1 →
    WhileTrace cfg cond body n st1 st2 →
    WhileTrace cfg cond body (n + 1) st st2

deriving instance DecidableEq for Except

/-- The heap `cur` extends `base` with the references `owned` outstanding, to
the count: besides `Surplus`, every sequence of `base` has in `cur` exactly
its old reference count plus the number of times it is owned; a cell of `base`
that was freed is still freed; and a cell allocated since is either freed or
has exactly as many references as it is owned. -/
structure Frame (base cur : Heap) (owned : List Nat) : Prop where
  surplus : Surplus base cur owned
  exact : ∀ h s, base.deref h = some s →
    ∃ s', cur.deref h = some s' ∧ s'.list = s.list ∧ s'.capacity = s.capacity ∧
      s'.ref = s.ref + (owned.count h : Int)
  dead : ∀ h, h < base.length → base.deref h = none → cur.deref h = none
  fresh : ∀ h s', base.length ≤ h → cur.deref h = some s' → s'.ref = (owned.count h : Int)

/-- Every sequence allocated in `heap'` was allocated in `heap` with the same
elements and the same capacity: between the two, reference counts changed and
sequences were freed, nothing else. -/
def Kept (heap heap' : Heap) : Prop :=
  ∀ h s', heap'.deref h = some s' →
    ∃ s, heap.deref h = some s ∧ s'.list = s.list ∧ s'.capacity = s.capacity

/-- Text that the tokenizer skips whole, in the words of the specification:
whitespace characters, and comments, each from its `#` to the newline that
ends it. -/
inductive Skipped : List Char → Prop where
  | done : Skipped []
  | space (c : Char) (t : List Char) : isspace c = true → Skipped t → Skipped (c :: t)
  | comment (body t : List Char) : (∀ c ∈ body, c ≠ newline) → Skipped t →
      Skipped ('#' :: (body ++ newline :: t))

/-- Text that consists solely of whitespace and comments: text that is skipped
whole, then possibly a last comment that the end of the input ends. -/
inductive OnlyBlank : List Char → Prop where
  | closed (t : List Char) : Skipped t → OnlyBlank t
  | unclosed (pre body : List Char) : Skipped pre → (∀ c ∈ body, c ≠ newline) →
      OnlyBlank (pre ++ '#' :: body)

/-- The characters that continue a word: the test of the identifier loop of
`parseToken`. -/
def wordChar (c : Char) : Bool := isalnum c || c = '_'

/-- The first character of a word: a letter or an underscore. -/
def wordStart (c : Char) : Prop := isalpha c = true ∨ c = '_'

/-- The two-character operators: `==`, `&&` and `||`. -/
def doubleOperator (c c2 : Char) : Prop :=
  (c = '=' ∧ c2 = '=') ∨ (c = '&' ∧ c2 = '&') ∨ (c = '|' ∧ c2 = '|')

/-- The first character of an operator token: a character that is not
whitespace, does not start a comment, a word, a number or a quoted literal. -/
def operatorStart (c : Char) : Prop :=
  isspace c = false ∧ c ≠ '#' ∧ isalpha c = false ∧ c ≠ '_' ∧ isdigit c = false ∧
  c ≠ '-' ∧ c ≠ dquote ∧ c ≠ squote

/-- The escapes of a quoted literal, in the words of the specification: the
character a backslash and `e` stand for, none when `e` makes no escape. -/
def decodeEscape (e : Char) : Option Char :=
  if e = 'n' then some newline
  else if e = 't' then some tab
  else if e = dquote then some dquote
  else if e = backslash then some backslash
  else none

/-- One item of the text between the quotes of a literal: a character that
stands for itself, or a backslash and the character after it. -/
inductive LitItem where
  | plain (c : Char)
  | escape (e : Char)
  deriving DecidableEq, Repr

/-- The characters of the program text that write the item. -/
def LitItem.raw : LitItem → List Char
  | .plain c => [c]
  | .escape e => [backslash, e]

/-- The character the item stands for. -/
def LitItem.decoded : LitItem → Char
  | .plain c => c
  | .escape e => (decodeEscape e).getD e

/-- The items that may stand between two quotes `quote`: a plain character
other than the quote, the newline and the backslash, and the four escapes. -/
def LitItem.valid (quote : Char) : LitItem → Prop
  | .plain c => c ≠ quote ∧ c ≠ newline ∧ c ≠ backslash
  | .escape e => (decodeEscape e).isSome = true

/-- The program text of a list of items. -/
def rawText : List LitItem → List Char
  | [] => []
  | it :: items => it.raw ++ rawText items

/-- The characters a list of items stands for. -/
def decodedText (items : List LitItem) : List Char := items.map LitItem.decoded

/-- The two quote characters. -/
def isQuote (quote : Char) : Prop := quote = dquote ∨ quote = squote

/-- Every allocated sequence fits its allocation: `count ≤ capacity`. -/
def HeapCap (heap : Heap) : Prop :=
  ∀ h s, heap.deref h = some s → s.count ≤ s.capacity

/-- The `for` loop of `evalSequenceInitializer` as the C program runs it on
an element that evaluates to a sequence: the loop makes no test of the type,
stores the member `ival` of the value and goes on, and no call releases the
sequence. `ival h` stands for the `int` that is read through the member
`ival` from a value that holds the sequence `h`; value.h, which is not among
the sources, determines it. On elements that evaluate to integers this is
`evalElems`. -/
def evalElemsUnchecked (cfg : Config) (ival : Nat → Int) :
    List Expr → Environment → Nat → Heap → Except Err Heap
  | [], _, _, heap => .ok heap
  | e :: es, env, h, heap =>
    match eval cfg e env heap with
    | .error err => .error err
    | .ok (.IntType i, heap1) =>
      match storeNext heap1 h i with
      | .error err => .error err
      | .ok heap2 => evalElemsUnchecked cfg ival es env h heap2
    | .ok (.SeqType s, heap1) =>
      match storeNext heap1 h (ival s) with
      | .error err => .error err
      | .ok heap2 => evalElemsUnchecked cfg ival es env h heap2

/-- Function `evalSequenceInitializer` with the loop `evalElemsUnchecked`. -/
def evalSequenceInitializerUnchecked (cfg : Config) (ival : Nat → Int) (exprs : List Expr)
    (env : Environment) (heap : Heap) : Except Err (Value × Heap) :=
  let (h, heap1) := makeSequence cfg heap
  let heap2 := reserve heap1 h exprs.length
  match evalElemsUnchecked cfg ival exprs env h heap2 with
  | .ok heap3 => .ok (.SeqType h, heap3)
  | .error e => .error e

/-- The number of records of the environment that hold the sequence `h`. -/
def held (env : Environment) (h : Nat) : Nat :=
  env.vlist.countP (fun r => decide (r.val = .SeqType h))

/-- The reference count of the cell `h`, 0 for a cell that is not
allocated. -/
def rc (heap : Heap) (h : Nat) : Int := ((heap.deref h).map Sequence.ref).getD 0

/-- The reference counts are those of the environment and nothing else: every
allocated sequence has a positive count, and the count of every cell is two
for each record that holds it, so that a sequence no record holds is not
allocated. -/
def Balanced (env : Environment) (heap : Heap) : Prop :=
  HeapPos heap ∧ ∀ h, rc heap h = 2 * (held env h : Int)

/-- The heap in which the sequence `h` has `v` as one more last element; room
in the allocation is not looked at. -/
def withElement (heap : Heap) (h : Nat) (v : Int) : Heap :=
  match heap.deref h with
  | some s => heap.set h (some { s with list := s.list ++ [v] })
  | none => heap

/-- The sub-expressions `es` of a sequence initializer evaluate, from left to
right, to the integers `vs`. Each one is evaluated in the heap the one before
left, in which the value of that one has become the next element of the
sequence `h` under construction; the last index is the heap after the last
sub-expression. -/
inductive ElementsEvaluateTo (cfg : Config) (env : Environment) (h : Nat) :
    List Expr → List Int → Heap → Heap → Prop where
  | nil (heap : Heap) : ElementsEvaluateTo cfg env h [] [] heap heap
  | cons (e : Expr) (es : List Expr) (v : Int) (vs : List Int) (heap heap1 heap' : Heap) :
      eval cfg e env heap = .ok (.IntType v, heap1) →
      ElementsEvaluateTo cfg env h es vs (withElement heap1 h v) heap' →
      ElementsEvaluateTo cfg env h (e :: es) (v :: vs) heap heap'

mutual
/-- The variable names stored in an expression tree. -/
def Expr.names : Expr → List (List Char)
  | .LiteralInt _ => []
  | .SequenceInitializer exprs => namesOfExprs exprs
  | .Add left right => left.names ++ right.names
  | .Sub left right => left.names ++ right.names
  | .Mul left right => left.names ++ right.names
  | .Div left right => left.names ++ right.names
  | .And left right => left.names ++ right.names
  | .Or left right => left.names ++ right.names
  | .Less left right => left.names ++ right.names
  | .Equals left right => left.names ++ right.names
  | .Len expr => expr.names
  | .SequenceIndex aexpr iexpr => aexpr.names ++ iexpr.names
  | .Variable name => [name]
/-- The variable names stored in a list of expression trees. -/
def namesOfExprs : List Expr → List (List Char)
  | [] => []
  | e :: es => e.names ++ namesOfExprs es
end

mutual
/-- The variable names stored in a statement tree: the assigned names and the
names of its expressions. -/
def Stmt.names : Stmt → List (List Char)
  | .Print expr => expr.names
  | .Compound stmtList => namesOfStmts stmtList
  | .If cond body => cond.names ++ body.names
  | .While cond body => cond.names ++ body.names
  | .Assignment name none expr => name :: expr.names
  | .Assignment name (some iexpr) expr => name :: (iexpr.names ++ expr.names)
  | .Push seqExpr valExpr => seqExpr.names ++ valExpr.names
/-- The variable names stored in a list of statement trees. -/
def namesOfStmts : List Stmt → List (List Char)
  | [] => []
  | s :: rest => s.names ++ namesOfStmts rest
end

/-! # Theorems -/

/-! ## The heap -/

theorem deref_some_lt {heap : Heap} {h : Nat} {s : Sequence}
    (hd : heap.deref h = some s) : h < heap.length := by
  unfold Heap.deref at hd
  by_contra hlt
  rw [List.getElem?_eq_none (Nat.le_of_not_lt hlt)] at hd
  simp at hd

theorem deref_length (heap : Heap) : heap.deref heap.length = none := by
  unfold Heap.deref
  rw [List.getElem?_eq_none (Nat.le_refl _)]
  rfl

theorem deref_set_self {heap : Heap} {h : Nat} (x : Option Sequence)
    (hlt : h < heap.length) : Heap.deref (heap.set h x) h = x := by
  unfold Heap.deref
  rw [List.getElem?_set_self hlt]
  rfl

theorem deref_set_ne {heap : Heap} {h h' : Nat} (x : Option Sequence)
    (hne : h ≠ h') : Heap.deref (heap.set h x) h' = heap.deref h' := by
  unfold Heap.deref
  rw [List.getElem?_set_ne hne]

theorem deref_append_left {heap : Heap} {h : Nat} (x : Option Sequence)
    (hlt : h < heap.length) : Heap.deref (heap ++ [x]) h = heap.deref h := by
  unfold Heap.deref
  rw [List.getElem?_append_left hlt]

theorem deref_append_new (heap : Heap) (x : Option Sequence) :
    Heap.deref (heap ++ [x]) heap.length = x := by
  unfold Heap.deref
  rw [List.getElem?_append_right (Nat.le_refl _)]
  simp

theorem Surplus.refl {heap : Heap} (hp : HeapPos heap) : Surplus heap heap [] where
  pos0 := hp
  pos := hp
  len := Nat.le_refl _
  keep := fun h s hd => ⟨s, hd, rfl, rfl, by simp⟩
  own := fun h hm => by simp at hm

theorem Surplus.trans {base mid cur : Heap} {owned new : List Nat}
    (h1 : Surplus base mid owned) (h2 : Surplus mid cur new) :
    Surplus base cur (owned ++ new) where
  pos0 := h1.pos0
  pos := h2.pos
  len := Nat.le_trans h1.len h2.len
  keep := by
    intro h s hd
    obtain ⟨s1, hd1, hl1, hc1, hr1⟩ := h1.keep h s hd
    obtain ⟨s2, hd2, hl2, hc2, hr2⟩ := h2.keep h s1 hd1
    refine ⟨s2, hd2, hl2.trans hl1, hc2.trans hc1, ?_⟩
    rw [List.count_append]; push_cast; omega
  own := by
    intro h hm
    by_cases ho : h ∈ owned
    · obtain ⟨s1, hd1, hr1⟩ := h1.own h ho
      obtain ⟨s2, hd2, _, _, hr2⟩ := h2.keep h s1 hd1
      refine ⟨s2, hd2, ?_⟩
      rw [List.count_append]; push_cast; omega
    · have hn : h ∈ new := by
        rcases List.mem_append.mp hm with h' | h'
        · exact absurd h' ho
        · exact h'
      obtain ⟨s2, hd2, hr2⟩ := h2.own h hn
      refine ⟨s2, hd2, ?_⟩
      rw [List.count_append, List.count_eq_zero_of_not_mem ho]; push_cast; omega

theorem Surplus.release {base cur : Heap} {owned : List Nat} {h : Nat}
    (hs : Surplus base cur owned) (hm : h ∈ owned) :
    ∃ cur', releaseSequence cur h = .ok cur' ∧ Surplus base cur' (owned.erase h) ∧
      ∀ h', h' ≠ h → Heap.deref cur' h' = Heap.deref cur h' := by
  obtain ⟨s, hd, hr⟩ := hs.own h hm
  have hc : 1 ≤ owned.count h := List.one_le_count_iff.mpr hm
  have hlt : h < cur.length := deref_some_lt hd
  have hcnt : ∀ h', (owned.erase h).count h' = owned.count h' - if h = h' then 1 else 0 := by
    intro h'
    rw [List.count_erase]
    by_cases e : h = h' <;> simp [e]
  unfold releaseSequence
  rw [hd]
  by_cases hz : s.ref - 1 ≤ 0
  · have h1 : s.ref = 1 := by omega
    have hc1 : owned.count h = 1 := by omega
    refine ⟨freeSequence cur h, by simp [h1], ?_, ?_⟩
    · refine ⟨hs.pos0, ?_, ?_, ?_, ?_⟩
      · intro h' s' hd'
        by_cases e : h = h'
        · subst e; unfold freeSequence at hd'; rw [deref_set_self _ hlt] at hd'; simp at hd'
        · unfold freeSequence at hd'; rw [deref_set_ne _ e] at hd'; exact hs.pos h' s' hd'
      · unfold freeSequence; simpa using hs.len
      · intro h' s0 hd0
        obtain ⟨s', hd', hl, hcap, hr'⟩ := hs.keep h' s0 hd0
        have hp0 := hs.pos0 h' s0 hd0
        by_cases e : h = h'
        · subst e
          rw [hd] at hd'; cases hd'
          omega
        · refine ⟨s', ?_, hl, hcap, ?_⟩
          · unfold freeSequence; rw [deref_set_ne _ e]; exact hd'
          · rw [hcnt, if_neg e]; simpa using hr'
      · intro h' hm'
        have hne : h ≠ h' := by
          intro e; subst e
          have : 1 ≤ (owned.erase h).count h := List.one_le_count_iff.mpr hm'
          rw [hcnt, if_pos rfl] at this; omega
        obtain ⟨s', hd', hr'⟩ := hs.own h' (List.mem_of_mem_erase hm')
        refine ⟨s', ?_, ?_⟩
        · unfold freeSequence; rw [deref_set_ne _ hne]; exact hd'
        · rw [hcnt, if_neg hne]; simpa using hr'
    · intro h' hne
      unfold freeSequence; rw [deref_set_ne _ (Ne.symm hne)]
  · refine ⟨cur.set h (some { s with ref := s.ref - 1 }), by simp [hz], ?_, ?_⟩
    · refine ⟨hs.pos0, ?_, ?_, ?_, ?_⟩
      · intro h' s' hd'
        by_cases e : h = h'
        · subst e; rw [deref_set_self _ hlt] at hd'; cases hd'; simp; omega
        · rw [deref_set_ne _ e] at hd'; exact hs.pos h' s' hd'
      · simpa using hs.len
      · intro h' s0 hd0
        obtain ⟨s', hd', hl, hcap, hr'⟩ := hs.keep h' s0 hd0
        by_cases e : h = h'
        · subst e
          rw [hd] at hd'; cases hd'
          refine ⟨_, deref_set_self _ hlt, hl, hcap, ?_⟩
          rw [hcnt, if_pos rfl]; simp only []; omega
        · refine ⟨s', ?_, hl, hcap, ?_⟩
          · rw [deref_set_ne _ e]; exact hd'
          · rw [hcnt, if_neg e]; simpa using hr'
      · intro h' hm'
        by_cases e : h = h'
        · subst e
          refine ⟨_, deref_set_self _ hlt, ?_⟩
          rw [hcnt, if_pos rfl]; simp only []; omega
        · obtain ⟨s', hd', hr'⟩ := hs.own h' (List.mem_of_mem_erase hm')
          refine ⟨s', ?_, ?_⟩
          · rw [deref_set_ne _ e]; exact hd'
          · rw [hcnt, if_neg e]; simpa using hr'
    · intro h' hne
      rw [deref_set_ne _ (Ne.symm hne)]

theorem Surplus.grab {heap : Heap} {h : Nat} {s : Sequence} (hp : HeapPos heap)
    (hd : heap.deref h = some s) :
    grabSequence heap h = .ok (heap.set h (some { s with ref := s.ref + 1 })) ∧
    Surplus heap (heap.set h (some { s with ref := s.ref + 1 })) [h] := by
  have hlt : h < heap.length := deref_some_lt hd
  refine ⟨by unfold grabSequence; rw [hd], hp, ?_, by simp, ?_, ?_⟩
  · intro h' s' hd'
    by_cases e : h = h'
    · subst e; rw [deref_set_self _ hlt] at hd'; cases hd'
      have := hp h s hd; simp only []; omega
    · rw [deref_set_ne _ e] at hd'; exact hp h' s' hd'
  · intro h' s0 hd0
    by_cases e : h = h'
    · subst e; rw [hd] at hd0; cases hd0
      exact ⟨_, deref_set_self _ hlt, rfl, rfl, by simp⟩
    · refine ⟨s0, by rw [deref_set_ne _ e]; exact hd0, rfl, rfl, ?_⟩
      simp [List.count_cons, e]
  · intro h' hm
    have e : h' = h := by simpa using hm
    subst e
    refine ⟨_, deref_set_self _ hlt, ?_⟩
    have := hp h' s hd
    simp; omega

theorem Surplus.storeNext {base cur cur' : Heap} {owned : List Nat} {h : Nat} {v : Int}
    (hs : Surplus base cur owned) (hb : base.deref h = none)
    (hst : storeNext cur h v = .ok cur') : Surplus base cur' owned := by
  unfold P6.storeNext at hst
  cases hd : cur.deref h with
  | none => rw [hd] at hst; simp at hst
  | some s =>
    rw [hd] at hst
    have hlt : h < cur.length := deref_some_lt hd
    by_cases hc : s.count < s.capacity
    · simp only [hc, if_true, Except.ok.injEq] at hst
      subst hst
      refine ⟨hs.pos0, ?_, by simpa using hs.len, ?_, ?_⟩
      · intro h' s' hd'
        by_cases e : h = h'
        · subst e; rw [deref_set_self _ hlt] at hd'; cases hd'; exact hs.pos h s hd
        · rw [deref_set_ne _ e] at hd'; exact hs.pos h' s' hd'
      · intro h' s0 hd0
        have e : h ≠ h' := by intro e; subst e; rw [hb] at hd0; cases hd0
        obtain ⟨s', hd', hrest⟩ := hs.keep h' s0 hd0
        exact ⟨s', by rw [deref_set_ne _ e]; exact hd', hrest⟩
      · intro h' hm
        obtain ⟨s', hd', hr'⟩ := hs.own h' hm
        by_cases e : h = h'
        · subst e; rw [hd] at hd'; cases hd'
          exact ⟨_, deref_set_self _ hlt, hr'⟩
        · exact ⟨s', by rw [deref_set_ne _ e]; exact hd', hr'⟩
    · simp [hc] at hst

theorem Surplus.newSequence (cfg : Config) {heap : Heap} (hp : HeapPos heap) (n : Nat) :
    Surplus heap (reserve (makeSequence cfg heap).2 heap.length n) [heap.length] ∧
    ∃ c, Heap.deref (reserve (makeSequence cfg heap).2 heap.length n) heap.length
      = some { capacity := c, list := [], ref := 1 } ∧ n ≤ c := by
  have hnew : Heap.deref (makeSequence cfg heap).2 heap.length
      = some { capacity := cfg.INIT_CAP, list := [], ref := 1 } := by
    unfold makeSequence; exact deref_append_new _ _
  have hlt : heap.length < (makeSequence cfg heap).2.length := by
    unfold makeSequence; simp
  have hold : ∀ h', h' ≠ heap.length →
      Heap.deref (reserve (makeSequence cfg heap).2 heap.length n) h'
        = Heap.deref (heap ++ [some { capacity := cfg.INIT_CAP, list := [], ref := 1 }]) h' := by
    intro h' hne
    unfold reserve; rw [hnew]
    by_cases hc : n ≥ cfg.INIT_CAP
    · simp only [hc, if_true]; rw [deref_set_ne _ (Ne.symm hne)]; rfl
    · simp only [hc, if_false]; rfl
  have hcell : ∃ c, Heap.deref (reserve (makeSequence cfg heap).2 heap.length n) heap.length
      = some { capacity := c, list := [], ref := 1 } ∧ n ≤ c := by
    unfold reserve; rw [hnew]
    by_cases hc : n ≥ cfg.INIT_CAP
    · simp only [hc, if_true]
      exact ⟨n, deref_set_self _ hlt, Nat.le_refl _⟩
    · simp only [hc, if_false]
      exact ⟨cfg.INIT_CAP, hnew, by omega⟩
  have hlen : (reserve (makeSequence cfg heap).2 heap.length n).length = heap.length + 1 := by
    unfold reserve; rw [hnew]
    by_cases hc : n ≥ cfg.INIT_CAP
    · simp only [hc, if_true]; unfold makeSequence; simp
    · simp only [hc, if_false]; unfold makeSequence; simp
  refine ⟨⟨hp, ?_, by omega, ?_, ?_⟩, hcell⟩
  · intro h' s' hd'
    by_cases e : h' = heap.length
    · subst e
      obtain ⟨c, hc, _⟩ := hcell
      rw [hc] at hd'; cases hd'; simp
    · rw [hold h' e] at hd'
      have hlt' : h' < heap.length := by
        have := deref_some_lt hd'
        simp at this; omega
      rw [deref_append_left _ hlt'] at hd'
      exact hp h' s' hd'
  · intro h' s0 hd0
    have hlt' : h' < heap.length := deref_some_lt hd0
    have e : h' ≠ heap.length := by omega
    refine ⟨s0, ?_, rfl, rfl, ?_⟩
    · rw [hold h' e, deref_append_left _ hlt']; exact hd0
    · simp [List.count_cons]; omega
  · intro h' hm
    have e : h' = heap.length := by simpa using hm
    subst e
    obtain ⟨c, hc, _⟩ := hcell
    exact ⟨_, hc, by simp⟩

theorem requireIntType_ok {v : Value} {a : Int} (h : requireIntType v = .ok a) :
    v = .IntType a := by
  cases v with
  | IntType i => simp [requireIntType] at h; rw [h]
  | SeqType s => simp [requireIntType] at h

theorem requireSeqType_ok {v : Value} {a : Nat} (h : requireSeqType v = .ok a) :
    v = .SeqType a := by
  cases v with
  | IntType i => simp [requireSeqType] at h
  | SeqType s => simp [requireSeqType] at h; rw [h]

/-- Two operands evaluated one after the other leave both their references
outstanding. -/
theorem Surplus.pair {heap heap1 heap2 : Heap} {v1 v2 : Value}
    (h1 : Surplus heap heap1 (handles v1)) (h2 : Surplus heap1 heap2 (handles v2)) :
    Surplus heap heap2 (handles v1 ++ handles v2) := Surplus.trans h1 h2

mutual
theorem eval_surplus (cfg : Config) : ∀ (e : Expr) (env : Environment) (heap : Heap)
    (v : Value) (heap' : Heap), HeapPos heap → eval cfg e env heap = .ok (v, heap') →
    Surplus heap heap' (handles v)
  | .LiteralInt val, env, heap, v, heap', hp, he => by
    simp only [eval, Except.ok.injEq, Prod.mk.injEq] at he
    obtain ⟨rfl, rfl⟩ := he
    exact Surplus.refl hp
  | .SequenceInitializer exprs, env, heap, v, heap', hp, he => by
    rw [eval] at he
    simp only [] at he
    obtain ⟨hs, _⟩ := Surplus.newSequence cfg hp exprs.length
    cases hel : evalElems cfg exprs env (makeSequence cfg heap).1
        (reserve (makeSequence cfg heap).2 (makeSequence cfg heap).1 exprs.length) with
    | error e => rw [hel] at he; cases he
    | ok heap3 =>
      rw [hel] at he
      simp only [Except.ok.injEq, Prod.mk.injEq] at he
      obtain ⟨rfl, rfl⟩ := he
      exact evalElems_surplus cfg exprs env heap.length heap _ _ _ hs (deref_length heap) hel
  | .Add left right, env, heap, v, heap', hp, he => by
    rw [eval] at he
    cases hl : eval cfg left env heap with
    | error e => rw [hl] at he; cases he
    | ok p1 =>
      obtain ⟨v1, heap1⟩ := p1
      rw [hl] at he; simp only [] at he
      have s1 := eval_surplus cfg left env heap v1 heap1 hp hl
      cases hr : eval cfg right env heap1 with
      | error e => rw [hr] at he; cases he
      | ok p2 =>
        obtain ⟨v2, heap2⟩ := p2
        rw [hr] at he; simp only [] at he
        have s2 := eval_surplus cfg right env heap1 v2 heap2 s1.pos hr
        cases v1 <;> cases v2 <;> simp [requireIntType] at he
        obtain ⟨rfl, rfl⟩ := he
        exact Surplus.pair s1 s2
  | .Sub left right, env, heap, v, heap', hp, he => by
    rw [eval] at he
    cases hl : eval cfg left env heap with
    | error e => rw [hl] at he; cases he
    | ok p1 =>
      obtain ⟨v1, heap1⟩ := p1
      rw [hl] at he; simp only [] at he
      have s1 := eval_surplus cfg left env heap v1 heap1 hp hl
      cases hr : eval cfg right env heap1 with
      | error e => rw [hr] at he; cases he
      | ok p2 =>
        obtain ⟨v2, heap2⟩ := p2
        rw [hr] at he; simp only [] at he
        have s2 := eval_surplus cfg right env heap1 v2 heap2 s1.pos hr
        cases v1 <;> cases v2 <;> simp [requireIntType] at he
        obtain ⟨rfl, rfl⟩ := he
        exact Surplus.pair s1 s2
  | .Mul left right, env, heap, v, heap', hp, he => by
    rw [eval] at he
    cases hl : eval cfg left env heap with
    | error e => rw [hl] at he; cases he
    | ok p1 =>
      obtain ⟨v1, heap1⟩ := p1
      rw [hl] at he; simp only [] at he
      have s1 := eval_surplus cfg left env heap v1 heap1 hp hl
      cases hr : eval cfg right env heap1 with
      | error e => rw [hr] at he; cases he
      | ok p2 =>
        obtain ⟨v2, heap2⟩ := p2
        rw [hr] at he; simp only [] at he
        have s2 := eval_surplus cfg right env heap1 v2 heap2 s1.pos hr
        cases v1 <;> cases v2 <;> simp [requireIntType] at he
        obtain ⟨rfl, rfl⟩ := he
        exact Surplus.pair s1 s2
  | .Div left right, env, heap, v, heap', hp, he => by
    rw [eval] at he
    cases hl : eval cfg left env heap with
    | error e => rw [hl] at he; cases he
    | ok p1 =>
      obtain ⟨v1, heap1⟩ := p1
      rw [hl] at he; simp only [] at he
      have s1 := eval_surplus cfg left env heap v1 heap1 hp hl
      cases hr : eval cfg right env heap1 with
      | error e => rw [hr] at he; cases he
      | ok p2 =>
        obtain ⟨v2, heap2⟩ := p2
        rw [hr] at he; simp only [] at he
        have s2 := eval_surplus cfg right env heap1 v2 heap2 s1.pos hr
        cases v1 with
        | SeqType h1 => cases v2 <;> simp [requireIntType] at he
        | IntType a =>
          cases v2 with
          | SeqType h2 => simp [requireIntType] at he
          | IntType b =>
            simp only [requireIntType] at he
            by_cases hb : b = 0
            · simp [hb] at he
            · rw [if_neg hb] at he
              split_ifs at he
              simp only [Except.ok.injEq, Prod.mk.injEq] at he
              obtain ⟨rfl, rfl⟩ := he
              exact Surplus.pair s1 s2
  | .And left right, env, heap, v, heap', hp, he => by
    rw [eval] at he
    cases hl : eval cfg left env heap with
    | error e => rw [hl] at he; cases he
    | ok p1 =>
      obtain ⟨v1, heap1⟩ := p1
      rw [hl] at he; simp only [] at he
      have s1 := eval_surplus cfg left env heap v1 heap1 hp hl
      cases v1 with
      | SeqType h1 => simp [requireIntType] at he
      | IntType a =>
        simp only [requireIntType] at he
        by_cases ha : a = 0
        · simp only [ha, if_true, Except.ok.injEq, Prod.mk.injEq] at he
          obtain ⟨rfl, rfl⟩ := he
          exact s1
        · simp only [ha, if_false] at he
          cases hr : eval cfg right env heap1 with
          | error e => rw [hr] at he; cases he
          | ok p2 =>
            obtain ⟨v2, heap2⟩ := p2
            rw [hr] at he; simp only [] at he
            have s2 := eval_surplus cfg right env heap1 v2 heap2 s1.pos hr
            cases v2 with
            | SeqType h2 => simp [requireIntType] at he
            | IntType b =>
              simp only [requireIntType, Except.ok.injEq, Prod.mk.injEq] at he
              obtain ⟨rfl, rfl⟩ := he
              exact Surplus.pair s1 s2
  | .Or left right, env, heap, v, heap', hp, he => by
    rw [eval] at he
    cases hl : eval cfg left env heap with
    | error e => rw [hl] at he; cases he
    | ok p1 =>
      obtain ⟨v1, heap1⟩ := p1
      rw [hl] at he; simp only [] at he
      have s1 := eval_surplus cfg left env heap v1 heap1 hp hl
      cases v1 with
      | SeqType h1 => simp [requireIntType] at he
      | IntType a =>
        simp only [requireIntType] at he
        by_cases ha : a = 0
        · simp only [ha, ne_eq, not_true_eq_false, if_false] at he
          cases hr : eval cfg right env heap1 with
          | error e => rw [hr] at he; cases he
          | ok p2 =>
            obtain ⟨v2, heap2⟩ := p2
            rw [hr] at he; simp only [] at he
            have s2 := eval_surplus cfg right env heap1 v2 heap2 s1.pos hr
            cases v2 with
            | SeqType h2 => simp [requireIntType] at he
            | IntType b =>
              simp only [requireIntType, Except.ok.injEq, Prod.mk.injEq] at he
              obtain ⟨rfl, rfl⟩ := he
              exact Surplus.pair s1 s2
        · simp only [ne_eq, ha, not_false_eq_true, if_true, Except.ok.injEq,
            Prod.mk.injEq] at he
          obtain ⟨rfl, rfl⟩ := he
          exact s1
  | .Less left right, env, heap, v, heap', hp, he => by
    rw [eval] at he
    cases hl : eval cfg left env heap with
    | error e => rw [hl] at he; cases he
    | ok p1 =>
      obtain ⟨v1, heap1⟩ := p1
      rw [hl] at he; simp only [] at he
      have s1 := eval_surplus cfg left env heap v1 heap1 hp hl
      cases hr : eval cfg right env heap1 with
      | error e => rw [hr] at he; cases he
      | ok p2 =>
        obtain ⟨v2, heap2⟩ := p2
        rw [hr] at he; simp only [] at he
        have s2 := eval_surplus cfg right env heap1 v2 heap2 s1.pos hr
        have s12 := Surplus.pair s1 s2
        cases v1 with
        | IntType a =>
          cases v2 with
          | IntType b =>
            simp only [Except.ok.injEq, Prod.mk.injEq] at he
            obtain ⟨rfl, rfl⟩ := he
            exact s12
          | SeqType h2 => simp at he
        | SeqType h1 =>
          cases v2 with
          | IntType b => simp at he
          | SeqType h2 =>
            simp only [handles, List.singleton_append] at s12
            obtain ⟨heap3, hr3, s3, _⟩ := Surplus.release s12 (List.mem_cons_self h1 [h2])
            rw [List.erase_cons_head] at s3
            obtain ⟨heap4, hr4, s4, _⟩ := Surplus.release s3 (List.mem_singleton_self h2)
            rw [List.erase_cons_head] at s4
            simp only [] at he
            cases hd1 : Heap.deref heap2 h1 with
            | none => rw [hd1] at he; simp at he
            | some q1 =>
              cases hd2 : Heap.deref heap2 h2 with
              | none => rw [hd1, hd2] at he; simp at he
              | some q2 =>
                rw [hd1, hd2] at he
                simp only [hr3, hr4, Except.ok.injEq, Prod.mk.injEq] at he
                obtain ⟨rfl, rfl⟩ := he
                exact s4
  | .Equals left right, env, heap, v, heap', hp, he => by
    rw [eval] at he
    cases hl : eval cfg left env heap with
    | error e => rw [hl] at he; cases he
    | ok p1 =>
      obtain ⟨v1, heap1⟩ := p1
      rw [hl] at he; simp only [] at he
      have s1 := eval_surplus cfg left env heap v1 heap1 hp hl
      cases hr : eval cfg right env heap1 with
      | error e => rw [hr] at he; cases he
      | ok p2 =>
        obtain ⟨v2, heap2⟩ := p2
        rw [hr] at he; simp only [] at he
        have s2 := eval_surplus cfg right env heap1 v2 heap2 s1.pos hr
        have s12 := Surplus.pair s1 s2
        cases v1 with
        | IntType a =>
          cases v2 with
          | IntType b =>
            simp only [Except.ok.injEq, Prod.mk.injEq] at he
            obtain ⟨rfl, rfl⟩ := he
            exact s12
          | SeqType h2 =>
            simp only [handles, List.nil_append] at s12
            obtain ⟨heap3, hr3, s3, _⟩ := Surplus.release s12 (List.mem_singleton_self h2)
            rw [List.erase_cons_head] at s3
            simp only [hr3, Except.ok.injEq, Prod.mk.injEq] at he
            obtain ⟨rfl, rfl⟩ := he
            exact s3
        | SeqType h1 =>
          cases v2 with
          | IntType b =>
            simp only [handles, List.append_nil] at s12
            obtain ⟨heap3, hr3, s3, _⟩ := Surplus.release s12 (List.mem_singleton_self h1)
            rw [List.erase_cons_head] at s3
            simp only [hr3, Except.ok.injEq, Prod.mk.injEq] at he
            obtain ⟨rfl, rfl⟩ := he
            exact s3
          | SeqType h2 =>
            simp only [handles, List.singleton_append] at s12
            obtain ⟨heap3, hr3, s3, _⟩ := Surplus.release s12 (List.mem_cons_self h1 [h2])
            rw [List.erase_cons_head] at s3
            obtain ⟨heap4, hr4, s4, _⟩ := Surplus.release s3 (List.mem_singleton_self h2)
            rw [List.erase_cons_head] at s4
            simp only [] at he
            cases hd1 : Heap.deref heap2 h1 with
            | none => rw [hd1] at he; simp at he
            | some q1 =>
              cases hd2 : Heap.deref heap2 h2 with
              | none => rw [hd1, hd2] at he; simp at he
              | some q2 =>
                rw [hd1, hd2] at he
                simp only [hr3, hr4, Except.ok.injEq, Prod.mk.injEq] at he
                obtain ⟨rfl, rfl⟩ := he
                exact s4
  | .Len expr, env, heap, v, heap', hp, he => by
    rw [eval] at he
    cases hl : eval cfg expr env heap with
    | error e => rw [hl] at he; cases he
    | ok p1 =>
      obtain ⟨v1, heap1⟩ := p1
      rw [hl] at he; simp only [] at he
      have s1 := eval_surplus cfg expr env heap v1 heap1 hp hl
      cases v1 with
      | IntType a => simp [requireSeqType] at he
      | SeqType h1 =>
        simp only [requireSeqType] at he
        simp only [handles] at s1
        obtain ⟨heap3, hr3, s3, _⟩ := Surplus.release s1 (List.mem_singleton_self h1)
        rw [List.erase_cons_head] at s3
        cases hd1 : Heap.deref heap1 h1 with
        | none => rw [hd1] at he; simp at he
        | some q1 =>
          rw [hd1] at he
          simp only [hr3, Except.ok.injEq, Prod.mk.injEq] at he
          obtain ⟨rfl, rfl⟩ := he
          exact s3
  | .SequenceIndex aexpr iexpr, env, heap, v, heap', hp, he => by
    rw [eval] at he
    cases hl : eval cfg aexpr env heap with
    | error e => rw [hl] at he; cases he
    | ok p1 =>
      obtain ⟨v1, heap1⟩ := p1
      rw [hl] at he; simp only [] at he
      have s1 := eval_surplus cfg aexpr env heap v1 heap1 hp hl
      cases hr : eval cfg iexpr env heap1 with
      | error e => rw [hr] at he; cases he
      | ok p2 =>
        obtain ⟨v2, heap2⟩ := p2
        rw [hr] at he; simp only [] at he
        have s2 := eval_surplus cfg iexpr env heap1 v2 heap2 s1.pos hr
        have s12 := Surplus.pair s1 s2
        cases v2 with
        | SeqType h2 => simp [requireIntType] at he
        | IntType i =>
          simp only [requireIntType] at he
          cases v1 with
          | IntType a => simp at he
          | SeqType h1 =>
            simp only [handles, List.append_nil] at s12
            obtain ⟨heap3, hr3, s3, _⟩ := Surplus.release s12 (List.mem_singleton_self h1)
            rw [List.erase_cons_head] at s3
            simp only [] at he
            cases hd1 : Heap.deref heap2 h1 with
            | none => rw [hd1] at he; simp at he
            | some q1 =>
              rw [hd1] at he; simp only [] at he
              by_cases hi : i > (q1.count : Int) - 1
              · simp [hi] at he
              · simp only [hi, if_false] at he
                cases hre : readElem q1 i with
                | error e => rw [hre] at he; simp at he
                | ok value =>
                  rw [hre] at he
                  simp only [hr3, Except.ok.injEq, Prod.mk.injEq] at he
                  obtain ⟨rfl, rfl⟩ := he
                  exact s3
  | .Variable name, env, heap, v, heap', hp, he => by
    rw [eval] at he
    cases hv : lookupVariable env name with
    | IntType i =>
      rw [hv] at he
      simp only [Except.ok.injEq, Prod.mk.injEq] at he
      obtain ⟨rfl, rfl⟩ := he
      exact Surplus.refl hp
    | SeqType h =>
      rw [hv] at he; simp only [] at he
      cases hd : Heap.deref heap h with
      | none => simp [grabSequence, hd] at he
      | some s =>
        obtain ⟨hg, sg⟩ := Surplus.grab hp hd
        rw [hg] at he
        simp only [Except.ok.injEq, Prod.mk.injEq] at he
        obtain ⟨rfl, rfl⟩ := he
        exact sg
theorem evalElems_surplus (cfg : Config) : ∀ (es : List Expr) (env : Environment) (h : Nat)
    (base cur : Heap) (owned : List Nat) (cur' : Heap), Surplus base cur owned →
    Heap.deref base h = none → evalElems cfg es env h cur = .ok cur' →
    Surplus base cur' owned
  | [], env, h, base, cur, owned, cur', hs, hb, he => by
    simp only [evalElems, Except.ok.injEq] at he
    subst he; exact hs
  | e :: es, env, h, base, cur, owned, cur', hs, hb, he => by
    rw [evalElems] at he
    cases hl : eval cfg e env cur with
    | error err => rw [hl] at he; cases he
    | ok p1 =>
      obtain ⟨v1, cur1⟩ := p1
      rw [hl] at he
      have s1 := eval_surplus cfg e env cur v1 cur1 hs.pos hl
      cases v1 with
      | SeqType h1 => simp at he
      | IntType i =>
        simp only [] at he
        have s01 := Surplus.trans hs s1
        simp only [handles, List.append_nil] at s01
        cases hst : storeNext cur1 h i with
        | error err => rw [hst] at he; cases he
        | ok cur2 =>
          rw [hst] at he; simp only [] at he
          exact evalElems_surplus cfg es env h base cur2 owned cur'
            (Surplus.storeNext s01 hb hst) hb he
end


/-! ## Comparison of sequences -/

theorem heapPos_nil : HeapPos [] := by
  intro h s hd
  simp [Heap.deref] at hd

theorem equalsLoop_iff : ∀ (l1 l2 : List Int), l1.length = l2.length →
    (equalsLoop l1 l2 = true ↔ l1 = l2)
  | [], [], _ => by simp [equalsLoop]
  | [], _ :: _, h => by simp at h
  | _ :: _, [], h => by simp at h
  | a :: l1, b :: l2, h => by
    have ih := equalsLoop_iff l1 l2 (by simpa using h)
    by_cases e : a = b
    · simp [equalsLoop, e, ih]
    · simp [equalsLoop, e]

theorem equalsSeq_eq (s1 s2 : Sequence) :
    equalsSeq s1 s2 = if s1.list = s2.list then 1 else 0 := by
  unfold equalsSeq Sequence.count
  by_cases hl : s1.list.length = s2.list.length
  · have hiff := equalsLoop_iff s1.list s2.list hl
    rw [if_neg (by simpa using hl)]
    by_cases e : s1.list = s2.list
    · rw [if_pos (hiff.mpr e), if_pos e]
    · rw [if_neg (fun hb => e (hiff.mp hb)), if_neg e]
  · have e : s1.list ≠ s2.list := fun e => hl (by rw [e])
    rw [if_pos (by simpa using hl), if_neg e]

theorem list_eq_iff_pointwise (l1 l2 : List Int) :
    l1 = l2 ↔ (l1.length = l2.length ∧ ∀ i, i < l1.length → l1[i]? = l2[i]?) := by
  constructor
  · intro e; subst e; exact ⟨rfl, fun _ _ => rfl⟩
  · intro ⟨hl, hp⟩
    apply List.ext_getElem?
    intro n
    by_cases hn : n < l1.length
    · exact hp n hn
    · rw [List.getElem?_eq_none (by omega), List.getElem?_eq_none (by omega)]

/-- The two operands of a comparison, evaluated one after the other from a heap
with positive reference counts, are both allocated, and the two releases that
follow succeed. -/
theorem two_sequences_released {cfg : Config} {e1 e2 : Expr} {env : Environment}
    {heap heap1 heap2 : Heap} {h1 h2 : Nat} (hp : HeapPos heap)
    (he1 : eval cfg e1 env heap = .ok (.SeqType h1, heap1))
    (he2 : eval cfg e2 env heap1 = .ok (.SeqType h2, heap2)) :
    ∃ s1 s2 heap3 heap4, Heap.deref heap2 h1 = some s1 ∧ Heap.deref heap2 h2 = some s2 ∧
      releaseSequence heap2 h1 = .ok heap3 ∧ releaseSequence heap3 h2 = .ok heap4 ∧
      Surplus heap heap4 [] := by
  have s1 := eval_surplus cfg e1 env heap _ _ hp he1
  have s2 := eval_surplus cfg e2 env heap1 _ _ s1.pos he2
  have s12 := Surplus.pair s1 s2
  simp only [handles, List.singleton_append] at s12
  obtain ⟨q1, hd1, _⟩ := s12.own h1 (List.mem_cons_self h1 [h2])
  obtain ⟨q2, hd2, _⟩ := s12.own h2 (by simp)
  obtain ⟨heap3, hr3, s3, _⟩ := Surplus.release s12 (List.mem_cons_self h1 [h2])
  rw [List.erase_cons_head] at s3
  obtain ⟨heap4, hr4, s4, _⟩ := Surplus.release s3 (List.mem_singleton_self h2)
  rw [List.erase_cons_head] at s4
  exact ⟨q1, q2, heap3, heap4, hd1, hd2, hr3, hr4, s4⟩

/-- One operand that is a sequence, with the other operand an integer: the
sequence is allocated and its release succeeds. -/
theorem one_sequence_released {cfg : Config} {e1 e2 : Expr} {env : Environment}
    {heap heap1 heap2 : Heap} {v1 v2 : Value} {h : Nat} (hp : HeapPos heap)
    (he1 : eval cfg e1 env heap = .ok (v1, heap1))
    (he2 : eval cfg e2 env heap1 = .ok (v2, heap2))
    (hh : handles v1 ++ handles v2 = [h]) :
    ∃ s heap3, Heap.deref heap2 h = some s ∧ releaseSequence heap2 h = .ok heap3 ∧
      Surplus heap heap3 [] := by
  have s1 := eval_surplus cfg e1 env heap _ _ hp he1
  have s2 := eval_surplus cfg e2 env heap1 _ _ s1.pos he2
  have s12 := Surplus.pair s1 s2
  rw [hh] at s12
  obtain ⟨q, hd, _⟩ := s12.own h (List.mem_singleton_self h)
  obtain ⟨heap3, hr3, s3, _⟩ := Surplus.release s12 (List.mem_singleton_self h)
  rw [List.erase_cons_head] at s3
  exact ⟨q, heap3, hd, hr3, s3⟩

theorem lessLoop_eq_lex : ∀ (l1 l2 : List Int), l1.length ≤ l2.length →
    (match lessLoop l1 l2 with
      | some r => r
      | none => if l1.length < l2.length then 1 else 0)
      = if lexLessSpec l1 l2 = true then (1 : Int) else 0
  | [], [], _ => by simp [lessLoop, lexLessSpec]
  | [], _ :: _, _ => by simp [lessLoop, lexLessSpec]
  | _ :: _, [], h => by simp at h
  | a :: l1, b :: l2, h => by
    have ih := lessLoop_eq_lex l1 l2 (by simpa using h)
    by_cases hab : a < b
    · simp [lessLoop, lexLessSpec, hab]
    · by_cases hba : b < a
      · simp [lessLoop, lexLessSpec, hab, hba]
      · simp only [lessLoop, lexLessSpec, hab, hba, if_false, gt_iff_lt, List.length_cons,
          Nat.add_lt_add_iff_right]
        exact ih

/-- On a left sequence that is not the longer one, the comparison of
`evalLess` is the lexicographic order; on a longer left sequence it is 0. -/
theorem lessSeq_eq (s1 s2 : Sequence) :
    (s1.count ≤ s2.count →
      lessSeq s1 s2 = if lexLessSpec s1.list s2.list = true then 1 else 0) ∧
    (s1.count > s2.count → lessSeq s1 s2 = 0) := by
  unfold lessSeq Sequence.count
  refine ⟨fun h => ?_, fun h => ?_⟩
  · rw [if_neg (by omega)]
    exact lessLoop_eq_lex s1.list s2.list h
  · rw [if_pos h]

/-! ## The claims -/

/-- C3, at the input where the code departs from it. The claim gives
`[1,2,3] < [2]` the value 1: the first pair of elements differs and 1 is the
smaller one, which is what the lexicographic order of the specification
(`lexLessSpec`) says. The code prints 0: `evalLess` returns 0 as soon as the
left sequence has more elements, before any pair is compared. On
`[1,2,3] < [1,3,2]` code and claim agree on 1. -/
theorem C3_longer_left_sequence_is_never_less :
    interpret refConfig 20 "print [1,2,3] < [2];".toList = .ok "0".toList ∧
    eval refConfig (.Less (seqLiteral [1, 2, 3]) (seqLiteral [2])) (makeEnvironment refConfig) []
      = .ok (.IntType 0, [none, none]) ∧
    lexLessSpec [1, 2, 3] [2] = true ∧
    interpret refConfig 20 "print [1,2,3] < [1,3,2];".toList = .ok "1".toList ∧
    lexLessSpec [1, 2, 3] [1, 3, 2] = true :=
  ⟨by rfl, by rfl, by rfl, by rfl, by rfl⟩

/-- C4. When both operands of `==` evaluate to sequences, the evaluation
succeeds with 1 if the two sequences have the same count and equal elements
at every position, and with 0 if not. Hence the comparison of a sequence with
itself gives 1, and the comparison gives the same value in both orders. -/
theorem C4_equals_compares_count_and_elements (cfg : Config) (e1 e2 : Expr)
    (env : Environment) (heap heap1 heap2 : Heap) (h1 h2 : Nat) (hp : HeapPos heap)
    (he1 : eval cfg e1 env heap = .ok (.SeqType h1, heap1))
    (he2 : eval cfg e2 env heap1 = .ok (.SeqType h2, heap2)) :
    ∃ s1 s2 heap4, Heap.deref heap2 h1 = some s1 ∧ Heap.deref heap2 h2 = some s2 ∧
      eval cfg (.Equals e1 e2) env heap = .ok (.IntType (equalsSeq s1 s2), heap4) ∧
      (equalsSeq s1 s2 = 1 ↔
        (s1.count = s2.count ∧ ∀ i, i < s1.count → s1.list[i]? = s2.list[i]?)) ∧
      (equalsSeq s1 s2 = 0 ↔
        ¬ (s1.count = s2.count ∧ ∀ i, i < s1.count → s1.list[i]? = s2.list[i]?)) ∧
      equalsSeq s1 s1 = 1 ∧ equalsSeq s1 s2 = equalsSeq s2 s1 := by
  obtain ⟨s1, s2, heap3, heap4, hd1, hd2, hr3, hr4, _⟩ := two_sequences_released hp he1 he2
  refine ⟨s1, s2, heap4, hd1, hd2, ?_, ?_, ?_, ?_, ?_⟩
  · rw [eval, he1]; simp only []; rw [he2]; simp only []
    rw [hd1, hd2]; simp only []; rw [hr3]; simp only []; rw [hr4]
  · rw [equalsSeq_eq]; unfold Sequence.count; rw [← list_eq_iff_pointwise]
    by_cases e : s1.list = s2.list <;> simp [e]
  · rw [equalsSeq_eq]; unfold Sequence.count; rw [← list_eq_iff_pointwise]
    by_cases e : s1.list = s2.list <;> simp [e]
  · rw [equalsSeq_eq]; simp
  · rw [equalsSeq_eq, equalsSeq_eq]
    by_cases e : s1.list = s2.list
    · simp [e]
    · have e' : ¬ s2.list = s1.list := fun x => e x.symm
      simp [e, e']

/-- C4 at `[1,2,3] == [1,2,3]`, and the two values the claim names. -/
theorem C4_equals_witness :
    (∃ s1 s2 heap4,
      Heap.deref [some ⟨5, [1, 2, 3], 1⟩, some ⟨5, [1, 2, 3], 1⟩] 0 = some s1 ∧
      Heap.deref [some ⟨5, [1, 2, 3], 1⟩, some ⟨5, [1, 2, 3], 1⟩] 1 = some s2 ∧
      eval refConfig (.Equals (seqLiteral [1, 2, 3]) (seqLiteral [1, 2, 3]))
        (makeEnvironment refConfig) [] = .ok (.IntType (equalsSeq s1 s2), heap4) ∧
      (equalsSeq s1 s2 = 1 ↔
        (s1.count = s2.count ∧ ∀ i, i < s1.count → s1.list[i]? = s2.list[i]?)) ∧
      (equalsSeq s1 s2 = 0 ↔
        ¬ (s1.count = s2.count ∧ ∀ i, i < s1.count → s1.list[i]? = s2.list[i]?)) ∧
      equalsSeq s1 s1 = 1 ∧ equalsSeq s1 s2 = equalsSeq s2 s1) ∧
    eval refConfig (.Equals (seqLiteral [1, 2, 3]) (seqLiteral [1, 2, 3]))
      (makeEnvironment refConfig) [] = .ok (.IntType 1, [none, none]) ∧
    eval refConfig (.Equals (seqLiteral [1, 2]) (seqLiteral [1, 2, 3]))
      (makeEnvironment refConfig) [] = .ok (.IntType 0, [none, none]) :=
  ⟨C4_equals_compares_count_and_elements refConfig (seqLiteral [1, 2, 3]) (seqLiteral [1, 2, 3])
      (makeEnvironment refConfig) [] [some ⟨5, [1, 2, 3], 1⟩]
      [some ⟨5, [1, 2, 3], 1⟩, some ⟨5, [1, 2, 3], 1⟩] 0 1 heapPos_nil (by rfl) (by rfl),
    by rfl, by rfl⟩

/-- C5. When one operand evaluates to an integer and the other to a sequence,
in either order, `==` succeeds with the integer 0 and `<` stops with
`Type mismatch`. -/
theorem C5_mixed_operands_equals_zero_less_fatal (cfg : Config) (e1 e2 : Expr)
    (env : Environment) (heap heap1 heap2 : Heap) (v1 v2 : Value) (hp : HeapPos heap)
    (he1 : eval cfg e1 env heap = .ok (v1, heap1))
    (he2 : eval cfg e2 env heap1 = .ok (v2, heap2))
    (hmix : (∃ a h, v1 = .IntType a ∧ v2 = .SeqType h) ∨
      (∃ h b, v1 = .SeqType h ∧ v2 = .IntType b)) :
    (∃ heap3, eval cfg (.Equals e1 e2) env heap = .ok (.IntType 0, heap3)) ∧
    eval cfg (.Less e1 e2) env heap = .error .typeMismatch := by
  rcases hmix with ⟨a, h, rfl, rfl⟩ | ⟨h, b, rfl, rfl⟩
  · obtain ⟨s, heap3, _, hr3, _⟩ := one_sequence_released (h := h) hp he1 he2 (by rfl)
    refine ⟨⟨heap3, ?_⟩, ?_⟩
    · rw [eval, he1]; simp only []; rw [he2]; simp only []; rw [hr3]
    · rw [eval, he1]; simp only []; rw [he2]
  · obtain ⟨s, heap3, _, hr3, _⟩ := one_sequence_released (h := h) hp he1 he2 (by rfl)
    refine ⟨⟨heap3, ?_⟩, ?_⟩
    · rw [eval, he1]; simp only []; rw [he2]; simp only []; rw [hr3]
    · rw [eval, he1]; simp only []; rw [he2]

/-- C5 at `7 == [1]` and `7 < [1]`. -/
theorem C5_mixed_operands_witness :
    ((∃ a h, Value.IntType 7 = .IntType a ∧ Value.SeqType 0 = .SeqType h) ∨
      (∃ h b, Value.IntType 7 = .SeqType h ∧ Value.SeqType 0 = .IntType b)) ∧
    ((∃ heap3, eval refConfig (.Equals (.LiteralInt 7) (seqLiteral [1]))
        (makeEnvironment refConfig) [] = .ok (.IntType 0, heap3)) ∧
      eval refConfig (.Less (.LiteralInt 7) (seqLiteral [1])) (makeEnvironment refConfig) []
        = .error .typeMismatch) :=
  ⟨Or.inl ⟨7, 0, rfl, rfl⟩,
    C5_mixed_operands_equals_zero_less_fatal refConfig (.LiteralInt 7) (seqLiteral [1])
      (makeEnvironment refConfig) [] [] [some ⟨5, [1], 1⟩] (.IntType 7) (.SeqType 0)
      heapPos_nil (by rfl) (by rfl) (Or.inl ⟨7, 0, rfl, rfl⟩)⟩


theorem wrapInt_of_inRange {x : Int} (h : inIntRange x) : wrapInt x = x := by
  unfold inIntRange INT_MIN INT_MAX at h
  unfold wrapInt
  omega

theorem tdiv_inRange {a b : Int} (ha : inIntRange a) (hb : inIntRange b)
    (hne : ¬ (a = INT_MIN ∧ b = -1)) : inIntRange (Int.tdiv a b) := by
  unfold inIntRange INT_MIN INT_MAX at *
  by_cases hb0 : b = 0
  · subst hb0; simp
  by_cases hb1 : b = -1
  · subst hb1
    have : a ≠ -2147483648 := fun h => hne ⟨h, rfl⟩
    have : Int.tdiv a (-1) = -a := by simp
    omega
  by_cases hb2 : b = 1
  · subst hb2
    have : Int.tdiv a 1 = a := by simp
    omega
  have h2 : 2 ≤ b.natAbs := by omega
  have habs : (Int.tdiv a b).natAbs ≤ a.natAbs / 2 := by
    rw [Int.natAbs_tdiv]
    exact Nat.div_le_div_left h2 (by omega)
  omega

/-- C6 as it is stated does not hold at `-2147483648 / -1`: the divisor is not
0, both operands are values of `int`, and the evaluation returns no quotient.
The quotient, 2147483648, is not an `int`; `evalDiv` tests the divisor for 0
only, and the division it then makes has no result the source determines. -/
theorem C6_int_min_by_minus_one_has_no_quotient :
    eval refConfig (.Div (.LiteralInt (-2147483648)) (.LiteralInt (-1)))
      (makeEnvironment refConfig) [] = .error .undefinedBehavior ∧
    (∀ (q : Int) (heap' : Heap),
      eval refConfig (.Div (.LiteralInt (-2147483648)) (.LiteralInt (-1)))
        (makeEnvironment refConfig) [] ≠ .ok (.IntType q, heap')) ∧
    (-1 : Int) ≠ 0 ∧ inIntRange (-2147483648) ∧ inIntRange (-1) ∧
    Int.tdiv (-2147483648) (-1) = 2147483648 ∧ ¬ inIntRange 2147483648 ∧
    interpret refConfig 10 "print -2147483648 / -1;".toList
      = .error { err := .undefinedBehavior, out := [] } := by
  have h : eval refConfig (.Div (.LiteralInt (-2147483648)) (.LiteralInt (-1)))
      (makeEnvironment refConfig) [] = .error .undefinedBehavior := by rfl
  refine ⟨h, ?_, by decide, by decide, by decide, by decide, by decide, by decide!⟩
  intro q heap' hq
  rw [h] at hq
  cases hq

/-- C6, amended. When both operands of `/` evaluate to integers `a` and `b`,
the evaluation stops with `Divide by zero` exactly when `b` is 0; and when
`b` is not 0 and the division is not that of `INT_MIN` by -1, it returns the
quotient truncated toward zero, which for operands that are values of `int`
is the quotient itself. The program `print 5 / 0;` stops with
`Divide by zero` and nothing written. -/
theorem C6_division_by_zero_is_fatal (cfg : Config) (e1 e2 : Expr) (env : Environment)
    (heap heap1 heap2 : Heap) (a b : Int)
    (he1 : eval cfg e1 env heap = .ok (.IntType a, heap1))
    (he2 : eval cfg e2 env heap1 = .ok (.IntType b, heap2)) :
    (eval cfg (.Div e1 e2) env heap = .error .divideByZero ↔ b = 0) ∧
    (b ≠ 0 → ¬ (a = INT_MIN ∧ b = -1) → eval cfg (.Div e1 e2) env heap
      = .ok (.IntType (wrapInt (Int.tdiv a b)), heap2)) ∧
    (inIntRange a → inIntRange b → ¬ (a = INT_MIN ∧ b = -1) →
      wrapInt (Int.tdiv a b) = Int.tdiv a b) ∧
    (∀ c : Config, interpret c 10 "print 5 / 0;".toList
      = .error { err := .divideByZero, out := [] }) := by
  have hev : eval cfg (.Div e1 e2) env heap
      = if b = 0 then .error .divideByZero
        else if a = INT_MIN ∧ b = -1 then .error .undefinedBehavior
        else .ok (.IntType (wrapInt (Int.tdiv a b)), heap2) := by
    rw [eval, he1]; simp only []; rw [he2]; simp only [requireIntType]
  refine ⟨?_, ?_, ?_, ?_⟩
  · rw [hev]
    by_cases hb : b = 0
    · simp [hb]
    · rw [if_neg hb]
      by_cases hm : a = INT_MIN ∧ b = -1
      · rw [if_pos hm]; simp [hb]
      · rw [if_neg hm]; simp [hb]
  · intro hb hm; rw [hev, if_neg hb, if_neg hm]
  · intro ha hb hne
    exact wrapInt_of_inRange (tdiv_inRange ha hb hne)
  · intro c; rfl

/-- C6, amended, at `7 / 2`. -/
theorem C6_division_witness :
    (eval refConfig (.Div (.LiteralInt 7) (.LiteralInt 2)) (makeEnvironment refConfig) []
        = .error .divideByZero ↔ (2 : Int) = 0) ∧
    ((2 : Int) ≠ 0 → ¬ ((7 : Int) = INT_MIN ∧ (2 : Int) = -1) →
      eval refConfig (.Div (.LiteralInt 7) (.LiteralInt 2))
        (makeEnvironment refConfig) [] = .ok (.IntType (wrapInt (Int.tdiv 7 2)), [])) ∧
    (inIntRange 7 → inIntRange 2 → ¬ ((7 : Int) = INT_MIN ∧ (2 : Int) = -1) →
      wrapInt (Int.tdiv 7 2) = Int.tdiv 7 2) ∧
    (∀ c : Config, interpret c 10 "print 5 / 0;".toList
      = .error { err := .divideByZero, out := [] }) :=
  C6_division_by_zero_is_fatal refConfig (.LiteralInt 7) (.LiteralInt 2)
    (makeEnvironment refConfig) [] [] [] 7 2 (by rfl) (by rfl)


/-- An arithmetic node whose operands evaluate to integers. -/
theorem eval_arith_int (cfg : Config) (op : ArithOp) (e1 e2 : Expr) (env : Environment)
    (heap heap1 heap2 : Heap) (a b : Int)
    (he1 : eval cfg e1 env heap = .ok (.IntType a, heap1))
    (he2 : eval cfg e2 env heap1 = .ok (.IntType b, heap2)) :
    eval cfg (op.build e1 e2) env heap =
      if op = .div ∧ b = 0 then .error .divideByZero
      else if op = .div ∧ a = INT_MIN ∧ b = -1 then .error .undefinedBehavior
      else .ok (.IntType (op.apply a b), heap2) := by
  cases op <;> simp only [ArithOp.build] <;> rw [eval, he1] <;> simp only [] <;>
    rw [he2] <;> simp [requireIntType, ArithOp.apply]

/-- An arithmetic node with an operand that evaluates to a sequence. -/
theorem eval_arith_seq (cfg : Config) (op : ArithOp) (e1 e2 : Expr) (env : Environment)
    (heap heap1 heap2 : Heap) (v1 v2 : Value)
    (he1 : eval cfg e1 env heap = .ok (v1, heap1))
    (he2 : eval cfg e2 env heap1 = .ok (v2, heap2))
    (hseq : (∃ h, v1 = .SeqType h) ∨ (∃ h, v2 = .SeqType h)) :
    eval cfg (op.build e1 e2) env heap = .error .typeMismatch := by
  have hv : ∀ a b, ¬ (v1 = .IntType a ∧ v2 = .IntType b) := by
    intro a b ⟨h1, h2⟩
    rcases hseq with ⟨h, hs⟩ | ⟨h, hs⟩
    · rw [hs] at h1; cases h1
    · rw [hs] at h2; cases h2
  cases v1 with
  | IntType a =>
    cases v2 with
    | IntType b => exact absurd ⟨rfl, rfl⟩ (hv a b)
    | SeqType h2 =>
      cases op <;> simp only [ArithOp.build] <;> rw [eval, he1] <;> simp only [] <;>
        rw [he2] <;> rfl
  | SeqType h1 =>
    cases v2 <;> cases op <;> simp only [ArithOp.build] <;> rw [eval, he1] <;>
      simp only [] <;> rw [he2] <;> rfl

/-- C7 as it is stated does not hold at `x / y` with `x` holding -2147483648
and `y` holding -1: both operands are integers, and the evaluation neither
returns an integer nor stops with `Divide by zero` (nor with
`Type mismatch`). The quotient is not an `int` and the division `evalDiv`
makes has no result the source determines. -/
theorem C7_int_min_by_minus_one_returns_nothing :
    eval refConfig (ArithOp.div.build (.Variable "x".toList) (.Variable "y".toList))
      (Environment.mk [VarRec.mk "x".toList (.IntType (-2147483648)),
        VarRec.mk "y".toList (.IntType (-1))] 5) [] = .error .undefinedBehavior ∧
    (∀ (q : Int) (heap' : Heap),
      eval refConfig (ArithOp.div.build (.Variable "x".toList) (.Variable "y".toList))
        (Environment.mk [VarRec.mk "x".toList (.IntType (-2147483648)),
          VarRec.mk "y".toList (.IntType (-1))] 5) [] ≠ .ok (.IntType q, heap')) ∧
    eval refConfig (ArithOp.div.build (.Variable "x".toList) (.Variable "y".toList))
      (Environment.mk [VarRec.mk "x".toList (.IntType (-2147483648)),
        VarRec.mk "y".toList (.IntType (-1))] 5) [] ≠ .error .divideByZero ∧
    interpret refConfig 20 "x = -2147483648; y = -1; print x / y;".toList
      = .error { err := .undefinedBehavior, out := [] } := by
  have h : eval refConfig (ArithOp.div.build (.Variable "x".toList) (.Variable "y".toList))
      (Environment.mk [VarRec.mk "x".toList (.IntType (-2147483648)),
        VarRec.mk "y".toList (.IntType (-1))] 5) [] = .error .undefinedBehavior := by rfl
  refine ⟨h, ?_, ?_, by decide!⟩
  · intro q heap' hq
    rw [h] at hq
    cases hq
  · intro hq
    rw [h] at hq
    cases hq

/-- C7, amended. For each of `+ - * /`, once both operands have evaluated: if
either value is a sequence the evaluation stops with `Type mismatch`; if both
are integers it returns an integer, except that `/` with divisor 0 stops with
`Divide by zero`, and except for the division of `INT_MIN` by -1, of which
nothing is said. -/
theorem C7_arithmetic_requires_integers (cfg : Config) (op : ArithOp) (e1 e2 : Expr)
    (env : Environment) (heap heap1 heap2 : Heap) (v1 v2 : Value)
    (he1 : eval cfg e1 env heap = .ok (v1, heap1))
    (he2 : eval cfg e2 env heap1 = .ok (v2, heap2)) :
    (((∃ h, v1 = .SeqType h) ∨ (∃ h, v2 = .SeqType h)) →
      eval cfg (op.build e1 e2) env heap = .error .typeMismatch) ∧
    (∀ a b, v1 = .IntType a → v2 = .IntType b →
      (¬ (op = .div ∧ b = 0) → ¬ (op = .div ∧ a = INT_MIN ∧ b = -1) →
        eval cfg (op.build e1 e2) env heap = .ok (.IntType (op.apply a b), heap2)) ∧
      ((op = .div ∧ b = 0) →
        eval cfg (op.build e1 e2) env heap = .error .divideByZero)) := by
  refine ⟨fun hseq => eval_arith_seq cfg op e1 e2 env heap heap1 heap2 v1 v2 he1 he2 hseq, ?_⟩
  intro a b ha hb
  subst ha; subst hb
  have hev := eval_arith_int cfg op e1 e2 env heap heap1 heap2 a b he1 he2
  exact ⟨fun hn hm => by rw [hev, if_neg hn, if_neg hm], fun hd => by rw [hev, if_pos hd]⟩

/-- C7, amended, at `[1] * 2` (and the same theorem gives 6 for `3 * 2`). -/
theorem C7_arithmetic_witness :
    ((((∃ h, Value.SeqType 0 = .SeqType h) ∨ (∃ h, Value.IntType 2 = .SeqType h)) →
      eval refConfig (ArithOp.mul.build (seqLiteral [1]) (.LiteralInt 2))
        (makeEnvironment refConfig) [] = .error .typeMismatch) ∧
    (∀ a b, Value.SeqType 0 = .IntType a → Value.IntType 2 = .IntType b →
      (¬ (ArithOp.mul = .div ∧ b = 0) → ¬ (ArithOp.mul = .div ∧ a = INT_MIN ∧ b = -1) →
        eval refConfig (ArithOp.mul.build (seqLiteral [1]) (.LiteralInt 2))
          (makeEnvironment refConfig) []
          = .ok (.IntType (ArithOp.mul.apply a b), [some ⟨5, [1], 1⟩])) ∧
      ((ArithOp.mul = .div ∧ b = 0) →
        eval refConfig (ArithOp.mul.build (seqLiteral [1]) (.LiteralInt 2))
          (makeEnvironment refConfig) [] = .error .divideByZero))) ∧
    eval refConfig (ArithOp.mul.build (.LiteralInt 3) (.LiteralInt 2))
      (makeEnvironment refConfig) [] = .ok (.IntType 6, []) :=
  ⟨C7_arithmetic_requires_integers refConfig .mul (seqLiteral [1]) (.LiteralInt 2)
      (makeEnvironment refConfig) [] [some ⟨5, [1], 1⟩] [some ⟨5, [1], 1⟩]
      (.SeqType 0) (.IntType 2) (by rfl) (by rfl),
    ((C7_arithmetic_requires_integers refConfig .mul (.LiteralInt 3) (.LiteralInt 2)
      (makeEnvironment refConfig) [] [] [] (.IntType 3) (.IntType 2) (by rfl) (by rfl)).2
      3 2 rfl rfl).1 (by decide) (by decide)⟩

/-- C8. Once the left operand of `&&` or `||` has evaluated to `v1`:
* `v1` a sequence: both operators stop with `Type mismatch`;
* `v1` the integer 0: `&&` returns 0 on the heap the left operand left, whatever
  the right operand is (it is not evaluated);
* `v1` a nonzero integer: `||` returns that integer on the heap the left
  operand left, whatever the right operand is;
* in the two remaining cases the right operand is evaluated: its error is the
  error of the whole, its integer value is the result, and a sequence value
  is a `Type mismatch`. -/
theorem C8_logical_operators_short_circuit (cfg : Config) (l r : Expr)
    (env : Environment) (heap heap1 : Heap) (v1 : Value)
    (hl : eval cfg l env heap = .ok (v1, heap1)) :
    ((∃ h, v1 = .SeqType h) →
      eval cfg (.And l r) env heap = .error .typeMismatch ∧
      eval cfg (.Or l r) env heap = .error .typeMismatch) ∧
    (v1 = .IntType 0 → eval cfg (.And l r) env heap = .ok (.IntType 0, heap1)) ∧
    (∀ a, v1 = .IntType a → a ≠ 0 →
      eval cfg (.Or l r) env heap = .ok (.IntType a, heap1)) ∧
    (∀ a, v1 = .IntType a → a ≠ 0 →
      eval cfg (.And l r) env heap =
        match eval cfg r env heap1 with
        | .error e => .error e
        | .ok (.IntType b, heap2) => .ok (.IntType b, heap2)
        | .ok (.SeqType _, _) => .error .typeMismatch) ∧
    (v1 = .IntType 0 →
      eval cfg (.Or l r) env heap =
        match eval cfg r env heap1 with
        | .error e => .error e
        | .ok (.IntType b, heap2) => .ok (.IntType b, heap2)
        | .ok (.SeqType _, _) => .error .typeMismatch) := by
  refine ⟨?_, ?_, ?_, ?_, ?_⟩
  · rintro ⟨h, rfl⟩
    constructor
    · rw [eval, hl]; rfl
    · rw [eval, hl]; rfl
  · intro hv; subst hv
    rw [eval, hl]; simp [requireIntType]
  · intro a hv ha; subst hv
    rw [eval, hl]; simp [requireIntType, ha]
  · intro a hv ha; subst hv
    rw [eval, hl]; simp only [requireIntType, ha, if_false]
    cases hr : eval cfg r env heap1 with
    | error e => rfl
    | ok p =>
      obtain ⟨v2, heap2⟩ := p
      cases v2 <;> rfl
  · intro hv; subst hv
    rw [eval, hl]; simp only [requireIntType, ne_eq, not_true_eq_false, if_false]
    cases hr : eval cfg r env heap1 with
    | error e => rfl
    | ok p =>
      obtain ⟨v2, heap2⟩ := p
      cases v2 <;> rfl

/-- C8 at `0 && (1 / 0)`: the right operand would stop with `Divide by zero`,
and the whole evaluates to 0; likewise `5 || ([1] + 1)` evaluates to 5. -/
theorem C8_logical_operators_witness :
    eval refConfig (.Div (.LiteralInt 1) (.LiteralInt 0)) (makeEnvironment refConfig) []
      = .error .divideByZero ∧
    eval refConfig (.And (.LiteralInt 0) (.Div (.LiteralInt 1) (.LiteralInt 0)))
      (makeEnvironment refConfig) [] = .ok (.IntType 0, []) ∧
    eval refConfig (.Add (seqLiteral [1]) (.LiteralInt 1)) (makeEnvironment refConfig) []
      = .error .typeMismatch ∧
    eval refConfig (.Or (.LiteralInt 5) (.Add (seqLiteral [1]) (.LiteralInt 1)))
      (makeEnvironment refConfig) [] = .ok (.IntType 5, []) :=
  ⟨by rfl,
    (C8_logical_operators_short_circuit refConfig (.LiteralInt 0)
      (.Div (.LiteralInt 1) (.LiteralInt 0)) (makeEnvironment refConfig) [] []
      (.IntType 0) (by rfl)).2.1 rfl,
    by rfl,
    (C8_logical_operators_short_circuit refConfig (.LiteralInt 5)
      (.Add (seqLiteral [1]) (.LiteralInt 1)) (makeEnvironment refConfig) [] []
      (.IntType 5) (by rfl)).2.2.1 5 rfl (by decide)⟩


/-- The operand of `len` or the left operand of an index, evaluated from a
heap with positive reference counts, is allocated; its release succeeds and
leaves every sequence of the starting heap allocated with the same
elements. -/
theorem sequence_operand_released {cfg : Config} {e1 e2 : Expr} {env : Environment}
    {heap heap1 heap2 : Heap} {h : Nat} {v2 : Value} (hp : HeapPos heap)
    (he1 : eval cfg e1 env heap = .ok (.SeqType h, heap1))
    (he2 : eval cfg e2 env heap1 = .ok (v2, heap2)) (hv2 : handles v2 = []) :
    ∃ s heap3, Heap.deref heap2 h = some s ∧ releaseSequence heap2 h = .ok heap3 ∧
      (∀ s1, Heap.deref heap1 h = some s1 → s.list = s1.list) ∧
      ∀ h' s', Heap.deref heap h' = some s' →
        ∃ s'', Heap.deref heap3 h' = some s'' ∧ s''.list = s'.list := by
  have s1 := eval_surplus cfg e1 env heap _ _ hp he1
  have s2 := eval_surplus cfg e2 env heap1 _ _ s1.pos he2
  obtain ⟨q, heap3, hd, hr3, s3⟩ :=
    one_sequence_released (h := h) hp he1 he2 (by rw [hv2]; rfl)
  refine ⟨q, heap3, hd, hr3, ?_, ?_⟩
  · intro q1 hq1
    obtain ⟨q2, hq2, hl, _⟩ := s2.keep h q1 hq1
    rw [hd] at hq2; cases hq2; exact hl
  · intro h' s' hd'
    obtain ⟨s'', hd'', hl, _⟩ := s3.keep h' s' hd'
    exact ⟨s'', hd'', hl⟩

/-- The cell of a sequence just made and reserved: no elements, one
reference. -/
theorem newSequence_cell (cfg : Config) (heap : Heap) (n : Nat) :
    ∃ c, Heap.deref (reserve (makeSequence cfg heap).2 heap.length n) heap.length
      = some { capacity := c, list := [], ref := 1 } := by
  have hnew : Heap.deref (makeSequence cfg heap).2 heap.length
      = some { capacity := cfg.INIT_CAP, list := [], ref := 1 } := by
    unfold makeSequence; exact deref_append_new _ _
  have hlt : heap.length < (makeSequence cfg heap).2.length := by
    unfold makeSequence; simp
  unfold reserve; rw [hnew]
  by_cases hc : n ≥ cfg.INIT_CAP
  · simp only [hc, if_true]
    exact ⟨n, deref_set_self _ hlt⟩
  · simp only [hc, if_false]
    exact ⟨cfg.INIT_CAP, hnew⟩

/-- C9. Once the operand of `len` has evaluated from a heap with positive
reference counts: if the value is a sequence, `len` returns its element count
as an integer, and every sequence that was allocated before the evaluation is
still allocated with the same elements; if the value is an integer, `len`
stops with `Type mismatch`. For the empty initializer the result is 0. -/
theorem C9_len_returns_count (cfg : Config) (e : Expr) (env : Environment)
    (heap heap1 : Heap) (v : Value) (hp : HeapPos heap)
    (he : eval cfg e env heap = .ok (v, heap1)) :
    (∀ h, v = .SeqType h →
      ∃ s heap2, Heap.deref heap1 h = some s ∧
        eval cfg (.Len e) env heap = .ok (.IntType (s.count : Int), heap2) ∧
        ∀ h' s', Heap.deref heap h' = some s' →
          ∃ s'', Heap.deref heap2 h' = some s'' ∧ s''.list = s'.list) ∧
    (∀ a, v = .IntType a → eval cfg (.Len e) env heap = .error .typeMismatch) ∧
    (∀ (c : Config) (env0 : Environment) (heap0 : Heap), ∃ heap2,
      eval c (.Len (.SequenceInitializer [])) env0 heap0 = .ok (.IntType 0, heap2)) := by
  refine ⟨?_, ?_, ?_⟩
  · intro h hv; subst hv
    have s1 := eval_surplus cfg e env heap _ _ hp he
    simp only [handles] at s1
    obtain ⟨s, hd, _⟩ := s1.own h (List.mem_singleton_self h)
    obtain ⟨heap2, hr, s2, _⟩ := Surplus.release s1 (List.mem_singleton_self h)
    rw [List.erase_cons_head] at s2
    refine ⟨s, heap2, hd, ?_, ?_⟩
    · rw [eval, he]; simp only [requireSeqType]; rw [hd]; simp only []; rw [hr]
    · intro h' s' hd'
      obtain ⟨s'', hd'', hl, _⟩ := s2.keep h' s' hd'
      exact ⟨s'', hd'', hl⟩
  · intro a hv; subst hv
    rw [eval, he]; rfl
  · intro c env0 heap0
    obtain ⟨cap, hcell⟩ := newSequence_cell c heap0 0
    refine ⟨freeSequence (reserve (makeSequence c heap0).2 heap0.length 0) heap0.length, ?_⟩
    have hel : eval c (.SequenceInitializer []) env0 heap0
        = .ok (.SeqType heap0.length, reserve (makeSequence c heap0).2 heap0.length 0) := by
      rw [eval]; rfl
    rw [eval, hel]
    simp only [requireSeqType]
    rw [hcell]
    simp [releaseSequence, hcell, Sequence.count]

/-- C9 at `len [4,5]`, which is 2, and at `len 3`. -/
theorem C9_len_witness :
    (∀ h, Value.SeqType 0 = .SeqType h →
      ∃ s heap2, Heap.deref [some ⟨5, [4, 5], 1⟩] h = some s ∧
        eval refConfig (.Len (seqLiteral [4, 5])) (makeEnvironment refConfig) []
          = .ok (.IntType (s.count : Int), heap2) ∧
        ∀ h' s', Heap.deref [] h' = some s' →
          ∃ s'', Heap.deref heap2 h' = some s'' ∧ s''.list = s'.list) ∧
    eval refConfig (.Len (seqLiteral [4, 5])) (makeEnvironment refConfig) []
      = .ok (.IntType 2, [none]) ∧
    eval refConfig (.Len (.LiteralInt 3)) (makeEnvironment refConfig) []
      = .error .typeMismatch :=
  ⟨(C9_len_returns_count refConfig (seqLiteral [4, 5]) (makeEnvironment refConfig) []
      [some ⟨5, [4, 5], 1⟩] (.SeqType 0) heapPos_nil (by rfl)).1,
    by rfl,
    (C9_len_returns_count refConfig (.LiteralInt 3) (makeEnvironment refConfig) []
      [] (.IntType 3) heapPos_nil (by rfl)).2.1 3 rfl⟩


/-- C10. Once the left operand of an index expression has evaluated to a
sequence and the right operand to the integer `k`, from a heap with positive
reference counts, the sequence is allocated, with count n say, and: if
`0 ≤ k < n` the expression returns the element stored at position `k`; if
`k ≥ n` it stops with `Index out of bounds`. Indexing the empty initializer
at 0 stops with `Index out of bounds`. -/
theorem C10_index_reads_element_or_is_out_of_bounds (cfg : Config) (aexpr iexpr : Expr)
    (env : Environment) (heap heap1 heap2 : Heap) (h : Nat) (k : Int) (hp : HeapPos heap)
    (ha : eval cfg aexpr env heap = .ok (.SeqType h, heap1))
    (hi : eval cfg iexpr env heap1 = .ok (.IntType k, heap2)) :
    (∃ s, Heap.deref heap2 h = some s ∧
      ((0 ≤ k ∧ k < (s.count : Int)) → ∃ x heap3, s.list[k.toNat]? = some x ∧
        eval cfg (.SequenceIndex aexpr iexpr) env heap = .ok (.IntType x, heap3)) ∧
      (k ≥ (s.count : Int) →
        eval cfg (.SequenceIndex aexpr iexpr) env heap = .error .indexOutOfBounds)) ∧
    (∀ (c : Config) (env0 : Environment) (heap0 : Heap),
      eval c (.SequenceIndex (.SequenceInitializer []) (.LiteralInt 0)) env0 heap0
        = .error .indexOutOfBounds) := by
  refine ⟨?_, ?_⟩
  · obtain ⟨s, heap3, hd, hr, _, _⟩ :=
      sequence_operand_released hp ha hi (rfl : handles (Value.IntType k) = [])
    refine ⟨s, hd, ?_, ?_⟩
    · intro ⟨hk0, hkn⟩
      have hlt : k.toNat < s.list.length := by
        unfold Sequence.count at hkn; omega
      refine ⟨s.list[k.toNat], heap3, List.getElem?_eq_getElem hlt, ?_⟩
      rw [eval, ha]; simp only []; rw [hi]; simp only [requireIntType]
      rw [hd]; simp only []
      rw [if_neg (by omega)]
      have hre : readElem s k = .ok s.list[k.toNat] := by
        unfold readElem
        rw [if_neg (by omega), List.getElem?_eq_getElem hlt]
      rw [hre]; simp only []; rw [hr]
    · intro hkn
      rw [eval, ha]; simp only []; rw [hi]; simp only [requireIntType]
      rw [hd]; simp only []
      rw [if_pos (by omega)]
  · intro c env0 heap0
    obtain ⟨cap, hcell⟩ := newSequence_cell c heap0 0
    have hel : eval c (.SequenceInitializer []) env0 heap0
        = .ok (.SeqType heap0.length, reserve (makeSequence c heap0).2 heap0.length 0) := by
      rw [eval]; rfl
    rw [eval, hel]
    simp only [eval, requireIntType]
    rw [hcell]
    simp [Sequence.count]

/-- C10 at `[7,8,9][1]`, which is 8, and at `[7,8,9][3]`. -/
theorem C10_index_witness :
    (∃ s, Heap.deref [some ⟨5, [7, 8, 9], 1⟩] 0 = some s ∧
      ((0 ≤ (1 : Int) ∧ (1 : Int) < (s.count : Int)) → ∃ x heap3,
        s.list[(1 : Int).toNat]? = some x ∧
        eval refConfig (.SequenceIndex (seqLiteral [7, 8, 9]) (.LiteralInt 1))
          (makeEnvironment refConfig) [] = .ok (.IntType x, heap3)) ∧
      ((1 : Int) ≥ (s.count : Int) →
        eval refConfig (.SequenceIndex (seqLiteral [7, 8, 9]) (.LiteralInt 1))
          (makeEnvironment refConfig) [] = .error .indexOutOfBounds)) ∧
    eval refConfig (.SequenceIndex (seqLiteral [7, 8, 9]) (.LiteralInt 1))
      (makeEnvironment refConfig) [] = .ok (.IntType 8, [none]) ∧
    eval refConfig (.SequenceIndex (seqLiteral [7, 8, 9]) (.LiteralInt 3))
      (makeEnvironment refConfig) [] = .error .indexOutOfBounds :=
  ⟨(C10_index_reads_element_or_is_out_of_bounds refConfig (seqLiteral [7, 8, 9])
      (.LiteralInt 1) (makeEnvironment refConfig) [] [some ⟨5, [7, 8, 9], 1⟩]
      [some ⟨5, [7, 8, 9], 1⟩] 0 1 heapPos_nil (by rfl) (by rfl)).1,
    by rfl, by rfl⟩

/-! ## Tokens of an arithmetic expression -/

theorem numberStart_class {d : Char} (h : numberStart d) :
    d ≠ '#' ∧ isspace d = false ∧ (isalpha d || decide (d = '_')) = false ∧
    (decide (d = '-') || isdigit d) = true ∧ d ≠ dquote ∧ d ≠ squote := by
  rcases h with rfl | h
  · decide
  · have hn : 48 ≤ d.toNat ∧ d.toNat ≤ 57 := by
      simpa [isdigit] using h
    have hne : ∀ c : Char, (c.toNat < 48 ∨ 57 < c.toNat) → d ≠ c := by
      intro c hc e; subst e; omega
    refine ⟨hne _ (by decide), ?_, ?_, ?_, hne _ (by decide), hne _ (by decide)⟩
    · simp only [isspace, Bool.or_eq_false_iff, Bool.and_eq_false_iff, decide_eq_false_iff_not]
      omega
    · have h1 : d ≠ '_' := hne _ (by decide)
      simp only [isalpha, Bool.or_eq_false_iff, Bool.and_eq_false_iff,
        decide_eq_false_iff_not]
      refine ⟨⟨?_, ?_⟩, h1⟩ <;> omega
    · simp [h]

theorem literal_shape {t : List Char} {v : Int} (h : IsIntLiteral t v) :
    ∃ d ds, t = d :: ds ∧ numberStart d ∧ (∀ x ∈ ds, isdigit x = true) ∧
      (d :: ds).length ≤ MAX_TOKEN := by
  obtain ⟨hlen, hscan, _⟩ := h
  unfold scanInt at hscan
  split at hscan
  · rename_i ds
    by_cases hc : ds ≠ [] ∧ ds.all isdigit = true
    · exact ⟨'-', ds, rfl, Or.inl rfl, by simpa using hc.2, hlen⟩
    · rw [if_neg hc] at hscan; cases hscan
  · by_cases hc : t ≠ [] ∧ t.all isdigit = true
    · obtain ⟨hne, hall⟩ := hc
      cases t with
      | nil => exact absurd rfl hne
      | cons d ds =>
        have hall' : ∀ x ∈ d :: ds, isdigit x = true := by simpa using hall
        exact ⟨d, ds, rfl, Or.inr (hall' d (List.mem_cons_self d ds)),
          fun x hx => hall' x (List.mem_cons_of_mem d hx), hlen⟩
    · rw [if_neg hc] at hscan; cases hscan

theorem readWhile_digits (c : Char) (rest : List Char) (line : Nat) (hc : isdigit c = false) :
    ∀ (ds token : List Char), (∀ x ∈ ds, isdigit x = true) →
      token.length + ds.length ≤ MAX_TOKEN →
      readWhile isdigit (ds ++ c :: rest) token line = .ok (token ++ ds, c :: rest)
  | [], token, _, _ => by
    simp [readWhile, hc]
  | d :: ds, token, hall, hlen => by
    have hd : isdigit d = true := hall d (List.mem_cons_self d ds)
    have hlt : ¬ token.length ≥ MAX_TOKEN := by
      simp only [List.length_cons] at hlen; omega
    have ih := readWhile_digits c rest line hc ds (token ++ [d])
      (fun x hx => hall x (List.mem_cons_of_mem d hx))
      (by simp only [List.length_append, List.length_cons, List.length_nil] at hlen ⊢; omega)
    rw [List.cons_append, readWhile]
    simp only [hd, if_true, addToToken, hlt, if_false]
    rw [ih]; simp

/-- The tokenizer on a number followed by a character that is not a digit:
the token is the number and the character stays in the input. -/
theorem parseToken_number {d : Char} {ds : List Char} (hd : numberStart d)
    (hall : ∀ x ∈ ds, isdigit x = true) (hlen : (d :: ds).length ≤ MAX_TOKEN)
    (c : Char) (rest : List Char) (line : Nat) (hc : isdigit c = false) :
    parseToken { input := d :: ds ++ c :: rest, lineCount := line }
      = .ok (some (d :: ds), { input := c :: rest, lineCount := line }) := by
  obtain ⟨h1, h2, h3, h4, _, _⟩ := numberStart_class hd
  have hr := readWhile_digits c rest line hc ds [d] hall
    (by simp only [List.length_cons, List.length_nil] at hlen ⊢; omega)
  unfold parseToken
  rw [List.cons_append, skipBlanks]
  simp only [h1, if_false, h2, Bool.false_eq_true]
  simp only [h3, Bool.false_eq_true, if_false, h4, if_true]
  rw [hr]; rfl

theorem parseToken_space (rest : List Char) (line : Nat) :
    parseToken { input := ' ' :: rest, lineCount := line }
      = parseToken { input := rest, lineCount := line } := by
  rfl

theorem parseToken_operator (op : ArithOp) (rest : List Char) (line : Nat) :
    parseToken { input := op.char :: ' ' :: rest, lineCount := line }
      = .ok (some [op.char], { input := ' ' :: rest, lineCount := line }) := by
  cases op <;> rfl

theorem parseToken_terminator {term : Char} (h : term ∈ terminatorChars) (more : List Char)
    (line : Nat) :
    parseToken { input := term :: more, lineCount := line }
      = .ok (some [term], { input := more, lineCount := line }) := by
  simp only [terminatorChars, List.mem_cons, List.mem_singleton, List.not_mem_nil,
    or_false] at h
  rcases h with rfl | rfl | rfl | rfl <;> cases more <;> rfl

theorem terminator_class {term : Char} (h : term ∈ terminatorChars) :
    isdigit term = false ∧ isInfixOperator [term] = false ∧ isTerminator [term] = true := by
  simp only [terminatorChars, List.mem_cons, List.mem_singleton, List.not_mem_nil,
    or_false] at h
  rcases h with rfl | rfl | rfl | rfl <;> decide

theorem operator_class (op : ArithOp) (left right : Expr) :
    isInfixOperator [op.char] = true ∧ [op.char] ≠ "[".toList ∧
    makeInfix [op.char] left right = op.build left right := by
  cases op <;> refine ⟨by decide, by decide, by rfl⟩

/-- What follows a literal inside the text of an expression is not a digit. -/
theorem operandsText_next (rest : List (ArithOp × List Char × Int)) {term : Char}
    (h : term ∈ terminatorChars) (more : List Char) :
    ∃ c tl, operandsText rest ++ term :: more = c :: tl ∧ isdigit c = false := by
  cases rest with
  | nil => exact ⟨term, more, rfl, (terminator_class h).1⟩
  | cons x xs =>
    obtain ⟨op, t, v⟩ := x
    exact ⟨' ', _, rfl, by decide⟩

theorem parseTerm_literal (cfg : Config) {t : List Char} {v : Int} (h : IsIntLiteral t v)
    (fuel : Nat) (st : PState) :
    parseTerm cfg (fuel + 1) t st = .ok (.LiteralInt v, st) := by
  obtain ⟨d, ds, rfl, hd, _, _⟩ := literal_shape h
  obtain ⟨_, hscan, hrange⟩ := h
  have h1 : d :: ds ≠ "(".toList := by
    intro e; injection e with e1 _; subst e1
    rcases hd with hd | hd <;> revert hd <;> decide
  have h2 : d :: ds ≠ "len".toList := by
    intro e; injection e with e1 _; subst e1
    rcases hd with hd | hd <;> revert hd <;> decide
  have h3 : (d :: ds).head? = some '-' ∨ ((d :: ds).head?.map isdigit) = some true := by
    rcases hd with hd | hd
    · left; rw [hd]; rfl
    · right; simp [hd]
  rw [parseTerm]
  rw [if_neg h1, if_neg h2, if_pos h3, hscan]
  simp only []
  rw [if_pos hrange]

/-- The loop of `parseExpr` on the text ` op1 t1 op2 t2 ...` followed by a
terminator: the tree grows to the left and the terminator stays in the
input. -/
theorem parseInfix_operands (cfg : Config) {term : Char} (hterm : term ∈ terminatorChars)
    (more : List Char) (line : Nat) :
    ∀ (rest : List (ArithOp × List Char × Int)) (left : Expr) (fuel : Nat),
      (∀ x ∈ rest, IsIntLiteral x.2.1 x.2.2) → rest.length + 1 ≤ fuel →
      parseInfix cfg fuel left { input := operandsText rest ++ term :: more, lineCount := line }
        = .ok (leftNested left rest, { input := term :: more, lineCount := line })
  | [], left, fuel, _, hf => by
    obtain ⟨f, rfl⟩ : ∃ f, fuel = f + 1 := ⟨fuel - 1, by simp at hf; omega⟩
    obtain ⟨_, hinf, hter⟩ := terminator_class hterm
    rw [parseInfix]
    simp only [operandsText, List.nil_append, expectToken, parseToken_terminator hterm,
      hinf, hter, Bool.false_eq_true, if_false, if_true, leftNested]
    rfl
  | (op, t, v) :: rest, left, fuel, hlit, hf => by
    obtain ⟨f, rfl⟩ : ∃ f, fuel = f + 1 := ⟨fuel - 1, by simp at hf; omega⟩
    obtain ⟨g, rfl⟩ : ∃ g, f = g + 1 := ⟨f - 1, by simp at hf; omega⟩
    have ht : IsIntLiteral t v := hlit (op, t, v) (List.mem_cons_self _ _)
    obtain ⟨d, ds, rfl, hd, hall, hlen⟩ := literal_shape ht
    obtain ⟨c, tl, hnext, hc⟩ := operandsText_next rest hterm more
    obtain ⟨hinf, hbr, hmk⟩ := operator_class op left (.LiteralInt v)
    have htok1 : expectToken
        (PState.mk (operandsText ((op, d :: ds, v) :: rest) ++ term :: more) line)
        = .ok ([op.char], { input := ' ' :: (d :: ds ++ c :: tl), lineCount := line }) := by
      unfold expectToken
      have : operandsText ((op, d :: ds, v) :: rest) ++ term :: more
          = ' ' :: op.char :: ' ' :: (d :: ds ++ c :: tl) := by
        simp only [operandsText, List.cons_append, List.append_assoc]
        rw [hnext]
      rw [this, parseToken_space, parseToken_operator]
    have htok2 : expectToken { input := ' ' :: (d :: ds ++ c :: tl), lineCount := line }
        = .ok (d :: ds, { input := c :: tl, lineCount := line }) := by
      unfold expectToken
      rw [parseToken_space, parseToken_number hd hall hlen c tl line hc]
    have ih := parseInfix_operands cfg hterm more line rest (op.build left (.LiteralInt v))
      (g + 1) (fun x hx => hlit x (List.mem_cons_of_mem _ hx))
      (by simp only [List.length_cons] at hf; omega)
    rw [parseInfix, htok1]
    simp only [hinf, if_true]
    rw [htok2]
    simp only []
    rw [parseTerm_literal cfg ht]
    simp only []
    rw [if_neg hbr, hmk, ← hnext, ih]
    rfl

/-- The tree of an arithmetic chain evaluates to the fold of its operators
from left to right. -/
theorem eval_leftNested (cfg : Config) (env : Environment) (heap : Heap) :
    ∀ (rest : List (ArithOp × List Char × Int)) (e : Expr) (a : Int),
      eval cfg e env heap = .ok (.IntType a, heap) →
      (∀ x ∈ rest, x.1 = ArithOp.div → x.2.2 ≠ 0) → quotientsFit a rest →
      eval cfg (leftNested e rest) env heap = .ok (.IntType (foldLeftToRight a rest), heap)
  | [], e, a, he, _, _ => by
    simpa [leftNested, foldLeftToRight] using he
  | (op, t, v) :: rest, e, a, he, hdiv, hfit => by
    have hstep : eval cfg (op.build e (.LiteralInt v)) env heap
        = .ok (.IntType (op.apply a v), heap) := by
      rw [eval_arith_int cfg op e (.LiteralInt v) env heap heap heap a v he (by rw [eval])]
      rw [if_neg, if_neg hfit.1]
      intro ⟨hop, hv⟩
      exact hdiv (op, t, v) (List.mem_cons_self _ _) hop hv
    exact eval_leftNested cfg env heap rest _ _ hstep
      (fun x hx => hdiv x (List.mem_cons_of_mem _ hx)) hfit.2

/-- C2 as it is stated does not hold at `-2147483647 - 1 / -1`: the text is
of integer literals and the operators `-` and `/`, with no division by zero;
`parseExpr` builds the tree nested to the left, as claimed; but the evaluation
of the tree is not the fold of the operators. Its second step divides
`INT_MIN` by -1, a quotient that is not an `int`, and `evalDiv` makes that
division with no result the source determines. -/
theorem C2_int_min_divided_by_minus_one :
    parseExprAt refConfig 5 (PState.mk "-2147483647 - 1 / -1;".toList 1)
      = .ok (leftNested (.LiteralInt (-2147483647))
          [(.sub, "1".toList, 1), (.div, "-1".toList, -1)], PState.mk ";".toList 1) ∧
    leftNested (.LiteralInt (-2147483647)) [(.sub, "1".toList, 1), (.div, "-1".toList, -1)]
      = .Div (.Sub (.LiteralInt (-2147483647)) (.LiteralInt 1)) (.LiteralInt (-1)) ∧
    (∀ x ∈ [(ArithOp.sub, "1".toList, (1 : Int)), (ArithOp.div, "-1".toList, (-1 : Int))],
      x.1 = ArithOp.div → x.2.2 ≠ 0) ∧
    eval refConfig (leftNested (.LiteralInt (-2147483647))
        [(.sub, "1".toList, 1), (.div, "-1".toList, -1)]) (makeEnvironment refConfig) []
      = .error .undefinedBehavior ∧
    eval refConfig (leftNested (.LiteralInt (-2147483647))
        [(.sub, "1".toList, 1), (.div, "-1".toList, -1)]) (makeEnvironment refConfig) []
      ≠ .ok (.IntType (foldLeftToRight (-2147483647)
          [(.sub, "1".toList, 1), (.div, "-1".toList, -1)]), []) ∧
    interpret refConfig 10 "print -2147483647 - 1 / -1;".toList
      = .error { err := .undefinedBehavior, out := [] } := by
  have h : eval refConfig (leftNested (.LiteralInt (-2147483647))
        [(.sub, "1".toList, 1), (.div, "-1".toList, -1)]) (makeEnvironment refConfig) []
      = .error .undefinedBehavior := by rfl
  refine ⟨by rfl, by rfl, ?_, h, ?_, by decide!⟩
  · intro x hx
    simp only [List.mem_cons, List.mem_singleton, List.not_mem_nil, or_false] at hx
    rcases hx with rfl | rfl
    · intro hop; cases hop
    · intro _; decide
  · intro hq
    rw [h] at hq
    cases hq

/-- C2, amended. For an expression text `t0 op1 t1 ... opn tn` of integer
literals and operators `+ - * /` separated by single spaces and followed by a
terminator, with no literal 0 as a divisor and no step that divides `INT_MIN`
by -1, and for fuel of at least n + 2: `parseExpr` builds the tree
`((t0 op1 t1) op2 t2) ...` nested to the left and leaves the terminator in the
input, and the tree evaluates to the operators applied from left to right
with no precedence. -/
theorem C2_arithmetic_is_left_to_right (cfg : Config) (t0 : List Char) (v0 : Int)
    (rest : List (ArithOp × List Char × Int)) (term : Char) (more : List Char)
    (line fuel : Nat) (env : Environment) (heap : Heap)
    (h0 : IsIntLiteral t0 v0) (hrest : ∀ x ∈ rest, IsIntLiteral x.2.1 x.2.2)
    (hterm : term ∈ terminatorChars)
    (hdiv : ∀ x ∈ rest, x.1 = ArithOp.div → x.2.2 ≠ 0)
    (hfit : quotientsFit v0 rest)
    (hfuel : rest.length + 2 ≤ fuel) :
    parseExprAt cfg fuel (PState.mk (t0 ++ (operandsText rest ++ term :: more)) line)
      = .ok (leftNested (.LiteralInt v0) rest, PState.mk (term :: more) line) ∧
    eval cfg (leftNested (.LiteralInt v0) rest) env heap
      = .ok (.IntType (foldLeftToRight v0 rest), heap) := by
  refine ⟨?_, eval_leftNested cfg env heap rest _ _ (by rw [eval]) hdiv hfit⟩
  obtain ⟨f, rfl⟩ : ∃ f, fuel = f + 1 := ⟨fuel - 1, by omega⟩
  obtain ⟨g, rfl⟩ : ∃ g, f = g + 1 := ⟨f - 1, by omega⟩
  obtain ⟨d, ds, rfl, hd, hall, hlen⟩ := literal_shape h0
  obtain ⟨c, tl, hnext, hc⟩ := operandsText_next rest hterm more
  have hlen3 : d :: ds ≠ "len".toList := by
    intro e; injection e with e1 _; subst e1
    rcases hd with hd | hd <;> revert hd <;> decide
  unfold parseExprAt expectToken
  rw [hnext, parseToken_number hd hall hlen c tl line hc]
  simp only []
  rw [parseExpr, if_neg hlen3, parseTerm_literal cfg h0]
  simp only []
  rw [← hnext]
  exact parseInfix_operands cfg hterm more line rest _ (g + 1) hrest (by omega)

/-- C2, amended, at `1 + 2 * 3`: the tree is `(1 + 2) * 3` and its value is
9. -/
theorem C2_arithmetic_witness :
    (parseExprAt refConfig 4 (PState.mk "1 + 2 * 3;".toList 1)
      = .ok (.Mul (.Add (.LiteralInt 1) (.LiteralInt 2)) (.LiteralInt 3),
          PState.mk ";".toList 1) ∧
    eval refConfig (.Mul (.Add (.LiteralInt 1) (.LiteralInt 2)) (.LiteralInt 3))
      (makeEnvironment refConfig) [] = .ok (.IntType 9, [])) ∧
    interpret refConfig 10 "print 1 + 2 * 3;".toList = .ok "9".toList :=
  ⟨C2_arithmetic_is_left_to_right refConfig "1".toList 1
      [(.add, "2".toList, 2), (.mul, "3".toList, 3)] ';' [] 1 4
      (makeEnvironment refConfig) []
      ⟨by decide, by rfl, by decide⟩
      (by
        intro x hx
        simp only [List.mem_cons, List.mem_singleton, List.not_mem_nil, or_false] at hx
        rcases hx with rfl | rfl
        · exact ⟨by decide, by rfl, by decide⟩
        · exact ⟨by decide, by rfl, by decide⟩)
      (by decide)
      (by
        intro x hx
        simp only [List.mem_cons, List.mem_singleton, List.not_mem_nil, or_false] at hx
        rcases hx with rfl | rfl <;> intro _ <;> decide)
      ⟨by decide, by decide, trivial⟩
      (by decide),
    by rfl⟩

/-! ## Whole programs -/

/-- A run that reaches the end of the program has parsed every statement of
it. -/
theorem interpretLoop_ok_parses (cfg : Config) (fuel : Nat) :
    ∀ (n : Nat) (st : PState) (es es' : ExecState),
      interpretLoop cfg fuel n st es = .ok es' →
      ∃ stmts, parseProgram cfg fuel n st = .ok stmts
  | 0, st, es, es', h => by simp [interpretLoop] at h
  | n + 1, st, es, es', h => by
    rw [interpretLoop] at h
    rw [parseProgram]
    cases hp : parseToken st with
    | error e => rw [hp] at h; simp [liftEval] at h
    | ok p =>
      obtain ⟨tok, st1⟩ := p
      rw [hp] at h
      cases tok with
      | none => exact ⟨[], rfl⟩
      | some tok =>
        simp only [liftEval] at h ⊢
        cases hs : parseStmt cfg fuel tok st1 with
        | error e => rw [hs] at h; simp at h
        | ok q =>
          obtain ⟨stmt, st2⟩ := q
          rw [hs] at h
          simp only [] at h ⊢
          cases hx : execute cfg fuel stmt es with
          | error f => rw [hx] at h; simp at h
          | ok es1 =>
            rw [hx] at h
            simp only [] at h
            obtain ⟨stmts, hst⟩ := interpretLoop_ok_parses cfg fuel n st2 es1 es' h
            exact ⟨stmt :: stmts, by rw [hst]⟩

/-- When the whole program parses, the run executes its statements in
order. -/
theorem interpretLoop_of_parses (cfg : Config) (fuel : Nat) :
    ∀ (n : Nat) (st : PState) (stmts : List Stmt) (es : ExecState),
      parseProgram cfg fuel n st = .ok stmts →
      interpretLoop cfg fuel n st es = executeList (execute cfg fuel) stmts es
  | 0, st, stmts, es, h => by simp [parseProgram] at h
  | n + 1, st, stmts, es, h => by
    rw [parseProgram] at h
    rw [interpretLoop]
    cases hp : parseToken st with
    | error e => rw [hp] at h; simp at h
    | ok p =>
      obtain ⟨tok, st1⟩ := p
      rw [hp] at h
      cases tok with
      | none =>
        simp only [Except.ok.injEq] at h
        subst h; rfl
      | some tok =>
        simp only [liftEval] at h ⊢
        cases hs : parseStmt cfg fuel tok st1 with
        | error e => rw [hs] at h; simp at h
        | ok q =>
          obtain ⟨stmt, st2⟩ := q
          rw [hs] at h
          simp only [] at h ⊢
          cases hr : parseProgram cfg fuel n st2 with
          | error e => rw [hr] at h; simp at h
          | ok rest =>
            rw [hr] at h
            simp only [Except.ok.injEq] at h
            subst h
            rw [executeList]
            cases hx : execute cfg fuel stmt es with
            | error f => rfl
            | ok es1 =>
              simp only []
              exact interpretLoop_of_parses cfg fuel n st2 rest es1 hr

theorem exec_assign_literal (cfg : Config) (fuel : Nat) (h1 : 1 ≤ cfg.MAX_VAR_NAME)
    (h2 : 1 ≤ cfg.INIT_CAP) :
    execute cfg (fuel + 1) (.Assignment "x".toList none (seqLiteral [1, 2, 3]))
      (initialState cfg)
      = .ok { env := { vlist := [{ name := "x".toList, val := .SeqType 0 }],
                       capacity := cfg.INIT_CAP },
              heap := [some { capacity := if 3 ≥ cfg.INIT_CAP then 3 else cfg.INIT_CAP,
                              list := [1, 2, 3], ref := 2 }],
              out := [] } := by
  have hm : ¬ (1 > cfg.MAX_VAR_NAME) := by omega
  have hne : cfg.INIT_CAP ≠ 0 := by omega
  rw [execute]
  by_cases hc : 3 ≥ cfg.INIT_CAP
  · simp [initialState, makeEnvironment, seqLiteral, eval, makeSequence,
      reserve, evalElems, storeNext, liftEval, Heap.deref, setVariable, findPos,
      Environment.len, grabSequence, Sequence.count, hc, hm, hne, bind, Except.bind, pure,
      Except.pure, throw, throwThe, MonadExceptOf.throw]
  · have c1 : 0 < cfg.INIT_CAP := by omega
    have c2 : 1 < cfg.INIT_CAP := by omega
    have c3 : 2 < cfg.INIT_CAP := by omega
    simp [initialState, makeEnvironment, seqLiteral, eval, makeSequence,
      reserve, evalElems, storeNext, liftEval, Heap.deref, setVariable, findPos,
      Environment.len, grabSequence, Sequence.count, hc, hm, hne, c1, c2, c3, bind,
      Except.bind, pure, Except.pure, throw, throwThe, MonadExceptOf.throw]

theorem exec_push_four (cfg : Config) (fuel ecap cap : Nat) (hcap : 3 ≤ cap)
    (h3 : 2 ≤ cfg.DOUBLE) :
    execute cfg (fuel + 1) (.Push (.Variable "x".toList) (.LiteralInt 4))
      { env := { vlist := [{ name := "x".toList, val := .SeqType 0 }], capacity := ecap },
        heap := [some { capacity := cap, list := [1, 2, 3], ref := 2 }], out := [] }
      = .ok { env := { vlist := [{ name := "x".toList, val := .SeqType 0 }],
                       capacity := ecap },
              heap := [some { capacity := if 3 ≥ cap then cap * cfg.DOUBLE else cap,
                              list := [1, 2, 3, 4], ref := 2 }],
              out := [] } := by
  rw [execute]
  by_cases hc : 3 ≥ cap
  · have hlt : 3 < cap * cfg.DOUBLE := by
      have : cap * 2 ≤ cap * cfg.DOUBLE := Nat.mul_le_mul_left _ h3
      omega
    have hle : cap ≤ 3 := hc
    simp [eval, lookupVariable, lookupList, grabSequence, Heap.deref, liftEval,
      requireSeqType, requireIntType, growForPush, storeNext, releaseSequence,
      Sequence.count, hc, hlt, hle]
  · have hlt : 3 < cap := by omega
    have hle : ¬ cap ≤ 3 := by omega
    simp [eval, lookupVariable, lookupList, grabSequence, Heap.deref, liftEval,
      requireSeqType, requireIntType, growForPush, storeNext, releaseSequence,
      Sequence.count, hc, hlt, hle]

theorem exec_print_len (cfg : Config) (fuel ecap cap : Nat) :
    execute cfg (fuel + 1) (.Print (.Len (.Variable "x".toList)))
      { env := { vlist := [{ name := "x".toList, val := .SeqType 0 }], capacity := ecap },
        heap := [some { capacity := cap, list := [1, 2, 3, 4], ref := 2 }], out := [] }
      = .ok { env := { vlist := [{ name := "x".toList, val := .SeqType 0 }],
                       capacity := ecap },
              heap := [some { capacity := cap, list := [1, 2, 3, 4], ref := 2 }],
              out := "4".toList } := by
  rw [execute]
  simp [eval, lookupVariable, lookupList, grabSequence, Heap.deref, liftEval,
    requireSeqType, releaseSequence, Sequence.count]
  rfl

theorem free_single (ecap cap : Nat) (l : List Int) :
    freeEnvironment
      { vlist := [{ name := "x".toList, val := .SeqType 0 }], capacity := ecap }
      [some { capacity := cap, list := l, ref := 2 }] = .ok [none] := by
  simp [freeEnvironment, freeRecords, releaseSequence, Heap.deref, freeSequence, bind,
    Except.bind]

/-- C1 as stated fails. On the text `x = [1,2,3];` / `push(x, 4);` /
`print len(x);` the run stops at line 2 with a syntax error and nothing
written: after `push` the parser reads an expression, the parenthesis opens
one, and `parseTerm` then requires `)` where the comma stands. No value of the
constants of value.h lets the run end with status 0. -/
theorem C1_push_with_parentheses_is_a_syntax_error :
    interpret refConfig 10 "x = [1,2,3];\npush(x, 4);\nprint len(x);\n".toList
      = .error { err := .syntaxError 2, out := [] } ∧
    ∀ (c : Config) (out : List Char),
      interpret c 10 "x = [1,2,3];\npush(x, 4);\nprint len(x);\n".toList ≠ .ok out := by
  refine ⟨by rfl, ?_⟩
  intro c out h
  unfold interpret at h
  cases hl : interpretLoop c 10 10
      { input := "x = [1,2,3];\npush(x, 4);\nprint len(x);\n".toList, lineCount := 1 }
      { env := makeEnvironment c, heap := [], out := [] } with
  | error f => rw [hl] at h; simp at h
  | ok es =>
    obtain ⟨stmts, hs⟩ := interpretLoop_ok_parses c 10 10 _ _ _ hl
    obtain ⟨a, d, m⟩ := c
    cases m with
    | zero =>
      have : parseProgram ⟨a, d, 0⟩ 10 10
          (PState.mk "x = [1,2,3];\npush(x, 4);\nprint len(x);\n".toList 1)
          = .error (.syntaxError 1) := by rfl
      rw [this] at hs; cases hs
    | succ k =>
      have : parseProgram ⟨a, d, k + 1⟩ 10 10
          (PState.mk "x = [1,2,3];\npush(x, 4);\nprint len(x);\n".toList 1)
          = .error (.syntaxError 2) := by rfl
      rw [this] at hs; cases hs

/-- C1 as amended. On the text `x = [1,2,3];` / `push x, 4;` /
`print len(x);`, with the push statement in the form the parser accepts, the
run from the empty environment ends with status 0 and has written exactly
`4`, whenever value.h allows a name of one character, a positive initial
capacity and a growth factor of at least 2. -/
theorem C1_push_program_prints_4 (cfg : Config) (h1 : 1 ≤ cfg.MAX_VAR_NAME)
    (h2 : 1 ≤ cfg.INIT_CAP) (h3 : 2 ≤ cfg.DOUBLE) :
    interpret cfg 10 "x = [1,2,3];\npush x, 4;\nprint len(x);\n".toList
      = .ok "4".toList := by
  have hp : parseProgram cfg 10 10
      (PState.mk "x = [1,2,3];\npush x, 4;\nprint len(x);\n".toList 1)
      = .ok [.Assignment "x".toList none (seqLiteral [1, 2, 3]),
        .Push (.Variable "x".toList) (.LiteralInt 4),
        .Print (.Len (.Variable "x".toList))] := by
    obtain ⟨a, d, m⟩ := cfg
    obtain ⟨k, rfl⟩ : ∃ k, m = k + 1 := ⟨m - 1, by simp at h1; omega⟩
    rfl
  have hcap : 3 ≤ (if 3 ≥ cfg.INIT_CAP then 3 else cfg.INIT_CAP) := by
    split <;> omega
  unfold interpret
  rw [interpretLoop_of_parses cfg 10 10 _ _ _ hp]
  simp only [executeList]
  rw [show ({ env := makeEnvironment cfg, heap := [], out := [] } : ExecState)
    = initialState cfg from rfl]
  rw [exec_assign_literal cfg 9 h1 h2]
  simp only []
  rw [exec_push_four cfg 9 _ _ hcap h3]
  simp only []
  rw [exec_print_len cfg 9]
  simp only []
  rw [free_single]
  rfl

/-- C1 as amended, at the reference configuration. -/
theorem C1_push_program_witness :
    (1 ≤ refConfig.MAX_VAR_NAME ∧ 1 ≤ refConfig.INIT_CAP ∧ 2 ≤ refConfig.DOUBLE) ∧
    interpret refConfig 10 "x = [1,2,3];\npush x, 4;\nprint len(x);\n".toList
      = .ok "4".toList :=
  ⟨⟨by decide, by decide, by decide⟩,
    C1_push_program_prints_4 refConfig (by decide) (by decide) (by decide)⟩

/-! ## The environment -/

theorem lookupList_absent : ∀ (l : List VarRec) (name : List Char),
    (∀ r ∈ l, r.name ≠ name) → lookupList l name = .IntType 0
  | [], _, _ => rfl
  | r :: rs, name, h => by
    have hr : r.name ≠ name := h r (List.mem_cons_self r rs)
    rw [lookupList, if_neg hr]
    exact lookupList_absent rs name (fun x hx => h x (List.mem_cons_of_mem r hx))

/-- C19. A name that no record of the environment carries looks up as the
integer 0; evaluating it as a variable succeeds with 0 and leaves the heap as
it was (the environment is only read: a lookup returns a value and nothing
else). In the environment `makeEnvironment` creates every name looks up
as 0. -/
theorem C19_unset_variable_is_zero (cfg : Config) (env : Environment) (name : List Char)
    (heap : Heap) (hunset : ∀ r ∈ env.vlist, r.name ≠ name) :
    lookupVariable env name = .IntType 0 ∧
    eval cfg (.Variable name) env heap = .ok (.IntType 0, heap) ∧
    (∀ n : List Char, lookupVariable (makeEnvironment cfg) n = .IntType 0) ∧
    (makeEnvironment cfg).len = 0 := by
  have hl : lookupVariable env name = .IntType 0 := lookupList_absent env.vlist name hunset
  refine ⟨hl, ?_, fun n => rfl, rfl⟩
  rw [eval, hl]

/-- C19 at the name `y` in an environment that only holds `x`. -/
theorem C19_unset_variable_witness :
    (∀ r ∈ (Environment.mk [VarRec.mk "x".toList (.IntType 4)] 5).vlist,
      r.name ≠ "y".toList) ∧
    lookupVariable (Environment.mk [VarRec.mk "x".toList (.IntType 4)] 5) "y".toList
      = .IntType 0 ∧
    eval refConfig (.Variable "y".toList)
      (Environment.mk [VarRec.mk "x".toList (.IntType 4)] 5) [] = .ok (.IntType 0, []) ∧
    (∀ n : List Char, lookupVariable (makeEnvironment refConfig) n = .IntType 0) ∧
    (makeEnvironment refConfig).len = 0 :=
  ⟨by decide,
    C19_unset_variable_is_zero refConfig (Environment.mk [VarRec.mk "x".toList (.IntType 4)] 5)
      "y".toList [] (by decide)⟩

/-! ## Statements -/

theorem executeList_eq_runInOrder (exec : Stmt → ExecState → Except Fatal ExecState) :
    ∀ (stmts : List Stmt) (st : ExecState),
      executeList exec stmts st = runInOrder exec stmts st
  | [], st => rfl
  | s :: rest, st => by
    unfold runInOrder
    rw [executeList, List.foldlM_cons]
    cases h : exec s st with
    | error f => rfl
    | ok st1 =>
      simp only []
      rw [executeList_eq_runInOrder exec rest st1]
      rfl

/-- C17. A compound statement executes as its statements run in order, each
on the state (environment, heap, output) the one before left: as the fold
`runInOrder`, and, unfolded once, as the first statement followed by the
compound of the rest. The empty compound returns the state unchanged. Nothing
is scoped: in `{ x = 5; y = x + 1; } print x; print y;` both variables are
read after the closing brace. -/
theorem C17_compound_runs_statements_in_order (cfg : Config) (fuel : Nat)
    (stmtList : List Stmt) (st : ExecState) :
    execute cfg (fuel + 1) (.Compound stmtList) st
      = runInOrder (execute cfg fuel) stmtList st ∧
    (∀ (s : Stmt) (rest : List Stmt),
      execute cfg (fuel + 1) (.Compound (s :: rest)) st =
        match execute cfg fuel s st with
        | .error f => .error f
        | .ok st1 => execute cfg (fuel + 1) (.Compound rest) st1) ∧
    execute cfg (fuel + 1) (.Compound []) st = .ok st ∧
    interpret refConfig 20 "{ x = 5; y = x + 1; } print x; print y; { }".toList
      = .ok "56".toList := by
  refine ⟨?_, ?_, ?_, by rfl⟩
  · rw [execute]; exact executeList_eq_runInOrder _ _ _
  · intro s rest
    rw [execute, executeList]
    cases h : execute cfg fuel s st with
    | error f => rfl
    | ok st1 => simp only []; rw [execute]
  · rw [execute]; rfl

/-- A `while` loop that ends has a history: see `WhileTrace`. -/
theorem while_trace (cfg : Config) (cond : Expr) (body : Stmt) :
    ∀ (fuel : Nat) (st st' : ExecState),
      execute cfg fuel (.While cond body) st = .ok st' →
      ∃ n, WhileTrace cfg cond body n st st'
  | 0, st, st', h => by simp [execute] at h
  | fuel + 1, st, st', h => by
    rw [execute] at h
    cases hc : eval cfg cond st.env st.heap with
    | error e => rw [hc] at h; simp [liftEval] at h
    | ok p =>
      obtain ⟨v, heap1⟩ := p
      rw [hc] at h
      cases v with
      | SeqType hh => simp [liftEval, requireIntType] at h
      | IntType r =>
        simp only [liftEval, requireIntType] at h
        by_cases hr : r = 0
        · subst hr
          simp only [ne_eq, not_true_eq_false, if_false, Except.ok.injEq] at h
          subst h
          exact ⟨0, WhileTrace.done st heap1 hc⟩
        · simp only [ne_eq, hr, not_false_eq_true, if_true] at h
          cases hb : execute cfg fuel body { st with heap := heap1 } with
          | error f => rw [hb] at h; simp at h
          | ok st1 =>
            rw [hb] at h
            simp only [] at h
            obtain ⟨n, hn⟩ := while_trace cfg cond body fuel st1 st' h
            exact ⟨n + 1, WhileTrace.step n st st1 st' heap1 r fuel hc hr hb hn⟩

/-- C16. Once the condition has evaluated to `v`, leaving the heap `heap1`:
* `v` a nonzero integer: `if` is one execution of the body from the state the
  condition left;
* `v` the integer 0: `if` ends at once, with the environment and the output
  as they were;
* `v` a sequence: `if` and `while` stop with `Type mismatch`.
The loop `while (c) body` is, result for result, the statement
`if (c) { body while (c) body }` run with one more unit of fuel. When a
`while` loop ends, the condition evaluated to a nonzero integer n times, the
body ran after each of them, and the condition then evaluated to 0, which
left the final state. -/
theorem C16_if_and_while (cfg : Config) (fuel : Nat) (cond : Expr) (body : Stmt)
    (st : ExecState) (v : Value) (heap1 : Heap)
    (hc : eval cfg cond st.env st.heap = .ok (v, heap1)) :
    (∀ r, v = .IntType r → r ≠ 0 →
      execute cfg (fuel + 1) (.If cond body) st
        = execute cfg fuel body { st with heap := heap1 }) ∧
    (v = .IntType 0 →
      execute cfg (fuel + 1) (.If cond body) st = .ok { st with heap := heap1 }) ∧
    ((∃ h, v = .SeqType h) →
      execute cfg (fuel + 1) (.If cond body) st
        = .error { err := .typeMismatch, out := st.out } ∧
      execute cfg (fuel + 1) (.While cond body) st
        = .error { err := .typeMismatch, out := st.out }) ∧
    (∀ (f : Nat) (st0 : ExecState),
      execute cfg (f + 2) (.If cond (.Compound [body, .While cond body])) st0
        = execute cfg (f + 1) (.While cond body) st0) ∧
    (∀ (f : Nat) (st0 st' : ExecState),
      execute cfg f (.While cond body) st0 = .ok st' →
      ∃ n, WhileTrace cfg cond body n st0 st') := by
  refine ⟨?_, ?_, ?_, ?_, fun f st0 st' h => while_trace cfg cond body f st0 st' h⟩
  · intro r hv hr; subst hv
    rw [execute, hc]
    simp [liftEval, requireIntType, hr]
  · intro hv; subst hv
    rw [execute, hc]
    simp [liftEval, requireIntType]
  · rintro ⟨h, rfl⟩
    constructor
    · rw [execute, hc]; rfl
    · rw [execute, hc]; rfl
  · intro f st0
    rw [execute, execute]
    cases hc0 : eval cfg cond st0.env st0.heap with
    | error e => rfl
    | ok p =>
      obtain ⟨v0, h0⟩ := p
      cases v0 with
      | SeqType hh => rfl
      | IntType r =>
        simp only [liftEval, requireIntType]
        by_cases hr : r = 0
        · simp [hr]
        · simp only [ne_eq, hr, not_false_eq_true, if_true]
          rw [execute]
          simp only [executeList]
          cases hb : execute cfg f body { st0 with heap := h0 } with
          | error e => rfl
          | ok st1 =>
            simp only []
            cases hw : execute cfg f (.While cond body) st1 with
            | error e => rfl
            | ok st2 => rfl

/-- C16 at the condition `i < 2` with `i` unset, and the loop
`while (i < 2) { print i; i = i + 1; }`, which prints `01`. -/
theorem C16_if_and_while_witness :
    ((∀ r, Value.IntType 1 = .IntType r → r ≠ 0 →
      execute refConfig (5 + 1) (.If (.Less (.Variable "i".toList) (.LiteralInt 2))
          (.Print (.LiteralInt 7))) (initialState refConfig)
        = execute refConfig 5 (.Print (.LiteralInt 7))
            { initialState refConfig with heap := [] }) ∧
    (Value.IntType 1 = .IntType 0 →
      execute refConfig (5 + 1) (.If (.Less (.Variable "i".toList) (.LiteralInt 2))
          (.Print (.LiteralInt 7))) (initialState refConfig)
        = .ok { initialState refConfig with heap := [] }) ∧
    ((∃ h, Value.IntType 1 = .SeqType h) →
      execute refConfig (5 + 1) (.If (.Less (.Variable "i".toList) (.LiteralInt 2))
          (.Print (.LiteralInt 7))) (initialState refConfig)
        = .error { err := .typeMismatch, out := (initialState refConfig).out } ∧
      execute refConfig (5 + 1) (.While (.Less (.Variable "i".toList) (.LiteralInt 2))
          (.Print (.LiteralInt 7))) (initialState refConfig)
        = .error { err := .typeMismatch, out := (initialState refConfig).out }) ∧
    (∀ (f : Nat) (st0 : ExecState),
      execute refConfig (f + 2) (.If (.Less (.Variable "i".toList) (.LiteralInt 2))
          (.Compound [.Print (.LiteralInt 7),
            .While (.Less (.Variable "i".toList) (.LiteralInt 2)) (.Print (.LiteralInt 7))]))
          st0
        = execute refConfig (f + 1) (.While (.Less (.Variable "i".toList) (.LiteralInt 2))
            (.Print (.LiteralInt 7))) st0) ∧
    (∀ (f : Nat) (st0 st' : ExecState),
      execute refConfig f (.While (.Less (.Variable "i".toList) (.LiteralInt 2))
          (.Print (.LiteralInt 7))) st0 = .ok st' →
      ∃ n, WhileTrace refConfig (.Less (.Variable "i".toList) (.LiteralInt 2))
        (.Print (.LiteralInt 7)) n st0 st')) ∧
    interpret refConfig 20 "while (i < 2) { print i; i = i + 1; } if (i) print 9;".toList
      = .ok "019".toList ∧
    interpret refConfig 20 "if ([1]) print 9;".toList
      = .error { err := .typeMismatch, out := [] } :=
  ⟨C16_if_and_while refConfig 5 (.Less (.Variable "i".toList) (.LiteralInt 2))
      (.Print (.LiteralInt 7)) (initialState refConfig) (.IntType 1) [] (by rfl),
    by decide!, by rfl⟩

/-- C11, where the code departs from it. Once both operands of an index
expression have evaluated: a right operand that is a sequence stops the
evaluation with `Type mismatch`, as the claim says. A left operand that is an
integer, with an integer index, does not: `evalIndex` never calls
`requireSeqType`, and goes on to read `count` through the pointer member of a
value that holds an integer, a read whose outcome the source does not
determine. The claim says `Type mismatch` there. -/
theorem C11_index_of_an_integer_is_not_a_type_mismatch (cfg : Config) (aexpr iexpr : Expr)
    (env : Environment) (heap heap1 heap2 : Heap) (v1 v2 : Value)
    (ha : eval cfg aexpr env heap = .ok (v1, heap1))
    (hi : eval cfg iexpr env heap1 = .ok (v2, heap2)) :
    ((∃ h, v2 = .SeqType h) →
      eval cfg (.SequenceIndex aexpr iexpr) env heap = .error .typeMismatch) ∧
    (∀ a k, v1 = .IntType a → v2 = .IntType k →
      eval cfg (.SequenceIndex aexpr iexpr) env heap = .error .undefinedBehavior ∧
      eval cfg (.SequenceIndex aexpr iexpr) env heap ≠ .error .typeMismatch) := by
  refine ⟨?_, ?_⟩
  · rintro ⟨h, rfl⟩
    rw [eval, ha]; simp only []; rw [hi]; rfl
  · intro a k h1 h2
    subst h1; subst h2
    have hev : eval cfg (.SequenceIndex aexpr iexpr) env heap = .error .undefinedBehavior := by
      rw [eval, ha]; simp only []; rw [hi]; rfl
    exact ⟨hev, by rw [hev]; simp⟩

/-- C11 at `5[0]`, at `x[0]` with `x` unset, and at `[1][[0]]`. -/
theorem C11_index_of_an_integer_witness :
    eval refConfig (.SequenceIndex (.LiteralInt 5) (.LiteralInt 0))
      (makeEnvironment refConfig) [] = .error .undefinedBehavior ∧
    eval refConfig (.SequenceIndex (.Variable "x".toList) (.LiteralInt 0))
      (makeEnvironment refConfig) [] = .error .undefinedBehavior ∧
    eval refConfig (.SequenceIndex (seqLiteral [1]) (seqLiteral [0]))
      (makeEnvironment refConfig) [] = .error .typeMismatch ∧
    interpret refConfig 10 "print 5[0];".toList
      = .error { err := .undefinedBehavior, out := [] } :=
  ⟨((C11_index_of_an_integer_is_not_a_type_mismatch refConfig (.LiteralInt 5) (.LiteralInt 0)
      (makeEnvironment refConfig) [] [] [] (.IntType 5) (.IntType 0) (by rfl) (by rfl)).2
      5 0 rfl rfl).1,
    ((C11_index_of_an_integer_is_not_a_type_mismatch refConfig (.Variable "x".toList)
      (.LiteralInt 0) (makeEnvironment refConfig) [] [] [] (.IntType 0) (.IntType 0)
      (by rfl) (by rfl)).2 0 0 rfl rfl).1,
    (C11_index_of_an_integer_is_not_a_type_mismatch refConfig (seqLiteral [1]) (seqLiteral [0])
      (makeEnvironment refConfig) [] [some ⟨5, [1], 1⟩] [some ⟨5, [1], 1⟩, some ⟨5, [0], 1⟩]
      (.SeqType 0) (.SeqType 1) (by rfl) (by rfl)).1 ⟨1, rfl⟩,
    by rfl⟩

/-- C14, where the code departs from it. `executeAssignment` checks none of
the three types before it uses the values of an indexed assignment. With `x`
unset, or holding an integer, it reads `count` through the pointer member of
an integer value; with an index that is a sequence it reads the integer
member of a sequence value; with a source that is a sequence and an index in
range it stores the integer member of a sequence value. None of these is a
defined outcome, and none is the `Type mismatch` the claim says. With a
source that is a sequence and an index that is out of range the run stops
with `Index out of bounds`. -/
theorem C14_indexed_assignment_checks_no_type :
    interpret refConfig 10 "x[0] = 1;".toList
      = .error { err := .undefinedBehavior, out := [] } ∧
    interpret refConfig 10 "x = 3; x[0] = 1;".toList
      = .error { err := .undefinedBehavior, out := [] } ∧
    interpret refConfig 10 "x = [7]; x[[0]] = 1;".toList
      = .error { err := .undefinedBehavior, out := [] } ∧
    interpret refConfig 10 "x = [7]; x[0] = [2];".toList
      = .error { err := .undefinedBehavior, out := [] } ∧
    interpret refConfig 10 "x = [7]; x[1] = [2];".toList
      = .error { err := .indexOutOfBounds, out := [] } ∧
    (∀ (cfg : Config) (fuel : Nat) (name : List Char) (iexpr expr : Expr) (st : ExecState),
      execute cfg fuel (.Assignment name (some iexpr) expr) st
        ≠ .error { err := .typeMismatch, out := st.out } ∨
      eval cfg expr st.env st.heap = .error .typeMismatch ∨
      (∃ v heap1, eval cfg expr st.env st.heap = .ok (v, heap1) ∧
        eval cfg iexpr st.env heap1 = .error .typeMismatch)) := by
  refine ⟨by rfl, by rfl, by rfl, by rfl, by rfl, ?_⟩
  intro cfg fuel name iexpr expr st
  cases fuel with
  | zero => left; simp [execute]
  | succ f =>
    cases he : eval cfg expr st.env st.heap with
    | error e =>
      by_cases hm : e = .typeMismatch
      · right; left; rw [hm]
      · left
        rw [execute, he]
        simp only [liftEval]
        intro h; injection h with h; injection h with h1 _; exact hm h1
    | ok p =>
      obtain ⟨v, heap1⟩ := p
      cases hi : eval cfg iexpr st.env heap1 with
      | error e =>
        by_cases hm : e = .typeMismatch
        · right; right; exact ⟨v, heap1, rfl, by rw [hi, hm]⟩
        · left
          rw [execute, he]
          simp only [liftEval]
          rw [hi]
          simp only []
          intro h; injection h with h; injection h with h1 _; exact hm h1
      | ok q =>
        obtain ⟨idx, heap2⟩ := q
        left
        rw [execute, he]
        simp only [liftEval]
        rw [hi]
        simp only []
        cases idx with
        | SeqType hh => simp
        | IntType i =>
          cases hs : lookupVariable st.env name with
          | IntType a => simp
          | SeqType h =>
            simp only []
            cases hd : Heap.deref heap2 h with
            | none => simp
            | some s =>
              simp only []
              by_cases hb : i > (s.count : Int) - 1
              · simp [hb]
              · simp only [hb, if_false]
                cases v with
                | SeqType hv => simp
                | IntType w =>
                  simp only []
                  unfold writeElem
                  rw [hd]
                  simp only []
                  by_cases h0 : i < 0
                  · simp [h0]
                  · by_cases h1 : i.toNat < s.count
                    · simp [h0, h1]
                    · simp [h0, h1]

/-! ## Reference counts, to the count -/

theorem release_cases {cur cur' : Heap} {h : Nat} {s : Sequence}
    (hd : cur.deref h = some s) (hr : releaseSequence cur h = .ok cur') :
    (∀ h', h' ≠ h → Heap.deref cur' h' = Heap.deref cur h') ∧
    ((s.ref = 1 ∧ Heap.deref cur' h = none) ∨
      (2 ≤ s.ref ∧ Heap.deref cur' h = some { s with ref := s.ref - 1 })) := by
  have hlt : h < cur.length := deref_some_lt hd
  unfold releaseSequence at hr
  rw [hd] at hr
  simp only [] at hr
  by_cases hz : s.ref - 1 ≤ 0
  · rw [if_pos hz] at hr
    by_cases h0 : s.ref - 1 = 0
    · rw [if_pos h0] at hr
      simp only [Except.ok.injEq] at hr
      subst hr
      refine ⟨fun h' hne => ?_, Or.inl ⟨by omega, ?_⟩⟩
      · unfold freeSequence; rw [deref_set_ne _ (Ne.symm hne)]
      · unfold freeSequence; exact deref_set_self _ hlt
    · rw [if_neg h0] at hr; cases hr
  · rw [if_neg hz] at hr
    simp only [Except.ok.injEq] at hr
    subst hr
    refine ⟨fun h' hne => ?_, Or.inr ⟨by omega, ?_⟩⟩
    · rw [deref_set_ne _ (Ne.symm hne)]
    · exact deref_set_self _ hlt

theorem count_erase_self (owned : List Nat) (h h' : Nat) :
    (owned.erase h).count h' = owned.count h' - if h = h' then 1 else 0 := by
  rw [List.count_erase]
  by_cases e : h = h' <;> simp [e]

theorem frame_refl {heap : Heap} (hp : HeapPos heap) : Frame heap heap [] where
  surplus := Surplus.refl hp
  exact := fun h s hd => ⟨s, hd, rfl, rfl, by simp⟩
  dead := fun h _ hd => hd
  fresh := fun h s' hle hd => by
    have := deref_some_lt hd
    omega

theorem frame_trans {base mid cur : Heap} {owned new : List Nat}
    (h1 : Frame base mid owned) (h2 : Frame mid cur new) :
    Frame base cur (owned ++ new) where
  surplus := Surplus.trans h1.surplus h2.surplus
  exact := by
    intro h s hd
    obtain ⟨s1, hd1, hl1, hc1, hr1⟩ := h1.exact h s hd
    obtain ⟨s2, hd2, hl2, hc2, hr2⟩ := h2.exact h s1 hd1
    refine ⟨s2, hd2, hl2.trans hl1, hc2.trans hc1, ?_⟩
    rw [List.count_append]; push_cast; omega
  dead := by
    intro h hlt hd
    exact h2.dead h (Nat.lt_of_lt_of_le hlt h1.surplus.len) (h1.dead h hlt hd)
  fresh := by
    intro h s' hle hd
    rw [List.count_append]; push_cast
    by_cases hm : h < mid.length
    · cases hmid : Heap.deref mid h with
      | none =>
        have := h2.dead h hm hmid
        rw [this] at hd; cases hd
      | some s1 =>
        have hr1 := h1.fresh h s1 hle hmid
        obtain ⟨s2, hd2, _, _, hr2⟩ := h2.exact h s1 hmid
        rw [hd] at hd2; cases hd2
        omega
    · have hr2 := h2.fresh h s' (by omega) hd
      have hno : h ∉ owned := by
        intro ho
        obtain ⟨s1, hd1, _⟩ := h1.surplus.own h ho
        exact hm (deref_some_lt hd1)
      rw [List.count_eq_zero_of_not_mem hno]
      omega

/-- Two operands evaluated one after the other leave both their references
outstanding, to the count. -/
theorem frame_pair {heap heap1 heap2 : Heap} {v1 v2 : Value}
    (h1 : Frame heap heap1 (handles v1)) (h2 : Frame heap1 heap2 (handles v2)) :
    Frame heap heap2 (handles v1 ++ handles v2) := frame_trans h1 h2

theorem frame_release {base cur : Heap} {owned : List Nat} {h : Nat}
    (hf : Frame base cur owned) (hm : h ∈ owned) :
    ∃ cur', releaseSequence cur h = .ok cur' ∧ Frame base cur' (owned.erase h) ∧
      ∀ h', h' ≠ h → Heap.deref cur' h' = Heap.deref cur h' := by
  obtain ⟨cur', hr, hs', hother⟩ := Surplus.release hf.surplus hm
  obtain ⟨s, hd, _⟩ := hf.surplus.own h hm
  have hc : 1 ≤ owned.count h := List.one_le_count_iff.mpr hm
  obtain ⟨_, hself⟩ := release_cases hd hr
  refine ⟨cur', hr, ⟨hs', ?_, ?_, ?_⟩, hother⟩
  · intro h' s0 hd0
    obtain ⟨s', hd', hl, hcap, hr'⟩ := hf.exact h' s0 hd0
    by_cases e : h = h'
    · subst e
      rw [hd] at hd'; cases hd'
      have hp0 := hf.surplus.pos0 h s0 hd0
      rcases hself with ⟨h1, _⟩ | ⟨_, hnew⟩
      · omega
      · refine ⟨_, hnew, hl, hcap, ?_⟩
        rw [count_erase_self, if_pos rfl]
        simp only []
        omega
    · refine ⟨s', by rw [hother h' (Ne.symm e)]; exact hd', hl, hcap, ?_⟩
      rw [count_erase_self, if_neg e]; simpa using hr'
  · intro h' hlt hd0
    have hne : h' ≠ h := by
      intro e; subst e
      rw [hf.dead h' hlt hd0] at hd; cases hd
    rw [hother h' hne]
    exact hf.dead h' hlt hd0
  · intro h' s' hle hd'
    by_cases e : h = h'
    · subst e
      have hfr := hf.fresh h s hle hd
      rcases hself with ⟨_, hnone⟩ | ⟨_, hnew⟩
      · rw [hnone] at hd'; cases hd'
      · rw [hnew] at hd'; cases hd'
        rw [count_erase_self, if_pos rfl]
        simp only []
        omega
    · rw [hother h' (Ne.symm e)] at hd'
      rw [count_erase_self, if_neg e]
      simpa using hf.fresh h' s' hle hd'

theorem frame_grab {heap : Heap} {h : Nat} {s : Sequence} (hp : HeapPos heap)
    (hd : heap.deref h = some s) :
    grabSequence heap h = .ok (heap.set h (some { s with ref := s.ref + 1 })) ∧
    Frame heap (heap.set h (some { s with ref := s.ref + 1 })) [h] := by
  obtain ⟨hg, hs⟩ := Surplus.grab hp hd
  have hlt : h < heap.length := deref_some_lt hd
  refine ⟨hg, hs, ?_, ?_, ?_⟩
  · intro h' s0 hd0
    by_cases e : h = h'
    · subst e; rw [hd] at hd0; cases hd0
      exact ⟨_, deref_set_self _ hlt, rfl, rfl, by simp⟩
    · refine ⟨s0, by rw [deref_set_ne _ e]; exact hd0, rfl, rfl, ?_⟩
      simp [List.count_cons, e]
  · intro h' _ hd0
    have e : h ≠ h' := by intro e; subst e; rw [hd] at hd0; cases hd0
    rw [deref_set_ne _ e]; exact hd0
  · intro h' s' hle hd'
    have := deref_some_lt hd'
    simp at this; omega

theorem frame_storeNext {base cur cur' : Heap} {owned : List Nat} {h : Nat} {v : Int}
    (hf : Frame base cur owned) (hb : base.length ≤ h)
    (hst : storeNext cur h v = .ok cur') : Frame base cur' owned := by
  have hbn : Heap.deref base h = none := by
    cases hd : Heap.deref base h with
    | none => rfl
    | some s => have := deref_some_lt hd; omega
  have hs' := Surplus.storeNext hf.surplus hbn hst
  unfold P6.storeNext at hst
  cases hd : cur.deref h with
  | none => rw [hd] at hst; simp at hst
  | some s =>
    rw [hd] at hst
    have hlt : h < cur.length := deref_some_lt hd
    by_cases hc : s.count < s.capacity
    · simp only [hc, if_true, Except.ok.injEq] at hst
      subst hst
      refine ⟨hs', ?_, ?_, ?_⟩
      · intro h' s0 hd0
        have e : h ≠ h' := by intro e; subst e; rw [hbn] at hd0; cases hd0
        obtain ⟨s', hd', hrest⟩ := hf.exact h' s0 hd0
        exact ⟨s', by rw [deref_set_ne _ e]; exact hd', hrest⟩
      · intro h' hlt' hd0
        have e : h ≠ h' := by omega
        rw [deref_set_ne _ e]; exact hf.dead h' hlt' hd0
      · intro h' s' hle hd'
        by_cases e : h = h'
        · subst e
          rw [deref_set_self _ hlt] at hd'; cases hd'
          exact hf.fresh h s hle hd
        · rw [deref_set_ne _ e] at hd'
          exact hf.fresh h' s' hle hd'
    · simp [hc] at hst

theorem frame_newSequence (cfg : Config) {heap : Heap} (hp : HeapPos heap) (n : Nat) :
    Frame heap (reserve (makeSequence cfg heap).2 heap.length n) [heap.length] := by
  obtain ⟨hs, c, hcell, _⟩ := Surplus.newSequence cfg hp n
  have hnew : Heap.deref (makeSequence cfg heap).2 heap.length
      = some { capacity := cfg.INIT_CAP, list := [], ref := 1 } := by
    unfold makeSequence; exact deref_append_new _ _
  have hold : ∀ h', h' < heap.length →
      Heap.deref (reserve (makeSequence cfg heap).2 heap.length n) h' = Heap.deref heap h' := by
    intro h' hlt
    have hne : h' ≠ heap.length := by omega
    unfold reserve; rw [hnew]
    by_cases hc : n ≥ cfg.INIT_CAP
    · simp only [hc, if_true]; rw [deref_set_ne _ (Ne.symm hne)]
      unfold makeSequence; exact deref_append_left _ hlt
    · simp only [hc, if_false]
      unfold makeSequence; exact deref_append_left _ hlt
  have hlen : (reserve (makeSequence cfg heap).2 heap.length n).length = heap.length + 1 := by
    unfold reserve; rw [hnew]
    by_cases hc : n ≥ cfg.INIT_CAP
    · simp only [hc, if_true]; unfold makeSequence; simp
    · simp only [hc, if_false]; unfold makeSequence; simp
  refine ⟨hs, ?_, ?_, ?_⟩
  · intro h' s0 hd0
    have hlt : h' < heap.length := deref_some_lt hd0
    refine ⟨s0, by rw [hold h' hlt]; exact hd0, rfl, rfl, ?_⟩
    have : h' ≠ heap.length := by omega
    simp [List.count_cons, this]
  · intro h' hlt hd0
    rw [hold h' hlt]; exact hd0
  · intro h' s' hle hd'
    have hlt := deref_some_lt hd'
    have e : h' = heap.length := by omega
    subst e
    rw [hcell] at hd'; cases hd'
    simp

mutual
theorem eval_frame (cfg : Config) : ∀ (e : Expr) (env : Environment) (heap : Heap)
    (v : Value) (heap' : Heap), HeapPos heap → eval cfg e env heap = .ok (v, heap') →
    Frame heap heap' (handles v)
  | .LiteralInt val, env, heap, v, heap', hp, he => by
    simp only [eval, Except.ok.injEq, Prod.mk.injEq] at he
    obtain ⟨rfl, rfl⟩ := he
    exact frame_refl hp
  | .SequenceInitializer exprs, env, heap, v, heap', hp, he => by
    rw [eval] at he
    simp only [] at he
    have hs := frame_newSequence cfg hp exprs.length
    cases hel : evalElems cfg exprs env (makeSequence cfg heap).1
        (reserve (makeSequence cfg heap).2 (makeSequence cfg heap).1 exprs.length) with
    | error e => rw [hel] at he; cases he
    | ok heap3 =>
      rw [hel] at he
      simp only [Except.ok.injEq, Prod.mk.injEq] at he
      obtain ⟨rfl, rfl⟩ := he
      exact evalElems_frame cfg exprs env heap.length heap _ _ _ hs (Nat.le_refl _) hel
  | .Add left right, env, heap, v, heap', hp, he => by
    rw [eval] at he
    cases hl : eval cfg left env heap with
    | error e => rw [hl] at he; cases he
    | ok p1 =>
      obtain ⟨v1, heap1⟩ := p1
      rw [hl] at he; simp only [] at he
      have s1 := eval_frame cfg left env heap v1 heap1 hp hl
      cases hr : eval cfg right env heap1 with
      | error e => rw [hr] at he; cases he
      | ok p2 =>
        obtain ⟨v2, heap2⟩ := p2
        rw [hr] at he; simp only [] at he
        have s2 := eval_frame cfg right env heap1 v2 heap2 s1.surplus.pos hr
        cases v1 <;> cases v2 <;> simp [requireIntType] at he
        obtain ⟨rfl, rfl⟩ := he
        exact frame_pair s1 s2
  | .Sub left right, env, heap, v, heap', hp, he => by
    rw [eval] at he
    cases hl : eval cfg left env heap with
    | error e => rw [hl] at he; cases he
    | ok p1 =>
      obtain ⟨v1, heap1⟩ := p1
      rw [hl] at he; simp only [] at he
      have s1 := eval_frame cfg left env heap v1 heap1 hp hl
      cases hr : eval cfg right env heap1 with
      | error e => rw [hr] at he; cases he
      | ok p2 =>
        obtain ⟨v2, heap2⟩ := p2
        rw [hr] at he; simp only [] at he
        have s2 := eval_frame cfg right env heap1 v2 heap2 s1.surplus.pos hr
        cases v1 <;> cases v2 <;> simp [requireIntType] at he
        obtain ⟨rfl, rfl⟩ := he
        exact frame_pair s1 s2
  | .Mul left right, env, heap, v, heap', hp, he => by
    rw [eval] at he
    cases hl : eval cfg left env heap with
    | error e => rw [hl] at he; cases he
    | ok p1 =>
      obtain ⟨v1, heap1⟩ := p1
      rw [hl] at he; simp only [] at he
      have s1 := eval_frame cfg left env heap v1 heap1 hp hl
      cases hr : eval cfg right env heap1 with
      | error e => rw [hr] at he; cases he
      | ok p2 =>
        obtain ⟨v2, heap2⟩ := p2
        rw [hr] at he; simp only [] at he
        have s2 := eval_frame cfg right env heap1 v2 heap2 s1.surplus.pos hr
        cases v1 <;> cases v2 <;> simp [requireIntType] at he
        obtain ⟨rfl, rfl⟩ := he
        exact frame_pair s1 s2
  | .Div left right, env, heap, v, heap', hp, he => by
    rw [eval] at he
    cases hl : eval cfg left env heap with
    | error e => rw [hl] at he; cases he
    | ok p1 =>
      obtain ⟨v1, heap1⟩ := p1
      rw [hl] at he; simp only [] at he
      have s1 := eval_frame cfg left env heap v1 heap1 hp hl
      cases hr : eval cfg right env heap1 with
      | error e => rw [hr] at he; cases he
      | ok p2 =>
        obtain ⟨v2, heap2⟩ := p2
        rw [hr] at he; simp only [] at he
        have s2 := eval_frame cfg right env heap1 v2 heap2 s1.surplus.pos hr
        cases v1 with
        | SeqType h1 => cases v2 <;> simp [requireIntType] at he
        | IntType a =>
          cases v2 with
          | SeqType h2 => simp [requireIntType] at he
          | IntType b =>
            simp only [requireIntType] at he
            by_cases hb : b = 0
            · simp [hb] at he
            · rw [if_neg hb] at he
              split_ifs at he
              simp only [Except.ok.injEq, Prod.mk.injEq] at he
              obtain ⟨rfl, rfl⟩ := he
              exact frame_pair s1 s2
  | .And left right, env, heap, v, heap', hp, he => by
    rw [eval] at he
    cases hl : eval cfg left env heap with
    | error e => rw [hl] at he; cases he
    | ok p1 =>
      obtain ⟨v1, heap1⟩ := p1
      rw [hl] at he; simp only [] at he
      have s1 := eval_frame cfg left env heap v1 heap1 hp hl
      cases v1 with
      | SeqType h1 => simp [requireIntType] at he
      | IntType a =>
        simp only [requireIntType] at he
        by_cases ha : a = 0
        · simp only [ha, if_true, Except.ok.injEq, Prod.mk.injEq] at he
          obtain ⟨rfl, rfl⟩ := he
          exact s1
        · simp only [ha, if_false] at he
          cases hr : eval cfg right env heap1 with
          | error e => rw [hr] at he; cases he
          | ok p2 =>
            obtain ⟨v2, heap2⟩ := p2
            rw [hr] at he; simp only [] at he
            have s2 := eval_frame cfg right env heap1 v2 heap2 s1.surplus.pos hr
            cases v2 with
            | SeqType h2 => simp [requireIntType] at he
            | IntType b =>
              simp only [requireIntType, Except.ok.injEq, Prod.mk.injEq] at he
              obtain ⟨rfl, rfl⟩ := he
              exact frame_pair s1 s2
  | .Or left right, env, heap, v, heap', hp, he => by
    rw [eval] at he
    cases hl : eval cfg left env heap with
    | error e => rw [hl] at he; cases he
    | ok p1 =>
      obtain ⟨v1, heap1⟩ := p1
      rw [hl] at he; simp only [] at he
      have s1 := eval_frame cfg left env heap v1 heap1 hp hl
      cases v1 with
      | SeqType h1 => simp [requireIntType] at he
      | IntType a =>
        simp only [requireIntType] at he
        by_cases ha : a = 0
        · simp only [ha, ne_eq, not_true_eq_false, if_false] at he
          cases hr : eval cfg right env heap1 with
          | error e => rw [hr] at he; cases he
          | ok p2 =>
            obtain ⟨v2, heap2⟩ := p2
            rw [hr] at he; simp only [] at he
            have s2 := eval_frame cfg right env heap1 v2 heap2 s1.surplus.pos hr
            cases v2 with
            | SeqType h2 => simp [requireIntType] at he
            | IntType b =>
              simp only [requireIntType, Except.ok.injEq, Prod.mk.injEq] at he
              obtain ⟨rfl, rfl⟩ := he
              exact frame_pair s1 s2
        · simp only [ne_eq, ha, not_false_eq_true, if_true, Except.ok.injEq,
            Prod.mk.injEq] at he
          obtain ⟨rfl, rfl⟩ := he
          exact s1
  | .Less left right, env, heap, v, heap', hp, he => by
    rw [eval] at he
    cases hl : eval cfg left env heap with
    | error e => rw [hl] at he; cases he
    | ok p1 =>
      obtain ⟨v1, heap1⟩ := p1
      rw [hl] at he; simp only [] at he
      have s1 := eval_frame cfg left env heap v1 heap1 hp hl
      cases hr : eval cfg right env heap1 with
      | error e => rw [hr] at he; cases he
      | ok p2 =>
        obtain ⟨v2, heap2⟩ := p2
        rw [hr] at he; simp only [] at he
        have s2 := eval_frame cfg right env heap1 v2 heap2 s1.surplus.pos hr
        have s12 := frame_pair s1 s2
        cases v1 with
        | IntType a =>
          cases v2 with
          | IntType b =>
            simp only [Except.ok.injEq, Prod.mk.injEq] at he
            obtain ⟨rfl, rfl⟩ := he
            exact s12
          | SeqType h2 => simp at he
        | SeqType h1 =>
          cases v2 with
          | IntType b => simp at he
          | SeqType h2 =>
            simp only [handles, List.singleton_append] at s12
            obtain ⟨heap3, hr3, s3, _⟩ := frame_release s12 (List.mem_cons_self h1 [h2])
            rw [List.erase_cons_head] at s3
            obtain ⟨heap4, hr4, s4, _⟩ := frame_release s3 (List.mem_singleton_self h2)
            rw [List.erase_cons_head] at s4
            simp only [] at he
            cases hd1 : Heap.deref heap2 h1 with
            | none => rw [hd1] at he; simp at he
            | some q1 =>
              cases hd2 : Heap.deref heap2 h2 with
              | none => rw [hd1, hd2] at he; simp at he
              | some q2 =>
                rw [hd1, hd2] at he
                simp only [hr3, hr4, Except.ok.injEq, Prod.mk.injEq] at he
                obtain ⟨rfl, rfl⟩ := he
                exact s4
  | .Equals left right, env, heap, v, heap', hp, he => by
    rw [eval] at he
    cases hl : eval cfg left env heap with
    | error e => rw [hl] at he; cases he
    | ok p1 =>
      obtain ⟨v1, heap1⟩ := p1
      rw [hl] at he; simp only [] at he
      have s1 := eval_frame cfg left env heap v1 heap1 hp hl
      cases hr : eval cfg right env heap1 with
      | error e => rw [hr] at he; cases he
      | ok p2 =>
        obtain ⟨v2, heap2⟩ := p2
        rw [hr] at he; simp only [] at he
        have s2 := eval_frame cfg right env heap1 v2 heap2 s1.surplus.pos hr
        have s12 := frame_pair s1 s2
        cases v1 with
        | IntType a =>
          cases v2 with
          | IntType b =>
            simp only [Except.ok.injEq, Prod.mk.injEq] at he
            obtain ⟨rfl, rfl⟩ := he
            exact s12
          | SeqType h2 =>
            simp only [handles, List.nil_append] at s12
            obtain ⟨heap3, hr3, s3, _⟩ := frame_release s12 (List.mem_singleton_self h2)
            rw [List.erase_cons_head] at s3
            simp only [hr3, Except.ok.injEq, Prod.mk.injEq] at he
            obtain ⟨rfl, rfl⟩ := he
            exact s3
        | SeqType h1 =>
          cases v2 with
          | IntType b =>
            simp only [handles, List.append_nil] at s12
            obtain ⟨heap3, hr3, s3, _⟩ := frame_release s12 (List.mem_singleton_self h1)
            rw [List.erase_cons_head] at s3
            simp only [hr3, Except.ok.injEq, Prod.mk.injEq] at he
            obtain ⟨rfl, rfl⟩ := he
            exact s3
          | SeqType h2 =>
            simp only [handles, List.singleton_append] at s12
            obtain ⟨heap3, hr3, s3, _⟩ := frame_release s12 (List.mem_cons_self h1 [h2])
            rw [List.erase_cons_head] at s3
            obtain ⟨heap4, hr4, s4, _⟩ := frame_release s3 (List.mem_singleton_self h2)
            rw [List.erase_cons_head] at s4
            simp only [] at he
            cases hd1 : Heap.deref heap2 h1 with
            | none => rw [hd1] at he; simp at he
            | some q1 =>
              cases hd2 : Heap.deref heap2 h2 with
              | none => rw [hd1, hd2] at he; simp at he
              | some q2 =>
                rw [hd1, hd2] at he
                simp only [hr3, hr4, Except.ok.injEq, Prod.mk.injEq] at he
                obtain ⟨rfl, rfl⟩ := he
                exact s4
  | .Len expr, env, heap, v, heap', hp, he => by
    rw [eval] at he
    cases hl : eval cfg expr env heap with
    | error e => rw [hl] at he; cases he
    | ok p1 =>
      obtain ⟨v1, heap1⟩ := p1
      rw [hl] at he; simp only [] at he
      have s1 := eval_frame cfg expr env heap v1 heap1 hp hl
      cases v1 with
      | IntType a => simp [requireSeqType] at he
      | SeqType h1 =>
        simp only [requireSeqType] at he
        simp only [handles] at s1
        obtain ⟨heap3, hr3, s3, _⟩ := frame_release s1 (List.mem_singleton_self h1)
        rw [List.erase_cons_head] at s3
        cases hd1 : Heap.deref heap1 h1 with
        | none => rw [hd1] at he; simp at he
        | some q1 =>
          rw [hd1] at he
          simp only [hr3, Except.ok.injEq, Prod.mk.injEq] at he
          obtain ⟨rfl, rfl⟩ := he
          exact s3
  | .SequenceIndex aexpr iexpr, env, heap, v, heap', hp, he => by
    rw [eval] at he
    cases hl : eval cfg aexpr env heap with
    | error e => rw [hl] at he; cases he
    | ok p1 =>
      obtain ⟨v1, heap1⟩ := p1
      rw [hl] at he; simp only [] at he
      have s1 := eval_frame cfg aexpr env heap v1 heap1 hp hl
      cases hr : eval cfg iexpr env heap1 with
      | error e => rw [hr] at he; cases he
      | ok p2 =>
        obtain ⟨v2, heap2⟩ := p2
        rw [hr] at he; simp only [] at he
        have s2 := eval_frame cfg iexpr env heap1 v2 heap2 s1.surplus.pos hr
        have s12 := frame_pair s1 s2
        cases v2 with
        | SeqType h2 => simp [requireIntType] at he
        | IntType i =>
          simp only [requireIntType] at he
          cases v1 with
          | IntType a => simp at he
          | SeqType h1 =>
            simp only [handles, List.append_nil] at s12
            obtain ⟨heap3, hr3, s3, _⟩ := frame_release s12 (List.mem_singleton_self h1)
            rw [List.erase_cons_head] at s3
            simp only [] at he
            cases hd1 : Heap.deref heap2 h1 with
            | none => rw [hd1] at he; simp at he
            | some q1 =>
              rw [hd1] at he; simp only [] at he
              by_cases hi : i > (q1.count : Int) - 1
              · simp [hi] at he
              · simp only [hi, if_false] at he
                cases hre : readElem q1 i with
                | error e => rw [hre] at he; simp at he
                | ok value =>
                  rw [hre] at he
                  simp only [hr3, Except.ok.injEq, Prod.mk.injEq] at he
                  obtain ⟨rfl, rfl⟩ := he
                  exact s3
  | .Variable name, env, heap, v, heap', hp, he => by
    rw [eval] at he
    cases hv : lookupVariable env name with
    | IntType i =>
      rw [hv] at he
      simp only [Except.ok.injEq, Prod.mk.injEq] at he
      obtain ⟨rfl, rfl⟩ := he
      exact frame_refl hp
    | SeqType h =>
      rw [hv] at he; simp only [] at he
      cases hd : Heap.deref heap h with
      | none => simp [grabSequence, hd] at he
      | some s =>
        obtain ⟨hg, sg⟩ := frame_grab hp hd
        rw [hg] at he
        simp only [Except.ok.injEq, Prod.mk.injEq] at he
        obtain ⟨rfl, rfl⟩ := he
        exact sg
theorem evalElems_frame (cfg : Config) : ∀ (es : List Expr) (env : Environment) (h : Nat)
    (base cur : Heap) (owned : List Nat) (cur' : Heap), Frame base cur owned →
    base.length ≤ h → evalElems cfg es env h cur = .ok cur' →
    Frame base cur' owned
  | [], env, h, base, cur, owned, cur', hs, hb, he => by
    simp only [evalElems, Except.ok.injEq] at he
    subst he; exact hs
  | e :: es, env, h, base, cur, owned, cur', hs, hb, he => by
    rw [evalElems] at he
    cases hl : eval cfg e env cur with
    | error err => rw [hl] at he; cases he
    | ok p1 =>
      obtain ⟨v1, cur1⟩ := p1
      rw [hl] at he
      have s1 := eval_frame cfg e env cur v1 cur1 hs.surplus.pos hl
      cases v1 with
      | SeqType h1 => simp at he
      | IntType i =>
        simp only [] at he
        have s01 := frame_trans hs s1
        simp only [handles, List.append_nil] at s01
        cases hst : storeNext cur1 h i with
        | error err => rw [hst] at he; cases he
        | ok cur2 =>
          rw [hst] at he; simp only [] at he
          exact evalElems_frame cfg es env h base cur2 owned cur'
            (frame_storeNext s01 hb hst) hb he
end

/-! ## Print -/

theorem printInt_decimal (n : Int) : String.mk (printInt n) = toString n := by
  cases n with
  | ofNat m =>
    have h : ¬ ((Int.ofNat m : Int) < 0) := by simp
    unfold printInt
    rw [if_neg h]
    rfl
  | negSucc m =>
    have h : (Int.negSucc m : Int) < 0 := Int.negSucc_lt_zero m
    unfold printInt
    rw [if_pos h]
    rfl

theorem printChar_code {x : Int} (h0 : 0 ≤ x) (h1 : x < 256) :
    printChar x = Char.ofNat x.toNat := by
  unfold printChar
  rw [Int.emod_eq_of_lt h0 h1]

/-- C18. Once the operand of `print` has evaluated to `v`, from a heap with
positive reference counts:
* `v` the integer n: the statement ends, the output is the output before
  followed by the decimal representation of n and nothing else;
* `v` a sequence: the statement ends, the output is the output before followed
  by one character per element, in order, the character of an element in
  `0 .. 255` being the one with that code.
In both cases the environment is the one before, and every sequence allocated
before the statement is still allocated, with the same elements, the same
capacity and the same reference count. -/
theorem C18_print_writes_decimal_or_characters (cfg : Config) (fuel : Nat) (e : Expr)
    (st : ExecState) (v : Value) (heap1 : Heap) (hp : HeapPos st.heap)
    (he : eval cfg e st.env st.heap = .ok (v, heap1)) :
    ∃ st', execute cfg (fuel + 1) (.Print e) st = .ok st' ∧
      st'.env = st.env ∧
      (∀ n, v = .IntType n →
        st'.out = st.out ++ printInt n ∧ String.mk (printInt n) = toString n) ∧
      (∀ h, v = .SeqType h → ∃ s, Heap.deref heap1 h = some s ∧
        st'.out = st.out ++ s.list.map printChar ∧
        (s.list.map printChar).length = s.count ∧
        ∀ (i : Nat) (x : Int), s.list[i]? = some x → 0 ≤ x → x < 256 →
          (s.list.map printChar)[i]? = some (Char.ofNat x.toNat)) ∧
      (∀ h s, Heap.deref st.heap h = some s → ∃ s', Heap.deref st'.heap h = some s' ∧
        s'.list = s.list ∧ s'.capacity = s.capacity ∧ s'.ref = s.ref) := by
  have f1 := eval_frame cfg e st.env st.heap v heap1 hp he
  cases v with
  | IntType n =>
    refine ⟨{ st with heap := heap1, out := st.out ++ printInt n }, ?_, rfl, ?_, ?_, ?_⟩
    · rw [execute, he]; rfl
    · intro m hm; cases hm
      exact ⟨rfl, printInt_decimal n⟩
    · intro h hh; cases hh
    · intro h s hd
      obtain ⟨s', hd', hl, hc, hr⟩ := f1.exact h s hd
      exact ⟨s', hd', hl, hc, by simpa [handles] using hr⟩
  | SeqType h =>
    simp only [handles] at f1
    obtain ⟨s, hd, _⟩ := f1.surplus.own h (List.mem_singleton_self h)
    obtain ⟨heap2, hr, f2, _⟩ := frame_release f1 (List.mem_singleton_self h)
    rw [List.erase_cons_head] at f2
    refine ⟨{ st with heap := heap2, out := st.out ++ s.list.map printChar }, ?_, rfl, ?_, ?_, ?_⟩
    · rw [execute, he]
      simp only [liftEval]
      rw [hd]
      simp only []
      rw [hr]
    · intro m hm; cases hm
    · intro h' hh; cases hh
      refine ⟨s, hd, rfl, by simp [Sequence.count], ?_⟩
      intro i x hx h0 h1
      rw [List.getElem?_map, hx]
      simp [printChar_code h0 h1]
    · intro h' s' hd'
      obtain ⟨s'', hd'', hl, hc, hr'⟩ := f2.exact h' s' hd'
      exact ⟨s'', hd'', hl, hc, by simpa using hr'⟩

/-- C18 at `print 0 - 42`, at `print [72, 105]`, which writes `Hi`, and at
`x = [97, 98]; print x; print len x; print 10;`, which writes `ab210`. -/
theorem C18_print_witness :
    (∃ st', execute refConfig (0 + 1) (.Print (.Sub (.LiteralInt 0) (.LiteralInt 42)))
        (initialState refConfig) = .ok st' ∧
      st'.env = (initialState refConfig).env ∧
      (∀ n, Value.IntType (-42) = .IntType n →
        st'.out = (initialState refConfig).out ++ printInt n ∧
        String.mk (printInt n) = toString n) ∧
      (∀ h, Value.IntType (-42) = .SeqType h → ∃ s, Heap.deref [] h = some s ∧
        st'.out = (initialState refConfig).out ++ s.list.map printChar ∧
        (s.list.map printChar).length = s.count ∧
        ∀ (i : Nat) (x : Int), s.list[i]? = some x → 0 ≤ x → x < 256 →
          (s.list.map printChar)[i]? = some (Char.ofNat x.toNat)) ∧
      (∀ h s, Heap.deref (initialState refConfig).heap h = some s →
        ∃ s', Heap.deref st'.heap h = some s' ∧
        s'.list = s.list ∧ s'.capacity = s.capacity ∧ s'.ref = s.ref)) ∧
    interpret refConfig 10 "print 0 - 42;".toList = .ok "-42".toList ∧
    interpret refConfig 10 "print [72, 105];".toList = .ok "Hi".toList ∧
    interpret refConfig 10 "x = [97, 98]; print x; print len x; print 10;".toList
      = .ok "ab210".toList :=
  ⟨C18_print_writes_decimal_or_characters refConfig 0 (.Sub (.LiteralInt 0) (.LiteralInt 42))
      (initialState refConfig) (.IntType (-42)) [] heapPos_nil (by rfl),
    by rfl, by rfl, by decide!⟩

/-! ## Assignment to an element -/

theorem writeElem_ok {heap : Heap} {h : Nat} {s : Sequence} {i v : Int}
    (hd : heap.deref h = some s) (h0 : 0 ≤ i) (h1 : i < (s.count : Int)) :
    writeElem heap h i v = .ok (heap.set h (some { s with list := s.list.set i.toNat v })) := by
  unfold writeElem
  rw [hd]
  simp only []
  rw [if_neg (by omega), if_pos (by omega)]

/-- C13. Let `x` hold a sequence that is allocated with count n, in a heap
with positive reference counts, and let the source of `x[i] = e` evaluate to
the integer `v` and then the index to the integer `i`.
* If `0 ≤ i < n` the statement ends; afterwards element `i` of the sequence is
  `v`, every other element and the count are what they were, the environment
  and the output are unchanged, and every other sequence has the elements it
  had.
* If `i ≥ n` the statement stops with `Index out of bounds`, and the sequence
  still has the elements it had. -/
theorem C13_indexed_assignment_overwrites_one_element (cfg : Config) (fuel : Nat)
    (x : List Char) (iexpr expr : Expr) (st : ExecState) (h : Nat) (s0 : Sequence)
    (v i : Int) (heap1 heap2 : Heap) (hp : HeapPos st.heap)
    (hx : lookupVariable st.env x = .SeqType h) (hd : Heap.deref st.heap h = some s0)
    (he : eval cfg expr st.env st.heap = .ok (.IntType v, heap1))
    (hi : eval cfg iexpr st.env heap1 = .ok (.IntType i, heap2)) :
    (0 ≤ i → i < (s0.count : Int) → ∃ st' s',
      execute cfg (fuel + 1) (.Assignment x (some iexpr) expr) st = .ok st' ∧
      st'.env = st.env ∧ st'.out = st.out ∧
      Heap.deref st'.heap h = some s' ∧
      s'.list[i.toNat]? = some v ∧
      (∀ j, j ≠ i.toNat → s'.list[j]? = s0.list[j]?) ∧
      s'.count = s0.count ∧
      ∀ h' s, h' ≠ h → Heap.deref st.heap h' = some s →
        ∃ s'', Heap.deref st'.heap h' = some s'' ∧ s''.list = s.list) ∧
    (i ≥ (s0.count : Int) →
      execute cfg (fuel + 1) (.Assignment x (some iexpr) expr) st
        = .error { err := .indexOutOfBounds, out := st.out } ∧
      ∃ s2, Heap.deref heap2 h = some s2 ∧ s2.list = s0.list) := by
  have f1 := eval_frame cfg expr st.env st.heap _ heap1 hp he
  have f2 := eval_frame cfg iexpr st.env heap1 _ heap2 f1.surplus.pos hi
  have f12 := frame_trans f1 f2
  simp only [handles, List.append_nil] at f12
  obtain ⟨s2, hd2, hl2, _, _⟩ := f12.exact h s0 hd
  have hc2 : s2.count = s0.count := by unfold Sequence.count; rw [hl2]
  have hlt : h < heap2.length := deref_some_lt hd2
  refine ⟨?_, ?_⟩
  · intro h0 h1
    refine ⟨{ st with heap := heap2.set h (some { s2 with list := s2.list.set i.toNat v }) },
      { s2 with list := s2.list.set i.toNat v }, ?_, rfl, rfl, deref_set_self _ hlt, ?_, ?_, ?_, ?_⟩
    · rw [execute, he]
      simp only [liftEval]
      rw [hi, hx]
      simp only []
      rw [hd2]
      simp only []
      rw [if_neg (by omega), writeElem_ok hd2 h0 (by omega)]
    · simp only []
      rw [hl2]
      have : i.toNat < s0.list.length := by unfold Sequence.count at h1; omega
      simp [List.getElem?_set, this]
    · intro j hj
      simp only []
      rw [hl2, List.getElem?_set_ne (Ne.symm hj)]
    · simp [Sequence.count, hl2]
    · intro h' s hne hd'
      obtain ⟨s'', hd'', hl'', _⟩ := f12.exact h' s hd'
      exact ⟨s'', by simp only []; rw [deref_set_ne _ (Ne.symm hne)]; exact hd'', hl''⟩
  · intro hge
    refine ⟨?_, s2, hd2, hl2⟩
    rw [execute, he]
    simp only [liftEval]
    rw [hi, hx]
    simp only []
    rw [hd2]
    simp only []
    rw [if_pos (by omega)]

/-- C13 at `x[1] = 7` and at `x[3] = 7`, with `x` holding `[4,5,6]`. -/
theorem C13_indexed_assignment_witness :
    ((0 : Int) ≤ 1 → (1 : Int) < ((⟨5, [4, 5, 6], 2⟩ : Sequence).count : Int) → ∃ st' s',
      execute refConfig (0 + 1) (.Assignment "x".toList (some (.LiteralInt 1)) (.LiteralInt 7))
        ⟨⟨[⟨"x".toList, .SeqType 0⟩], 5⟩, [some ⟨5, [4, 5, 6], 2⟩], []⟩ = .ok st' ∧
      st'.env = ⟨[⟨"x".toList, .SeqType 0⟩], 5⟩ ∧ st'.out = [] ∧
      Heap.deref st'.heap 0 = some s' ∧
      s'.list[(1 : Int).toNat]? = some 7 ∧
      (∀ j, j ≠ (1 : Int).toNat →
        s'.list[j]? = (⟨5, [4, 5, 6], 2⟩ : Sequence).list[j]?) ∧
      s'.count = (⟨5, [4, 5, 6], 2⟩ : Sequence).count ∧
      ∀ h' s, h' ≠ 0 → Heap.deref [some ⟨5, [4, 5, 6], 2⟩] h' = some s →
        ∃ s'', Heap.deref st'.heap h' = some s'' ∧ s''.list = s.list) ∧
    execute refConfig 1 (.Assignment "x".toList (some (.LiteralInt 1)) (.LiteralInt 7))
        ⟨⟨[⟨"x".toList, .SeqType 0⟩], 5⟩, [some ⟨5, [4, 5, 6], 2⟩], []⟩
      = .ok ⟨⟨[⟨"x".toList, .SeqType 0⟩], 5⟩, [some ⟨5, [4, 7, 6], 2⟩], []⟩ ∧
    interpret refConfig 20 "x = [4, 5, 6]; x[1] = 7; print x[0]; print x[1]; print x[2];".toList
      = .ok "476".toList ∧
    interpret refConfig 20 "x = [4, 5, 6]; x[3] = 7;".toList
      = .error { err := .indexOutOfBounds, out := [] } :=
  ⟨(C13_indexed_assignment_overwrites_one_element refConfig 0 "x".toList (.LiteralInt 1)
      (.LiteralInt 7) ⟨⟨[⟨"x".toList, .SeqType 0⟩], 5⟩, [some ⟨5, [4, 5, 6], 2⟩], []⟩ 0
      ⟨5, [4, 5, 6], 2⟩ 7 1 [some ⟨5, [4, 5, 6], 2⟩] [some ⟨5, [4, 5, 6], 2⟩]
      (by intro h s hd
          match h, hd with
          | 0, hd => cases hd; decide)
      (by rfl) (by rfl) (by rfl) (by rfl)).1,
    by rfl, by decide!, by decide!⟩

/-! ## Push -/

/-- The three steps that end `executePush`, on a sequence that is held at
least twice and fits its allocation: the allocation grows if it is full, the
value becomes the last element, and one reference is given back. -/
theorem push_steps (cfg : Config) {heap : Heap} {h : Nat} {s : Sequence} (k : Int)
    (hd : heap.deref h = some s) (hr : 2 ≤ s.ref) (hc : s.count ≤ s.capacity)
    (h1 : 1 ≤ s.capacity) (h2 : 2 ≤ cfg.DOUBLE) :
    ∃ heap3 heap4 s4, storeNext (growForPush cfg heap h) h k = .ok heap3 ∧
      releaseSequence heap3 h = .ok heap4 ∧
      heap4.deref h = some s4 ∧ s4.list = s.list ++ [k] ∧ s4.ref = s.ref - 1 ∧
      s4.count ≤ s4.capacity ∧ 1 ≤ s4.capacity ∧
      (∀ h', h' ≠ h → heap4.deref h' = heap.deref h') := by
  have hlt : h < heap.length := deref_some_lt hd
  obtain ⟨cap, hcap, hg, hgo⟩ : ∃ cap, s.count < cap ∧
      Heap.deref (growForPush cfg heap h) h = some { s with capacity := cap } ∧
      (∀ h', h' ≠ h → Heap.deref (growForPush cfg heap h) h' = heap.deref h') := by
    unfold growForPush
    rw [hd]
    simp only []
    by_cases hfull : s.count ≥ s.capacity
    · rw [if_pos hfull]
      refine ⟨s.capacity * cfg.DOUBLE, ?_, deref_set_self _ hlt, ?_⟩
      · have : s.capacity * 2 ≤ s.capacity * cfg.DOUBLE := Nat.mul_le_mul_left _ h2
        omega
      · intro h' hne; rw [deref_set_ne _ (Ne.symm hne)]
    · rw [if_neg hfull]
      exact ⟨s.capacity, by omega, hd, fun _ _ => rfl⟩
  have hlt3 : h < (growForPush cfg heap h).length := deref_some_lt hg
  have hst : storeNext (growForPush cfg heap h) h k
      = .ok ((growForPush cfg heap h).set h
          (some { capacity := cap, list := s.list ++ [k], ref := s.ref })) := by
    unfold P6.storeNext
    rw [hg]
    simp only []
    rw [if_pos (by simpa [Sequence.count] using hcap)]
  have hd3 : Heap.deref ((growForPush cfg heap h).set h
      (some { capacity := cap, list := s.list ++ [k], ref := s.ref })) h
      = some { capacity := cap, list := s.list ++ [k], ref := s.ref } :=
    deref_set_self _ hlt3
  have hrel : releaseSequence ((growForPush cfg heap h).set h
      (some { capacity := cap, list := s.list ++ [k], ref := s.ref })) h
      = .ok (((growForPush cfg heap h).set h
          (some { capacity := cap, list := s.list ++ [k], ref := s.ref })).set h
          (some { capacity := cap, list := s.list ++ [k], ref := s.ref - 1 })) := by
    unfold releaseSequence
    rw [hd3]
    simp only []
    rw [if_neg (by omega)]
  refine ⟨_, _, _, hst, hrel, deref_set_self _ (by simpa using hlt3), rfl, rfl, ?_, ?_, ?_⟩
  · simp only [Sequence.count, List.length_append, List.length_singleton]
    unfold Sequence.count at hcap
    omega
  · simp only []; omega
  · intro h' hne
    rw [deref_set_ne _ (Ne.symm hne), deref_set_ne _ (Ne.symm hne)]
    exact hgo h' hne

/-- C15. Once the two operands of `push` have evaluated, the first to `v1`
and then the second to `v2`, from a heap with positive reference counts:
* `v1` an integer, or `v2` a sequence: the statement stops with
  `Type mismatch`;
* `v1` a sequence that was allocated before the statement, with elements
  `s0.list` that fit its allocation, and `v2` the integer `k`, the arrays
  growing by a factor of at least 2: the statement ends; afterwards the
  sequence has the elements `s0.list` followed by `k`, so one more, and the
  reference count it had before the statement; whether or not the allocation
  was full; the environment and the output are unchanged and every other
  sequence is as it was. -/
theorem C15_push_appends_and_keeps_the_reference_count (cfg : Config) (fuel : Nat)
    (seqExpr valExpr : Expr) (st : ExecState) (v1 v2 : Value) (heap1 heap2 : Heap)
    (hp : HeapPos st.heap)
    (hs : eval cfg seqExpr st.env st.heap = .ok (v1, heap1))
    (hv : eval cfg valExpr st.env heap1 = .ok (v2, heap2)) :
    ((∃ a, v1 = .IntType a) →
      execute cfg (fuel + 1) (.Push seqExpr valExpr) st
        = .error { err := .typeMismatch, out := st.out }) ∧
    ((∃ h2, v2 = .SeqType h2) →
      execute cfg (fuel + 1) (.Push seqExpr valExpr) st
        = .error { err := .typeMismatch, out := st.out }) ∧
    (∀ h k s0, v1 = .SeqType h → v2 = .IntType k → Heap.deref st.heap h = some s0 →
      s0.count ≤ s0.capacity → 1 ≤ s0.capacity → 2 ≤ cfg.DOUBLE →
      ∃ st' s', execute cfg (fuel + 1) (.Push seqExpr valExpr) st = .ok st' ∧
        st'.env = st.env ∧ st'.out = st.out ∧
        Heap.deref st'.heap h = some s' ∧
        s'.list = s0.list ++ [k] ∧ s'.count = s0.count + 1 ∧ s'.ref = s0.ref ∧
        s'.count ≤ s'.capacity ∧
        ∀ h' s, h' ≠ h → Heap.deref st.heap h' = some s →
          ∃ s'', Heap.deref st'.heap h' = some s'' ∧ s''.list = s.list ∧ s''.ref = s.ref) := by
  refine ⟨?_, ?_, ?_⟩
  · rintro ⟨a, rfl⟩
    rw [execute, hs]
    simp only [liftEval]
    rw [hv]
    rfl
  · rintro ⟨h2, rfl⟩
    rw [execute, hs]
    simp only [liftEval]
    rw [hv]
    cases v1 <;> rfl
  · intro h k s0 e1 e2 hd hc h1 hD
    subst e1; subst e2
    have f1 := eval_frame cfg seqExpr st.env st.heap _ heap1 hp hs
    have f2 := eval_frame cfg valExpr st.env heap1 _ heap2 f1.surplus.pos hv
    have f12 := frame_trans f1 f2
    simp only [handles, List.append_nil] at f12
    obtain ⟨s2, hd2, hl2, hc2, hr2⟩ := f12.exact h s0 hd
    have hpos := hp h s0 hd
    have hr2' : s2.ref = s0.ref + 1 := by simpa using hr2
    obtain ⟨heap3, heap4, s4, hst, hrel, hd4, hl4, hr4, hc4, _, hother⟩ :=
      push_steps cfg k hd2 (by omega) (by unfold Sequence.count at hc ⊢; rw [hl2, hc2]; exact hc)
        (by rw [hc2]; exact h1) hD
    refine ⟨{ st with heap := heap4 }, s4, ?_, rfl, rfl, hd4, by rw [hl4, hl2], ?_, by omega,
      hc4, ?_⟩
    · rw [execute, hs]
      simp only [liftEval]
      rw [hv]
      simp only [requireSeqType, requireIntType]
      rw [hst]
      simp only []
      rw [hrel]
    · simp [Sequence.count, hl4, hl2]
    · intro h' s hne hd'
      obtain ⟨s'', hd'', hl'', _, hr''⟩ := f12.exact h' s hd'
      refine ⟨s'', by simp only []; rw [hother h' hne]; exact hd'', hl'', ?_⟩
      have : List.count h' [h] = 0 := by simp [List.count_cons, Ne.symm hne]
      rw [hr'', this]; simp

/-- C15 at `push x, 9` with `x` holding `[4,5,6]`, and at whole programs: a
push onto a full sequence of five elements, a push onto an integer and a push
of a sequence. -/
theorem C15_push_witness :
    (∀ h k s0, Value.SeqType 0 = .SeqType h → Value.IntType 9 = .IntType k →
      Heap.deref [some ⟨5, [4, 5, 6], 2⟩] h = some s0 →
      s0.count ≤ s0.capacity → 1 ≤ s0.capacity → 2 ≤ refConfig.DOUBLE →
      ∃ st' s', execute refConfig (0 + 1) (.Push (.Variable "x".toList) (.LiteralInt 9))
          ⟨⟨[⟨"x".toList, .SeqType 0⟩], 5⟩, [some ⟨5, [4, 5, 6], 2⟩], []⟩ = .ok st' ∧
        st'.env = ⟨[⟨"x".toList, .SeqType 0⟩], 5⟩ ∧ st'.out = [] ∧
        Heap.deref st'.heap h = some s' ∧
        s'.list = s0.list ++ [k] ∧ s'.count = s0.count + 1 ∧ s'.ref = s0.ref ∧
        s'.count ≤ s'.capacity ∧
        ∀ h' s, h' ≠ h → Heap.deref [some ⟨5, [4, 5, 6], 2⟩] h' = some s →
          ∃ s'', Heap.deref st'.heap h' = some s'' ∧ s''.list = s.list ∧ s''.ref = s.ref) ∧
    execute refConfig 1 (.Push (.Variable "x".toList) (.LiteralInt 9))
        ⟨⟨[⟨"x".toList, .SeqType 0⟩], 5⟩, [some ⟨5, [4, 5, 6], 2⟩], []⟩
      = .ok ⟨⟨[⟨"x".toList, .SeqType 0⟩], 5⟩, [some ⟨5, [4, 5, 6, 9], 2⟩], []⟩ ∧
    execute refConfig 1 (.Push (.Variable "x".toList) (.LiteralInt 9))
        ⟨⟨[⟨"x".toList, .SeqType 0⟩], 5⟩, [some ⟨5, [1, 2, 3, 4, 5], 2⟩], []⟩
      = .ok ⟨⟨[⟨"x".toList, .SeqType 0⟩], 5⟩, [some ⟨10, [1, 2, 3, 4, 5, 9], 2⟩], []⟩ ∧
    interpret refConfig 20 "x = [1, 2, 3, 4, 5]; push x, 6; print len x; print x[5];".toList
      = .ok "66".toList ∧
    interpret refConfig 20 "push 3, 4;".toList
      = .error { err := .typeMismatch, out := [] } ∧
    interpret refConfig 20 "x = [1]; push x, [2];".toList
      = .error { err := .typeMismatch, out := [] } :=
  ⟨(C15_push_appends_and_keeps_the_reference_count refConfig 0 (.Variable "x".toList)
      (.LiteralInt 9) ⟨⟨[⟨"x".toList, .SeqType 0⟩], 5⟩, [some ⟨5, [4, 5, 6], 2⟩], []⟩
      (.SeqType 0) (.IntType 9) [some ⟨5, [4, 5, 6], 3⟩] [some ⟨5, [4, 5, 6], 3⟩]
      (by intro h s hd
          match h, hd with
          | 0, hd => cases hd; decide)
      (by rfl) (by rfl)).2.2,
    by rfl, by rfl, by decide!, by rfl, by rfl⟩

/-! ## Setting a variable -/

theorem findPos_add : ∀ (l : List VarRec) (n : List Char) (k : Nat),
    findPos l n k = findPos l n 0 + k
  | [], n, k => by simp [findPos]
  | r :: rs, n, k => by
    unfold findPos
    by_cases h : r.name = n
    · simp [h]
    · simp only [h, if_false]
      rw [findPos_add rs n (k + 1), findPos_add rs n (0 + 1)]
      omega

theorem findPos_le : ∀ (l : List VarRec) (n : List Char), findPos l n 0 ≤ l.length
  | [], n => by simp [findPos]
  | r :: rs, n => by
    unfold findPos
    by_cases h : r.name = n
    · simp [h]
    · simp only [h, if_false]
      rw [findPos_add rs n (0 + 1)]
      have := findPos_le rs n
      simp only [List.length_cons]; omega

theorem findPos_absent : ∀ (l : List VarRec) (n : List Char),
    (∀ r ∈ l, r.name ≠ n) → findPos l n 0 = l.length
  | [], n, _ => by simp [findPos]
  | r :: rs, n, h => by
    unfold findPos
    have h1 : r.name ≠ n := h r (List.mem_cons_self r rs)
    simp only [h1, if_false]
    rw [findPos_add rs n (0 + 1), findPos_absent rs n (fun q hq => h q (List.mem_cons_of_mem r hq))]
    simp

theorem findPos_present : ∀ (l : List VarRec) (n : List Char),
    (∃ r ∈ l, r.name = n) → findPos l n 0 < l.length
  | [], n, h => by obtain ⟨r, hr, _⟩ := h; cases hr
  | r :: rs, n, h => by
    unfold findPos
    by_cases h1 : r.name = n
    · simp [h1]
    · simp only [h1, if_false]
      rw [findPos_add rs n (0 + 1)]
      obtain ⟨q, hq, hqn⟩ := h
      have hq' : q ∈ rs := by
        rcases List.mem_cons.mp hq with e | e
        · subst e; exact absurd hqn h1
        · exact e
      have := findPos_present rs n ⟨q, hq', hqn⟩
      simp only [List.length_cons]; omega

theorem findPos_value : ∀ (l : List VarRec) (n : List Char), findPos l n 0 < l.length →
    (l[findPos l n 0]?).map VarRec.val = some (lookupList l n)
  | [], n, h => by simp [findPos] at h
  | r :: rs, n, h => by
    unfold findPos at h ⊢
    unfold lookupList
    by_cases h1 : r.name = n
    · simp [h1]
    · simp only [h1, if_false] at h ⊢
      rw [findPos_add rs n (0 + 1)] at h ⊢
      simp only [List.length_cons] at h
      rw [List.getElem?_cons_succ]
      exact findPos_value rs n (by omega)

theorem lookupList_append_self : ∀ (l : List VarRec) (n : List Char) (v : Value),
    (∀ r ∈ l, r.name ≠ n) → lookupList (l ++ [{ name := n, val := v }]) n = v
  | [], n, v, _ => by simp [lookupList]
  | r :: rs, n, v, h => by
    have h1 : r.name ≠ n := h r (List.mem_cons_self r rs)
    rw [List.cons_append, lookupList]
    simp only [h1, if_false]
    exact lookupList_append_self rs n v (fun q hq => h q (List.mem_cons_of_mem r hq))

theorem lookupList_append_other : ∀ (l : List VarRec) (n m : List Char) (v : Value),
    m ≠ n → lookupList (l ++ [{ name := n, val := v }]) m = lookupList l m
  | [], n, m, v, h => by simp [lookupList, Ne.symm h]
  | r :: rs, n, m, v, h => by
    rw [List.cons_append, lookupList, lookupList]
    by_cases h1 : r.name = m
    · simp [h1]
    · simp only [h1, if_false]
      exact lookupList_append_other rs n m v h

theorem lookupList_modify_self : ∀ (l : List VarRec) (n : List Char) (v : Value),
    findPos l n 0 < l.length →
    lookupList (l.modify (fun r => { r with val := v }) (findPos l n 0)) n = v
  | [], n, v, h => by simp [findPos] at h
  | r :: rs, n, v, h => by
    unfold findPos at h ⊢
    by_cases h1 : r.name = n
    · simp [h1, lookupList]
    · simp only [h1, if_false] at h ⊢
      rw [findPos_add rs n (0 + 1)] at h ⊢
      simp only [List.length_cons] at h
      rw [List.modify_succ_cons, lookupList]
      simp only [h1, if_false]
      exact lookupList_modify_self rs n v (by omega)

theorem lookupList_modify_other : ∀ (l : List VarRec) (n m : List Char) (v : Value),
    m ≠ n →
    lookupList (l.modify (fun r => { r with val := v }) (findPos l n 0)) m = lookupList l m
  | [], n, m, v, h => by simp [findPos, lookupList]
  | r :: rs, n, m, v, h => by
    unfold findPos
    by_cases h1 : r.name = n
    · have h2 : r.name ≠ m := by rw [h1]; exact Ne.symm h
      simp [h1, lookupList, h2, Ne.symm h]
    · simp only [h1, if_false]
      rw [findPos_add rs n (0 + 1), List.modify_succ_cons, lookupList, lookupList]
      by_cases h2 : r.name = m
      · simp [h2]
      · simp only [h2, if_false]
        exact lookupList_modify_other rs n m v h

theorem setVariable_new (cfg : Config) (env : Environment) (heap : Heap) (n : List Char)
    (v : Value) (habs : ∀ r ∈ env.vlist, r.name ≠ n)
    (hD : 2 ≤ cfg.DOUBLE) (hn : n.length ≤ cfg.MAX_VAR_NAME)
    (hlen : env.len ≤ env.capacity) (hcap : 1 ≤ env.capacity) :
    ∃ cap, env.len < cap ∧ 1 ≤ cap ∧
      setVariable cfg env heap n v =
        (match v with
          | .SeqType h => grabSequence heap h
          | .IntType _ => pure heap) >>= fun heap1 =>
          pure ({ vlist := env.vlist ++ [{ name := n, val := v }], capacity := cap }, heap1) := by
  have hpos : findPos env.vlist n 0 = env.len := findPos_absent env.vlist n habs
  by_cases hfull : env.len ≥ env.capacity
  · refine ⟨env.capacity * cfg.DOUBLE, ?_, ?_, ?_⟩
    · have : env.capacity * 2 ≤ env.capacity * cfg.DOUBLE := Nat.mul_le_mul_left _ hD
      omega
    · have : env.capacity * 2 ≤ env.capacity * cfg.DOUBLE := Nat.mul_le_mul_left _ hD
      omega
    · have h2 : env.len < env.capacity * cfg.DOUBLE := by
        have : env.capacity * 2 ≤ env.capacity * cfg.DOUBLE := Nat.mul_le_mul_left _ hD
        omega
      unfold setVariable
      simp only [hpos, ge_iff_le, Nat.le_refl, if_true, hfull, h2, not_true_eq_false, if_false,
        gt_iff_lt, Nat.not_lt.mpr hn]
      cases v <;> rfl
  · refine ⟨env.capacity, by omega, hcap, ?_⟩
    have h2 : env.len < env.capacity := by omega
    unfold setVariable
    simp only [hpos, ge_iff_le, Nat.le_refl, if_true, hfull, h2, not_true_eq_false, if_false,
      gt_iff_lt, Nat.not_lt.mpr hn]
    cases v <;> rfl

theorem kept_refl (heap : Heap) : Kept heap heap :=
  fun _ s' hd => ⟨s', hd, rfl, rfl⟩

theorem kept_trans {a b c : Heap} (h1 : Kept a b) (h2 : Kept b c) : Kept a c := by
  intro h s' hd
  obtain ⟨s1, hd1, hl1, hc1⟩ := h2 h s' hd
  obtain ⟨s0, hd0, hl0, hc0⟩ := h1 h s1 hd1
  exact ⟨s0, hd0, hl1.trans hl0, hc1.trans hc0⟩

theorem release_ok {heap : Heap} {h : Nat} {s : Sequence} (hd : heap.deref h = some s)
    (hr : 1 ≤ s.ref) :
    ∃ heap', releaseSequence heap h = .ok heap' ∧ Kept heap heap' ∧
      (∀ h', h' ≠ h → Heap.deref heap' h' = heap.deref h') ∧
      ((s.ref = 1 ∧ Heap.deref heap' h = none) ∨
        (2 ≤ s.ref ∧ Heap.deref heap' h = some { s with ref := s.ref - 1 })) := by
  have hex : ∃ heap', releaseSequence heap h = .ok heap' := by
    unfold releaseSequence
    rw [hd]
    simp only []
    by_cases hz : s.ref - 1 ≤ 0
    · rw [if_pos hz, if_pos (by omega)]; exact ⟨_, rfl⟩
    · rw [if_neg hz]; exact ⟨_, rfl⟩
  obtain ⟨heap', hrel⟩ := hex
  obtain ⟨hother, hself⟩ := release_cases hd hrel
  refine ⟨heap', hrel, ?_, hother, hself⟩
  intro h' s' hd'
  by_cases e : h' = h
  · subst e
    rcases hself with ⟨_, hnone⟩ | ⟨_, hsome⟩
    · rw [hnone] at hd'; cases hd'
    · rw [hsome] at hd'; cases hd'
      exact ⟨s, hd, rfl, rfl⟩
  · rw [hother h' e] at hd'
    exact ⟨s', hd', rfl, rfl⟩

theorem grab_ok {heap : Heap} {h : Nat} {s : Sequence} (hd : heap.deref h = some s) :
    ∃ heap', grabSequence heap h = .ok heap' ∧ Kept heap heap' ∧
      (∀ h', h' ≠ h → Heap.deref heap' h' = heap.deref h') ∧
      Heap.deref heap' h = some { s with ref := s.ref + 1 } := by
  have hlt : h < heap.length := deref_some_lt hd
  refine ⟨heap.set h (some { s with ref := s.ref + 1 }), by unfold grabSequence; rw [hd],
    ?_, fun h' hne => deref_set_ne _ (Ne.symm hne), deref_set_self _ hlt⟩
  intro h' s' hd'
  by_cases e : h' = h
  · subst e
    rw [deref_set_self _ hlt] at hd'; cases hd'
    exact ⟨s, hd, rfl, rfl⟩
  · rw [deref_set_ne _ (Ne.symm e)] at hd'
    exact ⟨s', hd', rfl, rfl⟩

/-- The heap part of `setVariable` on a record that exists: the sequence the
record held gives back two references, the sequence stored takes one. -/
theorem swap_references {heap : Heap} (old v : Value)
    (hold : ∀ h0, old = .SeqType h0 → ∃ s0, heap.deref h0 = some s0 ∧ 2 ≤ s0.ref ∧
      (v = .SeqType h0 → 3 ≤ s0.ref))
    (hnew : ∀ hv, v = .SeqType hv → ∃ s, heap.deref hv = some s ∧ 1 ≤ s.ref) :
    ∃ heap1 heap2,
      (match old with
        | .SeqType h => releaseSequence heap h >>= fun hp => releaseSequence hp h
        | .IntType _ => pure heap) = .ok heap1 ∧
      (match v with
        | .SeqType h => grabSequence heap1 h
        | .IntType _ => pure heap1) = .ok heap2 ∧
      Kept heap heap2 ∧
      (∀ hv, v = .SeqType hv → ∃ s s', heap.deref hv = some s ∧
        Heap.deref heap2 hv = some s' ∧ s'.list = s.list ∧ s'.capacity = s.capacity ∧
        1 ≤ s'.ref) := by
  -- the two releases
  obtain ⟨heap1, h1, k1, hv1⟩ : ∃ heap1,
      (match old with
        | .SeqType h => releaseSequence heap h >>= fun hp => releaseSequence hp h
        | .IntType _ => pure heap) = .ok heap1 ∧ Kept heap heap1 ∧
      (∀ hv, v = .SeqType hv → ∃ s s', heap.deref hv = some s ∧
        Heap.deref heap1 hv = some s' ∧ s'.list = s.list ∧ s'.capacity = s.capacity ∧
        0 ≤ s'.ref) := by
    cases old with
    | IntType a =>
      refine ⟨heap, rfl, kept_refl heap, ?_⟩
      intro hv e
      obtain ⟨s, hd, hr⟩ := hnew hv e
      exact ⟨s, s, hd, hd, rfl, rfl, by omega⟩
    | SeqType h0 =>
      obtain ⟨s0, hd0, hr0, hr3⟩ := hold h0 rfl
      obtain ⟨heapa, ha, ka, hoa, hsa⟩ := release_ok hd0 (by omega)
      have hda : Heap.deref heapa h0 = some { s0 with ref := s0.ref - 1 } := by
        rcases hsa with ⟨h1, _⟩ | ⟨_, hs⟩
        · omega
        · exact hs
      obtain ⟨heapb, hb, kb, hob, hsb⟩ := release_ok hda (by simp only []; omega)
      refine ⟨heapb, ?_, kept_trans ka kb, ?_⟩
      · simp only []
        rw [ha]
        exact hb
      · intro hv e
        by_cases e0 : hv = h0
        · subst e0
          have h3 := hr3 e
          rcases hsb with ⟨h1, _⟩ | ⟨_, hs⟩
          · simp only [] at h1; omega
          · exact ⟨s0, _, hd0, hs, rfl, rfl, by simp only []; omega⟩
        · obtain ⟨s, hd, hr⟩ := hnew hv e
          refine ⟨s, s, hd, ?_, rfl, rfl, by omega⟩
          rw [hob hv e0, hoa hv e0]; exact hd
  cases v with
  | IntType a =>
    refine ⟨heap1, heap1, h1, rfl, k1, ?_⟩
    intro hv e; cases e
  | SeqType hv =>
    obtain ⟨s, s', hd, hd', hl, hc, hr⟩ := hv1 hv rfl
    obtain ⟨heap2, hg, kg, _, hself⟩ := grab_ok hd'
    refine ⟨heap1, heap2, h1, hg, kept_trans k1 kg, ?_⟩
    intro hv' e; cases e
    exact ⟨s, _, hd, hself, hl, hc, by simp only []; omega⟩

/-- What `setVariable` does, for a name that fits its buffer, in an
environment that fits its allocation, when the sequence the variable held has
the two references of a stored sequence (three if it is the one being stored)
and the sequence being stored is allocated. -/
theorem setVariable_ok (cfg : Config) (env : Environment) (heap : Heap) (n : List Char)
    (v : Value) (hD : 2 ≤ cfg.DOUBLE) (hn : n.length ≤ cfg.MAX_VAR_NAME)
    (hlen : env.len ≤ env.capacity) (hcap : 1 ≤ env.capacity)
    (hold : ∀ h0, lookupVariable env n = .SeqType h0 →
      ∃ s0, heap.deref h0 = some s0 ∧ 2 ≤ s0.ref ∧ (v = .SeqType h0 → 3 ≤ s0.ref))
    (hnew : ∀ hv, v = .SeqType hv → ∃ s, heap.deref hv = some s ∧ 1 ≤ s.ref) :
    ∃ env' heap', setVariable cfg env heap n v = .ok (env', heap') ∧
      lookupVariable env' n = v ∧
      (∀ m, m ≠ n → lookupVariable env' m = lookupVariable env m) ∧
      ((∀ r ∈ env.vlist, r.name ≠ n) → env'.len = env.len + 1) ∧
      ((∃ r ∈ env.vlist, r.name = n) → env'.len = env.len) ∧
      env'.len ≤ env'.capacity ∧ 1 ≤ env'.capacity ∧
      Kept heap heap' ∧
      (∀ hv, v = .SeqType hv → ∃ s s', heap.deref hv = some s ∧
        Heap.deref heap' hv = some s' ∧ s'.list = s.list ∧ s'.capacity = s.capacity ∧
        1 ≤ s'.ref) := by
  by_cases habs : ∀ r ∈ env.vlist, r.name ≠ n
  · obtain ⟨cap, hc1, hc2, heq⟩ := setVariable_new cfg env heap n v habs hD hn hlen hcap
    have hlook : lookupVariable env n = .IntType 0 := lookupList_absent env.vlist n habs
    obtain ⟨heap1, heap2, h1, h2, k, hv⟩ := swap_references (.IntType 0) v
      (fun h0 e => by cases e) hnew
    cases h1
    refine ⟨Environment.mk (env.vlist ++ [VarRec.mk n v]) cap, heap2,
      ?_, lookupList_append_self env.vlist n v habs,
      fun m hm => lookupList_append_other env.vlist n m v hm, ?_, ?_, ?_, hc2, k, hv⟩
    · rw [heq, h2]; rfl
    · intro _; simp [Environment.len]
    · rintro ⟨r, hr, hrn⟩; exact absurd hrn (habs r hr)
    · simp only [Environment.len, List.length_append, List.length_singleton]
      unfold Environment.len at hc1; omega
  · have hpres : ∃ r ∈ env.vlist, r.name = n := by
      by_contra hc
      exact habs (fun r hr hrn => hc ⟨r, hr, hrn⟩)
    have hpos : findPos env.vlist n 0 < env.vlist.length := findPos_present env.vlist n hpres
    obtain ⟨heap1, heap2, h1, h2, k, hv⟩ := swap_references (lookupVariable env n) v hold hnew
    refine ⟨Environment.mk (env.vlist.modify (fun r => { r with val := v })
        (findPos env.vlist n 0)) env.capacity, heap2, ?_, lookupList_modify_self env.vlist n v hpos,
      fun m hm => lookupList_modify_other env.vlist n m v hm, ?_, ?_, ?_, hcap, k, hv⟩
    · unfold setVariable
      have hne : findPos env.vlist n 0 ≠ env.len := by unfold Environment.len; omega
      have hge : ¬ findPos env.vlist n 0 ≥ env.len := by unfold Environment.len; omega
      simp only [hne, hge, if_false, findPos_value env.vlist n hpos]
      unfold lookupVariable at h1
      cases hl : lookupList env.vlist n with
      | IntType a =>
        rw [hl] at h1
        cases h1
        cases v with
        | IntType b => cases h2; rfl
        | SeqType hv' =>
          simp only [bind, Except.bind, pure, Except.pure] at h2 ⊢
          rw [h2]
      | SeqType h0 =>
        rw [hl] at h1
        simp only [bind, Except.bind, pure, Except.pure] at h1 ⊢
        cases hra : releaseSequence heap h0 with
        | error e => rw [hra] at h1; cases h1
        | ok heapa =>
          rw [hra] at h1
          simp only [] at h1 ⊢
          rw [h1]
          cases v with
          | IntType b => cases h2; rfl
          | SeqType hv' =>
            simp only [bind, Except.bind, pure, Except.pure] at h2 ⊢
            rw [h2]
    · intro hno; obtain ⟨r, hr, hrn⟩ := hpres; exact absurd hrn (hno r hr)
    · intro _; simp [Environment.len]
    · simpa [Environment.len] using hlen

/-- C20. Let the name fit the name buffer, the environment fit its
allocation, which grows by a factor of at least 2, the sequence the variable
holds (if it holds one) have the two references of a stored sequence, three if
it is the value being stored, and the sequence being stored (if the value is
one) be allocated. Then `setVariable` returns, and afterwards: looking up the
name gives the value; looking up any other name gives what it gave before; the
number of records is one more if the name was not present and the same if it
was; and the environment still fits its allocation, whatever the number of
records was. -/
theorem C20_set_variable_then_lookup (cfg : Config) (env : Environment) (heap : Heap)
    (n : List Char) (v : Value) (hD : 2 ≤ cfg.DOUBLE) (hn : n.length ≤ cfg.MAX_VAR_NAME)
    (hlen : env.len ≤ env.capacity) (hcap : 1 ≤ env.capacity)
    (hold : ∀ h0, lookupVariable env n = .SeqType h0 →
      ∃ s0, heap.deref h0 = some s0 ∧ 2 ≤ s0.ref ∧ (v = .SeqType h0 → 3 ≤ s0.ref))
    (hnew : ∀ hv, v = .SeqType hv → ∃ s, heap.deref hv = some s ∧ 1 ≤ s.ref) :
    ∃ env' heap', setVariable cfg env heap n v = .ok (env', heap') ∧
      lookupVariable env' n = v ∧
      (∀ m, m ≠ n → lookupVariable env' m = lookupVariable env m) ∧
      ((∀ r ∈ env.vlist, r.name ≠ n) → env'.len = env.len + 1) ∧
      ((∃ r ∈ env.vlist, r.name = n) → env'.len = env.len) ∧
      env'.len ≤ env'.capacity ∧ 1 ≤ env'.capacity := by
  obtain ⟨env', heap', h1, h2, h3, h4, h5, h6, h7, _⟩ :=
    setVariable_ok cfg env heap n v hD hn hlen hcap hold hnew
  exact ⟨env', heap', h1, h2, h3, h4, h5, h6, h7⟩

/-- C20 at a sixth variable `f` set in an environment that holds five, which
is its initial capacity, and at whole programs. -/
theorem C20_set_variable_witness :
    (∃ env' heap', setVariable refConfig
        ⟨[⟨"a".toList, .IntType 1⟩, ⟨"b".toList, .IntType 2⟩, ⟨"c".toList, .IntType 3⟩,
          ⟨"d".toList, .IntType 4⟩, ⟨"e".toList, .IntType 5⟩], 5⟩ [] "f".toList (.IntType 6)
        = .ok (env', heap') ∧
      lookupVariable env' "f".toList = .IntType 6 ∧
      (∀ m, m ≠ "f".toList → lookupVariable env' m = lookupVariable
        ⟨[⟨"a".toList, .IntType 1⟩, ⟨"b".toList, .IntType 2⟩, ⟨"c".toList, .IntType 3⟩,
          ⟨"d".toList, .IntType 4⟩, ⟨"e".toList, .IntType 5⟩], 5⟩ m) ∧
      ((∀ r ∈ [(⟨"a".toList, .IntType 1⟩ : VarRec), ⟨"b".toList, .IntType 2⟩,
          ⟨"c".toList, .IntType 3⟩, ⟨"d".toList, .IntType 4⟩, ⟨"e".toList, .IntType 5⟩],
          r.name ≠ "f".toList) → env'.len = 5 + 1) ∧
      ((∃ r ∈ [(⟨"a".toList, .IntType 1⟩ : VarRec), ⟨"b".toList, .IntType 2⟩,
          ⟨"c".toList, .IntType 3⟩, ⟨"d".toList, .IntType 4⟩, ⟨"e".toList, .IntType 5⟩],
          r.name = "f".toList) → env'.len = 5) ∧
      env'.len ≤ env'.capacity ∧ 1 ≤ env'.capacity) ∧
    setVariable refConfig
        ⟨[⟨"a".toList, .IntType 1⟩, ⟨"b".toList, .IntType 2⟩, ⟨"c".toList, .IntType 3⟩,
          ⟨"d".toList, .IntType 4⟩, ⟨"e".toList, .IntType 5⟩], 5⟩ [] "f".toList (.IntType 6)
      = .ok (⟨[⟨"a".toList, .IntType 1⟩, ⟨"b".toList, .IntType 2⟩, ⟨"c".toList, .IntType 3⟩,
          ⟨"d".toList, .IntType 4⟩, ⟨"e".toList, .IntType 5⟩, ⟨"f".toList, .IntType 6⟩], 10⟩,
          []) ∧
    interpret refConfig 40
        "a = 1; b = 2; c = 3; d = 4; e = 5; f = 6; a = 7; print a; print b; print f; print g;".toList
      = .ok "7260".toList ∧
    interpret refConfig 40 "a = [1]; b = a; a = [2, 3]; a = a; print len a; print len b;".toList
      = .ok "21".toList :=
  ⟨C20_set_variable_then_lookup refConfig
      ⟨[⟨"a".toList, .IntType 1⟩, ⟨"b".toList, .IntType 2⟩, ⟨"c".toList, .IntType 3⟩,
        ⟨"d".toList, .IntType 4⟩, ⟨"e".toList, .IntType 5⟩], 5⟩ [] "f".toList (.IntType 6)
      (by decide) (by decide) (by decide) (by decide)
      (by intro h0 e; simp [lookupVariable, lookupList] at e)
      (by intro hv e; cases e),
    by rfl, by decide!, by decide!⟩

/-! ## Sequences are shared -/

theorem eval_variable_seq (cfg : Config) {env : Environment} {heap : Heap} {a : List Char}
    {h : Nat} {s : Sequence} (ha : lookupVariable env a = .SeqType h)
    (hd : heap.deref h = some s) :
    ∃ heap1, eval cfg (.Variable a) env heap = .ok (.SeqType h, heap1) ∧
      Heap.deref heap1 h = some { s with ref := s.ref + 1 } ∧
      (∀ h', h' ≠ h → Heap.deref heap1 h' = heap.deref h') := by
  obtain ⟨heap1, hg, _, hother, hself⟩ := grab_ok hd
  refine ⟨heap1, ?_, hself, hother⟩
  rw [eval, ha]
  simp only []
  rw [hg]

/-- The statement `b = a` when `a` holds a sequence: afterwards both names
hold that sequence, which has the elements and the capacity it had. -/
theorem assign_alias (cfg : Config) (fuel : Nat) (a b : List Char) (st : ExecState)
    (h : Nat) (s : Sequence) (hD : 2 ≤ cfg.DOUBLE) (hb : b.length ≤ cfg.MAX_VAR_NAME)
    (hlen : st.env.len ≤ st.env.capacity) (hcap : 1 ≤ st.env.capacity)
    (ha : lookupVariable st.env a = .SeqType h) (hd : Heap.deref st.heap h = some s)
    (htwice : ∀ m h', lookupVariable st.env m = .SeqType h' →
      ∃ s', Heap.deref st.heap h' = some s' ∧ 2 ≤ s'.ref) :
    ∃ st1 s1, execute cfg (fuel + 1) (.Assignment b none (.Variable a)) st = .ok st1 ∧
      lookupVariable st1.env a = .SeqType h ∧ lookupVariable st1.env b = .SeqType h ∧
      Heap.deref st1.heap h = some s1 ∧ s1.list = s.list ∧ s1.capacity = s.capacity ∧
      1 ≤ s1.ref ∧ st1.out = st.out := by
  obtain ⟨heap1, he, hself, hother⟩ := eval_variable_seq cfg ha hd
  obtain ⟨sa, hda, hra⟩ := htwice a h ha
  rw [hd] at hda; cases hda
  obtain ⟨env', heap', hset, hlb, hlo, _, _, _, _, _, hv⟩ :=
    setVariable_ok cfg st.env heap1 b (.SeqType h) hD hb hlen hcap
      (by
        intro h0 hl0
        obtain ⟨s0, hd0, hr0⟩ := htwice b h0 hl0
        by_cases e : h0 = h
        · subst e
          rw [hd] at hd0; cases hd0
          exact ⟨_, hself, by simp only []; omega, fun _ => by simp only []; omega⟩
        · refine ⟨s0, by rw [hother h0 e]; exact hd0, hr0, ?_⟩
          intro e'; cases e'; exact absurd rfl e)
      (by
        intro hv e; cases e
        exact ⟨_, hself, by simp only []; omega⟩)
  obtain ⟨s0, s1, hd0, hd1, hl1, hc1, hr1⟩ := hv h rfl
  rw [hself] at hd0; cases hd0
  refine ⟨{ st with env := env', heap := heap' }, s1, ?_, ?_, hlb, hd1, hl1, hc1, hr1, rfl⟩
  · rw [execute, he]
    simp only [liftEval]
    rw [hset]
  · by_cases e : a = b
    · subst e; exact hlb
    · simp only []
      rw [hlo a e]; exact ha

/-- C12. Let the variable `a` hold a sequence with elements `s.list` that fit
its allocation, in a state where every stored sequence is allocated with at
least the two references of its record, the environment fits its allocation,
allocations grow by a factor of at least 2, and the name `b` fits the name
buffer. Then:
* the statements `b = a` and `push b, k` end, and afterwards `a` evaluates to
  that same sequence, whose elements are now `s.list` followed by `k`, one
  more than before;
* for `0 ≤ i < n`, the statements `b = a` and `b[i] = v` end, and
  afterwards `a` evaluates to that same sequence, whose element `i` is now
  `v`. -/
theorem C12_a_sequence_is_shared_by_its_names (cfg : Config) (fuel : Nat) (a b : List Char)
    (st : ExecState) (h : Nat) (s : Sequence) (k : Int)
    (hD : 2 ≤ cfg.DOUBLE) (hb : b.length ≤ cfg.MAX_VAR_NAME)
    (hlen : st.env.len ≤ st.env.capacity) (hcap : 1 ≤ st.env.capacity)
    (ha : lookupVariable st.env a = .SeqType h) (hd : Heap.deref st.heap h = some s)
    (hc : s.count ≤ s.capacity) (hc1 : 1 ≤ s.capacity)
    (htwice : ∀ m h', lookupVariable st.env m = .SeqType h' →
      ∃ s', Heap.deref st.heap h' = some s' ∧ 2 ≤ s'.ref) :
    (∃ st2 heap3 s3,
      executeList (execute cfg (fuel + 1))
        [.Assignment b none (.Variable a), .Push (.Variable b) (.LiteralInt k)] st = .ok st2 ∧
      eval cfg (.Variable a) st2.env st2.heap = .ok (.SeqType h, heap3) ∧
      Heap.deref heap3 h = some s3 ∧
      s3.list = s.list ++ [k] ∧ s3.count = s.count + 1 ∧
      s3.list[s.count]? = some k) ∧
    (∀ (i v : Int), 0 ≤ i → i < (s.count : Int) → ∃ st2 heap3 s3,
      executeList (execute cfg (fuel + 1))
        [.Assignment b none (.Variable a),
          .Assignment b (some (.LiteralInt i)) (.LiteralInt v)] st = .ok st2 ∧
      eval cfg (.Variable a) st2.env st2.heap = .ok (.SeqType h, heap3) ∧
      Heap.deref heap3 h = some s3 ∧
      s3.list = s.list.set i.toNat v ∧ s3.list[i.toNat]? = some v) := by
  obtain ⟨st1, s1, hex1, hla, hlb, hd1, hl1, hcap1, hr1, _⟩ :=
    assign_alias cfg fuel a b st h s hD hb hlen hcap ha hd htwice
  refine ⟨?_, ?_⟩
  · obtain ⟨heapg, heg, hselfg, _⟩ := eval_variable_seq cfg hlb hd1
    obtain ⟨heap3, heap4, s4, hst, hrel, hd4, hl4, _, _, _, _⟩ :=
      push_steps cfg k hselfg (by simp only []; omega)
        (by simp only [Sequence.count]; rw [hl1, hcap1]; exact hc)
        (by simp only []; rw [hcap1]; exact hc1) hD
    have hex2 : execute cfg (fuel + 1) (.Push (.Variable b) (.LiteralInt k)) st1
        = .ok { st1 with heap := heap4 } := by
      rw [execute, heg]
      simp only [liftEval, eval, requireSeqType, requireIntType]
      rw [hst]
      simp only []
      rw [hrel]
    obtain ⟨heap5, he5, hself5, _⟩ :=
      eval_variable_seq cfg hla hd4
    refine ⟨{ st1 with heap := heap4 }, heap5, _, ?_, he5, hself5, ?_, ?_, ?_⟩
    · simp only [executeList]
      rw [hex1]
      simp only []
      rw [hex2]
    · simp only []; rw [hl4]; simp only []; rw [hl1]
    · simp only [Sequence.count]; rw [hl4]; simp only []; rw [hl1]; simp
    · simp only []; rw [hl4]; simp only []; rw [hl1]; simp [Sequence.count]
  · intro i v h0 hi
    have hi1 : i < (s1.count : Int) := by
      simp only [Sequence.count]; rw [hl1]; exact hi
    have hlt : h < st1.heap.length := deref_some_lt hd1
    obtain ⟨heapw, hwrite, hdw⟩ : ∃ heapw, writeElem st1.heap h i v = .ok heapw ∧
        Heap.deref heapw h = some { s1 with list := s1.list.set i.toNat v } :=
      ⟨_, writeElem_ok hd1 h0 hi1, deref_set_self _ hlt⟩
    have hex2 : execute cfg (fuel + 1) (.Assignment b (some (.LiteralInt i)) (.LiteralInt v)) st1
        = .ok { st1 with heap := heapw } := by
      rw [execute]
      simp only [liftEval, eval]
      rw [hlb]
      simp only []
      rw [hd1]
      simp only []
      rw [if_neg (by omega), hwrite]
    obtain ⟨heap5, he5, hself5, _⟩ :=
      eval_variable_seq cfg hla hdw
    refine ⟨{ st1 with heap := heapw }, heap5, _, ?_, he5, hself5, ?_, ?_⟩
    · simp only [executeList]
      rw [hex1]
      simp only []
      rw [hex2]
    · simp only []; rw [hl1]
    · simp only []; rw [hl1]
      have : i.toNat < s.list.length := by unfold Sequence.count at hi; omega
      simp [List.getElem?_set, this]

/-- C12 at `a` holding `[1,2,3]` with `b` unset, and at whole programs. -/
theorem C12_a_sequence_is_shared_witness :
    (∃ st2 heap3 s3,
      executeList (execute refConfig (0 + 1))
        [.Assignment "b".toList none (.Variable "a".toList),
          .Push (.Variable "b".toList) (.LiteralInt 9)]
        ⟨⟨[⟨"a".toList, .SeqType 0⟩], 5⟩, [some ⟨5, [1, 2, 3], 2⟩], []⟩ = .ok st2 ∧
      eval refConfig (.Variable "a".toList) st2.env st2.heap = .ok (.SeqType 0, heap3) ∧
      Heap.deref heap3 0 = some s3 ∧
      s3.list = (⟨5, [1, 2, 3], 2⟩ : Sequence).list ++ [9] ∧
      s3.count = (⟨5, [1, 2, 3], 2⟩ : Sequence).count + 1 ∧
      s3.list[(⟨5, [1, 2, 3], 2⟩ : Sequence).count]? = some 9) ∧
    executeList (execute refConfig 1)
        [.Assignment "b".toList none (.Variable "a".toList),
          .Push (.Variable "b".toList) (.LiteralInt 9)]
        ⟨⟨[⟨"a".toList, .SeqType 0⟩], 5⟩, [some ⟨5, [1, 2, 3], 2⟩], []⟩
      = .ok ⟨⟨[⟨"a".toList, .SeqType 0⟩, ⟨"b".toList, .SeqType 0⟩], 5⟩,
          [some ⟨5, [1, 2, 3, 9], 4⟩], []⟩ ∧
    interpret refConfig 40 "a = [1, 2, 3]; b = a; push b, 9; print len a; print a[3];".toList
      = .ok "49".toList ∧
    interpret refConfig 40 "a = [1, 2, 3]; b = a; b[1] = 7; print a[1];".toList
      = .ok "7".toList :=
  ⟨(C12_a_sequence_is_shared_by_its_names refConfig 0 "a".toList "b".toList
      ⟨⟨[⟨"a".toList, .SeqType 0⟩], 5⟩, [some ⟨5, [1, 2, 3], 2⟩], []⟩ 0 ⟨5, [1, 2, 3], 2⟩ 9
      (by decide) (by decide) (by decide) (by decide) (by rfl) (by rfl) (by decide) (by decide)
      (by
        intro m h' hl
        simp only [lookupVariable, lookupList] at hl
        by_cases e : "a".toList = m
        · rw [if_pos e] at hl; cases hl
          exact ⟨_, rfl, by decide⟩
        · rw [if_neg e] at hl; cases hl)).1,
    by rfl, by decide!, by decide!⟩

/-! ## Whitespace and comments -/

theorem skipBlanks_start {c : Char} (hs : isspace c = false) (hc : c ≠ '#')
    (rest : List Char) (line : Nat) :
    skipBlanks false (c :: rest) line = (some (c, rest), line) := by
  rw [skipBlanks]
  simp [hs, hc]

theorem skipBlanks_comment_body : ∀ (body t : List Char) (line : Nat),
    (∀ c ∈ body, c ≠ newline) →
    skipBlanks true (body ++ newline :: t) line = skipBlanks false t (line + 1)
  | [], t, line, _ => by
    rw [List.nil_append, skipBlanks]; simp
  | b :: body, t, line, h => by
    have hb : b ≠ newline := h b (List.mem_cons_self b body)
    rw [List.cons_append, skipBlanks]
    simp only [hb, if_false]
    exact skipBlanks_comment_body body t line (fun c hc => h c (List.mem_cons_of_mem b hc))

theorem skipBlanks_comment_open : ∀ (body : List Char) (line : Nat),
    (∀ c ∈ body, c ≠ newline) → skipBlanks true body line = (none, line)
  | [], line, _ => by rw [skipBlanks]
  | b :: body, line, h => by
    have hb : b ≠ newline := h b (List.mem_cons_self b body)
    rw [skipBlanks]
    simp only [hb, if_false]
    exact skipBlanks_comment_open body line (fun c hc => h c (List.mem_cons_of_mem b hc))

theorem count_newline_body {body : List Char} (h : ∀ c ∈ body, c ≠ newline) :
    body.count newline = 0 :=
  List.count_eq_zero.mpr (fun hm => h newline hm rfl)

theorem newline_isspace : isspace newline = true := by decide

theorem hash_ne_newline : '#' ≠ newline := by decide

theorem hash_not_space : isspace '#' = false := by decide

/-- Skipped text in front of the input is skipped, and its newlines counted. -/
theorem skipBlanks_skipped {pre : List Char} (hp : Skipped pre) :
    ∀ (rest : List Char) (line : Nat),
      skipBlanks false (pre ++ rest) line = skipBlanks false rest (line + pre.count newline) := by
  induction hp with
  | done => intro rest line; simp
  | space c t hc _ ih =>
    intro rest line
    have hne : c ≠ '#' := by intro e; rw [e] at hc; revert hc; decide
    rw [List.cons_append, skipBlanks]
    simp only [hne, if_false, hc, if_true]
    rw [ih]
    by_cases hn : c = newline
    · subst hn; simp only [if_true, List.count_cons_self]; congr 1; omega
    · simp only [hn, if_false]
      rw [List.count_cons_of_ne (Ne.symm hn)]
  | comment body t hb _ ih =>
    intro rest line
    rw [List.cons_append, skipBlanks]
    simp only [if_true]
    rw [List.append_assoc, List.cons_append, skipBlanks_comment_body body _ line hb, ih]
    congr 1
    rw [List.count_cons_of_ne hash_ne_newline.symm, List.count_append, count_newline_body hb,
      List.count_cons_self]
    omega

theorem skipBlanks_onlyBlank {input : List Char} (h : OnlyBlank input) (line : Nat) :
    skipBlanks false input line = (none, line + input.count newline) := by
  cases h with
  | closed t ht =>
    have := skipBlanks_skipped ht [] line
    rw [List.append_nil] at this
    rw [this, skipBlanks]
  | unclosed pre body hp hb =>
    rw [skipBlanks_skipped hp, skipBlanks]
    simp only [if_true]
    rw [skipBlanks_comment_open body _ hb, List.count_append,
      List.count_cons_of_ne hash_ne_newline.symm, count_newline_body hb, Nat.add_zero]

/-- A comment either runs to the end of the input or ends with a newline. -/
theorem comment_split (t : List Char) :
    (∀ c ∈ t, c ≠ newline) ∨
    ∃ body t', t = body ++ newline :: t' ∧ (∀ c ∈ body, c ≠ newline) := by
  induction t with
  | nil => left; intro c hc; cases hc
  | cons a t ih =>
    by_cases ha : a = newline
    · right; exact ⟨[], t, by rw [ha]; rfl, fun c hc => by cases hc⟩
    · rcases ih with h | ⟨body, t', e, hb⟩
      · left
        intro c hc
        rcases List.mem_cons.mp hc with e | e
        · rw [e]; exact ha
        · exact h c e
      · right
        refine ⟨a :: body, t', by rw [e]; rfl, ?_⟩
        intro c hc
        rcases List.mem_cons.mp hc with e | e
        · rw [e]; exact ha
        · exact hb c e

/-- Every input is whitespace and comments only, or is skipped text followed
by the first character of a token. -/
theorem blank_or_token : ∀ (n : Nat) (input : List Char), input.length ≤ n →
    OnlyBlank input ∨
    ∃ pre c rest, input = pre ++ c :: rest ∧ Skipped pre ∧ isspace c = false ∧ c ≠ '#'
  | 0, input, h => by
    have : input = [] := List.length_eq_zero.mp (by omega)
    subst this
    exact Or.inl (.closed [] .done)
  | n + 1, [], _ => Or.inl (.closed [] .done)
  | n + 1, a :: t, h => by
    have hlen : t.length ≤ n := by simp only [List.length_cons] at h; omega
    by_cases ha : a = '#'
    · subst ha
      rcases comment_split t with hb | ⟨body, t', e, hb⟩
      · exact Or.inl (.unclosed [] t .done hb)
      · subst e
        have hlen' : t'.length ≤ n := by
          simp only [List.length_append, List.length_cons] at hlen; omega
        rcases blank_or_token n t' hlen' with hob | ⟨pre, c, rest, e, hp, hs, hc⟩
        · left
          cases hob with
          | closed _ ht => exact .closed _ (.comment body t' hb ht)
          | unclosed pre b2 hp hb2 =>
            have := OnlyBlank.unclosed ('#' :: (body ++ newline :: pre)) b2
              (.comment body pre hb hp) hb2
            simpa using this
        · right
          subst e
          refine ⟨'#' :: (body ++ newline :: pre), c, rest, by simp, .comment body pre hb hp,
            hs, hc⟩
    · by_cases hsp : isspace a = true
      · rcases blank_or_token n t hlen with hob | ⟨pre, c, rest, e, hp, hs, hc⟩
        · left
          cases hob with
          | closed _ ht => exact .closed _ (.space a t hsp ht)
          | unclosed pre b2 hp hb2 =>
            have := OnlyBlank.unclosed (a :: pre) b2 (.space a pre hsp hp) hb2
            simpa using this
        · right
          subst e
          exact ⟨a :: pre, c, rest, by simp, .space a pre hsp hp, hs, hc⟩
      · right
        exact ⟨[], a, t, rfl, .done, by simpa using hsp, ha⟩

/-- At the first character of a token `parseToken` returns a token or stops:
it does not report the end of the input. -/
theorem parseToken_at_token {c : Char} (hs : isspace c = false) (hc : c ≠ '#')
    (rest : List Char) (line : Nat) (st' : PState) :
    parseToken { input := c :: rest, lineCount := line } ≠ .ok (none, st') := by
  unfold parseToken
  rw [skipBlanks_start hs hc]
  simp only []
  split
  · split <;> simp
  · split
    · split <;> simp
    · split
      · split
        · simp
        · split
          · simp
          · split <;> simp
      · split
        · simp
        · split <;> simp

/-- A token leaves the line counter where the skipped text before it left
it. -/
theorem parseToken_lineCount {c : Char} (hs : isspace c = false) (hc : c ≠ '#')
    (rest : List Char) (line : Nat) (r : Option (List Char)) (st' : PState)
    (h : parseToken { input := c :: rest, lineCount := line } = .ok (r, st')) :
    st'.lineCount = line := by
  unfold parseToken at h
  rw [skipBlanks_start hs hc] at h
  simp only [] at h
  split at h
  · split at h
    · cases h
    · cases h; rfl
  · split at h
    · split at h
      · cases h
      · cases h; rfl
    · split at h
      · split at h
        · cases h
        · split at h
          · cases h
          · split at h
            · cases h
            · cases h; rfl
      · split at h
        · cases h; rfl
        · split at h
          · cases h; rfl
          · cases h; rfl

/-- C30. For every input and every value of the line counter:
* when the input is text that is skipped whole (whitespace, and comments from
  `#` to the newline that ends them) followed by a character that is neither
  whitespace nor `#`, `parseToken` does what it does at that character with
  the line counter raised by the number of newlines in the skipped text, and
  a token it returns leaves the counter at that value;
* `parseToken` reports that there is no token exactly when the input consists
  solely of whitespace and comments, and then the line counter is its value
  before plus the number of newlines in the input: the newline that ends a
  comment is counted, and a last comment that the end of the input ends adds
  none. -/
theorem C30_whitespace_and_comments_are_skipped (input : List Char) (line : Nat) :
    (∀ pre c rest, input = pre ++ c :: rest → Skipped pre → isspace c = false → c ≠ '#' →
      skipBlanks false input line = (some (c, rest), line + pre.count newline) ∧
      parseToken { input := input, lineCount := line }
        = parseToken { input := c :: rest, lineCount := line + pre.count newline } ∧
      ∀ tok st', parseToken { input := input, lineCount := line } = .ok (tok, st') →
        tok ≠ none ∧ st'.lineCount = line + pre.count newline) ∧
    ((∃ st', parseToken { input := input, lineCount := line } = .ok (none, st'))
      ↔ OnlyBlank input) ∧
    (OnlyBlank input →
      parseToken { input := input, lineCount := line }
        = .ok (none, { input := [], lineCount := line + input.count newline })) ∧
    (OnlyBlank input ∨
      ∃ pre c rest, input = pre ++ c :: rest ∧ Skipped pre ∧ isspace c = false ∧ c ≠ '#') ∧
    parseToken (PState.mk ("  # one".toList ++ newline :: newline :: "# two".toList) 1)
      = .ok (none, PState.mk [] 3) ∧
    parseToken (PState.mk (" # one".toList ++ newline :: tab :: newline :: "x = 1;".toList) 1)
      = .ok (some "x".toList, PState.mk " = 1;".toList 3) := by
  have hskip : ∀ pre c rest, input = pre ++ c :: rest → Skipped pre → isspace c = false →
      c ≠ '#' →
      skipBlanks false input line = (some (c, rest), line + pre.count newline) ∧
      parseToken { input := input, lineCount := line }
        = parseToken { input := c :: rest, lineCount := line + pre.count newline } := by
    intro pre c rest e hp hs hc
    subst e
    have h1 : skipBlanks false (pre ++ c :: rest) line
        = (some (c, rest), line + pre.count newline) := by
      rw [skipBlanks_skipped hp, skipBlanks_start hs hc]
    refine ⟨h1, ?_⟩
    unfold parseToken
    simp only []
    rw [h1, skipBlanks_start hs hc]
  have hblank : OnlyBlank input →
      parseToken { input := input, lineCount := line }
        = .ok (none, { input := [], lineCount := line + input.count newline }) := by
    intro hb
    unfold parseToken
    simp only []
    rw [skipBlanks_onlyBlank hb]
  refine ⟨?_, ?_, hblank, blank_or_token input.length input (Nat.le_refl _), by rfl, by rfl⟩
  · intro pre c rest e hp hs hc
    obtain ⟨h1, h2⟩ := hskip pre c rest e hp hs hc
    refine ⟨h1, h2, ?_⟩
    intro tok st' h
    rw [h2] at h
    refine ⟨?_, parseToken_lineCount hs hc rest _ tok st' h⟩
    intro e'; subst e'
    exact parseToken_at_token hs hc rest _ st' h
  · constructor
    · rintro ⟨st', h⟩
      rcases blank_or_token input.length input (Nat.le_refl _) with hb | ⟨pre, c, rest, e, hp, hs, hc⟩
      · exact hb
      · rw [(hskip pre c rest e hp hs hc).2] at h
        exact absurd h (parseToken_at_token hs hc rest _ st')
    · intro hb
      exact ⟨_, hblank hb⟩

/-! ## Words, numbers and operators -/

theorem wordStart_class {c : Char} (h : wordStart c) :
    c ≠ '#' ∧ isspace c = false ∧ (isalpha c || decide (c = '_')) = true := by
  rcases h with h | rfl
  · have hn : (65 ≤ c.toNat ∧ c.toNat ≤ 90) ∨ (97 ≤ c.toNat ∧ c.toNat ≤ 122) := by
      simpa [isalpha] using h
    refine ⟨?_, ?_, by simp [h]⟩
    · intro e; subst e; revert hn; decide
    · simp only [isspace, Bool.or_eq_false_iff, Bool.and_eq_false_iff, decide_eq_false_iff_not]
      omega
  · decide

theorem readWhile_run (p : Char → Bool) (line : Nat) : ∀ (l tok : List Char),
    tok.length + (l.takeWhile p).length ≤ MAX_TOKEN →
    readWhile p l tok line = .ok (tok ++ l.takeWhile p, l.dropWhile p)
  | [], tok, _ => by simp [readWhile]
  | c :: cs, tok, h => by
    rw [readWhile]
    by_cases hc : p c = true
    · rw [List.takeWhile_cons_of_pos hc] at h
      simp only [List.length_cons] at h
      have hlt : ¬ tok.length ≥ MAX_TOKEN := by omega
      have hlen : (tok ++ [c]).length + (cs.takeWhile p).length ≤ MAX_TOKEN := by
        simp only [List.length_append, List.length_cons, List.length_nil]; omega
      simp only [hc, if_true, addToToken, hlt, if_false]
      rw [readWhile_run p line cs (tok ++ [c]) hlen]
      rw [List.takeWhile_cons_of_pos hc, List.dropWhile_cons_of_pos hc]
      simp
    · rw [if_neg hc, List.takeWhile_cons_of_neg hc, List.dropWhile_cons_of_neg hc]
      simp

theorem readWhile_long (p : Char → Bool) (line : Nat) : ∀ (l tok : List Char),
    tok.length ≤ MAX_TOKEN → MAX_TOKEN < tok.length + (l.takeWhile p).length →
    readWhile p l tok line = .error (.tokenTooLong line)
  | [], tok, h1, h2 => by simp at h2; omega
  | c :: cs, tok, h1, h2 => by
    rw [readWhile]
    by_cases hc : p c = true
    · rw [List.takeWhile_cons_of_pos hc] at h2
      simp only [List.length_cons] at h2
      simp only [hc, if_true, addToToken]
      by_cases hfull : tok.length ≥ MAX_TOKEN
      · rw [if_pos hfull]
      · rw [if_neg hfull]
        simp only []
        exact readWhile_long p line cs (tok ++ [c])
          (by simp only [List.length_append, List.length_cons, List.length_nil]; omega)
          (by simp only [List.length_append, List.length_cons, List.length_nil]; omega)
    · rw [List.takeWhile_cons_of_neg hc] at h2
      simp at h2; omega

theorem run_is_longest (p : Char → Bool) (l : List Char) :
    l = l.takeWhile p ++ l.dropWhile p ∧ (∀ x ∈ l.takeWhile p, p x = true) ∧
    (∀ y, (l.dropWhile p).head? = some y → p y = false) := by
  refine ⟨(List.takeWhile_append_dropWhile p l).symm, fun x hx => List.mem_takeWhile_imp hx, ?_⟩
  intro y hy
  induction l with
  | nil => simp at hy
  | cons a t ih =>
    by_cases ha : p a = true
    · rw [List.dropWhile_cons_of_pos ha] at hy; exact ih hy
    · rw [List.dropWhile_cons_of_neg ha] at hy
      simp only [List.head?_cons, Option.some.injEq] at hy
      subst hy; simpa using ha

theorem parseToken_word {c : Char} (hc : wordStart c) (rest : List Char) (line : Nat) :
    parseToken { input := c :: rest, lineCount := line }
      = match readWhile wordChar rest [c] line with
        | .error e => .error e
        | .ok (token, rest1) => .ok (some token, { input := rest1, lineCount := line }) := by
  obtain ⟨h1, h2, h3⟩ := wordStart_class hc
  unfold parseToken
  rw [skipBlanks_start h2 h1]
  simp only [h3, if_true]
  rfl

theorem parseToken_numeral {c : Char} (hc : numberStart c) (rest : List Char) (line : Nat) :
    parseToken { input := c :: rest, lineCount := line }
      = match readWhile isdigit rest [c] line with
        | .error e => .error e
        | .ok (token, rest1) => .ok (some token, { input := rest1, lineCount := line }) := by
  obtain ⟨h1, h2, h3, h4, _, _⟩ := numberStart_class hc
  unfold parseToken
  rw [skipBlanks_start h2 h1]
  simp only [h3, Bool.false_eq_true, if_false, h4, if_true]

theorem parseToken_symbol {c : Char} (hc : operatorStart c) (rest : List Char) (line : Nat) :
    parseToken { input := c :: rest, lineCount := line }
      = match rest with
        | [] => .ok (some [c], { input := [], lineCount := line })
        | c2 :: rest1 =>
          if (c = '=' ∧ c2 = '=') ∨ (c = '&' ∧ c2 = '&') ∨ (c = '|' ∧ c2 = '|') then
            .ok (some [c, c2], { input := rest1, lineCount := line })
          else .ok (some [c], { input := c2 :: rest1, lineCount := line }) := by
  obtain ⟨h1, h2, h3, h4, h5, h6, h7, h8⟩ := hc
  unfold parseToken
  rw [skipBlanks_start h1 h2]
  simp only [h3, h4, h5, h6, h7, h8, decide_False, Bool.or_self, Bool.false_eq_true, if_false]

/-- C26. At a character that starts an operator token (not whitespace, not
`#`, not a letter, underscore, digit, `-` or quote):
* followed by a character that makes `==`, `&&` or `||` with it, the token is
  the two characters and the input goes on after them;
* followed by any other character, or by the end of the input, the token is
  the one character and the input goes on right after it, the following
  character unread.
So `==` is one token and never two `=`, and `&|` is `&` and then `|`. -/
theorem C26_operator_tokens (c : Char) (rest : List Char) (line : Nat)
    (hc : operatorStart c) :
    (∀ c2 rest1, rest = c2 :: rest1 → doubleOperator c c2 →
      parseToken { input := c :: rest, lineCount := line }
        = .ok (some [c, c2], { input := rest1, lineCount := line })) ∧
    ((∀ c2 rest1, rest = c2 :: rest1 → ¬ doubleOperator c c2) →
      parseToken { input := c :: rest, lineCount := line }
        = .ok (some [c], { input := rest, lineCount := line })) := by
  rw [parseToken_symbol hc]
  refine ⟨?_, ?_⟩
  · intro c2 rest1 e hd
    subst e
    unfold doubleOperator at hd
    simp only []
    rw [if_pos hd]
  · intro hno
    cases rest with
    | nil => rfl
    | cons c2 rest1 =>
      have hn := hno c2 rest1 rfl
      unfold doubleOperator at hn
      simp only []
      rw [if_neg hn]

/-- C26 at `==1`, at `=1`, at `&|` and at `= =`. -/
theorem C26_operator_tokens_witness :
    ((∀ c2 rest1, "=1".toList = c2 :: rest1 → doubleOperator '=' c2 →
      parseToken { input := '=' :: "=1".toList, lineCount := 1 }
        = .ok (some ['=', c2], { input := rest1, lineCount := 1 })) ∧
    ((∀ c2 rest1, "=1".toList = c2 :: rest1 → ¬ doubleOperator '=' c2) →
      parseToken { input := '=' :: "=1".toList, lineCount := 1 }
        = .ok (some ['='], { input := "=1".toList, lineCount := 1 }))) ∧
    parseToken { input := "==1".toList, lineCount := 1 }
      = .ok (some "==".toList, { input := "1".toList, lineCount := 1 }) ∧
    parseToken { input := "=1".toList, lineCount := 1 }
      = .ok (some "=".toList, { input := "1".toList, lineCount := 1 }) ∧
    parseToken { input := "&|".toList, lineCount := 1 }
      = .ok (some "&".toList, { input := "|".toList, lineCount := 1 }) ∧
    parseToken { input := "|".toList, lineCount := 1 }
      = .ok (some "|".toList, { input := [], lineCount := 1 }) ∧
    parseToken { input := "= =".toList, lineCount := 1 }
      = .ok (some "=".toList, { input := " =".toList, lineCount := 1 }) ∧
    parseToken { input := "<=".toList, lineCount := 1 }
      = .ok (some "<".toList, { input := "=".toList, lineCount := 1 }) :=
  ⟨C26_operator_tokens '=' "=1".toList 1 (by unfold operatorStart; decide),
    by rfl, by rfl, by rfl, by rfl, by rfl, by rfl⟩

/-- C27. A token that starts with a letter or `_` is that character and the
longest run of letters, digits and `_` that follows; a token that starts with
`-` or a digit is that character and the longest run of digits that follows;
as long as the token has at most `MAX_TOKEN` characters. The input goes on
at the first character after the run, which is unread. So `3-2` is the tokens
`3` and `-2`, and `- 2` is `-` and `2`. -/
theorem C27_words_and_numbers_are_longest_runs (c : Char) (rest : List Char) (line : Nat) :
    (wordStart c → 1 + (rest.takeWhile wordChar).length ≤ MAX_TOKEN →
      parseToken { input := c :: rest, lineCount := line }
        = .ok (some (c :: rest.takeWhile wordChar),
            { input := rest.dropWhile wordChar, lineCount := line })) ∧
    (numberStart c → 1 + (rest.takeWhile isdigit).length ≤ MAX_TOKEN →
      parseToken { input := c :: rest, lineCount := line }
        = .ok (some (c :: rest.takeWhile isdigit),
            { input := rest.dropWhile isdigit, lineCount := line })) ∧
    (∀ p : Char → Bool, rest = rest.takeWhile p ++ rest.dropWhile p ∧
      (∀ x ∈ rest.takeWhile p, p x = true) ∧
      (∀ y, (rest.dropWhile p).head? = some y → p y = false)) ∧
    (∀ d, wordChar d = true ↔ (isalpha d = true ∨ isdigit d = true ∨ d = '_')) ∧
    parseToken { input := "3-2".toList, lineCount := 1 }
      = .ok (some "3".toList, { input := "-2".toList, lineCount := 1 }) ∧
    parseToken { input := "-2".toList, lineCount := 1 }
      = .ok (some "-2".toList, { input := [], lineCount := 1 }) ∧
    parseToken { input := "- 2".toList, lineCount := 1 }
      = .ok (some "-".toList, { input := " 2".toList, lineCount := 1 }) ∧
    parseToken { input := " 2".toList, lineCount := 1 }
      = .ok (some "2".toList, { input := [], lineCount := 1 }) ∧
    parseToken { input := "ab_1c+d".toList, lineCount := 1 }
      = .ok (some "ab_1c".toList, { input := "+d".toList, lineCount := 1 }) ∧
    parseToken { input := "_x9 y".toList, lineCount := 1 }
      = .ok (some "_x9".toList, { input := " y".toList, lineCount := 1 }) := by
  refine ⟨?_, ?_, fun p => run_is_longest p rest, ?_,
    by rfl, by rfl, by rfl, by rfl, by rfl, by rfl⟩
  · intro hc hlen
    rw [parseToken_word hc, readWhile_run wordChar line rest [c]
      (by simp only [List.length_cons, List.length_nil]; omega)]
    rfl
  · intro hc hlen
    rw [parseToken_numeral hc, readWhile_run isdigit line rest [c]
      (by simp only [List.length_cons, List.length_nil]; omega)]
    rfl
  · intro d
    simp [wordChar, isalnum, or_assoc]

/-- C27 at the word `ab_1c` followed by `+d` and at the number `-27` followed
by `-3`. -/
theorem C27_words_and_numbers_witness :
    (wordStart 'a' ∧ 1 + ("b_1c+d".toList.takeWhile wordChar).length ≤ MAX_TOKEN ∧
      parseToken { input := 'a' :: "b_1c+d".toList, lineCount := 4 }
        = .ok (some ('a' :: "b_1c+d".toList.takeWhile wordChar),
            { input := "b_1c+d".toList.dropWhile wordChar, lineCount := 4 })) ∧
    (numberStart '-' ∧ 1 + ("27-3".toList.takeWhile isdigit).length ≤ MAX_TOKEN ∧
      parseToken { input := '-' :: "27-3".toList, lineCount := 4 }
        = .ok (some ('-' :: "27-3".toList.takeWhile isdigit),
            { input := "27-3".toList.dropWhile isdigit, lineCount := 4 })) ∧
    'a' :: "b_1c+d".toList.takeWhile wordChar = "ab_1c".toList ∧
    "b_1c+d".toList.dropWhile wordChar = "+d".toList ∧
    '-' :: "27-3".toList.takeWhile isdigit = "-27".toList ∧
    "27-3".toList.dropWhile isdigit = "-3".toList :=
  ⟨⟨Or.inl (by decide), by decide,
      (C27_words_and_numbers_are_longest_runs 'a' "b_1c+d".toList 4).1
        (Or.inl (by decide)) (by decide)⟩,
    ⟨Or.inl rfl, by decide,
      (C27_words_and_numbers_are_longest_runs '-' "27-3".toList 4).2.1
        (Or.inl rfl) (by decide)⟩,
    by decide, by decide, by decide, by decide⟩

/-! ## Quoted literals -/

theorem quote_class {quote : Char} (hq : isQuote quote) :
    quote ≠ newline ∧ quote ≠ backslash ∧ quote ≠ '#' ∧ isspace quote = false ∧
    (isalpha quote || decide (quote = '_')) = false ∧
    (decide (quote = '-') || isdigit quote) = false ∧
    (decide (quote = dquote) || decide (quote = squote)) = true := by
  rcases hq with rfl | rfl <;> decide

theorem decodeEscape_some {e d : Char} (h : decodeEscape e = some d) :
    (e = 'n' ∧ d = newline) ∨ (e = 't' ∧ d = tab) ∨ (e = dquote ∧ d = dquote) ∨
    (e = backslash ∧ d = backslash) := by
  unfold decodeEscape at h
  by_cases h1 : e = 'n'
  · rw [if_pos h1] at h; cases h; exact Or.inl ⟨h1, rfl⟩
  · rw [if_neg h1] at h
    by_cases h2 : e = 't'
    · rw [if_pos h2] at h; cases h; exact Or.inr (Or.inl ⟨h2, rfl⟩)
    · rw [if_neg h2] at h
      by_cases h3 : e = dquote
      · rw [if_pos h3] at h; cases h; exact Or.inr (Or.inr (Or.inl ⟨h3, rfl⟩))
      · rw [if_neg h3] at h
        by_cases h4 : e = backslash
        · rw [if_pos h4] at h; cases h; exact Or.inr (Or.inr (Or.inr ⟨h4, rfl⟩))
        · rw [if_neg h4] at h; cases h

theorem decodeEscape_none {e : Char} (h : decodeEscape e = none) :
    e ≠ 'n' ∧ e ≠ 't' ∧ e ≠ dquote ∧ e ≠ backslash := by
  unfold decodeEscape at h
  by_cases h1 : e = 'n'
  · rw [if_pos h1] at h; cases h
  · rw [if_neg h1] at h
    by_cases h2 : e = 't'
    · rw [if_pos h2] at h; cases h
    · rw [if_neg h2] at h
      by_cases h3 : e = dquote
      · rw [if_pos h3] at h; cases h
      · rw [if_neg h3] at h
        by_cases h4 : e = backslash
        · rw [if_pos h4] at h; cases h
        · exact ⟨h1, h2, h3, h4⟩

/-- The loop of a quoted literal after a backslash, at a character that makes
an escape: the decoded character is added to the token. -/
theorem readQuoted_escaped (quote : Char) {e d : Char}
    (he : decodeEscape e = some d) (tail tok : List Char) (line : Nat) :
    readQuoted quote (e :: tail) true tok line
      = match addToToken d tok line with
        | .error err => .error err
        | .ok token1 => readQuoted quote tail false token1 line := by
  rw [readQuoted]
  have h0 : ¬ (e = quote ∧ true = false) := by simp
  have h2 : ¬ (true = false ∧ e = backslash) := by simp
  rcases decodeEscape_some he with ⟨rfl, rfl⟩ | ⟨rfl, rfl⟩ | ⟨rfl, rfl⟩ | ⟨rfl, rfl⟩
  · rw [if_neg h0, if_neg (by decide), if_neg h2]; rfl
  · rw [if_neg h0, if_neg (by decide), if_neg h2]; rfl
  · rw [if_neg h0, if_neg (by decide), if_neg h2]; rfl
  · rw [if_neg h0, if_neg (by decide), if_neg h2]; rfl

/-- The loop of a quoted literal at one item: the character the item stands
for is added to the token. -/
theorem readQuoted_item {quote : Char} (hq : isQuote quote) {it : LitItem}
    (hv : it.valid quote) (tail tok : List Char) (line : Nat) :
    readQuoted quote (it.raw ++ tail) false tok line
      = match addToToken it.decoded tok line with
        | .error err => .error err
        | .ok token1 => readQuoted quote tail false token1 line := by
  obtain ⟨_, hqb, _⟩ := quote_class hq
  cases it with
  | plain c =>
    obtain ⟨h1, h2, h3⟩ := hv
    simp only [LitItem.raw, LitItem.decoded, List.singleton_append]
    rw [readQuoted]
    rw [if_neg (by intro h; exact h1 h.1), if_neg h2, if_neg (by intro h; exact h3 h.2)]
    simp
  | escape e =>
    simp only [LitItem.valid] at hv
    obtain ⟨d, hd⟩ := Option.isSome_iff_exists.mp hv
    simp only [LitItem.raw, LitItem.decoded, List.cons_append, List.nil_append, hd,
      Option.getD_some]
    rw [readQuoted]
    rw [if_neg (by intro h; exact hqb h.1.symm), if_neg (by decide), if_pos ⟨rfl, rfl⟩]
    exact readQuoted_escaped quote hd tail tok line

theorem readQuoted_items {quote : Char} (hq : isQuote quote) (line : Nat) :
    ∀ (items : List LitItem) (tail tok : List Char), (∀ it ∈ items, it.valid quote) →
      tok.length + items.length ≤ MAX_TOKEN →
      readQuoted quote (rawText items ++ tail) false tok line
        = readQuoted quote tail false (tok ++ decodedText items) line
  | [], tail, tok, _, _ => by simp [rawText, decodedText]
  | it :: items, tail, tok, hv, hlen => by
    simp only [List.length_cons] at hlen
    have hlt : ¬ tok.length ≥ MAX_TOKEN := by omega
    have hlen' : (tok ++ [it.decoded]).length + items.length ≤ MAX_TOKEN := by
      simp only [List.length_append, List.length_cons, List.length_nil]; omega
    rw [rawText, List.append_assoc, readQuoted_item hq (hv it (List.mem_cons_self it items))]
    simp only [addToToken, hlt, if_false]
    rw [readQuoted_items hq line items tail (tok ++ [it.decoded])
      (fun x hx => hv x (List.mem_cons_of_mem it hx)) hlen']
    simp [decodedText]

/-- The loop of a quoted literal stops with `token too long` at the item
that would be character number `MAX_TOKEN + 1` of the token. -/
theorem readQuoted_long {quote : Char} (hq : isQuote quote) (line : Nat) :
    ∀ (items : List LitItem) (tail tok : List Char), (∀ it ∈ items, it.valid quote) →
      tok.length ≤ MAX_TOKEN → MAX_TOKEN < tok.length + items.length →
      readQuoted quote (rawText items ++ tail) false tok line = .error (.tokenTooLong line)
  | [], tail, tok, _, h1, h2 => by simp at h2; omega
  | it :: items, tail, tok, hv, h1, h2 => by
    simp only [List.length_cons] at h2
    rw [rawText, List.append_assoc, readQuoted_item hq (hv it (List.mem_cons_self it items))]
    simp only [addToToken]
    by_cases hfull : tok.length ≥ MAX_TOKEN
    · rw [if_pos hfull]
    · rw [if_neg hfull]
      simp only []
      have hl1 : (tok ++ [it.decoded]).length ≤ MAX_TOKEN := by
        simp only [List.length_append, List.length_cons, List.length_nil]; omega
      have hl2 : MAX_TOKEN < (tok ++ [it.decoded]).length + items.length := by
        simp only [List.length_append, List.length_cons, List.length_nil]; omega
      exact readQuoted_long hq line items tail (tok ++ [it.decoded])
        (fun x hx => hv x (List.mem_cons_of_mem it hx)) hl1 hl2

theorem readQuoted_close (quote : Char) (rest tok : List Char) (line : Nat) :
    readQuoted quote (quote :: rest) false tok line = .ok (tok, rest) := by
  rw [readQuoted, if_pos ⟨rfl, rfl⟩]

theorem readQuoted_newline {quote : Char} (hq : isQuote quote) (rest tok : List Char)
    (escape : Bool) (line : Nat) :
    readQuoted quote (newline :: rest) escape tok line = .error (.invalidString line) := by
  obtain ⟨h1, _⟩ := quote_class hq
  rw [readQuoted, if_neg (by intro h; exact h1 h.1.symm), if_pos rfl]

theorem readQuoted_bad_escape {quote : Char} (hq : isQuote quote) {c : Char}
    (hc : decodeEscape c = none) (hn : c ≠ newline) (rest tok : List Char) (line : Nat) :
    readQuoted quote (backslash :: c :: rest) false tok line = .error (.invalidEscape line c) := by
  obtain ⟨_, hqb, _⟩ := quote_class hq
  obtain ⟨h1, h2, h3, h4⟩ := decodeEscape_none hc
  rw [readQuoted]
  rw [if_neg (by intro h; exact hqb h.1.symm), if_neg (by decide), if_pos ⟨rfl, rfl⟩]
  rw [readQuoted]
  rw [if_neg (by simp), if_neg hn, if_neg (by simp), if_pos rfl, if_neg h1, if_neg h2,
    if_neg h3, if_neg h4]

theorem readQuoted_backslash_end {quote : Char} (hq : isQuote quote) (tok : List Char)
    (line : Nat) :
    readQuoted quote [backslash] false tok line = .error (.invalidString line) := by
  obtain ⟨_, hqb, _⟩ := quote_class hq
  rw [readQuoted]
  rw [if_neg (by intro h; exact hqb h.1.symm), if_neg (by decide), if_pos ⟨rfl, rfl⟩]
  rw [readQuoted]

theorem readQuoted_backslash_newline {quote : Char} (hq : isQuote quote) (rest tok : List Char)
    (line : Nat) :
    readQuoted quote (backslash :: newline :: rest) false tok line
      = .error (.invalidString line) := by
  obtain ⟨_, hqb, _⟩ := quote_class hq
  rw [readQuoted]
  rw [if_neg (by intro h; exact hqb h.1.symm), if_neg (by decide), if_pos ⟨rfl, rfl⟩]
  exact readQuoted_newline hq rest tok true line

theorem parseToken_quote {quote : Char} (hq : isQuote quote) (rest : List Char) (line : Nat) :
    parseToken { input := quote :: rest, lineCount := line }
      = match readQuoted quote rest false [quote] line with
        | .error e => .error e
        | .ok (token, rest1) =>
          match addToToken quote token line with
          | .error e => .error e
          | .ok token1 =>
            if quote = squote ∧ token1.length ≠ SINGLE_QUOTE_LENGTH + 1 + 1 then
              .error (.invalidSingleQuote line)
            else .ok (some token1, { input := rest1, lineCount := line }) := by
  obtain ⟨_, _, h3, h4, h5, h6, h7⟩ := quote_class hq
  unfold parseToken
  rw [skipBlanks_start h4 h3]
  simp only [h5, h6, h7, Bool.false_eq_true, if_false, if_true]

theorem addToToken_ok {ch : Char} {tok tok1 : List Char} {line : Nat}
    (h : addToToken ch tok line = .ok tok1) : tok1 = tok ++ [ch] ∧ tok.length < MAX_TOKEN := by
  unfold addToToken at h
  by_cases hf : tok.length ≥ MAX_TOKEN
  · rw [if_pos hf] at h; cases h
  · rw [if_neg hf] at h; cases h; exact ⟨rfl, by omega⟩

/-- A quoted literal that the loop reads to its closing quote is a list of
valid items followed by the quote, and the token has grown by the characters
the items stand for. -/
theorem readQuoted_ok_inv {quote : Char} (hq : isQuote quote) (line : Nat) :
    ∀ (body : List Char) (escape : Bool) (tok tok' rest : List Char),
      readQuoted quote body escape tok line = .ok (tok', rest) →
      (escape = false → ∃ items, (∀ it ∈ items, LitItem.valid quote it) ∧
        body = rawText items ++ quote :: rest ∧ tok' = tok ++ decodedText items) ∧
      (escape = true → ∃ e d items, decodeEscape e = some d ∧
        (∀ it ∈ items, LitItem.valid quote it) ∧
        body = e :: (rawText items ++ quote :: rest) ∧ tok' = tok ++ d :: decodedText items)
  | [], escape, tok, tok', rest, h => by
    rw [readQuoted] at h; cases h
  | ch :: cs, false, tok, tok', rest, h => by
    refine ⟨fun _ => ?_, (fun e => by cases e)⟩
    rw [readQuoted] at h
    by_cases h1 : ch = quote
    · rw [if_pos ⟨h1, rfl⟩] at h
      cases h
      exact ⟨[], (fun _ hm => by cases hm), (by rw [h1]; rfl), (by simp [decodedText])⟩
    · rw [if_neg (by intro x; exact h1 x.1)] at h
      by_cases h2 : ch = newline
      · rw [if_pos h2] at h; cases h
      · rw [if_neg h2] at h
        by_cases h3 : ch = backslash
        · rw [if_pos ⟨rfl, h3⟩] at h
          obtain ⟨e, d, items, hd, hv, hb, ht⟩ :=
            (readQuoted_ok_inv hq line cs true tok tok' rest h).2 rfl
          refine ⟨.escape e :: items, ?_, ?_, ?_⟩
          · intro it hm
            rcases List.mem_cons.mp hm with rfl | hm
            · simp [LitItem.valid, hd]
            · exact hv it hm
          · rw [h3, hb]; rfl
          · rw [ht]; simp [decodedText, LitItem.decoded, hd]
        · rw [if_neg (by intro x; exact h3 x.2)] at h
          simp only [Bool.false_eq_true, if_false] at h
          cases ha : addToToken ch tok line with
          | error err => rw [ha] at h; cases h
          | ok tok1 =>
            rw [ha] at h
            simp only [] at h
            obtain ⟨rfl, _⟩ := addToToken_ok ha
            obtain ⟨items, hv, hb, ht⟩ :=
              (readQuoted_ok_inv hq line cs false (tok ++ [ch]) tok' rest h).1 rfl
            refine ⟨.plain ch :: items, ?_, ?_, ?_⟩
            · intro it hm
              rcases List.mem_cons.mp hm with rfl | hm
              · exact ⟨h1, h2, h3⟩
              · exact hv it hm
            · rw [hb]; rfl
            · rw [ht]; simp [decodedText, LitItem.decoded]
  | ch :: cs, true, tok, tok', rest, h => by
    refine ⟨(fun e => by cases e), fun _ => ?_⟩
    rw [readQuoted] at h
    rw [if_neg (by simp)] at h
    by_cases h2 : ch = newline
    · rw [if_pos h2] at h; cases h
    · rw [if_neg h2, if_neg (by simp), if_pos rfl] at h
      cases hd : decodeEscape ch with
      | none =>
        obtain ⟨n1, n2, n3, n4⟩ := decodeEscape_none hd
        rw [if_neg n1, if_neg n2, if_neg n3, if_neg n4] at h
        cases h
      | some d =>
        have hstep := readQuoted_escaped quote hd cs tok line
        have hfull : readQuoted quote (ch :: cs) true tok line = .ok (tok', rest) := by
          rw [readQuoted, if_neg (by simp), if_neg h2, if_neg (by simp), if_pos rfl]
          exact h
        rw [hstep] at hfull
        cases ha : addToToken d tok line with
        | error err => rw [ha] at hfull; cases hfull
        | ok tok1 =>
          rw [ha] at hfull
          simp only [] at hfull
          obtain ⟨rfl, _⟩ := addToToken_ok ha
          obtain ⟨items, hv, hb, ht⟩ :=
            (readQuoted_ok_inv hq line cs false (tok ++ [d]) tok' rest hfull).1 rfl
          refine ⟨ch, d, items, hd, hv, by rw [hb], ?_⟩
          rw [ht]; simp

theorem decodeEscape_table :
    decodeEscape 'n' = some newline ∧ decodeEscape 't' = some tab ∧
    decodeEscape dquote = some dquote ∧ decodeEscape backslash = some backslash ∧
    ∀ c, decodeEscape c = none ↔ (c ≠ 'n' ∧ c ≠ 't' ∧ c ≠ dquote ∧ c ≠ backslash) := by
  refine ⟨by decide, by decide, by decide, by decide, fun c => ⟨decodeEscape_none, ?_⟩⟩
  rintro ⟨h1, h2, h3, h4⟩
  unfold decodeEscape
  rw [if_neg h1, if_neg h2, if_neg h3, if_neg h4]

/-- A quoted literal with valid items that fits a token, read by the loop. -/
theorem readQuoted_literal {quote : Char} (hq : isQuote quote) {items : List LitItem}
    (hv : ∀ it ∈ items, it.valid quote) (hlen : items.length + 1 ≤ MAX_TOKEN)
    (tail : List Char) (line : Nat) :
    readQuoted quote (rawText items ++ tail) false [quote] line
      = readQuoted quote tail false (quote :: decodedText items) line := by
  have := readQuoted_items hq line items tail [quote] hv
    (by simp only [List.length_cons, List.length_nil]; omega)
  simpa using this

theorem parseToken_literal {quote : Char} (hq : isQuote quote) {items : List LitItem}
    (hv : ∀ it ∈ items, it.valid quote) (hlen : items.length + 2 ≤ MAX_TOKEN)
    (more : List Char) (line : Nat) :
    parseToken { input := quote :: (rawText items ++ quote :: more), lineCount := line }
      = if quote = squote ∧ items.length ≠ 1 then .error (.invalidSingleQuote line)
        else .ok (some (quote :: decodedText items ++ [quote]),
          { input := more, lineCount := line }) := by
  rw [parseToken_quote hq, readQuoted_literal hq hv (by omega), readQuoted_close]
  have hlt : ¬ (quote :: decodedText items).length ≥ MAX_TOKEN := by
    simp only [List.length_cons, decodedText, List.length_map]; omega
  simp only [addToToken, hlt, if_false]
  have hl : (quote :: decodedText items ++ [quote]).length = items.length + 2 := by
    simp [decodedText]
  by_cases h1 : quote = squote ∧ items.length ≠ 1
  · rw [if_pos h1, if_pos]
    refine ⟨h1.1, ?_⟩
    rw [hl]; simp only [SINGLE_QUOTE_LENGTH]; omega
  · rw [if_neg h1, if_neg]
    rintro ⟨ha, hb⟩
    apply h1
    refine ⟨ha, ?_⟩
    rw [hl] at hb; simp only [SINGLE_QUOTE_LENGTH] at hb; omega

/-- A quoted token that `parseToken` returns is the quote, the characters
that a list of valid items stands for, and the quote. -/
theorem parseToken_quote_inv {quote : Char} (hq : isQuote quote) (body : List Char)
    (line : Nat) (r : Option (List Char)) (st' : PState)
    (h : parseToken { input := quote :: body, lineCount := line } = .ok (r, st')) :
    ∃ items, (∀ it ∈ items, LitItem.valid quote it) ∧
      body = rawText items ++ quote :: st'.input ∧
      r = some (quote :: decodedText items ++ [quote]) ∧
      items.length + 2 ≤ MAX_TOKEN ∧ (quote = squote → items.length = 1) := by
  rw [parseToken_quote hq] at h
  cases hr : readQuoted quote body false [quote] line with
  | error e => rw [hr] at h; cases h
  | ok p =>
    obtain ⟨token, rest1⟩ := p
    rw [hr] at h
    simp only [] at h
    obtain ⟨items, hv, hb, ht⟩ := (readQuoted_ok_inv hq line body false [quote] token rest1 hr).1 rfl
    cases ha : addToToken quote token line with
    | error e => rw [ha] at h; cases h
    | ok token1 =>
      rw [ha] at h
      simp only [] at h
      obtain ⟨rfl, hlt⟩ := addToToken_ok ha
      have hl : token.length = items.length + 1 := by
        rw [ht]; simp [decodedText]
      by_cases h1 : quote = squote ∧ (token ++ [quote]).length ≠ SINGLE_QUOTE_LENGTH + 1 + 1
      · rw [if_pos h1] at h; cases h
      · rw [if_neg h1] at h
        cases h
        refine ⟨items, hv, hb, by rw [ht]; simp, by omega, ?_⟩
        intro hs
        by_contra hne
        apply h1
        refine ⟨hs, ?_⟩
        simp only [List.length_append, List.length_cons, List.length_nil, SINGLE_QUOTE_LENGTH]
        omega

/-- C25. For a quote character, double or single, and a list of items each of
which is a character other than the quote, the newline and the backslash, or
one of the escapes `\n`, `\t`, `\"`, `\\`, the whole fitting a token:
* the loop of `parseToken` reads the items up to the closing quote and returns
  the opening quote followed by the characters the items stand for: newline,
  tab, double quote and backslash for the four escapes, the character itself
  otherwise; the token of a double-quoted literal is these and the closing
  quote, and so is the token of a single-quoted literal of one item;
* a backslash followed by a character that makes no escape and is not a
  newline stops the run with the invalid-escape error;
* a newline, escaped or not, or the end of the input, before the closing quote
  stops the run with the invalid-string error.
Every quoted token that `parseToken` returns is of that form. -/
theorem C25_quoted_literals_are_decoded (quote : Char) (items : List LitItem)
    (more : List Char) (line : Nat) (hq : isQuote quote)
    (hv : ∀ it ∈ items, it.valid quote) (hlen : items.length + 2 ≤ MAX_TOKEN) :
    readQuoted quote (rawText items ++ quote :: more) false [quote] line
      = .ok (quote :: decodedText items, more) ∧
    ((quote = dquote ∨ items.length = 1) →
      parseToken { input := quote :: (rawText items ++ quote :: more), lineCount := line }
        = .ok (some (quote :: decodedText items ++ [quote]),
            { input := more, lineCount := line })) ∧
    (∀ c, decodeEscape c = none → c ≠ newline →
      parseToken (PState.mk (quote :: (rawText items ++ backslash :: c :: more)) line)
        = .error (.invalidEscape line c)) ∧
    parseToken { input := quote :: (rawText items ++ newline :: more), lineCount := line }
      = .error (.invalidString line) ∧
    parseToken (PState.mk (quote :: (rawText items ++ backslash :: newline :: more)) line)
      = .error (.invalidString line) ∧
    parseToken { input := quote :: rawText items, lineCount := line }
      = .error (.invalidString line) ∧
    parseToken { input := quote :: (rawText items ++ [backslash]), lineCount := line }
      = .error (.invalidString line) ∧
    (LitItem.decoded (.escape 'n') = newline ∧ LitItem.decoded (.escape 't') = tab ∧
      LitItem.decoded (.escape dquote) = dquote ∧
      LitItem.decoded (.escape backslash) = backslash ∧
      (∀ c, LitItem.decoded (.plain c) = c) ∧
      ∀ c, decodeEscape c = none ↔ (c ≠ 'n' ∧ c ≠ 't' ∧ c ≠ dquote ∧ c ≠ backslash)) ∧
    (∀ (body : List Char) (r : Option (List Char)) (st' : PState),
      parseToken { input := quote :: body, lineCount := line } = .ok (r, st') →
      ∃ items', (∀ it ∈ items', LitItem.valid quote it) ∧
        body = rawText items' ++ quote :: st'.input ∧
        r = some (quote :: decodedText items' ++ [quote])) := by
  have hl1 : items.length + 1 ≤ MAX_TOKEN := by omega
  refine ⟨?_, ?_, ?_, ?_, ?_, ?_, ?_, ?_, ?_⟩
  · rw [readQuoted_literal hq hv hl1, readQuoted_close]
  · intro h
    rw [parseToken_literal hq hv hlen, if_neg]
    rintro ⟨hs, hne⟩
    rcases h with h | h
    · rw [h] at hs; revert hs; decide
    · exact hne h
  · intro c hc hn
    rw [parseToken_quote hq, readQuoted_literal hq hv hl1, readQuoted_bad_escape hq hc hn]
  · rw [parseToken_quote hq, readQuoted_literal hq hv hl1, readQuoted_newline hq]
  · rw [parseToken_quote hq, readQuoted_literal hq hv hl1, readQuoted_backslash_newline hq]
  · have := readQuoted_literal hq hv hl1 [] line
    rw [List.append_nil] at this
    rw [parseToken_quote hq, this, readQuoted]
  · rw [parseToken_quote hq, readQuoted_literal hq hv hl1, readQuoted_backslash_end hq]
  · exact ⟨by decide, by decide, by decide, by decide, fun _ => rfl, decodeEscape_table.2.2.2.2⟩
  · intro body r st' h
    obtain ⟨items', h1, h2, h3, _⟩ := parseToken_quote_inv hq body line r st' h
    exact ⟨items', h1, h2, h3⟩

/-- C25 at the double-quoted literal with the items `a`, `\n`, `\"`, `b`,
followed by `;`. -/
theorem C25_quoted_literals_witness :
    readQuoted dquote
        (rawText [.plain 'a', .escape 'n', .escape dquote, .plain 'b'] ++ dquote :: [';'])
        false [dquote] 7
      = .ok (dquote :: decodedText [.plain 'a', .escape 'n', .escape dquote, .plain 'b'], [';']) ∧
    parseToken (PState.mk (dquote ::
        (rawText [.plain 'a', .escape 'n', .escape dquote, .plain 'b'] ++ dquote :: [';'])) 7)
      = .ok (some [dquote, 'a', newline, dquote, 'b', dquote], PState.mk [';'] 7) ∧
    rawText [.plain 'a', .escape 'n', .escape dquote, .plain 'b']
      = ['a', backslash, 'n', backslash, dquote, 'b'] ∧
    parseToken (PState.mk [dquote, 'a', backslash, 'q', dquote] 7)
      = .error (.invalidEscape 7 'q') ∧
    parseToken (PState.mk [squote, backslash, squote, squote] 7)
      = .error (.invalidEscape 7 squote) ∧
    parseToken (PState.mk [dquote, 'a', newline, 'b', dquote] 7) = .error (.invalidString 7) ∧
    parseToken (PState.mk [dquote, 'a', backslash, newline, 'b', dquote] 7)
      = .error (.invalidString 7) ∧
    parseToken (PState.mk [dquote, 'a'] 7) = .error (.invalidString 7) ∧
    parseToken (PState.mk [dquote, 'a', backslash] 7) = .error (.invalidString 7) ∧
    parseToken (PState.mk [dquote, 'a', backslash, dquote] 7) = .error (.invalidString 7) :=
  ⟨(C25_quoted_literals_are_decoded dquote
      [.plain 'a', .escape 'n', .escape dquote, .plain 'b'] [';'] 7 (Or.inl rfl)
      (by
        intro it hm
        simp only [List.mem_cons, List.mem_singleton, List.not_mem_nil, or_false] at hm
        rcases hm with rfl | rfl | rfl | rfl
        · exact ⟨by decide, by decide, by decide⟩
        · exact (by decide : (decodeEscape 'n').isSome = true)
        · exact (by decide : (decodeEscape dquote).isSome = true)
        · exact ⟨by decide, by decide, by decide⟩)
      (by decide)).1,
    by rfl, by rfl, by rfl, by rfl, by rfl, by rfl, by rfl, by rfl, by rfl⟩

/-! ## Single-quoted and string literals -/

theorem parseTerm_single_quoted (cfg : Config) (fuel : Nat) (d : Char) (st : PState) :
    parseTerm cfg (fuel + 1) [squote, d, squote] st = .ok (.LiteralInt (charToInt d), st) := by
  have h1 : [squote, d, squote] ≠ "(".toList := by
    intro e; injection e with e1 _; revert e1; decide
  have h2 : [squote, d, squote] ≠ "len".toList := by
    intro e; injection e with e1 _; revert e1; decide
  have h3 : ¬ ([squote, d, squote].head? = some '-' ∨
      ([squote, d, squote].head?.map isdigit) = some true) := by
    simp only [List.head?_cons, Option.map_some', Option.some.injEq]
    decide
  have h4 : [squote, d, squote].head? = some squote := rfl
  rw [parseTerm, if_neg h1, if_neg h2, if_neg h3, if_pos h4]
  rfl

theorem charToInt_ascii {c : Char} (h : c.toNat < 128) : charToInt c = (c.toNat : Int) := by
  unfold charToInt
  rw [if_pos h]

/-- C29. After an opening single quote:
* `parseToken` returns a token exactly when what follows is one valid item (a
  character other than the single quote, the newline and the backslash, or one
  of the four escapes) and the closing quote; the token is then the quote, the
  character the item stands for, and the quote;
* `parseTerm` turns that token into the integer literal of the character's
  code;
* a well-formed literal of no item, or of two or more, stops the run with the
  error of an invalid single-quoted string. -/
theorem C29_single_quoted_literal_is_one_character (cfg : Config) (fuel : Nat)
    (body : List Char) (line : Nat) :
    ((∃ r st', parseToken { input := squote :: body, lineCount := line } = .ok (r, st')) ↔
      ∃ it more, LitItem.valid squote it ∧ body = it.raw ++ squote :: more) ∧
    (∀ it more, LitItem.valid squote it → body = it.raw ++ squote :: more →
      parseToken { input := squote :: body, lineCount := line }
        = .ok (some [squote, it.decoded, squote], { input := more, lineCount := line }) ∧
      parseTerm cfg (fuel + 1) [squote, it.decoded, squote] { input := more, lineCount := line }
        = .ok (.LiteralInt (charToInt it.decoded), { input := more, lineCount := line }) ∧
      (it.decoded.toNat < 128 → charToInt it.decoded = (it.decoded.toNat : Int))) ∧
    (∀ items more, (∀ it ∈ items, LitItem.valid squote it) → items.length + 2 ≤ MAX_TOKEN →
      items.length ≠ 1 → body = rawText items ++ squote :: more →
      parseToken { input := squote :: body, lineCount := line }
        = .error (.invalidSingleQuote line)) := by
  have hq : isQuote squote := Or.inr rfl
  have hone : ∀ it more, LitItem.valid squote it → body = it.raw ++ squote :: more →
      parseToken { input := squote :: body, lineCount := line }
        = .ok (some [squote, it.decoded, squote], { input := more, lineCount := line }) := by
    intro it more hv hb
    have h := @parseToken_literal squote hq [it]
      (by intro x hx; rw [List.mem_singleton.mp hx]; exact hv)
      (by simp only [List.length_cons, List.length_nil, MAX_TOKEN]; omega) more line
    rw [if_neg (by simp)] at h
    rw [hb]
    simpa [rawText, decodedText] using h
  refine ⟨⟨?_, ?_⟩, ?_, ?_⟩
  · rintro ⟨r, st', h⟩
    obtain ⟨items, hv, hb, _, _, hl⟩ := parseToken_quote_inv hq body line r st' h
    have h1 := hl rfl
    match items, h1, hv, hb with
    | [it], _, hv, hb =>
      exact ⟨it, st'.input, hv it (List.mem_singleton_self it), by simpa [rawText] using hb⟩
  · rintro ⟨it, more, hv, hb⟩
    exact ⟨_, _, hone it more hv hb⟩
  · intro it more hv hb
    exact ⟨hone it more hv hb, parseTerm_single_quoted cfg fuel _ _, charToInt_ascii⟩
  · intro items more hv hlen hne hb
    rw [hb, parseToken_literal hq hv hlen, if_pos ⟨rfl, hne⟩]

/-- C29 at `'a'`, `'\n'`, `''` and `'ab'`. -/
theorem C29_single_quoted_literal_witness :
    (parseToken (PState.mk (squote :: ['a', squote, ';']) 3)
        = .ok (some [squote, (LitItem.plain 'a').decoded, squote], PState.mk [';'] 3) ∧
      parseTerm refConfig (0 + 1) [squote, (LitItem.plain 'a').decoded, squote]
          (PState.mk [';'] 3)
        = .ok (.LiteralInt (charToInt (LitItem.plain 'a').decoded), PState.mk [';'] 3) ∧
      ((LitItem.plain 'a').decoded.toNat < 128 →
        charToInt (LitItem.plain 'a').decoded = ((LitItem.plain 'a').decoded.toNat : Int))) ∧
    parseToken (PState.mk [squote, 'a', squote, ';'] 3)
      = .ok (some [squote, 'a', squote], PState.mk [';'] 3) ∧
    parseTerm refConfig 1 [squote, 'a', squote] (PState.mk [';'] 3)
      = .ok (.LiteralInt 97, PState.mk [';'] 3) ∧
    parseToken (PState.mk [squote, backslash, 'n', squote, ';'] 3)
      = .ok (some [squote, newline, squote], PState.mk [';'] 3) ∧
    parseTerm refConfig 1 [squote, newline, squote] (PState.mk [';'] 3)
      = .ok (.LiteralInt 10, PState.mk [';'] 3) ∧
    parseToken (PState.mk [squote, squote, ';'] 3) = .error (.invalidSingleQuote 3) ∧
    parseToken (PState.mk [squote, 'a', 'b', squote, ';'] 3) = .error (.invalidSingleQuote 3) ∧
    interpret refConfig 10 ("print ".toList ++ [squote, 'a', squote, ';']) = .ok "97".toList ∧
    interpret refConfig 10 ("print ".toList ++ [squote, squote, ';'])
      = .error { err := .invalidSingleQuote 1, out := [] } :=
  ⟨(C29_single_quoted_literal_is_one_character refConfig 0 ['a', squote, ';'] 3).2.1
      (.plain 'a') [';'] ⟨by decide, by decide, by decide⟩ rfl,
    by rfl, by rfl, by rfl, by rfl, by rfl, by rfl, by rfl, by rfl⟩

theorem stringBody_closed : ∀ (cs : List Char),
    stringBody (cs ++ [dquote]) = some (cs.takeWhile (fun c => c ≠ dquote))
  | [] => by simp [stringBody]
  | c :: cs => by
    rw [List.cons_append, stringBody]
    by_cases h : c = dquote
    · rw [if_pos h]; simp [h]
    · rw [if_neg h, stringBody_closed cs]
      simp [h]

theorem parseTerm_string (cfg : Config) (fuel : Nat) (cs : List Char) (st : PState) :
    parseTerm cfg (fuel + 1) (dquote :: cs ++ [dquote]) st
      = .ok (.SequenceInitializer
          ((cs.takeWhile (fun c => c ≠ dquote)).map (fun c => .LiteralInt (charToInt c))), st) := by
  have h1 : dquote :: cs ++ [dquote] ≠ "(".toList := by
    intro e; injection e with e1 _; revert e1; decide
  have h2 : dquote :: cs ++ [dquote] ≠ "len".toList := by
    intro e; injection e with e1 _; revert e1; decide
  have h3 : ¬ ((dquote :: cs ++ [dquote]).head? = some '-' ∨
      ((dquote :: cs ++ [dquote]).head?.map isdigit) = some true) := by
    simp only [List.cons_append, List.head?_cons, Option.map_some', Option.some.injEq]
    decide
  have h4 : ¬ (dquote :: cs ++ [dquote]).head? = some squote := by
    simp only [List.cons_append, List.head?_cons, Option.some.injEq]
    decide
  have h5 : ¬ isIdentifier cfg (dquote :: cs ++ [dquote]) = true := by
    simp [isIdentifier, isalpha, dquote]
  have h6 : dquote :: cs ++ [dquote] ≠ "[".toList := by
    intro e; injection e with e1 _; revert e1; decide
  have h7 : (dquote :: cs ++ [dquote]).head? = some dquote := rfl
  rw [parseTerm, if_neg h1, if_neg h2, if_neg h3, if_neg h4, if_neg h5, if_neg h6, if_pos h7]
  have h8 : (dquote :: cs ++ [dquote]).tail = cs ++ [dquote] := rfl
  rw [h8, stringBody_closed]

theorem takeWhile_all {p : Char → Bool} : ∀ {l : List Char}, (∀ x ∈ l, p x = true) →
    l.takeWhile p = l
  | [], _ => rfl
  | a :: t, h => by
    rw [List.takeWhile_cons_of_pos (h a (List.mem_cons_self a t)),
      takeWhile_all (fun x hx => h x (List.mem_cons_of_mem a hx))]

/-- C24, where the code departs from it. The token of a double-quoted literal
is the quote, the decoded characters and the quote. `parseTerm` makes the
sequence initializer from the characters after the first quote up to the next
double quote it finds in the token, which is the closing quote only if no
decoded character is a double quote:
* for a literal of n items none of which is the escape `\"`, the result is a
  `SequenceInitializer` of n `LiteralInt` children, the codes of the decoded
  characters in order; for n = 0 it has no child;
* for a literal with the escape `\"`, the children stop before the first
  decoded double quote: the literal written `a`, `\"`, `b` between its quotes
  gives the one child 97, and not the three children 97, 34, 98 that the
  claim says; printed, it writes `a`. -/
theorem C24_string_literal_stops_at_an_escaped_quote (cfg : Config) (fuel : Nat)
    (items : List LitItem) (st : PState) :
    parseTerm cfg (fuel + 1) (dquote :: decodedText items ++ [dquote]) st
      = .ok (.SequenceInitializer
          (((decodedText items).takeWhile (fun c => c ≠ dquote)).map
            (fun c => .LiteralInt (charToInt c))), st) ∧
    ((∀ it ∈ items, LitItem.valid dquote it ∧ it ≠ .escape dquote) →
      parseTerm cfg (fuel + 1) (dquote :: decodedText items ++ [dquote]) st
        = .ok (.SequenceInitializer
            ((decodedText items).map (fun c => .LiteralInt (charToInt c))), st) ∧
      ((decodedText items).map (fun c => Expr.LiteralInt (charToInt c))).length
        = items.length) ∧
    parseToken (PState.mk [dquote, 'a', backslash, dquote, 'b', dquote, ';'] 1)
      = .ok (some (dquote :: decodedText [.plain 'a', .escape dquote, .plain 'b'] ++ [dquote]),
          PState.mk [';'] 1) ∧
    decodedText [.plain 'a', .escape dquote, .plain 'b'] = ['a', dquote, 'b'] ∧
    parseTerm cfg (fuel + 1)
        (dquote :: decodedText [.plain 'a', .escape dquote, .plain 'b'] ++ [dquote]) st
      = .ok (.SequenceInitializer [.LiteralInt 97], st) ∧
    parseTerm cfg (fuel + 1)
        (dquote :: decodedText [.plain 'a', .escape dquote, .plain 'b'] ++ [dquote]) st
      ≠ .ok (.SequenceInitializer [.LiteralInt 97, .LiteralInt 34, .LiteralInt 98], st) ∧
    interpret refConfig 10
        ("print ".toList ++ [dquote, 'a', backslash, dquote, 'b', dquote, ';'])
      = .ok ['a'] ∧
    interpret refConfig 10
        ("print ".toList ++ [dquote, 'a', backslash, 'n', 'b', dquote, ';'])
      = .ok ['a', newline, 'b'] ∧
    interpret refConfig 10 ("print len ".toList ++ [dquote, dquote, ';']) = .ok ['0'] := by
  have hgen := parseTerm_string cfg fuel (decodedText items) st
  have hbad : parseTerm cfg (fuel + 1)
      (dquote :: decodedText [.plain 'a', .escape dquote, .plain 'b'] ++ [dquote]) st
      = .ok (.SequenceInitializer [.LiteralInt 97], st) := by
    rw [parseTerm_string]; rfl
  refine ⟨hgen, ?_, by rfl, by rfl, hbad, ?_, by rfl, by rfl, by rfl⟩
  · intro hv
    have hall : ∀ x ∈ decodedText items, (fun c => decide (c ≠ dquote)) x = true := by
      intro x hx
      simp only [decodedText, List.mem_map] at hx
      obtain ⟨it, hm, rfl⟩ := hx
      obtain ⟨hval, hne⟩ := hv it hm
      cases it with
      | plain c =>
        simp only [LitItem.decoded, decide_eq_true_eq]
        exact hval.1
      | escape e =>
        simp only [LitItem.valid] at hval
        obtain ⟨d, hd⟩ := Option.isSome_iff_exists.mp hval
        simp only [LitItem.decoded, hd, Option.getD_some, decide_eq_true_eq]
        rcases decodeEscape_some hd with ⟨_, rfl⟩ | ⟨_, rfl⟩ | ⟨h1, _⟩ | ⟨_, rfl⟩
        · decide
        · decide
        · exact absurd (by rw [h1]) hne
        · decide
    refine ⟨?_, by simp [decodedText]⟩
    rw [hgen]
    have := takeWhile_all hall
    simp only [ne_eq, decide_not] at this ⊢
    rw [this]
  · rw [hbad]
    intro e
    injection e with e
    injection e with e1 _
    injection e1 with e2
    injection e2 with _ e3
    cases e3

/-! ## The length of a token -/

theorem readWhile_bound (p : Char → Bool) (line : Nat) : ∀ (l tok tok' rest : List Char),
    tok.length ≤ MAX_TOKEN → readWhile p l tok line = .ok (tok', rest) →
    tok'.length ≤ MAX_TOKEN := by
  intro l tok tok' rest h1 h
  by_cases hlen : tok.length + (l.takeWhile p).length ≤ MAX_TOKEN
  · rw [readWhile_run p line l tok hlen] at h
    cases h
    simpa using hlen
  · rw [readWhile_long p line l tok h1 (by omega)] at h
    cases h

theorem takeWhile_replicate {p : Char → Bool} {a : Char} (h : p a = true) (n : Nat) :
    (List.replicate n a).takeWhile p = List.replicate n a :=
  takeWhile_all (fun x hx => by rw [List.eq_of_mem_replicate hx]; exact h)

/-- C28. `MAX_TOKEN` is 1023, and:
* every token `parseToken` returns has at most `MAX_TOKEN` characters, so
  that the token and the NUL after it fit the `MAX_TOKEN + 1` characters of
  the buffer;
* at a letter or `_`, and at `-` or a digit, `parseToken` stops with
  `token too long` exactly when the first character and the run after it are
  more than `MAX_TOKEN` characters;
* at a quote followed by valid items and the closing quote, `parseToken`
  stops with `token too long` exactly when the two quotes and the decoded
  characters are more than `MAX_TOKEN` characters;
* at an operator character `parseToken` returns a token of one or two
  characters. -/
theorem C28_token_too_long_exactly_above_max_token (c : Char) (rest : List Char)
    (line : Nat) :
    MAX_TOKEN = 1023 ∧
    (∀ (st : PState) (tok : List Char) (st' : PState),
      parseToken st = .ok (some tok, st') →
      tok.length ≤ MAX_TOKEN ∧ tok.length + 1 ≤ MAX_TOKEN + 1) ∧
    (wordStart c →
      (parseToken { input := c :: rest, lineCount := line } = .error (.tokenTooLong line)
        ↔ MAX_TOKEN < 1 + (rest.takeWhile wordChar).length)) ∧
    (numberStart c →
      (parseToken { input := c :: rest, lineCount := line } = .error (.tokenTooLong line)
        ↔ MAX_TOKEN < 1 + (rest.takeWhile isdigit).length)) ∧
    (isQuote c → ∀ items more, (∀ it ∈ items, LitItem.valid c it) →
      rest = rawText items ++ c :: more →
      (parseToken { input := c :: rest, lineCount := line } = .error (.tokenTooLong line)
        ↔ MAX_TOKEN < items.length + 2)) ∧
    (operatorStart c → ∃ tok st',
      parseToken { input := c :: rest, lineCount := line } = .ok (some tok, st') ∧
      tok.length ≤ 2) := by
  refine ⟨rfl, ?_, ?_, ?_, ?_, ?_⟩
  · intro st tok st' h
    suffices hb : tok.length ≤ MAX_TOKEN from ⟨hb, by omega⟩
    unfold parseToken at h
    split at h
    · cases h
    · rename_i ch rest0 line0 _
      split at h
      · cases hr : readWhile (fun c => isalnum c || decide (c = '_')) rest0 [ch] line0 with
        | error e => rw [hr] at h; cases h
        | ok p =>
          obtain ⟨t, r⟩ := p
          rw [hr] at h
          cases h
          exact readWhile_bound _ line0 rest0 [ch] _ _ (by simp [MAX_TOKEN]) hr
      · split at h
        · cases hr : readWhile isdigit rest0 [ch] line0 with
          | error e => rw [hr] at h; cases h
          | ok p =>
            obtain ⟨t, r⟩ := p
            rw [hr] at h
            cases h
            exact readWhile_bound _ line0 rest0 [ch] _ _ (by simp [MAX_TOKEN]) hr
        · split at h
          · cases hr : readQuoted ch rest0 false [ch] line0 with
            | error e => rw [hr] at h; cases h
            | ok p =>
              obtain ⟨t, r⟩ := p
              rw [hr] at h
              simp only [] at h
              cases ha : addToToken ch t line0 with
              | error e => rw [ha] at h; cases h
              | ok t1 =>
                rw [ha] at h
                simp only [] at h
                obtain ⟨rfl, hlt⟩ := addToToken_ok ha
                split at h
                · cases h
                · cases h
                  simp only [List.length_append, List.length_cons, List.length_nil]
                  omega
          · split at h
            · cases h; simp [MAX_TOKEN]
            · split at h
              · cases h; simp [MAX_TOKEN]
              · cases h; simp [MAX_TOKEN]
  · intro hc
    rw [parseToken_word hc]
    constructor
    · intro h
      by_contra hle
      rw [readWhile_run wordChar line rest [c]
        (by simp only [List.length_cons, List.length_nil]; omega)] at h
      cases h
    · intro h
      rw [readWhile_long wordChar line rest [c] (by simp [MAX_TOKEN])
        (by simp only [List.length_cons, List.length_nil]; omega)]
  · intro hc
    rw [parseToken_numeral hc]
    constructor
    · intro h
      by_contra hle
      rw [readWhile_run isdigit line rest [c]
        (by simp only [List.length_cons, List.length_nil]; omega)] at h
      cases h
    · intro h
      rw [readWhile_long isdigit line rest [c] (by simp [MAX_TOKEN])
        (by simp only [List.length_cons, List.length_nil]; omega)]
  · intro hq items more hv hb
    subst hb
    constructor
    · intro h
      by_contra hle
      rw [parseToken_literal hq hv (by omega)] at h
      split at h <;> cases h
    · intro h
      rw [parseToken_quote hq]
      by_cases h1 : MAX_TOKEN < 1 + items.length
      · rw [readQuoted_long hq line items _ [c] hv (by simp [MAX_TOKEN])
          (by simp only [List.length_cons, List.length_nil]; omega)]
      · rw [readQuoted_literal hq hv (by omega), readQuoted_close]
        have hfull : (c :: decodedText items).length ≥ MAX_TOKEN := by
          simp only [List.length_cons, decodedText, List.length_map]; omega
        simp only [addToToken, hfull, if_true]
  · intro hc
    rw [parseToken_symbol hc]
    cases rest with
    | nil => exact ⟨_, _, rfl, by simp⟩
    | cons c2 rest1 =>
      simp only []
      split
      · exact ⟨_, _, rfl, by simp⟩
      · exact ⟨_, _, rfl, by simp⟩

/-- C28 at a word of `MAX_TOKEN` letters, which is a token, and at a word of
`MAX_TOKEN + 1` letters, which is too long. -/
theorem C28_token_too_long_witness :
    parseToken { input := 'a' :: List.replicate 1022 'a', lineCount := 5 }
      ≠ .error (.tokenTooLong 5) ∧
    parseToken { input := 'a' :: List.replicate 1023 'a', lineCount := 5 }
      = .error (.tokenTooLong 5) ∧
    parseToken { input := '7' :: List.replicate 1023 '7', lineCount := 5 }
      = .error (.tokenTooLong 5) ∧
    parseToken (PState.mk (dquote :: (rawText (List.replicate 1022 (.plain 'a')) ++ [dquote])) 5)
      = .error (.tokenTooLong 5) ∧
    parseToken (PState.mk (dquote :: (rawText (List.replicate 1021 (.plain 'a')) ++ [dquote])) 5)
      ≠ .error (.tokenTooLong 5) :=
  ⟨fun h => absurd
      (((C28_token_too_long_exactly_above_max_token 'a' (List.replicate 1022 'a') 5).2.2.1
        (Or.inl (by decide))).mp h)
      (by rw [takeWhile_replicate (by decide), List.length_replicate]; decide),
    ((C28_token_too_long_exactly_above_max_token 'a' (List.replicate 1023 'a') 5).2.2.1
      (Or.inl (by decide))).mpr
      (by rw [takeWhile_replicate (by decide), List.length_replicate]; decide),
    ((C28_token_too_long_exactly_above_max_token '7' (List.replicate 1023 '7') 5).2.2.2.1
      (Or.inr (by decide))).mpr
      (by rw [takeWhile_replicate (by decide), List.length_replicate]; decide),
    ((C28_token_too_long_exactly_above_max_token dquote _ 5).2.2.2.2.1 (Or.inl rfl)
      (List.replicate 1022 (.plain 'a')) []
      (fun it hm => by
        rw [List.eq_of_mem_replicate hm]; exact ⟨by decide, by decide, by decide⟩) rfl).mpr
      (by rw [List.length_replicate]; decide),
    fun h => absurd
      (((C28_token_too_long_exactly_above_max_token dquote _ 5).2.2.2.2.1 (Or.inl rfl)
        (List.replicate 1021 (.plain 'a')) []
        (fun it hm => by
          rw [List.eq_of_mem_replicate hm]; exact ⟨by decide, by decide, by decide⟩) rfl).mp h)
      (by rw [List.length_replicate]; decide)⟩

/-! ## Reference counts, one step at a time -/

/-- C22. For a sequence that is allocated with reference count `r`:
* `makeSequence` makes a new sequence with reference count 1;
* `grabSequence` leaves it allocated with count `r + 1` and changes nothing
  else;
* `releaseSequence`, for `r ≥ 1`, returns; it frees the sequence exactly when
  `r = 1`, and for `r ≥ 2` leaves it allocated with count `r - 1`, the same
  elements and the same capacity; other sequences are untouched by both. -/
theorem C22_grab_and_release_step_the_count_by_one (cfg : Config) (heap : Heap) (h : Nat)
    (s : Sequence) (hd : Heap.deref heap h = some s) :
    (Heap.deref (makeSequence cfg heap).2 (makeSequence cfg heap).1
        = some { capacity := cfg.INIT_CAP, list := [], ref := 1 } ∧
      ∀ h', h' ≠ (makeSequence cfg heap).1 →
        Heap.deref (makeSequence cfg heap).2 h' = Heap.deref heap h') ∧
    (∃ heap', grabSequence heap h = .ok heap' ∧
      Heap.deref heap' h = some { s with ref := s.ref + 1 } ∧
      ∀ h', h' ≠ h → Heap.deref heap' h' = Heap.deref heap h') ∧
    (1 ≤ s.ref → ∃ heap', releaseSequence heap h = .ok heap' ∧
      (Heap.deref heap' h = none ↔ s.ref = 1) ∧
      (2 ≤ s.ref → Heap.deref heap' h = some { s with ref := s.ref - 1 }) ∧
      ∀ h', h' ≠ h → Heap.deref heap' h' = Heap.deref heap h') := by
  refine ⟨⟨?_, ?_⟩, ?_, ?_⟩
  · unfold makeSequence; exact deref_append_new _ _
  · intro h' hne
    unfold makeSequence at hne ⊢
    simp only [] at hne ⊢
    by_cases hlt : h' < heap.length
    · exact deref_append_left _ hlt
    · have hgt : heap.length < h' := by omega
      unfold Heap.deref
      rw [List.getElem?_eq_none (by simp; omega), List.getElem?_eq_none (by omega)]
  · obtain ⟨heap', hg, _, hother, hself⟩ := grab_ok hd
    exact ⟨heap', hg, hself, hother⟩
  · intro hr
    obtain ⟨heap', hrel, _, hother, hself⟩ := release_ok hd hr
    refine ⟨heap', hrel, ?_, ?_, hother⟩
    · rcases hself with ⟨h1, hnone⟩ | ⟨h2, hsome⟩
      · exact ⟨fun _ => h1, fun _ => hnone⟩
      · constructor
        · intro hn; rw [hsome] at hn; cases hn
        · intro h1; omega
    · intro h2
      rcases hself with ⟨h1, _⟩ | ⟨_, hsome⟩
      · omega
      · exact hsome

/-- C22 at a sequence held once and at a sequence held twice. -/
theorem C22_grab_and_release_witness :
    (1 ≤ (⟨5, [7], 1⟩ : Sequence).ref → ∃ heap', releaseSequence [some ⟨5, [7], 1⟩] 0 = .ok heap' ∧
      (Heap.deref heap' 0 = none ↔ (⟨5, [7], 1⟩ : Sequence).ref = 1) ∧
      (2 ≤ (⟨5, [7], 1⟩ : Sequence).ref →
        Heap.deref heap' 0 = some { (⟨5, [7], 1⟩ : Sequence) with ref := 1 - 1 }) ∧
      ∀ h', h' ≠ 0 → Heap.deref heap' h' = Heap.deref [some ⟨5, [7], 1⟩] h') ∧
    makeSequence refConfig [] = (0, [some ⟨5, [], 1⟩]) ∧
    grabSequence [some ⟨5, [7], 1⟩] 0 = .ok [some ⟨5, [7], 2⟩] ∧
    releaseSequence [some ⟨5, [7], 2⟩] 0 = .ok [some ⟨5, [7], 1⟩] ∧
    releaseSequence [some ⟨5, [7], 1⟩] 0 = .ok [none] ∧
    releaseSequence [some ⟨5, [7], 0⟩] 0 = .error .assertFailed :=
  ⟨(C22_grab_and_release_step_the_count_by_one refConfig [some ⟨5, [7], 1⟩] 0 ⟨5, [7], 1⟩
      rfl).2.2,
    by rfl, by rfl, by rfl, by rfl, by rfl⟩

/-! ## The count of a sequence and its capacity -/

theorem heapPos_set {heap : Heap} {h : Nat} {x : Sequence} (hp : HeapPos heap)
    (hx : 1 ≤ x.ref) : HeapPos (heap.set h (some x)) := by
  intro h' s' hd'
  by_cases e : h = h'
  · subst e
    have hlt : h < heap.length := by
      have := deref_some_lt hd'; simpa using this
    rw [deref_set_self _ hlt] at hd'; cases hd'; exact hx
  · rw [deref_set_ne _ e] at hd'; exact hp h' s' hd'

theorem heapCap_set {heap : Heap} {h : Nat} {x : Sequence} (hc : HeapCap heap)
    (hx : x.count ≤ x.capacity) : HeapCap (heap.set h (some x)) := by
  intro h' s' hd'
  by_cases e : h = h'
  · subst e
    have hlt : h < heap.length := by
      have := deref_some_lt hd'; simpa using this
    rw [deref_set_self _ hlt] at hd'; cases hd'; exact hx
  · rw [deref_set_ne _ e] at hd'; exact hc h' s' hd'

theorem kept_heapCap {heap heap' : Heap} (hk : Kept heap heap') (hc : HeapCap heap) :
    HeapCap heap' := by
  intro h s' hd'
  obtain ⟨s, hd, hl, hcap⟩ := hk h s' hd'
  have := hc h s hd
  unfold Sequence.count at this ⊢
  rw [hl, hcap]; exact this

/-- An expression that evaluates to a sequence is a variable or a sequence
initializer. -/
theorem eval_seq_source (cfg : Config) (e : Expr) (env : Environment) (heap heap' : Heap)
    (h : Nat) (he : eval cfg e env heap = .ok (.SeqType h, heap')) :
    (∃ name, e = .Variable name) ∨ (∃ exprs, e = .SequenceInitializer exprs) := by
  cases e with
  | Variable name => exact Or.inl ⟨name, rfl⟩
  | SequenceInitializer exprs => exact Or.inr ⟨exprs, rfl⟩
  | LiteralInt val => simp [eval] at he
  | Add l r =>
    exfalso; rw [eval] at he
    repeat' split at he
    all_goals simp_all [requireIntType]
  | Sub l r =>
    exfalso; rw [eval] at he
    repeat' split at he
    all_goals simp_all [requireIntType]
  | Mul l r =>
    exfalso; rw [eval] at he
    repeat' split at he
    all_goals simp_all [requireIntType]
  | Div l r =>
    exfalso; rw [eval] at he
    repeat' split at he
    all_goals simp_all [requireIntType]
  | And l r =>
    exfalso; rw [eval] at he
    repeat' split at he
    all_goals simp_all [requireIntType]
  | Or l r =>
    exfalso; rw [eval] at he
    repeat' split at he
    all_goals simp_all [requireIntType]
  | Less l r =>
    exfalso; rw [eval] at he
    repeat' split at he
    all_goals simp_all [requireIntType]
  | Equals l r =>
    exfalso; rw [eval] at he
    repeat' split at he
    all_goals simp_all [requireIntType]
  | Len x =>
    exfalso; rw [eval] at he
    repeat' split at he
    all_goals simp_all [requireIntType]
  | SequenceIndex a i =>
    exfalso; rw [eval] at he
    repeat' split at he
    all_goals simp_all [requireIntType]

/-- The loop of a sequence initializer keeps the sequence it fills inside its
allocation, and adds one element for each expression. -/
theorem evalElems_cap (cfg : Config) (env : Environment) (h : Nat) :
    ∀ (es : List Expr) (cur cur' : Heap) (s : Sequence), HeapPos cur →
      cur.deref h = some s → s.count ≤ s.capacity →
      evalElems cfg es env h cur = .ok cur' →
      ∃ s', Heap.deref cur' h = some s' ∧ s'.count = s.count + es.length ∧
        s'.count ≤ s'.capacity
  | [], cur, cur', s, _, hd, hc, he => by
    simp only [evalElems, Except.ok.injEq] at he
    subst he
    exact ⟨s, hd, by simp, hc⟩
  | e :: es, cur, cur', s, hp, hd, hc, he => by
    rw [evalElems] at he
    cases hl : eval cfg e env cur with
    | error err => rw [hl] at he; cases he
    | ok p1 =>
      obtain ⟨v1, cur1⟩ := p1
      rw [hl] at he
      have f1 := eval_frame cfg e env cur v1 cur1 hp hl
      cases v1 with
      | SeqType h1 => simp at he
      | IntType i =>
        simp only [] at he
        obtain ⟨s1, hd1, hl1, hc1, _⟩ := f1.exact h s hd
        cases hst : storeNext cur1 h i with
        | error err => rw [hst] at he; cases he
        | ok cur2 =>
          rw [hst] at he; simp only [] at he
          unfold P6.storeNext at hst
          rw [hd1] at hst
          simp only [] at hst
          by_cases hlt : s1.count < s1.capacity
          · rw [if_pos hlt] at hst
            cases hst
            have hlt1 : h < cur1.length := deref_some_lt hd1
            have hp2 : HeapPos (cur1.set h (some { s1 with list := s1.list ++ [i] })) :=
              heapPos_set f1.surplus.pos (f1.surplus.pos h s1 hd1)
            obtain ⟨s', hd', hcnt, hcap⟩ := evalElems_cap cfg env h es _ cur'
              { s1 with list := s1.list ++ [i] } hp2 (deref_set_self _ hlt1)
              (by simp only [Sequence.count, List.length_append, List.length_singleton]
                  unfold Sequence.count at hlt; omega) he
            have e1 : ({ s1 with list := s1.list ++ [i] } : Sequence).count = s.count + 1 := by
              simp [Sequence.count, hl1]
            refine ⟨s', hd', ?_, hcap⟩
            rw [hcnt, e1, List.length_cons]
            omega
          · rw [if_neg hlt] at hst; cases hst

/-- Evaluation keeps every sequence inside its allocation. -/
theorem eval_heapCap (cfg : Config) (e : Expr) (env : Environment) (heap heap' : Heap)
    (v : Value) (hp : HeapPos heap) (hc : HeapCap heap)
    (he : eval cfg e env heap = .ok (v, heap')) : HeapCap heap' := by
  have f := eval_frame cfg e env heap v heap' hp he
  intro h' s' hd'
  cases hb : Heap.deref heap h' with
  | some s =>
    obtain ⟨s'', hd'', hl, hcap, _⟩ := f.exact h' s hb
    rw [hd'] at hd''; cases hd''
    have := hc h' s hb
    unfold Sequence.count at this ⊢
    rw [hl, hcap]; exact this
  | none =>
    by_cases hlt : h' < heap.length
    · rw [f.dead h' hlt hb] at hd'; cases hd'
    · have hfr := f.fresh h' s' (by omega) hd'
      have hpos := f.surplus.pos h' s' hd'
      have hmem : h' ∈ handles v := by
        by_contra hno
        rw [List.count_eq_zero_of_not_mem hno] at hfr
        omega
      cases v with
      | IntType i => simp [handles] at hmem
      | SeqType hv =>
        have e1 : h' = hv := by simpa [handles] using hmem
        subst e1
        rcases eval_seq_source cfg e env heap heap' h' he with ⟨name, rfl⟩ | ⟨exprs, rfl⟩
        · exfalso
          rw [eval] at he
          cases hv : lookupVariable env name with
          | IntType i => rw [hv] at he; simp at he
          | SeqType h0 =>
            rw [hv] at he
            simp only [] at he
            cases hg : grabSequence heap h0 with
            | error err => rw [hg] at he; cases he
            | ok heap1 =>
              rw [hg] at he
              simp only [Except.ok.injEq, Prod.mk.injEq, Value.SeqType.injEq] at he
              obtain ⟨rfl, _⟩ := he
              unfold grabSequence at hg
              rw [hb] at hg; cases hg
        · rw [eval] at he
          simp only [] at he
          obtain ⟨hs, c, hcell, hn⟩ := Surplus.newSequence cfg hp exprs.length
          cases hel : evalElems cfg exprs env (makeSequence cfg heap).1
              (reserve (makeSequence cfg heap).2 (makeSequence cfg heap).1 exprs.length) with
          | error err => rw [hel] at he; cases he
          | ok heap3 =>
            rw [hel] at he
            simp only [Except.ok.injEq, Prod.mk.injEq, Value.SeqType.injEq] at he
            obtain ⟨e1, rfl⟩ := he
            have e2 : h' = heap.length := e1.symm
            subst e2
            obtain ⟨s'', hd'', _, hcap⟩ := evalElems_cap cfg env heap.length exprs _ _ _
              hs.pos hcell (by simp [Sequence.count]) hel
            rw [hd'] at hd''; cases hd''
            exact hcap

/-- The elements of a sequence initializer fit the sequence it returns,
whatever their number. -/
theorem eval_initializer_cap (cfg : Config) (exprs : List Expr) (env : Environment)
    (heap heap' : Heap) (v : Value) (hp : HeapPos heap)
    (he : eval cfg (.SequenceInitializer exprs) env heap = .ok (v, heap')) :
    v = .SeqType heap.length ∧ ∃ s, Heap.deref heap' heap.length = some s ∧
      s.count = exprs.length ∧ s.count ≤ s.capacity := by
  rw [eval] at he
  simp only [] at he
  obtain ⟨hs, c, hcell, hn⟩ := Surplus.newSequence cfg hp exprs.length
  cases hel : evalElems cfg exprs env (makeSequence cfg heap).1
      (reserve (makeSequence cfg heap).2 (makeSequence cfg heap).1 exprs.length) with
  | error err => rw [hel] at he; cases he
  | ok heap3 =>
    rw [hel] at he
    simp only [Except.ok.injEq, Prod.mk.injEq] at he
    obtain ⟨rfl, rfl⟩ := he
    obtain ⟨s'', hd'', hcnt, hcap⟩ := evalElems_cap cfg env heap.length exprs _ _ _
      hs.pos hcell (by simp [Sequence.count]) hel
    exact ⟨rfl, s'', hd'', by simpa [Sequence.count] using hcnt, hcap⟩

theorem release_inv {heap heap' : Heap} {h : Nat} (hp : HeapPos heap) (hc : HeapCap heap)
    (hr : releaseSequence heap h = .ok heap') : HeapPos heap' ∧ HeapCap heap' := by
  cases hd : Heap.deref heap h with
  | none => unfold releaseSequence at hr; rw [hd] at hr; cases hr
  | some s =>
    obtain ⟨hother, hself⟩ := release_cases hd hr
    have key : ∀ h' s', Heap.deref heap' h' = some s' →
        1 ≤ s'.ref ∧ s'.count ≤ s'.capacity := by
      intro h' s' hd'
      by_cases e : h' = h
      · subst e
        rcases hself with ⟨_, hnone⟩ | ⟨h2, hsome⟩
        · rw [hnone] at hd'; cases hd'
        · rw [hsome] at hd'; cases hd'
          exact ⟨by simp only []; omega, hc h' s hd⟩
      · rw [hother h' e] at hd'
        exact ⟨hp h' s' hd', hc h' s' hd'⟩
    exact ⟨fun h' s' hd' => (key h' s' hd').1, fun h' s' hd' => (key h' s' hd').2⟩

theorem grab_inv {heap heap' : Heap} {h : Nat} (hp : HeapPos heap) (hc : HeapCap heap)
    (hg : grabSequence heap h = .ok heap') : HeapPos heap' ∧ HeapCap heap' := by
  cases hd : Heap.deref heap h with
  | none => unfold grabSequence at hg; rw [hd] at hg; cases hg
  | some s =>
    unfold grabSequence at hg
    rw [hd] at hg
    cases hg
    have := hp h s hd
    exact ⟨heapPos_set hp (by simp only []; omega), heapCap_set hc (hc h s hd)⟩

theorem writeElem_inv {heap heap' : Heap} {h : Nat} {i v : Int} (hp : HeapPos heap)
    (hc : HeapCap heap) (hw : writeElem heap h i v = .ok heap') :
    HeapPos heap' ∧ HeapCap heap' := by
  unfold writeElem at hw
  cases hd : Heap.deref heap h with
  | none => rw [hd] at hw; cases hw
  | some s =>
    rw [hd] at hw
    simp only [] at hw
    split at hw
    · cases hw
    · split at hw
      · cases hw
        refine ⟨heapPos_set hp (hp h s hd), heapCap_set hc ?_⟩
        have := hc h s hd
        simpa [Sequence.count] using this
      · cases hw

/-- The two steps of `executePush` that store the value: the sequence may
have been reallocated, and it holds one more element inside its
allocation. -/
theorem push_store_inv (cfg : Config) {heap heap' : Heap} {h : Nat} {v : Int}
    (hp : HeapPos heap) (hc : HeapCap heap)
    (hs : storeNext (growForPush cfg heap h) h v = .ok heap') :
    HeapPos heap' ∧ HeapCap heap' := by
  cases hd : Heap.deref heap h with
  | none =>
    unfold growForPush at hs; rw [hd] at hs
    unfold P6.storeNext at hs; rw [hd] at hs; cases hs
  | some s =>
    have hlt : h < heap.length := deref_some_lt hd
    obtain ⟨cap, hg, hgo, hlen⟩ : ∃ cap,
        Heap.deref (growForPush cfg heap h) h = some { s with capacity := cap } ∧
        (∀ h', h' ≠ h → Heap.deref (growForPush cfg heap h) h' = heap.deref h') ∧
        h < (growForPush cfg heap h).length := by
      unfold growForPush
      rw [hd]
      simp only []
      by_cases hfull : s.count ≥ s.capacity
      · rw [if_pos hfull]
        exact ⟨_, deref_set_self _ hlt, fun h' hne => deref_set_ne _ (Ne.symm hne),
          by simpa using hlt⟩
      · rw [if_neg hfull]
        exact ⟨s.capacity, hd, fun _ _ => rfl, hlt⟩
    unfold P6.storeNext at hs
    rw [hg] at hs
    simp only [] at hs
    split at hs
    · rename_i hroom
      cases hs
      have key : ∀ h' s', Heap.deref ((growForPush cfg heap h).set h
          (some { capacity := cap, list := s.list ++ [v], ref := s.ref })) h' = some s' →
          1 ≤ s'.ref ∧ s'.count ≤ s'.capacity := by
        intro h' s' hd'
        by_cases e : h' = h
        · subst e
          rw [deref_set_self _ hlen] at hd'; cases hd'
          refine ⟨hp h' s hd, ?_⟩
          simp only [Sequence.count, List.length_append, List.length_singleton] at hroom ⊢
          omega
        · rw [deref_set_ne _ (Ne.symm e), hgo h' e] at hd'
          exact ⟨hp h' s' hd', hc h' s' hd'⟩
      exact ⟨fun h' s' hd' => (key h' s' hd').1, fun h' s' hd' => (key h' s' hd').2⟩
    · cases hs

/-- The heap part of `setVariable` when it returns: the sequence the record
held, if there is one, has been released twice, and then the sequence stored,
if the value is one, has been grabbed. -/
theorem setVariable_heap (cfg : Config) (env env' : Environment) (heap heap' : Heap)
    (n : List Char) (v : Value) (h : setVariable cfg env heap n v = .ok (env', heap')) :
    ∃ heap1,
      ((heap1 = heap) ∨
        (∃ h0 heapa, releaseSequence heap h0 = .ok heapa ∧
          releaseSequence heapa h0 = .ok heap1)) ∧
      ((heap' = heap1 ∧ ∃ i, v = .IntType i) ∨
        (∃ hv, v = .SeqType hv ∧ grabSequence heap1 hv = .ok heap')) := by
  unfold setVariable at h
  simp only [bind, Except.bind, pure, Except.pure] at h
  cases v with
  | IntType i =>
    simp only [] at h
    by_cases hpos : findPos env.vlist n 0 = env.len
    · rw [if_pos hpos] at h
      refine ⟨heap, Or.inl rfl, Or.inl ⟨?_, i, rfl⟩⟩
      split_ifs at h
      all_goals simp only [Except.ok.injEq, Prod.mk.injEq] at h
      all_goals exact h.2.symm
    · rw [if_neg hpos] at h
      cases hold : Option.map VarRec.val env.vlist[findPos env.vlist n 0]? with
      | none =>
        rw [hold] at h
        simp only [Except.ok.injEq, Prod.mk.injEq] at h
        exact ⟨heap, Or.inl rfl, Or.inl ⟨h.2.symm, i, rfl⟩⟩
      | some old =>
        rw [hold] at h
        cases old with
        | IntType j =>
          simp only [Except.ok.injEq, Prod.mk.injEq] at h
          exact ⟨heap, Or.inl rfl, Or.inl ⟨h.2.symm, i, rfl⟩⟩
        | SeqType h0 =>
          simp only [] at h
          cases hra : releaseSequence heap h0 with
          | error e => rw [hra] at h; cases h
          | ok heapa =>
            rw [hra] at h
            simp only [] at h
            cases hrb : releaseSequence heapa h0 with
            | error e => rw [hrb] at h; cases h
            | ok heapb =>
              rw [hrb] at h
              simp only [Except.ok.injEq, Prod.mk.injEq] at h
              exact ⟨heapb, Or.inr ⟨h0, heapa, hra, hrb⟩, Or.inl ⟨h.2.symm, i, rfl⟩⟩
  | SeqType hv =>
    simp only [] at h
    by_cases hpos : findPos env.vlist n 0 = env.len
    · rw [if_pos hpos] at h
      refine ⟨heap, Or.inl rfl, Or.inr ⟨hv, rfl, ?_⟩⟩
      cases hg : grabSequence heap hv with
      | error e =>
        rw [hg] at h
        split_ifs at h
      | ok heapg =>
        rw [hg] at h
        split_ifs at h
        all_goals simp only [Except.ok.injEq, Prod.mk.injEq] at h
        all_goals rw [h.2]
    · rw [if_neg hpos] at h
      cases hold : Option.map VarRec.val env.vlist[findPos env.vlist n 0]? with
      | none =>
        rw [hold] at h
        simp only [] at h
        refine ⟨heap, Or.inl rfl, Or.inr ⟨hv, rfl, ?_⟩⟩
        cases hg : grabSequence heap hv with
        | error e => rw [hg] at h; cases h
        | ok heapg =>
          rw [hg] at h
          simp only [Except.ok.injEq, Prod.mk.injEq] at h
          rw [h.2]
      | some old =>
        rw [hold] at h
        cases old with
        | IntType j =>
          simp only [] at h
          refine ⟨heap, Or.inl rfl, Or.inr ⟨hv, rfl, ?_⟩⟩
          cases hg : grabSequence heap hv with
          | error e => rw [hg] at h; cases h
          | ok heapg =>
            rw [hg] at h
            simp only [Except.ok.injEq, Prod.mk.injEq] at h
            rw [h.2]
        | SeqType h0 =>
          simp only [] at h
          cases hra : releaseSequence heap h0 with
          | error e => rw [hra] at h; cases h
          | ok heapa =>
            rw [hra] at h
            simp only [] at h
            cases hrb : releaseSequence heapa h0 with
            | error e => rw [hrb] at h; cases h
            | ok heapb =>
              rw [hrb] at h
              simp only [] at h
              refine ⟨heapb, Or.inr ⟨h0, heapa, hra, hrb⟩, Or.inr ⟨hv, rfl, ?_⟩⟩
              cases hg : grabSequence heapb hv with
              | error e => rw [hg] at h; cases h
              | ok heapg =>
                rw [hg] at h
                simp only [Except.ok.injEq, Prod.mk.injEq] at h
                rw [h.2]

theorem setVariable_inv (cfg : Config) (env env' : Environment) (heap heap' : Heap)
    (n : List Char) (v : Value) (hp : HeapPos heap) (hc : HeapCap heap)
    (h : setVariable cfg env heap n v = .ok (env', heap')) :
    HeapPos heap' ∧ HeapCap heap' := by
  obtain ⟨heap1, h1, h2⟩ := setVariable_heap cfg env env' heap heap' n v h
  have inv1 : HeapPos heap1 ∧ HeapCap heap1 := by
    rcases h1 with rfl | ⟨h0, heapa, ha, hb⟩
    · exact ⟨hp, hc⟩
    · obtain ⟨pa, ca⟩ := release_inv hp hc ha
      exact release_inv pa ca hb
  rcases h2 with ⟨rfl, _⟩ | ⟨hv, _, hg⟩
  · exact inv1
  · exact grab_inv inv1.1 inv1.2 hg

/-- Every statement that runs to its end leaves the reference counts positive
and every sequence inside its allocation. -/
theorem execute_inv (cfg : Config) : ∀ (fuel : Nat) (stmt : Stmt) (st st' : ExecState),
    HeapPos st.heap → HeapCap st.heap → execute cfg fuel stmt st = .ok st' →
    HeapPos st'.heap ∧ HeapCap st'.heap
  | 0, stmt, st, st', _, _, h => by
    rw [execute] at h; cases h
  | fuel + 1, .Print expr, st, st', hp, hc, h => by
    rw [execute] at h
    cases he : eval cfg expr st.env st.heap with
    | error e => rw [he] at h; simp [liftEval] at h
    | ok p =>
      obtain ⟨v, heap1⟩ := p
      rw [he] at h
      have p1 := (eval_surplus cfg expr st.env st.heap v heap1 hp he).pos
      have c1 := eval_heapCap cfg expr st.env st.heap heap1 v hp hc he
      cases v with
      | IntType i =>
        simp only [liftEval, Except.ok.injEq] at h
        subst h
        exact ⟨p1, c1⟩
      | SeqType hv =>
        simp only [liftEval] at h
        cases hd : Heap.deref heap1 hv with
        | none => rw [hd] at h; cases h
        | some s =>
          rw [hd] at h
          simp only [] at h
          cases hr : releaseSequence heap1 hv with
          | error e => rw [hr] at h; cases h
          | ok heap2 =>
            rw [hr] at h
            simp only [Except.ok.injEq] at h
            subst h
            exact release_inv p1 c1 hr
  | fuel + 1, .Compound stmtList, st, st', hp, hc, h => by
    rw [execute] at h
    have hlist : ∀ (l : List Stmt) (s s' : ExecState), HeapPos s.heap → HeapCap s.heap →
        executeList (execute cfg fuel) l s = .ok s' → HeapPos s'.heap ∧ HeapCap s'.heap := by
      intro l
      induction l with
      | nil =>
        intro s s' p c hh
        simp only [executeList, Except.ok.injEq] at hh
        subst hh; exact ⟨p, c⟩
      | cons a l ih =>
        intro s s' p c hh
        rw [executeList] at hh
        cases ha : execute cfg fuel a s with
        | error e => rw [ha] at hh; cases hh
        | ok s1 =>
          rw [ha] at hh
          obtain ⟨p1, c1⟩ := execute_inv cfg fuel a s s1 p c ha
          exact ih s1 s' p1 c1 hh
    exact hlist stmtList st st' hp hc h
  | fuel + 1, .If cond body, st, st', hp, hc, h => by
    rw [execute] at h
    cases he : eval cfg cond st.env st.heap with
    | error e => rw [he] at h; simp [liftEval] at h
    | ok p =>
      obtain ⟨v, heap1⟩ := p
      rw [he] at h
      have p1 := (eval_surplus cfg cond st.env st.heap v heap1 hp he).pos
      have c1 := eval_heapCap cfg cond st.env st.heap heap1 v hp hc he
      cases v with
      | SeqType hv => simp [liftEval, requireIntType] at h
      | IntType r =>
        simp only [liftEval, requireIntType] at h
        split at h
        · exact execute_inv cfg fuel body { st with heap := heap1 } st' p1 c1 h
        · cases h; exact ⟨p1, c1⟩
  | fuel + 1, .While cond body, st, st', hp, hc, h => by
    rw [execute] at h
    cases he : eval cfg cond st.env st.heap with
    | error e => rw [he] at h; simp [liftEval] at h
    | ok p =>
      obtain ⟨v, heap1⟩ := p
      rw [he] at h
      have p1 := (eval_surplus cfg cond st.env st.heap v heap1 hp he).pos
      have c1 := eval_heapCap cfg cond st.env st.heap heap1 v hp hc he
      cases v with
      | SeqType hv => simp [liftEval, requireIntType] at h
      | IntType r =>
        simp only [liftEval, requireIntType] at h
        split at h
        · cases hb : execute cfg fuel body { st with heap := heap1 } with
          | error e => rw [hb] at h; cases h
          | ok st1 =>
            rw [hb] at h
            simp only [] at h
            obtain ⟨p2, c2⟩ := execute_inv cfg fuel body { st with heap := heap1 } st1 p1 c1 hb
            exact execute_inv cfg fuel (.While cond body) st1 st' p2 c2 h
        · cases h; exact ⟨p1, c1⟩
  | fuel + 1, .Assignment name none expr, st, st', hp, hc, h => by
    rw [execute] at h
    cases he : eval cfg expr st.env st.heap with
    | error e => rw [he] at h; simp [liftEval] at h
    | ok p =>
      obtain ⟨v, heap1⟩ := p
      rw [he] at h
      have p1 := (eval_surplus cfg expr st.env st.heap v heap1 hp he).pos
      have c1 := eval_heapCap cfg expr st.env st.heap heap1 v hp hc he
      simp only [liftEval] at h
      cases hs : setVariable cfg st.env heap1 name v with
      | error e => rw [hs] at h; cases h
      | ok q =>
        obtain ⟨env2, heap2⟩ := q
        rw [hs] at h
        simp only [Except.ok.injEq] at h
        subst h
        exact setVariable_inv cfg st.env env2 heap1 heap2 name v p1 c1 hs
  | fuel + 1, .Assignment name (some iexpr) expr, st, st', hp, hc, h => by
    rw [execute] at h
    cases he : eval cfg expr st.env st.heap with
    | error e => rw [he] at h; simp [liftEval] at h
    | ok p =>
      obtain ⟨v, heap1⟩ := p
      rw [he] at h
      have p1 := (eval_surplus cfg expr st.env st.heap v heap1 hp he).pos
      have c1 := eval_heapCap cfg expr st.env st.heap heap1 v hp hc he
      simp only [liftEval] at h
      cases hi : eval cfg iexpr st.env heap1 with
      | error e => rw [hi] at h; cases h
      | ok q =>
        obtain ⟨idx, heap2⟩ := q
        rw [hi] at h
        have p2 := (eval_surplus cfg iexpr st.env heap1 idx heap2 p1 hi).pos
        have c2 := eval_heapCap cfg iexpr st.env heap1 heap2 idx p1 c1 hi
        simp only [] at h
        cases idx with
        | SeqType hx => simp at h
        | IntType i =>
          cases hl : lookupVariable st.env name with
          | IntType a => rw [hl] at h; simp at h
          | SeqType hh =>
            rw [hl] at h
            simp only [] at h
            cases hd : Heap.deref heap2 hh with
            | none => rw [hd] at h; simp at h
            | some s =>
              rw [hd] at h
              simp only [] at h
              by_cases hb : i > (s.count : Int) - 1
              · rw [if_pos hb] at h; cases h
              · rw [if_neg hb] at h
                cases v with
                | SeqType hv => simp at h
                | IntType w =>
                  simp only [] at h
                  cases hw : writeElem heap2 hh i w with
                  | error e => rw [hw] at h; cases h
                  | ok heap3 =>
                    rw [hw] at h
                    simp only [Except.ok.injEq] at h
                    subst h
                    exact writeElem_inv p2 c2 hw
  | fuel + 1, .Push seqExpr valExpr, st, st', hp, hc, h => by
    rw [execute] at h
    cases he : eval cfg seqExpr st.env st.heap with
    | error e => rw [he] at h; simp [liftEval] at h
    | ok p =>
      obtain ⟨v1, heap1⟩ := p
      rw [he] at h
      have p1 := (eval_surplus cfg seqExpr st.env st.heap v1 heap1 hp he).pos
      have c1 := eval_heapCap cfg seqExpr st.env st.heap heap1 v1 hp hc he
      simp only [liftEval] at h
      cases hi : eval cfg valExpr st.env heap1 with
      | error e => rw [hi] at h; cases h
      | ok q =>
        obtain ⟨v2, heap2⟩ := q
        rw [hi] at h
        have p2 := (eval_surplus cfg valExpr st.env heap1 v2 heap2 p1 hi).pos
        have c2 := eval_heapCap cfg valExpr st.env heap1 heap2 v2 p1 c1 hi
        simp only [] at h
        cases v1 with
        | IntType a => simp [requireSeqType] at h
        | SeqType hs =>
          cases v2 with
          | SeqType b => simp [requireSeqType, requireIntType] at h
          | IntType k =>
            simp only [requireSeqType, requireIntType] at h
            cases hst : storeNext (growForPush cfg heap2 hs) hs k with
            | error e => rw [hst] at h; cases h
            | ok heap3 =>
              rw [hst] at h
              simp only [] at h
              obtain ⟨p3, c3⟩ := push_store_inv cfg p2 c2 hst
              cases hr : releaseSequence heap3 hs with
              | error e => rw [hr] at h; cases h
              | ok heap4 =>
                rw [hr] at h
                simp only [Except.ok.injEq] at h
                subst h
                exact release_inv p3 c3 hr

/-- The loop of a sequence initializer on integer literals that fit the
allocation: the values are appended in order. -/
theorem evalElems_literals (cfg : Config) (env : Environment) (h : Nat) :
    ∀ (vals : List Int) (cur : Heap) (s : Sequence), cur.deref h = some s →
      s.count + vals.length ≤ s.capacity →
      ∃ cur', evalElems cfg (vals.map .LiteralInt) env h cur = .ok cur' ∧
        Heap.deref cur' h = some { s with list := s.list ++ vals } ∧
        ∀ h', h' ≠ h → Heap.deref cur' h' = cur.deref h'
  | [], cur, s, hd, _ => by
    refine ⟨cur, rfl, ?_, fun _ _ => rfl⟩
    rw [hd]; simp
  | v :: vals, cur, s, hd, hlen => by
    have hlt : h < cur.length := deref_some_lt hd
    simp only [List.length_cons] at hlen
    have hroom : s.count < s.capacity := by omega
    have hst : storeNext cur h v = .ok (cur.set h (some { s with list := s.list ++ [v] })) := by
      unfold P6.storeNext; rw [hd]; simp only []; rw [if_pos hroom]
    obtain ⟨cur', he, hd', ho⟩ := evalElems_literals cfg env h vals
      (cur.set h (some { s with list := s.list ++ [v] })) { s with list := s.list ++ [v] }
      (deref_set_self _ hlt)
      (by simp only [Sequence.count, List.length_append, List.length_singleton]
          unfold Sequence.count at hlen; omega)
    refine ⟨cur', ?_, ?_, ?_⟩
    · rw [List.map_cons, evalElems]
      simp only [eval]
      rw [hst]
      exact he
    · rw [hd']; simp
    · intro h' hne
      rw [ho h' hne, deref_set_ne _ (Ne.symm hne)]

/-- A sequence initializer of integer literals evaluates, whatever the number
of literals, to a new sequence with these elements, reference count 1 and a
capacity that holds them. -/
theorem eval_seqLiteral (cfg : Config) (vals : List Int) (env : Environment) (heap : Heap) :
    ∃ heap' s, eval cfg (seqLiteral vals) env heap = .ok (.SeqType heap.length, heap') ∧
      Heap.deref heap' heap.length = some s ∧ s.list = vals ∧ s.ref = 1 ∧
      s.count ≤ s.capacity ∧
      ∀ h', h' < heap.length → Heap.deref heap' h' = heap.deref h' := by
  have hnew : Heap.deref (makeSequence cfg heap).2 heap.length
      = some { capacity := cfg.INIT_CAP, list := [], ref := 1 } := by
    unfold makeSequence; exact deref_append_new _ _
  obtain ⟨c, hcell, hn, hold⟩ : ∃ c,
      Heap.deref (reserve (makeSequence cfg heap).2 heap.length vals.length) heap.length
        = some { capacity := c, list := [], ref := 1 } ∧ vals.length ≤ c ∧
      ∀ h', h' < heap.length →
        Heap.deref (reserve (makeSequence cfg heap).2 heap.length vals.length) h'
          = heap.deref h' := by
    have hlt : heap.length < (makeSequence cfg heap).2.length := by
      unfold makeSequence; simp
    unfold reserve; rw [hnew]
    simp only []
    by_cases hc : vals.length ≥ cfg.INIT_CAP
    · rw [if_pos hc]
      refine ⟨vals.length, deref_set_self _ hlt, Nat.le_refl _, ?_⟩
      intro h' hlt'
      rw [deref_set_ne _ (by omega)]
      unfold makeSequence; exact deref_append_left _ hlt'
    · rw [if_neg hc]
      refine ⟨cfg.INIT_CAP, hnew, by omega, ?_⟩
      intro h' hlt'
      unfold makeSequence; exact deref_append_left _ hlt'
  obtain ⟨cur', he, hd', ho⟩ := evalElems_literals cfg env heap.length vals _ _ hcell
    (by simp only [Sequence.count, List.length_nil]; omega)
  refine ⟨cur', _, ?_, hd', by simp, rfl, ?_, ?_⟩
  · unfold seqLiteral
    rw [eval]
    simp only [List.length_map]
    have e1 : (makeSequence cfg heap).1 = heap.length := rfl
    rw [e1, he]
  · simpa [Sequence.count] using hn
  · intro h' hlt'
    rw [ho h' (by omega), hold h' hlt']

/-- The two steps of `executePush` that store the value, on a sequence that
fits its allocation: they return, also when the sequence is full. -/
theorem grow_store_ok (cfg : Config) {heap : Heap} {h : Nat} {s : Sequence} (k : Int)
    (hd : heap.deref h = some s) (hc : s.count ≤ s.capacity) (h1 : 1 ≤ s.capacity)
    (h2 : 2 ≤ cfg.DOUBLE) :
    ∃ heap3 s3, storeNext (growForPush cfg heap h) h k = .ok heap3 ∧
      Heap.deref heap3 h = some s3 ∧ s3.list = s.list ++ [k] ∧ s3.count = s.count + 1 ∧
      s3.count ≤ s3.capacity ∧
      (s.count = s.capacity → s3.capacity = s.capacity * cfg.DOUBLE) ∧
      (s.count < s.capacity → s3.capacity = s.capacity) := by
  have hlt : h < heap.length := deref_some_lt hd
  obtain ⟨cap, hcap, hg, hfull, hroom⟩ : ∃ cap, s.count < cap ∧
      Heap.deref (growForPush cfg heap h) h = some { s with capacity := cap } ∧
      (s.count = s.capacity → cap = s.capacity * cfg.DOUBLE) ∧
      (s.count < s.capacity → cap = s.capacity) := by
    unfold growForPush
    rw [hd]
    simp only []
    by_cases hf : s.count ≥ s.capacity
    · rw [if_pos hf]
      refine ⟨s.capacity * cfg.DOUBLE, ?_, deref_set_self _ hlt, fun _ => rfl, fun x => by omega⟩
      have : s.capacity * 2 ≤ s.capacity * cfg.DOUBLE := Nat.mul_le_mul_left _ h2
      omega
    · rw [if_neg hf]
      exact ⟨s.capacity, by omega, hd, fun x => by omega, fun _ => rfl⟩
  have hlt3 : h < (growForPush cfg heap h).length := deref_some_lt hg
  refine ⟨_, { capacity := cap, list := s.list ++ [k], ref := s.ref }, ?_,
    deref_set_self _ hlt3, rfl, ?_, ?_, hfull, hroom⟩
  · unfold P6.storeNext
    rw [hg]
    simp only []
    rw [if_pos (by simpa [Sequence.count] using hcap)]
  · simp [Sequence.count]
  · simp only [Sequence.count, List.length_append, List.length_singleton]
    unfold Sequence.count at hcap; omega

/-- C23. `count ≤ capacity` holds of every sequence at all times:
* `makeSequence` makes a sequence of count 0 and keeps the others;
* a sequence initializer that evaluates returns a sequence whose count is the
  number of its expressions and is at most its capacity, and leaves every
  sequence inside its allocation; an initializer of integer literals does
  evaluate, whatever its length, below, at or above the initial capacity;
* the steps of a push that store the value return on a sequence that fits its
  allocation, also when it is full (capacity at least 1, growth factor at
  least 2): the count is one more and still at most the capacity, which has
  been multiplied by `DOUBLE` if the sequence was full;
* every statement that runs to its end from a heap where all sequences fit
  their allocation, with positive reference counts, leaves such a heap; the
  heap a program starts with is one. -/
theorem C23_count_never_exceeds_capacity (cfg : Config) :
    (∀ heap, HeapCap heap →
      HeapCap (makeSequence cfg heap).2 ∧
      ∃ s, Heap.deref (makeSequence cfg heap).2 (makeSequence cfg heap).1 = some s ∧
        s.count = 0 ∧ s.count ≤ s.capacity) ∧
    (∀ exprs env heap v heap', HeapPos heap → HeapCap heap →
      eval cfg (.SequenceInitializer exprs) env heap = .ok (v, heap') →
      HeapCap heap' ∧ v = .SeqType heap.length ∧
      ∃ s, Heap.deref heap' heap.length = some s ∧ s.count = exprs.length ∧
        s.count ≤ s.capacity) ∧
    (∀ (vals : List Int) env heap, ∃ heap' s,
      eval cfg (seqLiteral vals) env heap = .ok (.SeqType heap.length, heap') ∧
      Heap.deref heap' heap.length = some s ∧ s.list = vals ∧ s.count ≤ s.capacity) ∧
    (∀ heap h s (k : Int), Heap.deref heap h = some s → s.count ≤ s.capacity →
      1 ≤ s.capacity → 2 ≤ cfg.DOUBLE →
      ∃ heap3 s3, storeNext (growForPush cfg heap h) h k = .ok heap3 ∧
        Heap.deref heap3 h = some s3 ∧ s3.count = s.count + 1 ∧ s3.count ≤ s3.capacity ∧
        (s.count = s.capacity → s3.capacity = s.capacity * cfg.DOUBLE)) ∧
    (∀ fuel stmt st st', HeapPos st.heap → HeapCap st.heap →
      execute cfg fuel stmt st = .ok st' → HeapPos st'.heap ∧ HeapCap st'.heap) ∧
    (HeapPos (initialState cfg).heap ∧ HeapCap (initialState cfg).heap) := by
  refine ⟨?_, ?_, ?_, ?_, execute_inv cfg, heapPos_nil, ?_⟩
  · intro heap hc
    have hnew : Heap.deref (makeSequence cfg heap).2 (makeSequence cfg heap).1
        = some { capacity := cfg.INIT_CAP, list := [], ref := 1 } := by
      unfold makeSequence; exact deref_append_new _ _
    refine ⟨?_, _, hnew, rfl, by simp [Sequence.count]⟩
    intro h s hd
    by_cases hlt : h < heap.length
    · have : Heap.deref (makeSequence cfg heap).2 h = heap.deref h := by
        unfold makeSequence; exact deref_append_left _ hlt
      rw [this] at hd; exact hc h s hd
    · have hl := deref_some_lt hd
      have e : h = heap.length := by
        unfold makeSequence at hl; simp at hl; omega
      subst e
      have e1 : (makeSequence cfg heap).1 = heap.length := rfl
      rw [e1] at hnew
      rw [hnew] at hd; cases hd
      simp [Sequence.count]
  · intro exprs env heap v heap' hp hc he
    obtain ⟨hv, s, hd, hcnt, hcap⟩ := eval_initializer_cap cfg exprs env heap heap' v hp he
    exact ⟨eval_heapCap cfg _ env heap heap' v hp hc he, hv, s, hd, hcnt, hcap⟩
  · intro vals env heap
    obtain ⟨heap', s, he, hd, hl, _, hcap, _⟩ := eval_seqLiteral cfg vals env heap
    exact ⟨heap', s, he, hd, hl, hcap⟩
  · intro heap h s k hd hc h1 h2
    obtain ⟨heap3, s3, hst, hd3, _, hcnt, hcap, hfull, _⟩ := grow_store_ok cfg k hd hc h1 h2
    exact ⟨heap3, s3, hst, hd3, hcnt, hcap, hfull⟩
  · intro h s hd
    have := deref_some_lt hd
    simp [initialState] at this

/-- C23 at initializers of two, five and seven elements with the initial
capacity 5, and at pushes onto a full sequence that double its capacity. -/
theorem C23_count_never_exceeds_capacity_witness :
    (∃ heap3 s3, storeNext (growForPush refConfig [some ⟨5, [1, 2, 3, 4, 5], 2⟩] 0) 0 6
        = .ok heap3 ∧
      Heap.deref heap3 0 = some s3 ∧ s3.count = (⟨5, [1, 2, 3, 4, 5], 2⟩ : Sequence).count + 1 ∧
      s3.count ≤ s3.capacity ∧
      ((⟨5, [1, 2, 3, 4, 5], 2⟩ : Sequence).count = (⟨5, [1, 2, 3, 4, 5], 2⟩ : Sequence).capacity →
        s3.capacity = (⟨5, [1, 2, 3, 4, 5], 2⟩ : Sequence).capacity * refConfig.DOUBLE)) ∧
    eval refConfig (seqLiteral [1, 2]) (makeEnvironment refConfig) []
      = .ok (.SeqType 0, [some ⟨5, [1, 2], 1⟩]) ∧
    eval refConfig (seqLiteral [1, 2, 3, 4, 5]) (makeEnvironment refConfig) []
      = .ok (.SeqType 0, [some ⟨5, [1, 2, 3, 4, 5], 1⟩]) ∧
    eval refConfig (seqLiteral [1, 2, 3, 4, 5, 6, 7]) (makeEnvironment refConfig) []
      = .ok (.SeqType 0, [some ⟨7, [1, 2, 3, 4, 5, 6, 7], 1⟩]) ∧
    storeNext (growForPush refConfig [some ⟨5, [1, 2, 3, 4, 5], 2⟩] 0) 0 6
      = .ok [some ⟨10, [1, 2, 3, 4, 5, 6], 2⟩] ∧
    storeNext (growForPush refConfig [some ⟨7, [1, 2, 3, 4, 5, 6, 7], 2⟩] 0) 0 8
      = .ok [some ⟨14, [1, 2, 3, 4, 5, 6, 7, 8], 2⟩] ∧
    storeNext (growForPush refConfig [some ⟨5, [1, 2], 2⟩] 0) 0 3
      = .ok [some ⟨5, [1, 2, 3], 2⟩] ∧
    interpret refConfig 40
        "x = [1, 2, 3, 4, 5, 6, 7]; push x, 8; push x, 9; print len x; print x[8];".toList
      = .ok "99".toList :=
  ⟨(C23_count_never_exceeds_capacity refConfig).2.2.2.1 [some ⟨5, [1, 2, 3, 4, 5], 2⟩] 0
      ⟨5, [1, 2, 3, 4, 5], 2⟩ 6 rfl (by decide) (by decide) (by decide),
    by rfl, by rfl, by rfl, by rfl, by rfl, by rfl, by decide!⟩

/-! ## Reference counts of a whole run -/

theorem rc_some {heap : Heap} {h : Nat} {s : Sequence} (hd : heap.deref h = some s) :
    rc heap h = s.ref := by
  unfold rc; rw [hd]; rfl

theorem rc_none {heap : Heap} {h : Nat} (hd : heap.deref h = none) : rc heap h = 0 := by
  unfold rc; rw [hd]; rfl

theorem rc_congr {heap heap' : Heap} {h : Nat} (hd : Heap.deref heap' h = Heap.deref heap h) :
    rc heap' h = rc heap h := by
  unfold rc; rw [hd]

/-- In a heap with positive counts, a cell of count 0 is not allocated. -/
theorem rc_zero {heap : Heap} (hp : HeapPos heap) {h : Nat} (hz : rc heap h = 0) :
    heap.deref h = none := by
  cases hd : heap.deref h with
  | none => rfl
  | some s =>
    have := hp h s hd
    rw [rc_some hd] at hz
    omega

theorem rc_pos {heap : Heap} {h : Nat} (hz : 1 ≤ rc heap h) :
    ∃ s, heap.deref h = some s ∧ s.ref = rc heap h := by
  cases hd : heap.deref h with
  | none => rw [rc_none hd] at hz; omega
  | some s => exact ⟨s, rfl, (rc_some hd).symm⟩

/-- Evaluation raises the count of a cell by the number of times the value
holds it. -/
theorem frame_rc {base cur : Heap} {owned : List Nat} (f : Frame base cur owned) (h : Nat) :
    rc cur h = rc base h + (owned.count h : Int) := by
  cases hb : Heap.deref base h with
  | some s =>
    obtain ⟨s', hd', _, _, hr⟩ := f.exact h s hb
    rw [rc_some hd', rc_some hb, hr]
  | none =>
    rw [rc_none hb]
    cases hc : Heap.deref cur h with
    | none =>
      rw [rc_none hc]
      have hno : h ∉ owned := by
        intro hm
        obtain ⟨s', hd', _⟩ := f.surplus.own h hm
        rw [hc] at hd'; cases hd'
      rw [List.count_eq_zero_of_not_mem hno]; simp
    | some s' =>
      rw [rc_some hc]
      by_cases hlt : h < base.length
      · rw [f.dead h hlt hb] at hc; cases hc
      · rw [f.fresh h s' (by omega) hc]; simp

theorem release_rc {heap heap' : Heap} {h : Nat} (hp : HeapPos heap)
    (hr : releaseSequence heap h = .ok heap') :
    HeapPos heap' ∧ 1 ≤ rc heap h ∧ rc heap' h = rc heap h - 1 ∧
    ∀ h', h' ≠ h → rc heap' h' = rc heap h' := by
  cases hd : Heap.deref heap h with
  | none => unfold releaseSequence at hr; rw [hd] at hr; cases hr
  | some s =>
    obtain ⟨hother, hself⟩ := release_cases hd hr
    have hpos := hp h s hd
    refine ⟨?_, by rw [rc_some hd]; exact hpos, ?_, fun h' hne => rc_congr (hother h' hne)⟩
    · intro h' s' hd'
      by_cases e : h' = h
      · subst e
        rcases hself with ⟨_, hnone⟩ | ⟨h2, hsome⟩
        · rw [hnone] at hd'; cases hd'
        · rw [hsome] at hd'; cases hd'; simp only []; omega
      · rw [hother h' e] at hd'; exact hp h' s' hd'
    · rcases hself with ⟨h1, hnone⟩ | ⟨_, hsome⟩
      · rw [rc_none hnone, rc_some hd, h1]; rfl
      · rw [rc_some hsome, rc_some hd]

theorem grab_rc {heap heap' : Heap} {h : Nat} (hp : HeapPos heap)
    (hg : grabSequence heap h = .ok heap') :
    HeapPos heap' ∧ rc heap' h = rc heap h + 1 ∧
    ∀ h', h' ≠ h → rc heap' h' = rc heap h' := by
  cases hd : Heap.deref heap h with
  | none => unfold grabSequence at hg; rw [hd] at hg; cases hg
  | some s =>
    have hlt : h < heap.length := deref_some_lt hd
    unfold grabSequence at hg
    rw [hd] at hg
    cases hg
    have := hp h s hd
    refine ⟨heapPos_set hp (by simp only []; omega), ?_, ?_⟩
    · rw [rc_some (deref_set_self _ hlt), rc_some hd]
    · intro h' hne
      exact rc_congr (deref_set_ne _ (Ne.symm hne))

theorem writeElem_rc {heap heap' : Heap} {h : Nat} {i v : Int}
    (hw : writeElem heap h i v = .ok heap') (h' : Nat) : rc heap' h' = rc heap h' := by
  unfold writeElem at hw
  cases hd : Heap.deref heap h with
  | none => rw [hd] at hw; cases hw
  | some s =>
    have hlt : h < heap.length := deref_some_lt hd
    rw [hd] at hw
    simp only [] at hw
    split at hw
    · cases hw
    · split at hw
      · cases hw
        by_cases e : h' = h
        · subst e
          rw [rc_some (deref_set_self _ hlt), rc_some hd]
        · exact rc_congr (deref_set_ne _ (Ne.symm e))
      · cases hw

theorem push_store_rc (cfg : Config) {heap heap' : Heap} {h : Nat} {v : Int}
    (hs : storeNext (growForPush cfg heap h) h v = .ok heap') (h' : Nat) :
    rc heap' h' = rc heap h' := by
  cases hd : Heap.deref heap h with
  | none =>
    unfold growForPush at hs; rw [hd] at hs
    unfold P6.storeNext at hs; rw [hd] at hs; cases hs
  | some s =>
    have hlt : h < heap.length := deref_some_lt hd
    obtain ⟨cap, hg, hgo, hlen⟩ : ∃ cap,
        Heap.deref (growForPush cfg heap h) h = some { s with capacity := cap } ∧
        (∀ h', h' ≠ h → Heap.deref (growForPush cfg heap h) h' = heap.deref h') ∧
        h < (growForPush cfg heap h).length := by
      unfold growForPush
      rw [hd]
      simp only []
      by_cases hfull : s.count ≥ s.capacity
      · rw [if_pos hfull]
        exact ⟨_, deref_set_self _ hlt, fun h' hne => deref_set_ne _ (Ne.symm hne),
          by simpa using hlt⟩
      · rw [if_neg hfull]
        exact ⟨s.capacity, hd, fun _ _ => rfl, hlt⟩
    unfold P6.storeNext at hs
    rw [hg] at hs
    simp only [] at hs
    split at hs
    · cases hs
      by_cases e : h' = h
      · subst e
        rw [rc_some (deref_set_self _ hlen), rc_some hd]
      · rw [rc_congr (deref_set_ne _ (Ne.symm e)), rc_congr (hgo h' e)]
    · cases hs

theorem countP_held_append (l : List VarRec) (n : List Char) (v : Value) (h : Nat) :
    (l ++ [VarRec.mk n v]).countP (fun r => decide (r.val = .SeqType h))
      = l.countP (fun r => decide (r.val = .SeqType h)) + (if v = .SeqType h then 1 else 0) := by
  rw [List.countP_append]
  by_cases e : v = .SeqType h
  · simp [List.countP_cons, e]
  · simp [List.countP_cons, e]

theorem countP_held_modify (v : Value) (h : Nat) : ∀ (l : List VarRec) (pos : Nat) (old : Value),
    Option.map VarRec.val l[pos]? = some old →
    (l.modify (fun r => { r with val := v }) pos).countP (fun r => decide (r.val = .SeqType h))
        + (if old = .SeqType h then 1 else 0)
      = l.countP (fun r => decide (r.val = .SeqType h)) + (if v = .SeqType h then 1 else 0)
  | [], pos, old, hm => by simp at hm
  | r :: rs, 0, old, hm => by
    simp only [List.getElem?_cons_zero, Option.map_some', Option.some.injEq] at hm
    subst hm
    rw [List.modify_zero_cons, List.countP_cons, List.countP_cons]
    by_cases e1 : r.val = .SeqType h <;> by_cases e2 : v = .SeqType h <;> simp [e1, e2]
  | r :: rs, pos + 1, old, hm => by
    rw [List.getElem?_cons_succ] at hm
    have ih := countP_held_modify v h rs pos old hm
    rw [List.modify_succ_cons, List.countP_cons, List.countP_cons]
    omega

theorem countP_held_pos (h : Nat) : ∀ (l : List VarRec) (pos : Nat),
    Option.map VarRec.val l[pos]? = some (.SeqType h) →
    1 ≤ l.countP (fun r => decide (r.val = .SeqType h))
  | [], pos, hm => by simp at hm
  | r :: rs, 0, hm => by
    simp only [List.getElem?_cons_zero, Option.map_some', Option.some.injEq] at hm
    rw [List.countP_cons]
    simp [hm]
  | r :: rs, pos + 1, hm => by
    rw [List.getElem?_cons_succ] at hm
    have ih := countP_held_pos h rs pos hm
    rw [List.countP_cons]
    omega

theorem held_new (env : Environment) (n : List Char) (v : Value) (cap x : Nat) :
    held (Environment.mk (env.vlist ++ [VarRec.mk n v]) cap) x
        + (if Value.IntType 0 = .SeqType x then 1 else 0)
      = held env x + (if v = .SeqType x then 1 else 0) := by
  unfold held
  simp only [countP_held_append]
  simp

theorem held_old (env : Environment) (v old : Value) (pos cap x : Nat)
    (hold : Option.map VarRec.val env.vlist[pos]? = some old) :
    held (Environment.mk (env.vlist.modify (fun r => { r with val := v }) pos) cap) x
        + (if old = .SeqType x then 1 else 0)
      = held env x + (if v = .SeqType x then 1 else 0) := by
  unfold held
  exact countP_held_modify v x env.vlist pos old hold

/-- What `setVariable` has done when it returns: with `old` the value the
record held (an integer when the record is new), every sequence is held by as
many records as before, one less if it is `old`, one more if it is the value;
`old`, if a sequence, was released twice; then the value, if a sequence, was
grabbed. -/
theorem setVariable_full (cfg : Config) (env env' : Environment) (heap heap' : Heap)
    (n : List Char) (v : Value) (h : setVariable cfg env heap n v = .ok (env', heap')) :
    ∃ (old : Value) (heap1 : Heap),
      (∀ x, held env' x + (if old = .SeqType x then 1 else 0)
        = held env x + (if v = .SeqType x then 1 else 0)) ∧
      (∀ h0, old = .SeqType h0 → 1 ≤ held env h0) ∧
      ((heap1 = heap ∧ ∃ i, old = .IntType i) ∨
        (∃ h0 heapa, old = .SeqType h0 ∧ releaseSequence heap h0 = .ok heapa ∧
          releaseSequence heapa h0 = .ok heap1)) ∧
      ((heap' = heap1 ∧ ∃ i, v = .IntType i) ∨
        (∃ hv, v = .SeqType hv ∧ grabSequence heap1 hv = .ok heap')) := by
  have hle := findPos_le env.vlist n
  have hnone : findPos env.vlist n 0 ≠ env.len →
      Option.map VarRec.val env.vlist[findPos env.vlist n 0]? ≠ none := by
    intro hne hmap
    have hlt : findPos env.vlist n 0 < env.vlist.length := by
      unfold Environment.len at hne; omega
    rw [List.getElem?_eq_getElem hlt] at hmap
    simp at hmap
  have hint : ∀ x : Nat, ¬ (Value.IntType 0 = .SeqType x) := by intro x e; cases e
  unfold setVariable at h
  simp only [bind, Except.bind, pure, Except.pure] at h
  cases v with
  | IntType i =>
    simp only [] at h
    by_cases hpos : findPos env.vlist n 0 = env.len
    · rw [if_pos hpos] at h
      split_ifs at h
      all_goals simp only [Except.ok.injEq, Prod.mk.injEq] at h
      all_goals obtain ⟨he, hh⟩ := h
      all_goals subst he
      all_goals subst hh
      all_goals exact ⟨.IntType 0, heap, fun x => held_new env n _ _ x,
        (fun h0 e => by cases e), Or.inl ⟨rfl, 0, rfl⟩, Or.inl ⟨rfl, i, rfl⟩⟩
    · rw [if_neg hpos] at h
      cases hold : Option.map VarRec.val env.vlist[findPos env.vlist n 0]? with
      | none => exact absurd hold (hnone hpos)
      | some old =>
        rw [hold] at h
        cases old with
        | IntType j =>
          simp only [Except.ok.injEq, Prod.mk.injEq] at h
          obtain ⟨he, hh⟩ := h
          subst he; subst hh
          exact ⟨.IntType j, heap, fun x => held_old env _ _ _ _ x hold,
            (fun h0 e => by cases e), Or.inl ⟨rfl, j, rfl⟩, Or.inl ⟨rfl, i, rfl⟩⟩
        | SeqType h0 =>
          simp only [] at h
          cases hra : releaseSequence heap h0 with
          | error e => rw [hra] at h; cases h
          | ok heapa =>
            rw [hra] at h
            simp only [] at h
            cases hrb : releaseSequence heapa h0 with
            | error e => rw [hrb] at h; cases h
            | ok heapb =>
              rw [hrb] at h
              simp only [Except.ok.injEq, Prod.mk.injEq] at h
              obtain ⟨he, hh⟩ := h
              subst he; subst hh
              refine ⟨.SeqType h0, heapb, fun x => held_old env _ _ _ _ x hold, ?_,
                Or.inr ⟨h0, heapa, rfl, hra, hrb⟩, Or.inl ⟨rfl, i, rfl⟩⟩
              intro h1 e
              cases e
              exact countP_held_pos h0 env.vlist _ hold
  | SeqType hv =>
    simp only [] at h
    by_cases hpos : findPos env.vlist n 0 = env.len
    · rw [if_pos hpos] at h
      cases hg : grabSequence heap hv with
      | error e =>
        rw [hg] at h
        split_ifs at h
      | ok heapg =>
        rw [hg] at h
        split_ifs at h
        all_goals simp only [Except.ok.injEq, Prod.mk.injEq] at h
        all_goals obtain ⟨he, hh⟩ := h
        all_goals subst he
        all_goals subst hh
        all_goals exact ⟨.IntType 0, heap, fun x => held_new env n _ _ x,
          (fun h0 e => by cases e), Or.inl ⟨rfl, 0, rfl⟩, Or.inr ⟨hv, rfl, hg⟩⟩
    · rw [if_neg hpos] at h
      cases hold : Option.map VarRec.val env.vlist[findPos env.vlist n 0]? with
      | none => exact absurd hold (hnone hpos)
      | some old =>
        rw [hold] at h
        cases old with
        | IntType j =>
          simp only [] at h
          cases hg : grabSequence heap hv with
          | error e => rw [hg] at h; cases h
          | ok heapg =>
            rw [hg] at h
            simp only [Except.ok.injEq, Prod.mk.injEq] at h
            obtain ⟨he, hh⟩ := h
            subst he; subst hh
            exact ⟨.IntType j, heap, fun x => held_old env _ _ _ _ x hold,
              (fun h0 e => by cases e), Or.inl ⟨rfl, j, rfl⟩, Or.inr ⟨hv, rfl, hg⟩⟩
        | SeqType h0 =>
          simp only [] at h
          cases hra : releaseSequence heap h0 with
          | error e => rw [hra] at h; cases h
          | ok heapa =>
            rw [hra] at h
            simp only [] at h
            cases hrb : releaseSequence heapa h0 with
            | error e => rw [hrb] at h; cases h
            | ok heapb =>
              rw [hrb] at h
              simp only [] at h
              cases hg : grabSequence heapb hv with
              | error e => rw [hg] at h; cases h
              | ok heapg =>
                rw [hg] at h
                simp only [Except.ok.injEq, Prod.mk.injEq] at h
                obtain ⟨he, hh⟩ := h
                subst he; subst hh
                refine ⟨.SeqType h0, heapb, fun x => held_old env _ _ _ _ x hold, ?_,
                  Or.inr ⟨h0, heapa, rfl, hra, hrb⟩, Or.inr ⟨hv, rfl, hg⟩⟩
                intro h1 e
                cases e
                exact countP_held_pos h0 env.vlist _ hold

theorem count_handles (v : Value) (x : Nat) :
    ((handles v).count x : Int) = if v = .SeqType x then 1 else 0 := by
  cases v with
  | IntType i => simp [handles]
  | SeqType hv =>
    by_cases e : hv = x
    · subst e; simp [handles]
    · have e' : ¬ (Value.SeqType hv = Value.SeqType x) := by
        intro hh; injection hh with hh; exact e hh
      simp [handles, List.count_cons, e, e']

/-- The counts after an evaluation whose value has been given back, or is an
integer, are the counts before. -/
theorem eval_rc (cfg : Config) {e : Expr} {env : Environment} {heap heap1 : Heap} {v : Value}
    (hp : HeapPos heap) (he : eval cfg e env heap = .ok (v, heap1)) (x : Nat) :
    rc heap1 x = rc heap x + (if v = .SeqType x then 1 else 0) := by
  rw [frame_rc (eval_frame cfg e env heap v heap1 hp he) x, count_handles]

/-- The counts of a whole statement: if before it every cell counts two for
each record that holds it, so it does after it. -/
theorem execute_rc (cfg : Config) : ∀ (fuel : Nat) (stmt : Stmt) (st st' : ExecState),
    HeapPos st.heap → HeapCap st.heap → (∀ x, rc st.heap x = 2 * (held st.env x : Int)) →
    execute cfg fuel stmt st = .ok st' → ∀ x, rc st'.heap x = 2 * (held st'.env x : Int)
  | 0, stmt, st, st', _, _, _, h => by
    rw [execute] at h; cases h
  | fuel + 1, .Print expr, st, st', hp, hc, hb, h => by
    rw [execute] at h
    cases he : eval cfg expr st.env st.heap with
    | error e => rw [he] at h; simp [liftEval] at h
    | ok p =>
      obtain ⟨v, heap1⟩ := p
      rw [he] at h
      have p1 := (eval_surplus cfg expr st.env st.heap v heap1 hp he).pos
      have r1 := eval_rc cfg hp he
      cases v with
      | IntType i =>
        simp only [liftEval, Except.ok.injEq] at h
        subst h
        intro x
        have a1 : rc heap1 x = rc st.heap x := by
          have := r1 x
          simpa using this
        simp only []
        rw [a1, hb x]
      | SeqType hv =>
        simp only [liftEval] at h
        cases hd : Heap.deref heap1 hv with
        | none => rw [hd] at h; cases h
        | some s =>
          rw [hd] at h
          simp only [] at h
          cases hr : releaseSequence heap1 hv with
          | error e => rw [hr] at h; cases h
          | ok heap2 =>
            rw [hr] at h
            simp only [Except.ok.injEq] at h
            subst h
            obtain ⟨_, _, hself, hother⟩ := release_rc p1 hr
            intro x
            simp only []
            by_cases e : x = hv
            · subst e
              rw [hself, r1 x, if_pos rfl, hb x]; omega
            · have e' : ¬ (Value.SeqType hv = Value.SeqType x) := by
                intro hh; injection hh with hh; exact e hh.symm
              rw [hother x e, r1 x, if_neg e', hb x]; simp
  | fuel + 1, .Compound stmtList, st, st', hp, hc, hb, h => by
    rw [execute] at h
    have hlist : ∀ (l : List Stmt) (s s' : ExecState), HeapPos s.heap → HeapCap s.heap →
        (∀ x, rc s.heap x = 2 * (held s.env x : Int)) →
        executeList (execute cfg fuel) l s = .ok s' →
        ∀ x, rc s'.heap x = 2 * (held s'.env x : Int) := by
      intro l
      induction l with
      | nil =>
        intro s s' p c b hh
        simp only [executeList, Except.ok.injEq] at hh
        subst hh; exact b
      | cons a l ih =>
        intro s s' p c b hh
        rw [executeList] at hh
        cases ha : execute cfg fuel a s with
        | error e => rw [ha] at hh; cases hh
        | ok s1 =>
          rw [ha] at hh
          obtain ⟨p1, c1⟩ := execute_inv cfg fuel a s s1 p c ha
          exact ih s1 s' p1 c1 (execute_rc cfg fuel a s s1 p c b ha) hh
    exact hlist stmtList st st' hp hc hb h
  | fuel + 1, .If cond body, st, st', hp, hc, hb, h => by
    rw [execute] at h
    cases he : eval cfg cond st.env st.heap with
    | error e => rw [he] at h; simp [liftEval] at h
    | ok p =>
      obtain ⟨v, heap1⟩ := p
      rw [he] at h
      have p1 := (eval_surplus cfg cond st.env st.heap v heap1 hp he).pos
      have c1 := eval_heapCap cfg cond st.env st.heap heap1 v hp hc he
      have r1 := eval_rc cfg hp he
      cases v with
      | SeqType hv => simp [liftEval, requireIntType] at h
      | IntType r =>
        have b1 : ∀ x, rc heap1 x = 2 * (held st.env x : Int) := by
          intro x
          have a1 : rc heap1 x = rc st.heap x := by
            have := r1 x
            simpa using this
          rw [a1, hb x]
        simp only [liftEval, requireIntType] at h
        split at h
        · exact execute_rc cfg fuel body { st with heap := heap1 } st' p1 c1 b1 h
        · cases h; exact b1
  | fuel + 1, .While cond body, st, st', hp, hc, hb, h => by
    rw [execute] at h
    cases he : eval cfg cond st.env st.heap with
    | error e => rw [he] at h; simp [liftEval] at h
    | ok p =>
      obtain ⟨v, heap1⟩ := p
      rw [he] at h
      have p1 := (eval_surplus cfg cond st.env st.heap v heap1 hp he).pos
      have c1 := eval_heapCap cfg cond st.env st.heap heap1 v hp hc he
      have r1 := eval_rc cfg hp he
      cases v with
      | SeqType hv => simp [liftEval, requireIntType] at h
      | IntType r =>
        have b1 : ∀ x, rc heap1 x = 2 * (held st.env x : Int) := by
          intro x
          have a1 : rc heap1 x = rc st.heap x := by
            have := r1 x
            simpa using this
          rw [a1, hb x]
        simp only [liftEval, requireIntType] at h
        split at h
        · cases hbody : execute cfg fuel body { st with heap := heap1 } with
          | error e => rw [hbody] at h; cases h
          | ok st1 =>
            rw [hbody] at h
            simp only [] at h
            obtain ⟨p2, c2⟩ := execute_inv cfg fuel body { st with heap := heap1 } st1 p1 c1 hbody
            have b2 := execute_rc cfg fuel body { st with heap := heap1 } st1 p1 c1 b1 hbody
            exact execute_rc cfg fuel (.While cond body) st1 st' p2 c2 b2 h
        · cases h; exact b1
  | fuel + 1, .Assignment name none expr, st, st', hp, hc, hb, h => by
    rw [execute] at h
    cases he : eval cfg expr st.env st.heap with
    | error e => rw [he] at h; simp [liftEval] at h
    | ok p =>
      obtain ⟨v, heap1⟩ := p
      rw [he] at h
      have p1 := (eval_surplus cfg expr st.env st.heap v heap1 hp he).pos
      have r1 := eval_rc cfg hp he
      simp only [liftEval] at h
      cases hs : setVariable cfg st.env heap1 name v with
      | error e => rw [hs] at h; cases h
      | ok q =>
        obtain ⟨env2, heap2⟩ := q
        rw [hs] at h
        simp only [Except.ok.injEq] at h
        subst h
        obtain ⟨old, heapA, hheld, _, hdrop, hstore⟩ :=
          setVariable_full cfg st.env env2 heap1 heap2 name v hs
        -- the counts after the old value has been given back
        have hA : HeapPos heapA ∧
            ∀ x, rc heapA x = rc heap1 x - 2 * (if old = .SeqType x then 1 else 0) := by
          rcases hdrop with ⟨rfl, j, rfl⟩ | ⟨h0, heapa, rfl, ha, hb2⟩
          · exact ⟨p1, fun x => by simp⟩
          · obtain ⟨pa, _, sa, oa⟩ := release_rc p1 ha
            obtain ⟨pb, _, sb, ob⟩ := release_rc pa hb2
            refine ⟨pb, fun x => ?_⟩
            by_cases e : x = h0
            · subst e
              rw [sb, sa, if_pos rfl]; omega
            · have e' : ¬ (Value.SeqType h0 = Value.SeqType x) := by
                intro hh; injection hh with hh; exact e hh.symm
              rw [ob x e, oa x e, if_neg e']; simp
        have h2 : ∀ x, rc heap2 x = rc heapA x + (if v = .SeqType x then 1 else 0) := by
          rcases hstore with ⟨rfl, i, rfl⟩ | ⟨hv, rfl, hg⟩
          · intro x; simp
          · obtain ⟨_, sg, og⟩ := grab_rc hA.1 hg
            intro x
            by_cases e : x = hv
            · subst e; rw [sg, if_pos rfl]
            · have e' : ¬ (Value.SeqType hv = Value.SeqType x) := by
                intro hh; injection hh with hh; exact e hh.symm
              rw [og x e, if_neg e']; simp
        intro x
        simp only []
        have e1 := hheld x
        rw [h2 x, hA.2 x, r1 x, hb x]
        by_cases c1 : old = .SeqType x <;> by_cases c2 : v = .SeqType x <;>
          simp only [c1, c2, if_true, if_false] at e1 ⊢ <;> omega
  | fuel + 1, .Assignment name (some iexpr) expr, st, st', hp, hc, hb, h => by
    rw [execute] at h
    cases he : eval cfg expr st.env st.heap with
    | error e => rw [he] at h; simp [liftEval] at h
    | ok p =>
      obtain ⟨v, heap1⟩ := p
      rw [he] at h
      have p1 := (eval_surplus cfg expr st.env st.heap v heap1 hp he).pos
      have r1 := eval_rc cfg hp he
      simp only [liftEval] at h
      cases hi : eval cfg iexpr st.env heap1 with
      | error e => rw [hi] at h; cases h
      | ok q =>
        obtain ⟨idx, heap2⟩ := q
        rw [hi] at h
        have r2 := eval_rc cfg p1 hi
        simp only [] at h
        cases idx with
        | SeqType hx => simp at h
        | IntType i =>
          cases hl : lookupVariable st.env name with
          | IntType a => rw [hl] at h; simp at h
          | SeqType hh =>
            rw [hl] at h
            simp only [] at h
            cases hd : Heap.deref heap2 hh with
            | none => rw [hd] at h; simp at h
            | some s =>
              rw [hd] at h
              simp only [] at h
              by_cases hbnd : i > (s.count : Int) - 1
              · rw [if_pos hbnd] at h; cases h
              · rw [if_neg hbnd] at h
                cases v with
                | SeqType hv => simp at h
                | IntType w =>
                  simp only [] at h
                  cases hw : writeElem heap2 hh i w with
                  | error e => rw [hw] at h; cases h
                  | ok heap3 =>
                    rw [hw] at h
                    simp only [Except.ok.injEq] at h
                    subst h
                    intro x
                    simp only []
                    have a1 : rc heap1 x = rc st.heap x := by
                      have := r1 x
                      simpa using this
                    have a2 : rc heap2 x = rc heap1 x := by
                      have := r2 x
                      simpa using this
                    rw [writeElem_rc hw x, a2, a1, hb x]
  | fuel + 1, .Push seqExpr valExpr, st, st', hp, hc, hb, h => by
    rw [execute] at h
    cases he : eval cfg seqExpr st.env st.heap with
    | error e => rw [he] at h; simp [liftEval] at h
    | ok p =>
      obtain ⟨v1, heap1⟩ := p
      rw [he] at h
      have p1 := (eval_surplus cfg seqExpr st.env st.heap v1 heap1 hp he).pos
      have c1 := eval_heapCap cfg seqExpr st.env st.heap heap1 v1 hp hc he
      have r1 := eval_rc cfg hp he
      simp only [liftEval] at h
      cases hi : eval cfg valExpr st.env heap1 with
      | error e => rw [hi] at h; cases h
      | ok q =>
        obtain ⟨v2, heap2⟩ := q
        rw [hi] at h
        have p2 := (eval_surplus cfg valExpr st.env heap1 v2 heap2 p1 hi).pos
        have c2 := eval_heapCap cfg valExpr st.env heap1 heap2 v2 p1 c1 hi
        have r2 := eval_rc cfg p1 hi
        simp only [] at h
        cases v1 with
        | IntType a => simp [requireSeqType] at h
        | SeqType hs =>
          cases v2 with
          | SeqType b => simp [requireSeqType, requireIntType] at h
          | IntType k =>
            simp only [requireSeqType, requireIntType] at h
            cases hst : storeNext (growForPush cfg heap2 hs) hs k with
            | error e => rw [hst] at h; cases h
            | ok heap3 =>
              rw [hst] at h
              simp only [] at h
              obtain ⟨p3, _⟩ := push_store_inv cfg p2 c2 hst
              cases hr : releaseSequence heap3 hs with
              | error e => rw [hr] at h; cases h
              | ok heap4 =>
                rw [hr] at h
                simp only [Except.ok.injEq] at h
                subst h
                obtain ⟨_, _, hself, hother⟩ := release_rc p3 hr
                intro x
                simp only []
                have a1 := r1 x
                have a2 : rc heap2 x = rc heap1 x := by
                  have := r2 x
                  simpa using this
                by_cases e : x = hs
                · subst e
                  rw [if_pos rfl] at a1
                  rw [hself, push_store_rc cfg hst x, a2, a1, hb x]; omega
                · have e' : ¬ (Value.SeqType hs = Value.SeqType x) := by
                    intro hh; injection hh with hh; exact e hh.symm
                  rw [if_neg e'] at a1
                  rw [hother x e, push_store_rc cfg hst x, a2, a1, hb x]; simp

/-- The loop of `freeEnvironment` on records whose sequences have exactly the
counts of these records: every release succeeds and nothing is left
allocated. -/
theorem freeRecords_all : ∀ (l : List VarRec) (heap : Heap), HeapPos heap →
    (∀ x, rc heap x = 2 * (l.countP (fun r => decide (r.val = .SeqType x)) : Int)) →
    ∃ heap', freeRecords l heap = .ok heap' ∧ ∀ x, Heap.deref heap' x = none
  | [], heap, hp, hb => by
    refine ⟨heap, rfl, fun x => rc_zero hp ?_⟩
    rw [hb x]; simp
  | r :: rs, heap, hp, hb => by
    rw [freeRecords]
    cases hv : r.val with
    | IntType i =>
      simp only []
      apply freeRecords_all rs heap hp
      intro x
      rw [hb x, List.countP_cons]
      simp [hv]
    | SeqType h =>
      simp only []
      have hc : rc heap h = 2 * (rs.countP (fun r => decide (r.val = .SeqType h)) : Int) + 2 := by
        rw [hb h, List.countP_cons]
        simp [hv]; ring
      obtain ⟨s, hd, hs⟩ := @rc_pos heap h (by omega)
      obtain ⟨heapa, ha, _, _, _⟩ := release_ok hd (by omega)
      obtain ⟨pa, _, sa, oa⟩ := release_rc hp ha
      obtain ⟨s2, hd2, hs2⟩ := @rc_pos heapa h (by omega)
      obtain ⟨heapb, hb2, _, _, _⟩ := release_ok hd2 (by omega)
      obtain ⟨pb, _, sb, ob⟩ := release_rc pa hb2
      simp only [bind, Except.bind, ha, hb2]
      apply freeRecords_all rs heapb pb
      intro x
      by_cases e : x = h
      · subst e
        rw [sb, sa, hc]; omega
      · have e' : ¬ (Value.SeqType h = Value.SeqType x) := by
          intro hh; injection hh with hh; exact e hh.symm
        rw [ob x e, oa x e, hb x, List.countP_cons]
        simp [hv, e']

/-- What balanced counts say of each cell. -/
theorem balanced_cells {env : Environment} {heap : Heap} (hb : Balanced env heap) :
    (∀ h s, heap.deref h = some s → 0 < s.ref ∧ s.ref = 2 * (held env h : Int) ∧
      1 ≤ held env h) ∧
    (∀ h, held env h = 0 → heap.deref h = none) := by
  obtain ⟨hp, hr⟩ := hb
  refine ⟨?_, ?_⟩
  · intro h s hd
    have h1 := hp h s hd
    have h2 := hr h
    rw [rc_some hd] at h2
    exact ⟨by omega, h2, by omega⟩
  · intro h hz
    apply rc_zero hp
    rw [hr h, hz]; rfl

theorem balanced_initial (cfg : Config) :
    Balanced (initialState cfg).env (initialState cfg).heap ∧
    HeapCap (initialState cfg).heap := by
  refine ⟨⟨heapPos_nil, ?_⟩, ?_⟩
  · intro x
    rfl
  · intro h s hd
    have := deref_some_lt hd
    simp [initialState] at this

theorem execute_balanced (cfg : Config) (fuel : Nat) (stmt : Stmt) (st st' : ExecState)
    (hb : Balanced st.env st.heap) (hc : HeapCap st.heap)
    (h : execute cfg fuel stmt st = .ok st') :
    Balanced st'.env st'.heap ∧ HeapCap st'.heap := by
  obtain ⟨p, c⟩ := execute_inv cfg fuel stmt st st' hb.1 hc h
  exact ⟨⟨p, execute_rc cfg fuel stmt st st' hb.1 hc hb.2 h⟩, c⟩

theorem interpretLoop_balanced (cfg : Config) (fuel : Nat) :
    ∀ (n : Nat) (st : PState) (es es' : ExecState), Balanced es.env es.heap →
      HeapCap es.heap → interpretLoop cfg fuel n st es = .ok es' →
      Balanced es'.env es'.heap ∧ HeapCap es'.heap
  | 0, st, es, es', _, _, h => by
    rw [interpretLoop] at h; cases h
  | n + 1, st, es, es', hb, hc, h => by
    rw [interpretLoop] at h
    cases ht : parseToken st with
    | error e => rw [ht] at h; simp [liftEval] at h
    | ok p =>
      obtain ⟨tok, st1⟩ := p
      rw [ht] at h
      cases tok with
      | none =>
        simp only [liftEval, Except.ok.injEq] at h
        subst h
        exact ⟨hb, hc⟩
      | some t =>
        simp only [liftEval] at h
        cases hs : parseStmt cfg fuel t st1 with
        | error e => rw [hs] at h; cases h
        | ok q =>
          obtain ⟨stmt, st2⟩ := q
          rw [hs] at h
          simp only [] at h
          cases hx : execute cfg fuel stmt es with
          | error e => rw [hx] at h; cases h
          | ok es1 =>
            rw [hx] at h
            simp only [] at h
            obtain ⟨b1, c1⟩ := execute_balanced cfg fuel stmt es es1 hb hc hx
            exact interpretLoop_balanced cfg fuel n st2 es1 es' b1 c1 h

/-- C21, where the code departs from it. Call a state balanced when every
allocated sequence has a positive reference count and the count of every cell
is two for each record of the environment that holds it.
* Every statement that runs to its end from a balanced state leaves a
  balanced state: no count is negative, and a sequence that no record holds
  any more is not allocated any more. From a balanced state
  `freeEnvironment` returns and leaves no sequence allocated. So it is for
  every run of a program that ends, as long as each step is one the source
  determines.
* The loop of `evalSequenceInitializer` is not such a step on an element that
  evaluates to a sequence: it stores the member `ival` of the value, whatever
  it is, and goes on, and no call releases the sequence. After
  `print [[1]];` the inner sequence is allocated with count 1, and it still
  is after the environment has been torn down; and after `print [x];` with
  `x` holding a sequence, tearing down leaves the sequence of `x` allocated
  with count 1. The claim says every sequence has been freed. -/
theorem C21_unchecked_element_is_never_released (cfg : Config) :
    (∀ fuel stmt st st', Balanced st.env st.heap → HeapCap st.heap →
      execute cfg fuel stmt st = .ok st' → Balanced st'.env st'.heap ∧ HeapCap st'.heap) ∧
    (∀ env heap, Balanced env heap →
      (∀ h s, Heap.deref heap h = some s →
        0 < s.ref ∧ s.ref = 2 * (held env h : Int) ∧ 1 ≤ held env h) ∧
      (∀ h, held env h = 0 → Heap.deref heap h = none) ∧
      ∃ heap', freeEnvironment env heap = .ok heap' ∧ ∀ h, Heap.deref heap' h = none) ∧
    (∀ fuel program es,
      interpretLoop cfg fuel fuel { input := program, lineCount := 1 } (initialState cfg)
        = .ok es →
      Balanced es.env es.heap ∧ interpret cfg fuel program = .ok es.out ∧
      ∃ heap', freeEnvironment es.env es.heap = .ok heap' ∧ ∀ h, Heap.deref heap' h = none) ∧
    (∀ ival : Nat → Int,
      evalSequenceInitializerUnchecked refConfig ival [seqLiteral [1]]
          (makeEnvironment refConfig) []
        = .ok (.SeqType 0, [some ⟨5, [ival 1], 1⟩, some ⟨5, [1], 1⟩]) ∧
      releaseSequence [some ⟨5, [ival 1], 1⟩, some ⟨5, [1], 1⟩] 0
        = .ok [none, some ⟨5, [1], 1⟩] ∧
      freeEnvironment (makeEnvironment refConfig) [none, some ⟨5, [1], 1⟩]
        = .ok [none, some ⟨5, [1], 1⟩] ∧
      Heap.deref [none, some ⟨5, [1], 1⟩] 1 = some ⟨5, [1], 1⟩) ∧
    (∀ ival : Nat → Int,
      Balanced ⟨[⟨"x".toList, .SeqType 0⟩], 5⟩ [some ⟨5, [1], 2⟩] ∧
      evalSequenceInitializerUnchecked refConfig ival [.Variable "x".toList]
          ⟨[⟨"x".toList, .SeqType 0⟩], 5⟩ [some ⟨5, [1], 2⟩]
        = .ok (.SeqType 1, [some ⟨5, [1], 3⟩, some ⟨5, [ival 0], 1⟩]) ∧
      releaseSequence [some ⟨5, [1], 3⟩, some ⟨5, [ival 0], 1⟩] 1
        = .ok [some ⟨5, [1], 3⟩, none] ∧
      freeEnvironment ⟨[⟨"x".toList, .SeqType 0⟩], 5⟩ [some ⟨5, [1], 3⟩, none]
        = .ok [some ⟨5, [1], 1⟩, none]) ∧
    interpret refConfig 10 "print [[1]];".toList
      = .error { err := .undefinedBehavior, out := [] } ∧
    interpret refConfig 20 "x = [1]; y = x; x = [2, 3]; y = 0; print len x; x = x;".toList
      = .ok "2".toList := by
  refine ⟨execute_balanced cfg, ?_, ?_, ?_, ?_, by rfl, by decide!⟩
  · intro env heap hb
    obtain ⟨h1, h2⟩ := balanced_cells hb
    refine ⟨h1, h2, ?_⟩
    unfold freeEnvironment
    exact freeRecords_all env.vlist heap hb.1 hb.2
  · intro fuel program es h
    obtain ⟨b0, c0⟩ := balanced_initial cfg
    obtain ⟨b, _⟩ := interpretLoop_balanced cfg fuel fuel _ _ es b0 c0 h
    obtain ⟨heap', hf, hall⟩ := freeRecords_all es.env.vlist es.heap b.1 b.2
    refine ⟨b, ?_, heap', hf, hall⟩
    unfold interpret
    have h' : interpretLoop cfg fuel fuel { input := program, lineCount := 1 }
        { env := makeEnvironment cfg, heap := [], out := [] } = .ok es := h
    rw [h']
    simp only []
    have hf' : freeEnvironment es.env es.heap = .ok heap' := hf
    rw [hf']
    rfl
  · intro ival
    exact ⟨rfl, rfl, rfl, rfl⟩
  · intro ival
    refine ⟨⟨?_, ?_⟩, rfl, rfl, rfl⟩
    · intro h s hd
      match h, hd with
      | 0, hd => cases hd; decide
    · intro x
      match x with
      | 0 => rfl
      | x + 1 => rfl

/-! ## The order computed by `evalLess` -/

theorem lexLessSpec_irrefl : ∀ l : List Int, lexLessSpec l l = false
  | [] => rfl
  | a :: l => by simp [lexLessSpec, lexLessSpec_irrefl l]

theorem lexLessSpec_trans : ∀ l1 l2 l3 : List Int,
    lexLessSpec l1 l2 = true → lexLessSpec l2 l3 = true → lexLessSpec l1 l3 = true
  | [], [], _, h, _ => by simp [lexLessSpec] at h
  | [], _ :: _, [], _, h => by simp [lexLessSpec] at h
  | [], _ :: _, _ :: _, _, _ => by simp [lexLessSpec]
  | _ :: _, [], _, h, _ => by simp [lexLessSpec] at h
  | _ :: _, _ :: _, [], _, h => by simp [lexLessSpec] at h
  | a :: l1, b :: l2, c :: l3, h12, h23 => by
    have ih := lexLessSpec_trans l1 l2 l3
    simp only [lexLessSpec] at h12 h23 ⊢
    by_cases hab : a < b
    · by_cases hbc : b < c
      · rw [if_pos (by omega)]
      · by_cases hcb : c < b
        · simp [hbc, hcb] at h23
        · have : b = c := by omega
          subst this
          rw [if_pos hab]
    · by_cases hba : b < a
      · simp [hab, hba] at h12
      · have : a = b := by omega
        subst this
        simp only [hab, if_false] at h12
        by_cases hac : a < c
        · rw [if_pos hac]
        · by_cases hca : c < a
          · simp [hac, hca] at h23
          · simp only [hac, hca, if_false] at h23 ⊢
            exact ih h12 h23

/-- The value of `lessSeq` is 1 exactly when the left sequence is not the
longer one and comes first in the lexicographic order. -/
theorem lessSeq_one_iff (a b : Sequence) :
    lessSeq a b = 1 ↔ a.count ≤ b.count ∧ lexLessSpec a.list b.list = true := by
  obtain ⟨h1, h2⟩ := lessSeq_eq a b
  by_cases hc : a.count ≤ b.count
  · rw [h1 hc]
    by_cases hl : lexLessSpec a.list b.list = true
    · simp [hl, hc]
    · simp [hl]
  · rw [h2 (by omega)]
    simp [hc]

theorem lessSeq_values (a b : Sequence) : lessSeq a b = 1 ∨ lessSeq a b = 0 := by
  obtain ⟨h1, h2⟩ := lessSeq_eq a b
  by_cases hc : a.count ≤ b.count
  · rw [h1 hc]
    by_cases hl : lexLessSpec a.list b.list = true
    · simp [hl]
    · simp [hl]
  · right; exact h2 (by omega)

/-- C39. The relation `<` that `evalLess` computes on sequences (`lessSeq`,
the value returned when both operands evaluate to sequences) is a strict
partial order: its value is 0 or 1; `a < a` is 0; `a < b` and `b < a` are
never both 1; when `a < b` and `b < c` are 1 so is `a < c`; and `a < b` is 0
whenever `a == b` is 1. -/
theorem C39_less_on_sequences_is_a_strict_partial_order (a b c : Sequence) :
    (lessSeq a b = 1 ∨ lessSeq a b = 0) ∧
    lessSeq a a = 0 ∧
    ¬ (lessSeq a b = 1 ∧ lessSeq b a = 1) ∧
    (lessSeq a b = 1 → lessSeq b c = 1 → lessSeq a c = 1) ∧
    (equalsSeq a b = 1 → lessSeq a b = 0) ∧
    (∀ (cfg : Config) (e1 e2 : Expr) (env : Environment) (heap heap1 heap2 : Heap)
      (h1 h2 : Nat), HeapPos heap →
      eval cfg e1 env heap = .ok (.SeqType h1, heap1) →
      eval cfg e2 env heap1 = .ok (.SeqType h2, heap2) →
      Heap.deref heap2 h1 = some a → Heap.deref heap2 h2 = some b →
      ∃ heap4, eval cfg (.Less e1 e2) env heap = .ok (.IntType (lessSeq a b), heap4)) := by
  have irr : ∀ s : Sequence, lessSeq s s = 0 := by
    intro s
    rcases lessSeq_values s s with h | h
    · rw [lessSeq_one_iff, lexLessSpec_irrefl] at h
      simp at h
    · exact h
  have tr : ∀ x y z : Sequence, lessSeq x y = 1 → lessSeq y z = 1 → lessSeq x z = 1 := by
    intro x y z hxy hyz
    rw [lessSeq_one_iff] at hxy hyz ⊢
    exact ⟨le_trans hxy.1 hyz.1, lexLessSpec_trans _ _ _ hxy.2 hyz.2⟩
  refine ⟨lessSeq_values a b, irr a, ?_, tr a b c, ?_, ?_⟩
  · rintro ⟨hab, hba⟩
    have := tr a b a hab hba
    rw [irr a] at this
    exact absurd this (by decide)
  · intro he
    rw [equalsSeq_eq] at he
    by_cases hl : a.list = b.list
    · rcases lessSeq_values a b with h | h
      · rw [lessSeq_one_iff, hl, lexLessSpec_irrefl] at h
        simp at h
      · exact h
    · simp [hl] at he
  · intro cfg e1 e2 env heap heap1 heap2 h1 h2 hp he1 he2 hd1 hd2
    obtain ⟨s1, s2, heap3, heap4, hs1, hs2, hr3, hr4, _⟩ := two_sequences_released hp he1 he2
    rw [hd1] at hs1; rw [hd2] at hs2
    cases hs1; cases hs2
    refine ⟨heap4, ?_⟩
    rw [eval, he1]; simp only []; rw [he2]; simp only []
    rw [hd1, hd2]; simp only []; rw [hr3]; simp only []; rw [hr4]

/-! ## Index bounds -/

/-- C38, where the code departs from it. Both `evalIndex` and the indexed
case of `executeAssignment` compare the index with `count - 1` only: an index
of `count` or more is reported as `Index out of bounds`, so a run that goes on
has an index below `count`; an index below 0 passes the test and the element
before the array is read or written (in the embedding: the step whose outcome
the source does not determine), it is not rejected. The read is for operands
that evaluate to the sequence `s` and the integer `k`; the write for a
variable that holds the sequence and a source and an index that evaluate to
integers. -/
theorem C38_negative_index_is_not_rejected (cfg : Config) (aexpr iexpr : Expr)
    (env : Environment) (heap heap1 heap2 : Heap) (h : Nat) (k : Int) (s : Sequence)
    (ha : eval cfg aexpr env heap = .ok (.SeqType h, heap1))
    (hi : eval cfg iexpr env heap1 = .ok (.IntType k, heap2))
    (hd : Heap.deref heap2 h = some s) :
    (k < 0 → eval cfg (.SequenceIndex aexpr iexpr) env heap = .error .undefinedBehavior) ∧
    ((s.count : Int) ≤ k →
      eval cfg (.SequenceIndex aexpr iexpr) env heap = .error .indexOutOfBounds) ∧
    (eval cfg (.SequenceIndex aexpr iexpr) env heap ≠ .error .indexOutOfBounds →
      k < (s.count : Int)) ∧
    (∀ (fuel : Nat) (name : List Char) (expr : Expr) (st : ExecState) (v : Int)
      (heapa heapb : Heap) (h' : Nat) (s' : Sequence),
      eval cfg expr st.env st.heap = .ok (.IntType v, heapa) →
      lookupVariable st.env name = .SeqType h' →
      eval cfg iexpr st.env heapa = .ok (.IntType k, heapb) →
      Heap.deref heapb h' = some s' →
      (k < 0 → execute cfg (fuel + 1) (.Assignment name (some iexpr) expr) st
        = .error { err := .undefinedBehavior, out := st.out }) ∧
      ((s'.count : Int) ≤ k → execute cfg (fuel + 1) (.Assignment name (some iexpr) expr) st
        = .error { err := .indexOutOfBounds, out := st.out })) ∧
    interpret refConfig 20 "x = [7]; print x[-1];".toList
      = .error { err := .undefinedBehavior, out := [] } ∧
    interpret refConfig 20 "x = [7]; x[-1] = 5;".toList
      = .error { err := .undefinedBehavior, out := [] } ∧
    interpret refConfig 20 "x = [7]; print x[1];".toList
      = .error { err := .indexOutOfBounds, out := [] } := by
  have hneg : k < 0 →
      eval cfg (.SequenceIndex aexpr iexpr) env heap = .error .undefinedBehavior := by
    intro hk
    rw [eval, ha]; simp only []; rw [hi]; simp only [requireIntType]
    rw [hd]; simp only []
    rw [if_neg (by omega)]
    have hre : readElem s k = .error .undefinedBehavior := by
      unfold readElem; rw [if_pos hk]
    rw [hre]
  have hbig : (s.count : Int) ≤ k →
      eval cfg (.SequenceIndex aexpr iexpr) env heap = .error .indexOutOfBounds := by
    intro hk
    rw [eval, ha]; simp only []; rw [hi]; simp only [requireIntType]
    rw [hd]; simp only []
    rw [if_pos (by omega)]
  refine ⟨hneg, hbig, ?_, ?_, by decide!, by decide!, by decide!⟩
  · intro hne
    by_contra hk
    exact hne (hbig (by omega))
  · intro fuel name expr st v heapa heapb h' s' he hl hi' hd'
    constructor
    · intro hk
      rw [execute, he]; simp only [liftEval]
      rw [hi']; simp only [hl]
      rw [hd']; simp only []
      rw [if_neg (by omega)]
      unfold writeElem
      rw [hd']; simp only []
      rw [if_pos hk]
    · intro hk
      rw [execute, he]; simp only [liftEval]
      rw [hi']; simp only [hl]
      rw [hd']; simp only []
      rw [if_pos (by omega)]

/-- C38 at `[7,8,9][-1]`. -/
theorem C38_negative_index_witness :
    (((-1 : Int) < 0 → eval refConfig (.SequenceIndex (seqLiteral [7, 8, 9]) (.LiteralInt (-1)))
      (makeEnvironment refConfig) [] = .error .undefinedBehavior)) ∧
    eval refConfig (.SequenceIndex (seqLiteral [7, 8, 9]) (.LiteralInt (-1)))
      (makeEnvironment refConfig) [] = .error .undefinedBehavior :=
  ⟨(C38_negative_index_is_not_rejected refConfig (seqLiteral [7, 8, 9]) (.LiteralInt (-1))
      (makeEnvironment refConfig) [] [some ⟨5, [7, 8, 9], 1⟩] [some ⟨5, [7, 8, 9], 1⟩] 0 (-1)
      ⟨5, [7, 8, 9], 1⟩ (by rfl) (by rfl) (by rfl)).1,
    by rfl⟩

/-! ## Evaluation leaves the state as it was -/

/-- C35. An evaluation that returns a value leaves every sequence that was
allocated before it allocated, with the same elements in the same order (so
the same count) and the same capacity. The environment is an argument of
`eval` and no part of its result: the `eval` functions only look variables
up. So every variable is bound after the evaluation to the value it was bound
to before, and a variable that held a sequence holds the same elements; the
statement `if (e) {}`, which evaluates `e` and does nothing else, ends with
the environment and the output it started with. The heap is one in which
every allocated sequence has a positive reference count, and the heap after
the evaluation is one again; so is the heap a program starts with and, with
sequences that fit their allocations, the heap after every statement that
runs to its end. -/
theorem C35_evaluation_keeps_variables_and_sequences (cfg : Config) (e : Expr)
    (env : Environment) (heap : Heap) (v : Value) (heap' : Heap) (hp : HeapPos heap)
    (he : eval cfg e env heap = .ok (v, heap')) :
    (∀ h s, heap.deref h = some s →
      ∃ s', Heap.deref heap' h = some s' ∧ s'.list = s.list ∧ s'.count = s.count ∧
        s'.capacity = s.capacity) ∧
    (∀ name h s, lookupVariable env name = .SeqType h → heap.deref h = some s →
      ∃ s', Heap.deref heap' h = some s' ∧ s'.list = s.list) ∧
    (∀ (fuel : Nat) (st st' : ExecState), st.env = env → st.heap = heap →
      execute cfg (fuel + 1) (.If e (.Compound [])) st = .ok st' →
      st'.env = st.env ∧ st'.out = st.out ∧ st'.heap = heap') ∧
    HeapPos heap' ∧
    (HeapPos (initialState cfg).heap ∧ HeapCap (initialState cfg).heap ∧
      ∀ (fuel : Nat) (stmt : Stmt) (st st' : ExecState), HeapPos st.heap → HeapCap st.heap →
        execute cfg fuel stmt st = .ok st' → HeapPos st'.heap ∧ HeapCap st'.heap) := by
  have hf := eval_frame cfg e env heap v heap' hp he
  have key : ∀ h s, heap.deref h = some s →
      ∃ s', Heap.deref heap' h = some s' ∧ s'.list = s.list ∧ s'.count = s.count ∧
        s'.capacity = s.capacity := by
    intro h s hd
    obtain ⟨s', hd', hl, hc, _⟩ := hf.exact h s hd
    exact ⟨s', hd', hl, by unfold Sequence.count; rw [hl], hc⟩
  have hcap0 : HeapCap (initialState cfg).heap := by
    intro h s hd
    simp [initialState, Heap.deref] at hd
  refine ⟨key, ?_, ?_, hf.surplus.pos, heapPos_nil, hcap0, execute_inv cfg⟩
  · intro name h s _ hd
    obtain ⟨s', hd', hl, _⟩ := key h s hd
    exact ⟨s', hd', hl⟩
  · intro fuel st st' henv hheap hex
    subst henv; subst hheap
    rw [execute, he] at hex
    simp only [liftEval] at hex
    cases v with
    | SeqType k => simp [requireIntType, liftEval] at hex
    | IntType r =>
      simp only [requireIntType, liftEval] at hex
      by_cases hr : r ≠ 0
      · rw [if_pos hr] at hex
        cases fuel with
        | zero => simp [execute] at hex
        | succ f =>
          simp only [execute, executeList, Except.ok.injEq] at hex
          subst hex
          exact ⟨rfl, rfl, rfl⟩
      · rw [if_neg hr] at hex
        simp only [Except.ok.injEq] at hex
        subst hex
        exact ⟨rfl, rfl, rfl⟩

/-- C35 at `len x + x[0]` with `x` bound to the sequence 7, 8, 9. -/
theorem C35_evaluation_witness :
    (∀ h s, Heap.deref [some ⟨5, [7, 8, 9], 2⟩] h = some s →
      ∃ s', Heap.deref [some ⟨5, [7, 8, 9], 2⟩] h = some s' ∧ s'.list = s.list ∧
        s'.count = s.count ∧ s'.capacity = s.capacity) ∧
    eval refConfig (.Add (.Len (.Variable "x".toList))
        (.SequenceIndex (.Variable "x".toList) (.LiteralInt 0)))
      (Environment.mk [VarRec.mk "x".toList (.SeqType 0)] 5) [some ⟨5, [7, 8, 9], 2⟩]
      = .ok (.IntType 10, [some ⟨5, [7, 8, 9], 2⟩]) :=
  ⟨(C35_evaluation_keeps_variables_and_sequences refConfig
      (.Add (.Len (.Variable "x".toList)) (.SequenceIndex (.Variable "x".toList) (.LiteralInt 0)))
      (Environment.mk [VarRec.mk "x".toList (.SeqType 0)] 5) [some ⟨5, [7, 8, 9], 2⟩]
      (.IntType 10) [some ⟨5, [7, 8, 9], 2⟩]
      (by
        intro h s hd
        match h, hd with
        | 0, hd => cases hd; decide)
      (by rfl)).1,
    by rfl⟩

/-! ## Sequence initializers -/

/-- The loop of `evalSequenceInitializer` on sub-expressions that evaluate to
integers, for a sequence with room for all of them: every store succeeds and
the values are appended in order. -/
theorem evalElems_values (cfg : Config) (env : Environment) (h : Nat) :
    ∀ (es : List Expr) (vs : List Int) (cur cur' : Heap),
      ElementsEvaluateTo cfg env h es vs cur cur' →
      ∀ (s : Sequence), HeapPos cur → cur.deref h = some s →
      s.count + es.length ≤ s.capacity →
      evalElems cfg es env h cur = .ok cur' ∧
        Heap.deref cur' h = some { s with list := s.list ++ vs } ∧ vs.length = es.length := by
  intro es vs cur cur' hrel
  induction hrel with
  | nil heap =>
    intro s _ hd _
    refine ⟨rfl, ?_, rfl⟩
    rw [hd]; simp
  | cons e es v vs heap heap1 heap' he _ ih =>
    intro s hp hd hroom
    have hf := eval_frame cfg e env heap (.IntType v) heap1 hp he
    obtain ⟨s', hd', hl, hc, hr⟩ := hf.exact h s hd
    have hs : s' = s := by
      cases s'; cases s
      simp only [handles, List.count_nil, Nat.cast_zero, add_zero] at hl hc hr
      simp only [Sequence.mk.injEq]
      exact ⟨hc, hl, hr⟩
    subst hs
    have hlt : h < heap1.length := deref_some_lt hd'
    have hw : withElement heap1 h v = heap1.set h (some { s' with list := s'.list ++ [v] }) := by
      unfold withElement; rw [hd']
    have hst : storeNext heap1 h v = .ok (withElement heap1 h v) := by
      unfold storeNext; rw [hd', hw]
      simp only [List.length_cons] at hroom
      simp only []
      rw [if_pos (by omega)]
    have hp1 : HeapPos (withElement heap1 h v) := by
      rw [hw]
      exact heapPos_set hf.surplus.pos (hf.surplus.pos h s' hd')
    have hd1 : Heap.deref (withElement heap1 h v) h
        = some { s' with list := s'.list ++ [v] } := by
      rw [hw]; exact deref_set_self _ hlt
    obtain ⟨r1, r2, r3⟩ := ih _ hp1 hd1 (by
      simp only [Sequence.count, List.length_append, List.length_cons, List.length_nil] at hroom ⊢
      omega)
    refine ⟨?_, ?_, ?_⟩
    · rw [evalElems, he]; simp only []; rw [hst]; simp only []; exact r1
    · rw [r2]; simp
    · simp [r3]

/-- An evaluation of the loop that returns is one in which the
sub-expressions evaluate to integers. -/
theorem evalElems_ok_values (cfg : Config) (env : Environment) (h : Nat) :
    ∀ (es : List Expr) (cur cur' : Heap), evalElems cfg es env h cur = .ok cur' →
      ∃ vs, ElementsEvaluateTo cfg env h es vs cur cur'
  | [], cur, cur', he => by
    simp only [evalElems, Except.ok.injEq] at he
    subst he
    exact ⟨[], .nil _⟩
  | e :: es, cur, cur', he => by
    rw [evalElems] at he
    cases hl : eval cfg e env cur with
    | error err => rw [hl] at he; cases he
    | ok p1 =>
      obtain ⟨v1, cur1⟩ := p1
      rw [hl] at he
      cases v1 with
      | SeqType k => cases he
      | IntType i =>
        simp only [] at he
        cases hst : storeNext cur1 h i with
        | error err => rw [hst] at he; cases he
        | ok cur2 =>
          rw [hst] at he
          simp only [] at he
          have hw : cur2 = withElement cur1 h i := by
            unfold storeNext at hst
            unfold withElement
            cases hd : Heap.deref cur1 h with
            | none => rw [hd] at hst; cases hst
            | some s =>
              rw [hd] at hst
              simp only [] at hst ⊢
              split_ifs at hst
              cases hst; rfl
          subst hw
          obtain ⟨vs, hvs⟩ := evalElems_ok_values cfg env h es _ _ he
          exact ⟨i :: vs, .cons e es i vs cur cur1 cur' hl hvs⟩

/-- C37. Let the sub-expressions `es` of a sequence initializer evaluate, from
left to right, to the integers `vs` (the first one in the heap that holds the
new, empty sequence). Then the evaluation of the initializer returns the
sequence `heap.length`, a cell that was not allocated before, with reference
count 1, with the elements `vs` in order, so with as many elements as there
are sub-expressions, and with room for them, for any number of
sub-expressions; every sequence allocated before is left as it was, so the
new sequence is none of them; and an initializer evaluated after this one
returns a sequence with a greater handle, so the two results are not the same
sequence. Conversely an evaluation of the initializer that returns is one in
which the sub-expressions evaluate to integers. -/
theorem C37_initializer_builds_a_fresh_sequence (cfg : Config) (es : List Expr)
    (vs : List Int) (env : Environment) (heap heap' : Heap) (hp : HeapPos heap)
    (hv : ElementsEvaluateTo cfg env heap.length es vs
      (reserve (makeSequence cfg heap).2 heap.length es.length) heap') :
    eval cfg (.SequenceInitializer es) env heap = .ok (.SeqType heap.length, heap') ∧
    heap.deref heap.length = none ∧
    (∃ cap, Heap.deref heap' heap.length = some { capacity := cap, list := vs, ref := 1 } ∧
      es.length ≤ cap) ∧
    vs.length = es.length ∧
    (∀ h s, heap.deref h = some s → Heap.deref heap' h = some s ∧ h ≠ heap.length) ∧
    (∀ (es2 : List Expr) (v2 : Value) (heap2 : Heap),
      eval cfg (.SequenceInitializer es2) env heap' = .ok (v2, heap2) →
      v2 = .SeqType heap'.length ∧ heap.length < heap'.length) ∧
    (∀ (v : Value) (heap3 : Heap),
      eval cfg (.SequenceInitializer es) env heap = .ok (v, heap3) →
      ∃ vs3, ElementsEvaluateTo cfg env heap.length es vs3
        (reserve (makeSequence cfg heap).2 heap.length es.length) heap3) := by
  obtain ⟨hs, c, hcell, hn⟩ := Surplus.newSequence cfg hp es.length
  obtain ⟨r1, r2, r3⟩ := evalElems_values cfg env heap.length es vs _ _ hv _ hs.pos hcell
    (by simp only [Sequence.count, List.length_nil]; omega)
  have hev : eval cfg (.SequenceInitializer es) env heap = .ok (.SeqType heap.length, heap') := by
    rw [eval]
    simp only []
    have : (makeSequence cfg heap).1 = heap.length := rfl
    rw [this, r1]
  have hf := eval_frame cfg _ env heap _ heap' hp hev
  have hlt : heap.length < heap'.length := deref_some_lt r2
  refine ⟨hev, deref_length heap, ⟨c, by simpa using r2, hn⟩, r3, ?_, ?_, ?_⟩
  · intro h s hd
    have hh : h < heap.length := deref_some_lt hd
    obtain ⟨s', hd', hl, hc, hr⟩ := hf.exact h s hd
    have hcount : ([heap.length].count h : Int) = 0 := by
      have : h ≠ heap.length := by omega
      simp [List.count_cons, this]
    have hs' : s' = s := by
      cases s'; cases s
      simp only [handles, hcount, add_zero] at hl hc hr
      simp only [Sequence.mk.injEq]
      exact ⟨hc, hl, hr⟩
    subst hs'
    exact ⟨hd', by omega⟩
  · intro es2 v2 heap2 he2
    exact ⟨(eval_initializer_cap cfg es2 env heap' heap2 v2 hf.surplus.pos he2).1, hlt⟩
  · intro v heap3 he3
    rw [eval] at he3
    simp only [] at he3
    have : (makeSequence cfg heap).1 = heap.length := rfl
    rw [this] at he3
    cases hel : evalElems cfg es env heap.length
        (reserve (makeSequence cfg heap).2 heap.length es.length) with
    | error err => rw [hel] at he3; cases he3
    | ok heap4 =>
      rw [hel] at he3
      simp only [Except.ok.injEq, Prod.mk.injEq] at he3
      obtain ⟨_, rfl⟩ := he3
      exact evalElems_ok_values cfg env heap.length es _ _ hel

/-- C37 at `[1, 2 + 3]`, and an initializer of six elements, one more than the
first allocation holds. -/
theorem C37_initializer_witness :
    eval refConfig (.SequenceInitializer [.LiteralInt 1, .Add (.LiteralInt 2) (.LiteralInt 3)])
      (makeEnvironment refConfig) [] = .ok (.SeqType 0, [some ⟨5, [1, 5], 1⟩]) ∧
    eval refConfig (seqLiteral [1, 2, 3, 4, 5, 6]) (makeEnvironment refConfig) []
      = .ok (.SeqType 0, [some ⟨6, [1, 2, 3, 4, 5, 6], 1⟩]) ∧
    interpret refConfig 20 "x = [65, 66]; y = [65, 66]; y[0] = 67; print x; print y;".toList
      = .ok "ABCB".toList :=
  ⟨(C37_initializer_builds_a_fresh_sequence refConfig
      [.LiteralInt 1, .Add (.LiteralInt 2) (.LiteralInt 3)] [1, 5] (makeEnvironment refConfig)
      [] [some ⟨5, [1, 5], 1⟩] heapPos_nil
      (.cons _ _ 1 _ _ [some ⟨5, [], 1⟩] _ (by rfl)
        (.cons _ _ 5 _ _ [some ⟨5, [1], 1⟩] _ (by rfl) (.nil _)))).1,
    by rfl, by decide!⟩

/-! ## The end of an expression -/

theorem terminator_tokens {op : List Char} (h : isTerminator op = true) :
    ∃ term, term ∈ terminatorChars ∧ op = [term] := by
  simp only [isTerminator, Bool.or_eq_true, decide_eq_true_eq] at h
  rcases h with ((h | h) | h) | h
  · exact ⟨';', by decide, h⟩
  · exact ⟨')', by decide, h⟩
  · exact ⟨']', by decide, h⟩
  · exact ⟨',', by decide, h⟩

/-- A terminator at the head of the input is the next token, and putting its
first character back restores the state. -/
theorem expectToken_terminator {term : Char} (h : term ∈ terminatorChars) (st : PState)
    (more : List Char) (hin : st.input = term :: more) :
    expectToken st = .ok ([term], { input := more, lineCount := st.lineCount }) := by
  obtain ⟨input, line⟩ := st
  simp only at hin
  subst hin
  unfold expectToken
  rw [parseToken_terminator h]

/-- An expression that `parseExpr` returns, and one that its loop returns,
leaves the input at a terminator. -/
theorem parse_leaves_terminator (cfg : Config) : ∀ (fuel : Nat),
    (∀ tok st e st', parseExpr cfg fuel tok st = .ok (e, st') →
      ∃ term more, term ∈ terminatorChars ∧ st'.input = term :: more) ∧
    (∀ left st e st', parseInfix cfg fuel left st = .ok (e, st') →
      ∃ term more, term ∈ terminatorChars ∧ st'.input = term :: more)
  | 0 => by
    constructor
    · intro tok st e st' h; rw [parseExpr] at h; cases h
    · intro left st e st' h; rw [parseInfix] at h; cases h
  | fuel + 1 => by
    obtain ⟨ihE, ihI⟩ := parse_leaves_terminator cfg fuel
    constructor
    · intro tok st e st' h
      rw [parseExpr] at h
      split_ifs at h
      · cases h1 : expectToken st with
        | error err => rw [h1] at h; cases h
        | ok p =>
          obtain ⟨tok1, st1⟩ := p
          rw [h1] at h
          simp only [] at h
          cases h2 : parseExpr cfg fuel tok1 st1 with
          | error err => rw [h2] at h; cases h
          | ok q =>
            obtain ⟨e1, st2⟩ := q
            rw [h2] at h
            simp only [Except.ok.injEq, Prod.mk.injEq] at h
            obtain ⟨_, rfl⟩ := h
            exact ihE _ _ _ _ h2
      · cases h1 : parseTerm cfg fuel tok st with
        | error err => rw [h1] at h; cases h
        | ok p =>
          obtain ⟨left, st1⟩ := p
          rw [h1] at h
          exact ihI _ _ _ _ h
    · intro left st e st' h
      rw [parseInfix] at h
      cases h1 : expectToken st with
      | error err => rw [h1] at h; cases h
      | ok p =>
        obtain ⟨op, st1⟩ := p
        rw [h1] at h
        simp only [] at h
        by_cases hop : isInfixOperator op = true
        · rw [if_pos hop] at h
          cases h2 : expectToken st1 with
          | error err => rw [h2] at h; cases h
          | ok q =>
            obtain ⟨tok, st2⟩ := q
            rw [h2] at h
            simp only [] at h
            cases h3 : parseTerm cfg fuel tok st2 with
            | error err => rw [h3] at h; cases h
            | ok r =>
              obtain ⟨right, st3⟩ := r
              rw [h3] at h
              simp only [] at h
              split_ifs at h
              · cases h4 : requireToken "]".toList st3 with
                | error err => rw [h4] at h; cases h
                | ok st4 =>
                  rw [h4] at h
                  exact ihI _ _ _ _ h
              · exact ihI _ _ _ _ h
        · rw [if_neg hop] at h
          by_cases hter : isTerminator op = true
          · rw [if_pos hter] at h
            simp only [Except.ok.injEq, Prod.mk.injEq] at h
            obtain ⟨_, rfl⟩ := h
            obtain ⟨term, hmem, rfl⟩ := terminator_tokens hter
            exact ⟨term, st1.input, hmem, rfl⟩
          · rw [if_neg hter] at h; cases h

/-- C31. An expression that `parseExpr` returns is followed by one of the
tokens `;`, `)`, `]` and `,`, and that token is still to be read: it is the
next token of the state `parseExpr` returns, on the same line. When the token
that follows an operand is neither an operator that continues the expression
nor one of these four, and when the input ends there, the loop of `parseExpr`
ends in a syntax error, and so does `parseExpr` on an expression of one
term. -/
theorem C31_expression_ends_at_a_terminator (cfg : Config) (fuel : Nat) (tok : List Char)
    (st : PState) (e : Expr) (st' : PState) (h : parseExpr cfg fuel tok st = .ok (e, st')) :
    (∃ op st1, (op = ";".toList ∨ op = ")".toList ∨ op = "]".toList ∨ op = ",".toList) ∧
      expectToken st' = .ok (op, st1) ∧ st1.lineCount = st'.lineCount ∧
      st'.input = op ++ st1.input) ∧
    (∀ (f : Nat) (left : Expr) (st0 : PState),
      (∀ st1, parseToken st0 = .ok (none, st1) →
        parseInfix cfg (f + 1) left st0 = .error (.syntaxError st1.lineCount)) ∧
      (∀ op st1, expectToken st0 = .ok (op, st1) → isInfixOperator op = false →
        op ≠ ";".toList → op ≠ ")".toList → op ≠ "]".toList → op ≠ ",".toList →
        parseInfix cfg (f + 1) left st0 = .error (.syntaxError st1.lineCount))) ∧
    (∀ (f : Nat) (t : List Char) (s0 : PState) (left : Expr) (s1 : PState),
      t ≠ "len".toList → parseTerm cfg (f + 1) t s0 = .ok (left, s1) →
      (∀ s2, parseToken s1 = .ok (none, s2) →
        parseExpr cfg (f + 2) t s0 = .error (.syntaxError s2.lineCount)) ∧
      (∀ op s2, expectToken s1 = .ok (op, s2) → isInfixOperator op = false →
        op ≠ ";".toList → op ≠ ")".toList → op ≠ "]".toList → op ≠ ",".toList →
        parseExpr cfg (f + 2) t s0 = .error (.syntaxError s2.lineCount))) := by
  have loopEnd : ∀ (f : Nat) (left : Expr) (st0 : PState),
      (∀ st1, parseToken st0 = .ok (none, st1) →
        parseInfix cfg (f + 1) left st0 = .error (.syntaxError st1.lineCount)) ∧
      (∀ op st1, expectToken st0 = .ok (op, st1) → isInfixOperator op = false →
        op ≠ ";".toList → op ≠ ")".toList → op ≠ "]".toList → op ≠ ",".toList →
        parseInfix cfg (f + 1) left st0 = .error (.syntaxError st1.lineCount)) := by
    intro f left st0
    constructor
    · intro st1 h1
      rw [parseInfix]
      unfold expectToken
      rw [h1]
    · intro op st1 h1 hop n1 n2 n3 n4
      have hter : isTerminator op = false := by
        simp only [isTerminator, Bool.or_eq_false_iff, decide_eq_false_iff_not]
        exact ⟨⟨⟨n1, n2⟩, n3⟩, n4⟩
      rw [parseInfix, h1]
      simp only [hop, hter, Bool.false_eq_true, if_false]
  refine ⟨?_, loopEnd, ?_⟩
  · obtain ⟨term, more, hmem, hin⟩ := (parse_leaves_terminator cfg fuel).1 tok st e st' h
    refine ⟨[term], { input := more, lineCount := st'.lineCount }, ?_,
      expectToken_terminator hmem st' more hin, rfl, by simpa using hin⟩
    simp only [terminatorChars, List.mem_cons, List.mem_singleton, List.not_mem_nil,
      or_false] at hmem
    rcases hmem with rfl | rfl | rfl | rfl
    · exact Or.inl rfl
    · exact Or.inr (Or.inl rfl)
    · exact Or.inr (Or.inr (Or.inl rfl))
    · exact Or.inr (Or.inr (Or.inr rfl))
  · intro f t s0 left s1 hlen hterm
    obtain ⟨e1, e2⟩ := loopEnd f left s1
    constructor
    · intro s2 h2
      rw [parseExpr, if_neg hlen, hterm]
      exact e1 s2 h2
    · intro op s2 h2 hop n1 n2 n3 n4
      rw [parseExpr, if_neg hlen, hterm]
      exact e2 op s2 h2 hop n1 n2 n3 n4

/-- C31 at `1 + 2)`, and the errors of `1 2;`, of `1 = 2;` and of `1` at the
end of the input. -/
theorem C31_expression_witness :
    (∃ op st1, (op = ";".toList ∨ op = ")".toList ∨ op = "]".toList ∨ op = ",".toList) ∧
      expectToken (PState.mk ") x".toList 1) = .ok (op, st1) ∧
      st1.lineCount = (PState.mk ") x".toList 1).lineCount ∧
      (PState.mk ") x".toList 1).input = op ++ st1.input) ∧
    parseExpr refConfig 5 "1".toList (PState.mk " + 2) x".toList 1)
      = .ok (.Add (.LiteralInt 1) (.LiteralInt 2), PState.mk ") x".toList 1) ∧
    parseExprAt refConfig 5 (PState.mk "1 2;".toList 1) = .error (.syntaxError 1) ∧
    parseExprAt refConfig 5 (PState.mk "1 = 2;".toList 1) = .error (.syntaxError 1) ∧
    parseExprAt refConfig 5 (PState.mk "1".toList 1) = .error (.syntaxError 1) ∧
    parseExprAt refConfig 5 (PState.mk "(7), 8".toList 1)
      = .ok (.LiteralInt 7, PState.mk ", 8".toList 1) :=
  ⟨(C31_expression_ends_at_a_terminator refConfig 5 "1".toList (PState.mk " + 2) x".toList 1)
      (.Add (.LiteralInt 1) (.LiteralInt 2)) (PState.mk ") x".toList 1) (by rfl)).1,
    by rfl, by rfl, by rfl, by rfl, by rfl⟩

/-! ## The operand of `len` -/

/-- The loop of `parseExpr`, entered after an expression that `parseExpr`
returned: the terminator is read again and put back, and the expression built
so far is the result. -/
theorem parseInfix_at_terminator (cfg : Config) (fuel : Nat) (tok : List Char) (st : PState)
    (e : Expr) (st' : PState) (h : parseExpr cfg fuel tok st = .ok (e, st'))
    (f : Nat) (left : Expr) : parseInfix cfg (f + 1) left st' = .ok (left, st') := by
  obtain ⟨term, more, hmem, hin⟩ := (parse_leaves_terminator cfg fuel).1 tok st e st' h
  obtain ⟨_, hinf, hter⟩ := terminator_class hmem
  rw [parseInfix, expectToken_terminator hmem st' more hin]
  simp only [hinf, hter, Bool.false_eq_true, if_false, if_true]
  obtain ⟨input, line⟩ := st'
  simp only at hin
  subst hin
  rfl

/-- C36. The operand of `len` is the whole expression that follows it, up to
the terminator: when the text after `len` parses, as an expression of its
own, to `e`, then `len` followed by that text parses to `Len e`, both at the
head of an expression and as a term; and as the right operand of an operator
`op` other than `[` the term `len ...` takes everything up to the terminator
too, the result being `left op Len e`. So `len a + 1` is `Len (a + 1)` and
`1 + len a + 2` is `1 + Len (a + 2)`. -/
theorem C36_len_takes_the_rest_of_the_expression (cfg : Config) (fuel : Nat) (st : PState)
    (tok1 : List Char) (st1 : PState) (e : Expr) (st2 : PState)
    (h1 : expectToken st = .ok (tok1, st1))
    (h2 : parseExpr cfg fuel tok1 st1 = .ok (e, st2)) :
    parseExpr cfg (fuel + 1) "len".toList st = .ok (.Len e, st2) ∧
    parseTerm cfg (fuel + 2) "len".toList st = .ok (.Len e, st2) ∧
    (∀ (left : Expr) (st0 st0' : PState) (op : List Char),
      isInfixOperator op = true → op ≠ "[".toList →
      expectToken st0 = .ok (op, st0') → expectToken st0' = .ok ("len".toList, st) →
      parseInfix cfg (fuel + 3) left st0 = .ok (makeInfix op left (.Len e), st2)) ∧
    parseExprAt refConfig 10 (PState.mk "len a + 1;".toList 1)
      = .ok (.Len (.Add (.Variable "a".toList) (.LiteralInt 1)), PState.mk ";".toList 1) ∧
    parseExprAt refConfig 10 (PState.mk "1 + len a + 2;".toList 1)
      = .ok (.Add (.LiteralInt 1) (.Len (.Add (.Variable "a".toList) (.LiteralInt 2))),
          PState.mk ";".toList 1) := by
  have hE : parseExpr cfg (fuel + 1) "len".toList st = .ok (.Len e, st2) := by
    rw [parseExpr, if_pos rfl, h1]
    simp only []
    rw [h2]
  have hT : parseTerm cfg (fuel + 2) "len".toList st = .ok (.Len e, st2) := by
    rw [parseTerm, if_neg (by decide), if_pos rfl]
    exact hE
  refine ⟨hE, hT, ?_, by rfl, by rfl⟩
  intro left st0 st0' op hop hbr h3 h4
  rw [parseInfix, h3]
  simp only [hop, if_true]
  rw [h4]
  simp only []
  rw [hT]
  simp only []
  rw [if_neg hbr]
  exact parseInfix_at_terminator cfg fuel tok1 st1 e st2 h2 (fuel + 1) _

/-- C36 at `len a + 1;`. -/
theorem C36_len_witness :
    parseExpr refConfig (4 + 1) "len".toList (PState.mk " a + 1;".toList 1)
      = .ok (.Len (.Add (.Variable "a".toList) (.LiteralInt 1)), PState.mk ";".toList 1) :=
  (C36_len_takes_the_rest_of_the_expression refConfig 4 (PState.mk " a + 1;".toList 1)
    "a".toList (PState.mk " + 1;".toList 1) (.Add (.Variable "a".toList) (.LiteralInt 1))
    (PState.mk ";".toList 1) (by rfl) (by rfl)).1

/-! ## Indexing in an expression -/

/-- C33 as it is stated does not hold: the text `a[i + 1]` does not parse to
the index of `a` at `i + 1`. The operand after `[` is read by `parseTerm`,
which returns the variable `i`; the token required next is `]` and the token
met is `+`: a syntax error. -/
theorem C33_index_with_a_sum_is_a_syntax_error :
    parseExprAt refConfig 20 (PState.mk "a[i + 1];".toList 1) = .error (.syntaxError 1) ∧
    (∀ st, parseExprAt refConfig 20 (PState.mk "a[i + 1];".toList 1)
      ≠ .ok (.SequenceIndex (.Variable "a".toList)
          (.Add (.Variable "i".toList) (.LiteralInt 1)), st)) ∧
    interpret refConfig 30 "x = [5, 6]; i = 0; print x[i + 1];".toList
      = .error { err := .syntaxError 1, out := [] } := by
  have h : parseExprAt refConfig 20 (PState.mk "a[i + 1];".toList 1)
      = .error (.syntaxError 1) := by rfl
  refine ⟨h, ?_, by decide!⟩
  intro st hst
  rw [h] at hst
  cases hst

/-- C33, amended. In the loop of `parseExpr` the token `[` is an operator like
the others: its right operand is one term, read by `parseTerm`, which must be
followed by `]`; the index of the expression built so far at that term is
the new left operand, and the loop goes on with it, so that indexing
associates to the left in the one tier of all operators. A term followed by
another token than `]` is a syntax error. So `a[(i + 1)]` is the index of `a`
at `i + 1`, `a[0] + 1` is the sum of `a[0]` and 1, and `a[0][1]` is the index
of `a[0]` at 1. -/
theorem C33_index_operand_is_a_term (cfg : Config) (fuel : Nat) (left : Expr)
    (st st1 : PState) (tok : List Char) (st2 : PState) (right : Expr) (st3 : PState)
    (h1 : expectToken st = .ok ("[".toList, st1))
    (h2 : expectToken st1 = .ok (tok, st2))
    (h3 : parseTerm cfg fuel tok st2 = .ok (right, st3)) :
    (∀ st4, expectToken st3 = .ok ("]".toList, st4) →
      parseInfix cfg (fuel + 1) left st
        = parseInfix cfg fuel (.SequenceIndex left right) st4) ∧
    (∀ t st4, expectToken st3 = .ok (t, st4) → t ≠ "]".toList →
      parseInfix cfg (fuel + 1) left st = .error (.syntaxError st4.lineCount)) ∧
    parseExprAt refConfig 20 (PState.mk "a[(i + 1)];".toList 1)
      = .ok (.SequenceIndex (.Variable "a".toList)
          (.Add (.Variable "i".toList) (.LiteralInt 1)), PState.mk ";".toList 1) ∧
    parseExprAt refConfig 20 (PState.mk "a[0] + 1;".toList 1)
      = .ok (.Add (.SequenceIndex (.Variable "a".toList) (.LiteralInt 0)) (.LiteralInt 1),
          PState.mk ";".toList 1) ∧
    parseExprAt refConfig 20 (PState.mk "a[0][1];".toList 1)
      = .ok (.SequenceIndex (.SequenceIndex (.Variable "a".toList) (.LiteralInt 0))
          (.LiteralInt 1), PState.mk ";".toList 1) ∧
    parseExprAt refConfig 20 (PState.mk "1 + a[0];".toList 1)
      = .ok (.SequenceIndex (.Add (.LiteralInt 1) (.Variable "a".toList)) (.LiteralInt 0),
          PState.mk ";".toList 1) := by
  refine ⟨?_, ?_, by rfl, by rfl, by rfl, by rfl⟩
  · intro st4 h4
    have hr : requireToken "]".toList st3 = .ok st4 := by
      unfold requireToken; rw [h4]; simp
    rw [parseInfix, h1]
    simp only [show isInfixOperator "[".toList = true from by decide, if_true]
    rw [h2]
    simp only []
    rw [h3]
    simp only []
    rw [hr]
    rfl
  · intro t st4 h4 hne
    have hr : requireToken "]".toList st3 = .error (.syntaxError st4.lineCount) := by
      unfold requireToken; rw [h4]; simp only []; rw [if_neg hne]
    rw [parseInfix, h1]
    simp only [show isInfixOperator "[".toList = true from by decide, if_true]
    rw [h2]
    simp only []
    rw [h3]
    simp only []
    rw [hr]

/-- C33, amended, at `a[0][1];`: the loop after `a`. -/
theorem C33_index_witness :
    (∀ st4, expectToken (PState.mk "][1];".toList 1) = .ok ("]".toList, st4) →
      parseInfix refConfig (9 + 1) (.Variable "a".toList) (PState.mk "[0][1];".toList 1)
        = parseInfix refConfig 9 (.SequenceIndex (.Variable "a".toList) (.LiteralInt 0)) st4) ∧
    parseInfix refConfig (9 + 1) (.Variable "a".toList) (PState.mk "[0][1];".toList 1)
      = .ok (.SequenceIndex (.SequenceIndex (.Variable "a".toList) (.LiteralInt 0))
          (.LiteralInt 1), PState.mk ";".toList 1) :=
  ⟨(C33_index_operand_is_a_term refConfig 9 (.Variable "a".toList)
      (PState.mk "[0][1];".toList 1) (PState.mk "0][1];".toList 1) "0".toList
      (PState.mk "][1];".toList 1) (.LiteralInt 0) (PState.mk "][1];".toList 1)
      (by rfl) (by rfl) (by rfl)).1,
    by rfl⟩

/-! ## Bracketed sequence initializers -/

/-- C34, at the inputs where the code departs from it. The loop of the
bracket case of `parseTerm` skips every token that starts with a comma,
wherever it stands, and adds no child for it: `[1,,2]` is accepted with the
two children 1 and 2, `[,1]` and `[1,]` with the child 1, and `[,]` with
none, where the claim has a syntax error. The initializers of the grammar
are accepted as claimed, one child per expression in order (each expression
that parses adds one child at the end and leaves its terminator to be
examined next, and `]` ends the loop), and two expressions with no comma
between them are rejected. -/
theorem C34_empty_elements_are_accepted :
    parseExprAt refConfig 20 (PState.mk "[1,,2];".toList 1)
      = .ok (seqLiteral [1, 2], PState.mk ";".toList 1) ∧
    parseExprAt refConfig 20 (PState.mk "[,1];".toList 1)
      = .ok (seqLiteral [1], PState.mk ";".toList 1) ∧
    parseExprAt refConfig 20 (PState.mk "[1,];".toList 1)
      = .ok (seqLiteral [1], PState.mk ";".toList 1) ∧
    parseExprAt refConfig 20 (PState.mk "[,];".toList 1)
      = .ok (seqLiteral [], PState.mk ";".toList 1) ∧
    interpret refConfig 30 "print [65,,66];".toList = .ok "AB".toList ∧
    (∀ (cfg : Config) (fuel : Nat) (tok : List Char) (exprs : List Expr) (st : PState),
      tok.head? = some ',' →
      parseElems cfg (fuel + 1) tok exprs st =
        match expectToken st with
        | .error e => .error e
        | .ok (tok1, st1) => parseElems cfg fuel tok1 exprs st1) ∧
    (∀ (cfg : Config) (fuel : Nat) (tok : List Char) (exprs : List Expr) (st : PState)
      (e : Expr) (st1 : PState), tok ≠ "]".toList → tok.head? ≠ some ',' →
      parseExpr cfg fuel tok st = .ok (e, st1) →
      ∃ tok1 st2, expectToken st1 = .ok (tok1, st2) ∧
        (tok1 = ";".toList ∨ tok1 = ")".toList ∨ tok1 = "]".toList ∨ tok1 = ",".toList) ∧
        parseElems cfg (fuel + 1) tok exprs st = parseElems cfg fuel tok1 (exprs ++ [e]) st2) ∧
    (∀ (cfg : Config) (fuel : Nat) (exprs : List Expr) (st : PState),
      parseElems cfg (fuel + 1) "]".toList exprs st = .ok (exprs, st)) ∧
    parseExprAt refConfig 20 (PState.mk "[];".toList 1)
      = .ok (seqLiteral [], PState.mk ";".toList 1) ∧
    parseExprAt refConfig 20 (PState.mk "[1,2,3];".toList 1)
      = .ok (seqLiteral [1, 2, 3], PState.mk ";".toList 1) ∧
    parseExprAt refConfig 20 (PState.mk "[x, 2 + 3];".toList 1)
      = .ok (.SequenceInitializer [.Variable "x".toList, .Add (.LiteralInt 2) (.LiteralInt 3)],
          PState.mk ";".toList 1) ∧
    parseExprAt refConfig 20 (PState.mk "[1 2];".toList 1) = .error (.syntaxError 1) ∧
    parseExprAt refConfig 20 (PState.mk "[1;2];".toList 1) = .error (.syntaxError 1) := by
  refine ⟨by rfl, by rfl, by rfl, by rfl, by decide!, ?_, ?_, ?_, by rfl, by rfl, by rfl,
    by rfl, by rfl⟩
  · intro cfg fuel tok exprs st hc
    have h1 : tok ≠ "]".toList := by
      intro e; rw [e] at hc; revert hc; decide
    have h2 : ¬ tok.head? ≠ some ',' := fun h => h hc
    rw [parseElems, if_neg h1, if_neg h2]
  · intro cfg fuel tok exprs st e st1 h1 h2 hp
    obtain ⟨term, more, hmem, hin⟩ := (parse_leaves_terminator cfg fuel).1 tok st e st1 hp
    have ht := expectToken_terminator hmem st1 more hin
    refine ⟨[term], _, ht, ?_, ?_⟩
    · simp only [terminatorChars, List.mem_cons, List.mem_singleton, List.not_mem_nil,
        or_false] at hmem
      rcases hmem with rfl | rfl | rfl | rfl
      · exact Or.inl rfl
      · exact Or.inr (Or.inl rfl)
      · exact Or.inr (Or.inr (Or.inl rfl))
      · exact Or.inr (Or.inr (Or.inr rfl))
    · rw [parseElems, if_neg h1, if_pos h2, hp]
      simp only []
      rw [ht]
  · intro cfg fuel exprs st
    rw [parseElems, if_pos rfl]

/-! ## Names in the syntax tree -/

theorem isIdentifier_iff (cfg : Config) (tok : List Char) :
    isIdentifier cfg tok = true ↔
      ∃ c cs, tok = c :: cs ∧ wordStart c ∧ (∀ d ∈ cs, wordChar d = true) ∧
        tok.length ≤ cfg.MAX_VAR_NAME ∧ tok ∉ reservedWords := by
  cases tok with
  | nil => simp [isIdentifier]
  | cons c cs =>
    unfold isIdentifier
    simp only []
    constructor
    · intro h
      split_ifs at h with h1 h2 h3 h4
      refine ⟨c, cs, rfl, ?_, ?_, by omega, h4⟩
      · unfold wordStart
        simp only [Bool.not_eq_true, Bool.or_eq_false_iff, decide_eq_false_iff_not, not_and,
          Bool.not_eq_false, not_not] at h1
        by_cases ha : isalpha c = true
        · exact Or.inl ha
        · right
          by_contra hc
          simp only [Bool.or_eq_true, decide_eq_true_eq] at h1
          rcases h1 with h1 | h1
          · exact ha h1
          · exact hc h1
      · intro d hd
        simp only [Bool.not_eq_true, Bool.not_eq_false] at h2
        have := List.all_eq_true.mp h2 d hd
        simpa [wordChar] using this
    · rintro ⟨c', cs', heq, hs, hall, hlen, hres⟩
      injection heq with e1 e2
      subst e1; subst e2
      have h1 : ¬ ¬ (isalpha c || decide (c = '_')) = true := by
        simp only [not_not, Bool.or_eq_true, decide_eq_true_eq]
        exact hs
      have h2 : ¬ ¬ (cs.all fun d => isalnum d || decide (d = '_')) = true := by
        simp only [not_not]
        rw [List.all_eq_true]
        intro d hd
        simpa [wordChar] using hall d hd
      rw [if_neg h1, if_neg h2, if_neg (by omega), if_neg hres]

theorem namesOfExprs_append : ∀ (a b : List Expr),
    namesOfExprs (a ++ b) = namesOfExprs a ++ namesOfExprs b
  | [], b => by simp [namesOfExprs]
  | e :: a, b => by
    simp [namesOfExprs, namesOfExprs_append a b]

theorem namesOfExprs_literals (f : Char → Int) : ∀ (l : List Char),
    namesOfExprs (l.map (fun c => Expr.LiteralInt (f c))) = []
  | [] => by simp [namesOfExprs]
  | c :: l => by
    simp [namesOfExprs, Expr.names, namesOfExprs_literals f l]

theorem names_makeInfix (op : List Char) (left right : Expr) (n : List Char)
    (h : n ∈ (makeInfix op left right).names) : n ∈ left.names ∨ n ∈ right.names := by
  unfold makeInfix at h
  split_ifs at h <;> try simp only [Expr.names, List.mem_append] at h
  all_goals first
    | exact h
    | exact Or.inl h

theorem namesOfStmts_append : ∀ (a b : List Stmt),
    namesOfStmts (a ++ b) = namesOfStmts a ++ namesOfStmts b
  | [], b => by simp [namesOfStmts]
  | s :: a, b => by
    simp [namesOfStmts, namesOfStmts_append a b]

/-- Every name in an expression that the parser returns has passed
`isIdentifier`: for `parseTerm`, for the loop of the bracket case (given it of
the expressions collected so far), for `parseExpr` and for its loop (given it
of the left operand). -/
theorem parse_names (cfg : Config) : ∀ (fuel : Nat),
    (∀ tok st e st', parseTerm cfg fuel tok st = .ok (e, st') →
      ∀ n ∈ e.names, isIdentifier cfg n = true) ∧
    (∀ tok exprs st es st', (∀ n ∈ namesOfExprs exprs, isIdentifier cfg n = true) →
      parseElems cfg fuel tok exprs st = .ok (es, st') →
      ∀ n ∈ namesOfExprs es, isIdentifier cfg n = true) ∧
    (∀ tok st e st', parseExpr cfg fuel tok st = .ok (e, st') →
      ∀ n ∈ e.names, isIdentifier cfg n = true) ∧
    (∀ left st e st', (∀ n ∈ left.names, isIdentifier cfg n = true) →
      parseInfix cfg fuel left st = .ok (e, st') →
      ∀ n ∈ e.names, isIdentifier cfg n = true)
  | 0 => by
    refine ⟨?_, ?_, ?_, ?_⟩
    · intro tok st e st' h; rw [parseTerm] at h; cases h
    · intro tok exprs st es st' _ h; rw [parseElems] at h; cases h
    · intro tok st e st' h; rw [parseExpr] at h; cases h
    · intro left st e st' _ h; rw [parseInfix] at h; cases h
  | fuel + 1 => by
    obtain ⟨ihT, ihL, ihE, ihI⟩ := parse_names cfg fuel
    refine ⟨?_, ?_, ?_, ?_⟩
    · intro tok st e st' h
      rw [parseTerm] at h
      by_cases c1 : tok = "(".toList
      · rw [if_pos c1] at h
        cases h1 : expectToken st with
        | error err => rw [h1] at h; cases h
        | ok p =>
          obtain ⟨tok1, st1⟩ := p
          rw [h1] at h; simp only [] at h
          cases h2 : parseExpr cfg fuel tok1 st1 with
          | error err => rw [h2] at h; cases h
          | ok q =>
            obtain ⟨e1, st2⟩ := q
            rw [h2] at h; simp only [] at h
            cases h3 : requireToken ")".toList st2 with
            | error err => rw [h3] at h; cases h
            | ok st3 =>
              rw [h3] at h
              simp only [Except.ok.injEq, Prod.mk.injEq] at h
              obtain ⟨rfl, _⟩ := h
              exact ihE _ _ _ _ h2
      · rw [if_neg c1] at h
        by_cases c2 : tok = "len".toList
        · rw [if_pos c2] at h; exact ihE _ _ _ _ h
        · rw [if_neg c2] at h
          by_cases c3 : tok.head? = some '-' ∨ (tok.head?.map isdigit) = some true
          · rw [if_pos c3] at h
            cases hs : scanInt tok with
            | none => rw [hs] at h; cases h
            | some val =>
              rw [hs] at h; simp only [] at h
              split_ifs at h
              simp only [Except.ok.injEq, Prod.mk.injEq] at h
              obtain ⟨rfl, _⟩ := h
              intro n hn; simp [Expr.names] at hn
          · rw [if_neg c3] at h
            by_cases c4 : tok.head? = some squote
            · rw [if_pos c4] at h
              simp only [Except.ok.injEq, Prod.mk.injEq] at h
              obtain ⟨rfl, _⟩ := h
              intro n hn; simp [Expr.names] at hn
            · rw [if_neg c4] at h
              by_cases c5 : isIdentifier cfg tok = true
              · rw [if_pos c5] at h
                simp only [Except.ok.injEq, Prod.mk.injEq] at h
                obtain ⟨rfl, _⟩ := h
                intro n hn
                simp only [Expr.names, List.mem_singleton] at hn
                rw [hn]; exact c5
              · rw [if_neg c5] at h
                by_cases c6 : tok = "[".toList
                · rw [if_pos c6] at h
                  cases h1 : expectToken st with
                  | error err => rw [h1] at h; cases h
                  | ok p =>
                    obtain ⟨tok1, st1⟩ := p
                    rw [h1] at h; simp only [] at h
                    by_cases c7 : tok1 = "]".toList
                    · rw [if_pos c7] at h
                      simp only [Except.ok.injEq, Prod.mk.injEq] at h
                      obtain ⟨rfl, _⟩ := h
                      intro n hn; simp [Expr.names, namesOfExprs] at hn
                    · rw [if_neg c7] at h
                      cases h2 : parseElems cfg fuel tok1 [] st1 with
                      | error err => rw [h2] at h; cases h
                      | ok q =>
                        obtain ⟨es, st2⟩ := q
                        rw [h2] at h
                        simp only [Except.ok.injEq, Prod.mk.injEq] at h
                        obtain ⟨rfl, _⟩ := h
                        intro n hn
                        simp only [Expr.names] at hn
                        exact ihL _ _ _ _ _ (by intro m hm; simp [namesOfExprs] at hm) h2 n hn
                · rw [if_neg c6] at h
                  by_cases c7 : tok.head? = some dquote
                  · rw [if_pos c7] at h
                    cases hb : stringBody tok.tail with
                    | none => rw [hb] at h; cases h
                    | some body =>
                      rw [hb] at h
                      simp only [Except.ok.injEq, Prod.mk.injEq] at h
                      obtain ⟨rfl, _⟩ := h
                      intro n hn
                      simp only [Expr.names] at hn
                      rw [namesOfExprs_literals charToInt body] at hn
                      cases hn
                  · rw [if_neg c7] at h; cases h
    · intro tok exprs st es st' hex h
      rw [parseElems] at h
      by_cases c1 : tok = "]".toList
      · rw [if_pos c1] at h
        simp only [Except.ok.injEq, Prod.mk.injEq] at h
        obtain ⟨rfl, _⟩ := h
        exact hex
      · rw [if_neg c1] at h
        by_cases c2 : tok.head? ≠ some ','
        · rw [if_pos c2] at h
          cases h1 : parseExpr cfg fuel tok st with
          | error err => rw [h1] at h; cases h
          | ok p =>
            obtain ⟨e1, st1⟩ := p
            rw [h1] at h; simp only [] at h
            cases h2 : expectToken st1 with
            | error err => rw [h2] at h; cases h
            | ok q =>
              obtain ⟨tok1, st2⟩ := q
              rw [h2] at h; simp only [] at h
              refine ihL _ _ _ _ _ ?_ h
              intro n hn
              rw [namesOfExprs_append] at hn
              simp only [namesOfExprs, List.append_nil, List.mem_append] at hn
              rcases hn with hn | hn
              · exact hex n hn
              · exact ihE _ _ _ _ h1 n hn
        · rw [if_neg c2] at h
          cases h1 : expectToken st with
          | error err => rw [h1] at h; cases h
          | ok p =>
            obtain ⟨tok1, st1⟩ := p
            rw [h1] at h; simp only [] at h
            exact ihL _ _ _ _ _ hex h
    · intro tok st e st' h
      rw [parseExpr] at h
      by_cases c1 : tok = "len".toList
      · rw [if_pos c1] at h
        cases h1 : expectToken st with
        | error err => rw [h1] at h; cases h
        | ok p =>
          obtain ⟨tok1, st1⟩ := p
          rw [h1] at h; simp only [] at h
          cases h2 : parseExpr cfg fuel tok1 st1 with
          | error err => rw [h2] at h; cases h
          | ok q =>
            obtain ⟨e1, st2⟩ := q
            rw [h2] at h
            simp only [Except.ok.injEq, Prod.mk.injEq] at h
            obtain ⟨rfl, _⟩ := h
            intro n hn
            simp only [Expr.names] at hn
            exact ihE _ _ _ _ h2 n hn
      · rw [if_neg c1] at h
        cases h1 : parseTerm cfg fuel tok st with
        | error err => rw [h1] at h; cases h
        | ok p =>
          obtain ⟨left, st1⟩ := p
          rw [h1] at h
          exact ihI _ _ _ _ (ihT _ _ _ _ h1) h
    · intro left st e st' hleft h
      rw [parseInfix] at h
      cases h1 : expectToken st with
      | error err => rw [h1] at h; cases h
      | ok p =>
        obtain ⟨op, st1⟩ := p
        rw [h1] at h
        simp only [] at h
        by_cases hop : isInfixOperator op = true
        · rw [if_pos hop] at h
          cases h2 : expectToken st1 with
          | error err => rw [h2] at h; cases h
          | ok q =>
            obtain ⟨tok, st2⟩ := q
            rw [h2] at h
            simp only [] at h
            cases h3 : parseTerm cfg fuel tok st2 with
            | error err => rw [h3] at h; cases h
            | ok r =>
              obtain ⟨right, st3⟩ := r
              rw [h3] at h
              simp only [] at h
              have hmk : ∀ n ∈ (makeInfix op left right).names, isIdentifier cfg n = true := by
                intro n hn
                rcases names_makeInfix op left right n hn with hn | hn
                · exact hleft n hn
                · exact ihT _ _ _ _ h3 n hn
              split_ifs at h
              · cases h4 : requireToken "]".toList st3 with
                | error err => rw [h4] at h; cases h
                | ok st4 =>
                  rw [h4] at h
                  exact ihI _ _ _ _ hmk h
              · exact ihI _ _ _ _ hmk h
        · rw [if_neg hop] at h
          by_cases hter : isTerminator op = true
          · rw [if_pos hter] at h
            simp only [Except.ok.injEq, Prod.mk.injEq] at h
            obtain ⟨rfl, _⟩ := h
            exact hleft
          · rw [if_neg hter] at h; cases h

/-- Every name in a statement that the parser returns has passed
`isIdentifier`: for `parseStmt`, and for the loop of its compound case given
it of the statements collected so far. -/
theorem parseStmt_names (cfg : Config) : ∀ (fuel : Nat),
    (∀ tok st s st', parseStmt cfg fuel tok st = .ok (s, st') →
      ∀ n ∈ s.names, isIdentifier cfg n = true) ∧
    (∀ l st l' st', (∀ n ∈ namesOfStmts l, isIdentifier cfg n = true) →
      parseCompound cfg fuel l st = .ok (l', st') →
      ∀ n ∈ namesOfStmts l', isIdentifier cfg n = true)
  | 0 => by
    refine ⟨?_, ?_⟩
    · intro tok st s st' h; rw [parseStmt] at h; cases h
    · intro l st l' st' _ h; rw [parseCompound] at h; cases h
  | fuel + 1 => by
    obtain ⟨ihS, ihC⟩ := parseStmt_names cfg fuel
    refine ⟨?_, ?_⟩
    · intro tok st s st' h
      rw [parseStmt] at h
      by_cases c1 : tok = [Char.ofNat 123]
      · rw [if_pos c1] at h
        cases h1 : parseCompound cfg fuel [] st with
        | error err => rw [h1] at h; cases h
        | ok p =>
          obtain ⟨stmtList, st1⟩ := p
          rw [h1] at h
          simp only [Except.ok.injEq, Prod.mk.injEq] at h
          obtain ⟨rfl, _⟩ := h
          intro n hn
          simp only [Stmt.names] at hn
          exact ihC _ _ _ _ (by intro m hm; simp [namesOfStmts] at hm) h1 n hn
      rw [if_neg c1] at h
      by_cases c2 : tok = "print".toList
      · rw [if_pos c2] at h
        cases h1 : expectToken st with
        | error err => rw [h1] at h; cases h
        | ok p =>
          obtain ⟨tok1, st1⟩ := p
          rw [h1] at h; simp only [] at h
          cases h2 : parseExpr cfg fuel tok1 st1 with
          | error err => rw [h2] at h; cases h
          | ok p =>
            obtain ⟨arg, st2⟩ := p
            rw [h2] at h; simp only [] at h
            cases h3 : requireToken ";".toList st2 with
            | error err => rw [h3] at h; cases h
            | ok st3 =>
              rw [h3] at h; simp only [] at h
              simp only [Except.ok.injEq, Prod.mk.injEq] at h
              obtain ⟨rfl, _⟩ := h
              intro n hn
              simp only [Stmt.names] at hn
              exact (parse_names cfg fuel).2.2.1 _ _ _ _ h2 n hn
      rw [if_neg c2] at h
      by_cases c3 : tok = "if".toList
      · rw [if_pos c3] at h
        cases h0 : requireToken "(".toList st with
        | error err => rw [h0] at h; cases h
        | ok st0 =>
          rw [h0] at h; simp only [] at h
          cases h1 : expectToken st0 with
          | error err => rw [h1] at h; cases h
          | ok p =>
            obtain ⟨tok1, st1⟩ := p
            rw [h1] at h; simp only [] at h
            cases h2 : parseExpr cfg fuel tok1 st1 with
            | error err => rw [h2] at h; cases h
            | ok p =>
              obtain ⟨cond, st2⟩ := p
              rw [h2] at h; simp only [] at h
              cases h3 : requireToken ")".toList st2 with
              | error err => rw [h3] at h; cases h
              | ok st3 =>
                rw [h3] at h; simp only [] at h
                cases h4 : expectToken st3 with
                | error err => rw [h4] at h; cases h
                | ok p =>
                  obtain ⟨tok2, st4⟩ := p
                  rw [h4] at h; simp only [] at h
                  cases h5 : parseStmt cfg fuel tok2 st4 with
                  | error err => rw [h5] at h; cases h
                  | ok p =>
                    obtain ⟨body, st5⟩ := p
                    rw [h5] at h; simp only [] at h
                    simp only [Except.ok.injEq, Prod.mk.injEq] at h
                    obtain ⟨rfl, _⟩ := h
                    intro n hn
                    simp only [Stmt.names, List.mem_append] at hn
                    rcases hn with hn | hn
                    · exact (parse_names cfg fuel).2.2.1 _ _ _ _ h2 n hn
                    · exact ihS _ _ _ _ h5 n hn
      rw [if_neg c3] at h
      by_cases c4 : tok = "while".toList
      · rw [if_pos c4] at h
        cases h0 : requireToken "(".toList st with
        | error err => rw [h0] at h; cases h
        | ok st0 =>
          rw [h0] at h; simp only [] at h
          cases h1 : expectToken st0 with
          | error err => rw [h1] at h; cases h
          | ok p =>
            obtain ⟨tok1, st1⟩ := p
            rw [h1] at h; simp only [] at h
            cases h2 : parseExpr cfg fuel tok1 st1 with
            | error err => rw [h2] at h; cases h
            | ok p =>
              obtain ⟨cond, st2⟩ := p
              rw [h2] at h; simp only [] at h
              cases h3 : requireToken ")".toList st2 with
              | error err => rw [h3] at h; cases h
              | ok st3 =>
                rw [h3] at h; simp only [] at h
                cases h4 : expectToken st3 with
                | error err => rw [h4] at h; cases h
                | ok p =>
                  obtain ⟨tok2, st4⟩ := p
                  rw [h4] at h; simp only [] at h
                  cases h5 : parseStmt cfg fuel tok2 st4 with
                  | error err => rw [h5] at h; cases h
                  | ok p =>
                    obtain ⟨body, st5⟩ := p
                    rw [h5] at h; simp only [] at h
                    simp only [Except.ok.injEq, Prod.mk.injEq] at h
                    obtain ⟨rfl, _⟩ := h
                    intro n hn
                    simp only [Stmt.names, List.mem_append] at hn
                    rcases hn with hn | hn
                    · exact (parse_names cfg fuel).2.2.1 _ _ _ _ h2 n hn
                    · exact ihS _ _ _ _ h5 n hn
      rw [if_neg c4] at h
      by_cases c5 : tok = "push".toList
      · rw [if_pos c5] at h
        cases h1 : expectToken st with
        | error err => rw [h1] at h; cases h
        | ok p =>
          obtain ⟨tok1, st1⟩ := p
          rw [h1] at h; simp only [] at h
          cases h2 : parseExpr cfg fuel tok1 st1 with
          | error err => rw [h2] at h; cases h
          | ok p =>
            obtain ⟨seqArg, st2⟩ := p
            rw [h2] at h; simp only [] at h
            cases h3 : requireToken ",".toList st2 with
            | error err => rw [h3] at h; cases h
            | ok st3 =>
              rw [h3] at h; simp only [] at h
              cases h4 : expectToken st3 with
              | error err => rw [h4] at h; cases h
              | ok p =>
                obtain ⟨tok2, st4⟩ := p
                rw [h4] at h; simp only [] at h
                cases h5 : parseExpr cfg fuel tok2 st4 with
                | error err => rw [h5] at h; cases h
                | ok p =>
                  obtain ⟨valArg, st5⟩ := p
                  rw [h5] at h; simp only [] at h
                  cases h6 : requireToken ";".toList st5 with
                  | error err => rw [h6] at h; cases h
                  | ok st6 =>
                    rw [h6] at h; simp only [] at h
                    simp only [Except.ok.injEq, Prod.mk.injEq] at h
                    obtain ⟨rfl, _⟩ := h
                    intro n hn
                    simp only [Stmt.names, List.mem_append] at hn
                    rcases hn with hn | hn
                    · exact (parse_names cfg fuel).2.2.1 _ _ _ _ h2 n hn
                    · exact (parse_names cfg fuel).2.2.1 _ _ _ _ h5 n hn
      rw [if_neg c5] at h
      by_cases c6 : isIdentifier cfg tok = true
      · rw [if_pos c6] at h
        cases h1 : expectToken st with
        | error err => rw [h1] at h; cases h
        | ok p =>
          obtain ⟨tok1, st1⟩ := p
          rw [h1] at h; simp only [] at h
          by_cases c7 : tok1 = "=".toList
          · rw [if_pos c7] at h
            cases h2 : expectToken st1 with
            | error err => rw [h2] at h; cases h
            | ok p =>
              obtain ⟨tok2, st2⟩ := p
              rw [h2] at h; simp only [] at h
              cases h3 : parseExpr cfg fuel tok2 st2 with
              | error err => rw [h3] at h; cases h
              | ok p =>
                obtain ⟨expr, st3⟩ := p
                rw [h3] at h; simp only [] at h
                cases h4 : requireToken ";".toList st3 with
                | error err => rw [h4] at h; cases h
                | ok st4 =>
                  rw [h4] at h; simp only [] at h
                  simp only [Except.ok.injEq, Prod.mk.injEq] at h
                  obtain ⟨rfl, _⟩ := h
                  intro n hn
                  simp only [Stmt.names, List.mem_cons] at hn
                  rcases hn with hn | hn
                  · rw [hn]; exact c6
                  · exact (parse_names cfg fuel).2.2.1 _ _ _ _ h3 n hn
          rw [if_neg c7] at h
          by_cases c8 : tok1 = "[".toList
          · rw [if_pos c8] at h
            cases h2 : expectToken st1 with
            | error err => rw [h2] at h; cases h
            | ok p =>
              obtain ⟨tok2, st2⟩ := p
              rw [h2] at h; simp only [] at h
              cases h3 : parseExpr cfg fuel tok2 st2 with
              | error err => rw [h3] at h; cases h
              | ok p =>
                obtain ⟨iexpr, st3⟩ := p
                rw [h3] at h; simp only [] at h
                cases h4 : requireToken "]".toList st3 with
                | error err => rw [h4] at h; cases h
                | ok st4 =>
                  rw [h4] at h; simp only [] at h
                  cases h5 : requireToken "=".toList st4 with
                  | error err => rw [h5] at h; cases h
                  | ok st5 =>
                    rw [h5] at h; simp only [] at h
                    cases h6 : expectToken st5 with
                    | error err => rw [h6] at h; cases h
                    | ok p =>
                      obtain ⟨tok3, st6⟩ := p
                      rw [h6] at h; simp only [] at h
                      cases h7 : parseExpr cfg fuel tok3 st6 with
                      | error err => rw [h7] at h; cases h
                      | ok p =>
                        obtain ⟨expr, st7⟩ := p
                        rw [h7] at h; simp only [] at h
                        cases h8 : requireToken ";".toList st7 with
                        | error err => rw [h8] at h; cases h
                        | ok st8 =>
                          rw [h8] at h; simp only [] at h
                          simp only [Except.ok.injEq, Prod.mk.injEq] at h
                          obtain ⟨rfl, _⟩ := h
                          intro n hn
                          simp only [Stmt.names, List.mem_cons, List.mem_append] at hn
                          rcases hn with hn | hn | hn
                          · rw [hn]; exact c6
                          · exact (parse_names cfg fuel).2.2.1 _ _ _ _ h3 n hn
                          · exact (parse_names cfg fuel).2.2.1 _ _ _ _ h7 n hn
          rw [if_neg c8] at h
          cases h
      rw [if_neg c6] at h
      cases h
    · intro l st l' st' hl h
      rw [parseCompound] at h
      cases h1 : expectToken st with
      | error err => rw [h1] at h; cases h
      | ok p =>
        obtain ⟨tok, st1⟩ := p
        rw [h1] at h; simp only [] at h
        by_cases c1 : tok = [Char.ofNat 125]
        · rw [if_pos c1] at h
          simp only [Except.ok.injEq, Prod.mk.injEq] at h
          obtain ⟨rfl, _⟩ := h
          exact hl
        · rw [if_neg c1] at h
          cases h2 : parseStmt cfg fuel tok st1 with
          | error err => rw [h2] at h; cases h
          | ok q =>
            obtain ⟨stmt, st2⟩ := q
            rw [h2] at h; simp only [] at h
            refine ihC _ _ _ _ ?_ h
            intro n hn
            rw [namesOfStmts_append] at hn
            simp only [namesOfStmts, List.append_nil, List.mem_append] at hn
            rcases hn with hn | hn
            · exact hl n hn
            · exact ihS _ _ _ _ h2 n hn

/-- C32. `isIdentifier` is true exactly of the tokens that start with a letter
or `_`, continue with letters, digits and `_`, have at most `MAX_VAR_NAME`
characters and are none of the reserved words `if`, `while`, `print`, `push`,
`len`. Every name stored in a statement that `parseStmt` returns (the name of
each assignment and of each variable in its expressions, at any depth) and
every name stored in an expression that `parseExpr` returns has passed
`isIdentifier`: it is no reserved word and is not longer than
`MAX_VAR_NAME`. -/
theorem C32_stored_names_are_identifiers (cfg : Config) (fuel : Nat) (tok : List Char)
    (st : PState) (s : Stmt) (st' : PState) (h : parseStmt cfg fuel tok st = .ok (s, st')) :
    (∀ n ∈ s.names, isIdentifier cfg n = true ∧ n ∉ reservedWords ∧
      n.length ≤ cfg.MAX_VAR_NAME ∧
      n ≠ "if".toList ∧ n ≠ "while".toList ∧ n ≠ "print".toList ∧ n ≠ "push".toList ∧
      n ≠ "len".toList) ∧
    (∀ t, isIdentifier cfg t = true ↔
      ∃ c cs, t = c :: cs ∧ wordStart c ∧ (∀ d ∈ cs, wordChar d = true) ∧
        t.length ≤ cfg.MAX_VAR_NAME ∧ t ∉ reservedWords) ∧
    (∀ (f : Nat) (t : List Char) (s0 : PState) (e : Expr) (s1 : PState),
      parseExpr cfg f t s0 = .ok (e, s1) →
      ∀ n ∈ e.names, isIdentifier cfg n = true ∧ n ∉ reservedWords ∧
        n.length ≤ cfg.MAX_VAR_NAME) ∧
    (∀ (name : List Char) (iexpr : Option Expr) (expr : Expr),
      name ∈ (Stmt.Assignment name iexpr expr).names) ∧
    (∀ (name : List Char), name ∈ (Expr.Variable name).names) := by
  have key : ∀ n, isIdentifier cfg n = true →
      n ∉ reservedWords ∧ n.length ≤ cfg.MAX_VAR_NAME := by
    intro n hn
    obtain ⟨c, cs, _, _, _, hlen, hres⟩ := (isIdentifier_iff cfg n).mp hn
    exact ⟨hres, hlen⟩
  refine ⟨?_, isIdentifier_iff cfg, ?_, ?_, ?_⟩
  · intro n hn
    have hid := (parseStmt_names cfg fuel).1 tok st s st' h n hn
    obtain ⟨hres, hlen⟩ := key n hid
    refine ⟨hid, hres, hlen, ?_, ?_, ?_, ?_, ?_⟩ <;>
      · intro e
        apply hres
        rw [e]
        decide
  · intro f t s0 e s1 he n hn
    have hid := (parse_names cfg f).2.2.1 t s0 e s1 he n hn
    exact ⟨hid, key n hid⟩
  · intro name iexpr expr
    cases iexpr <;> simp [Stmt.names]
  · intro name
    simp [Expr.names]

/-- C32 at `x = y + 1;`, and the statements that a reserved word or a name of
21 characters would start. -/
theorem C32_stored_names_witness :
    (∀ n ∈ (Stmt.Assignment "x".toList none
        (.Add (.Variable "y".toList) (.LiteralInt 1))).names,
      isIdentifier refConfig n = true ∧ n ∉ reservedWords ∧
      n.length ≤ refConfig.MAX_VAR_NAME ∧
      n ≠ "if".toList ∧ n ≠ "while".toList ∧ n ≠ "print".toList ∧ n ≠ "push".toList ∧
      n ≠ "len".toList) ∧
    parseStmt refConfig 10 "x".toList (PState.mk " = y + 1;".toList 1)
      = .ok (.Assignment "x".toList none (.Add (.Variable "y".toList) (.LiteralInt 1)),
          PState.mk [] 1) ∧
    interpret refConfig 30 "len = 3;".toList = .error { err := .syntaxError 1, out := [] } ∧
    interpret refConfig 30 "x = push;".toList = .error { err := .syntaxError 1, out := [] } ∧
    interpret refConfig 30 "abcdefghijklmnopqrstu = 3;".toList
      = .error { err := .syntaxError 1, out := [] } ∧
    interpret refConfig 30 "abcdefghijklmnopqrst = 3; print abcdefghijklmnopqrst;".toList
      = .ok "3".toList ∧
    interpret refConfig 30 "print abcdefghijklmnopqrstu;".toList
      = .error { err := .syntaxError 1, out := [] } :=
  ⟨(C32_stored_names_are_identifiers refConfig 10 "x".toList (PState.mk " = y + 1;".toList 1)
      (.Assignment "x".toList none (.Add (.Variable "y".toList) (.LiteralInt 1)))
      (PState.mk [] 1) (by rfl)).1,
    by rfl, by decide!, by decide!, by decide!, by decide!, by decide!⟩

end P6
